import Mathlib

/-!
# smpcc runtime: GMW shares, OT extension, garbled-gate generator

A shallow embedding of `runtime/gmw/vm.go`, `runtime/ot/extend.go` and
`runtime/gc/yaor/gen/gen.go`, followed by theorems about the embedded code.

Machine integers (`uint8`, `uint32`, `byte`) are natural numbers; a reduction
modulo `2^w` is written wherever the Go arithmetic can wrap.
-/

namespace GMW

/-! ## The `Io` interface as an effect signature

The functions of vm.go are written against the interface `Io`.  `Id()` and
`GetInput()` are answered by the party alone, the calls `Triple*` and `Open*`
involve the triple dealer and the other parties.  A party program is a tree
whose nodes are those calls. -/

/-- The party-local part of the interface `Io`: the result of `Id()` and the
result of `GetInput()` (`none` when the call panics). -/
structure Io where
  Id : Int
  GetInput : Option Nat

/-- The shares one party holds of one multiplication triple
(`struct{ a, b, c }` of vm.go). -/
structure Triple (β : Type) where
  a : β
  b : β
  c : β
deriving DecidableEq, Repr

/-- A party program: a return value, a panic, or a call of `Triple1`,
`Triple8`, `Triple32`, `Open1`, `Open8`, `Open32` followed by the rest of the
program. -/
inductive Prog (α : Type) where
  | ret : α → Prog α
  | fail : Prog α
  | triple1 : (Bool → Bool → Bool → Prog α) → Prog α
  | triple8 : (Nat → Nat → Nat → Prog α) → Prog α
  | triple32 : (Nat → Nat → Nat → Prog α) → Prog α
  | open1 : Bool → (Bool → Prog α) → Prog α
  | open8 : Nat → (Nat → Prog α) → Prog α
  | open32 : Nat → (Nat → Prog α) → Prog α

/-- Sequencing of party programs. -/
def Prog.bind {α β : Type} : Prog α → (α → Prog β) → Prog β
  | .ret a, f => f a
  | .fail, _ => .fail
  | .triple1 k, f => .triple1 fun a b c => (k a b c).bind f
  | .triple8 k, f => .triple8 fun a b c => (k a b c).bind f
  | .triple32 k, f => .triple32 fun a b c => (k a b c).bind f
  | .open1 v k, f => .open1 v fun d => (k d).bind f
  | .open8 v k, f => .open8 v fun d => (k d).bind f
  | .open32 v k, f => .open32 v fun d => (k d).bind f

instance : Monad Prog where
  pure := Prog.ret
  bind := Prog.bind

/-- The call `io.Triple1()`. -/
def Triple1 : Prog (Bool × Bool × Bool) := .triple1 fun a b c => .ret (a, b, c)

/-- The call `io.Triple8()`. -/
def Triple8 : Prog (Nat × Nat × Nat) := .triple8 fun a b c => .ret (a, b, c)

/-- The call `io.Triple32()`. -/
def Triple32 : Prog (Nat × Nat × Nat) := .triple32 fun a b c => .ret (a, b, c)

/-- The call `io.Open1(s)`. -/
def Open1 (s : Bool) : Prog Bool := .open1 s .ret

/-- The call `io.Open8(s)`. -/
def Open8 (s : Nat) : Prog Nat := .open8 s .ret

/-- The call `io.Open32(s)`. -/
def Open32 (s : Nat) : Prog Nat := .open32 s .ret

/-! ## The gates of vm.go -/

/-- Source: `xor` (vm.go 28-30). -/
def xor (x y : Bool) : Bool := (x && !y) || (y && !x)

/-- Source: `Xor1`. -/
def Xor1 (_io : Io) (x y : Bool) : Bool := xor x y

/-- Source: `Xor8`. -/
def Xor8 (_io : Io) (x y : Nat) : Nat := x ^^^ y

/-- Source: `Xor32`. -/
def Xor32 (_io : Io) (x y : Nat) : Nat := x ^^^ y

/-- Source: `And1` (vm.go 44-53). -/
def And1 (io : Io) (x y : Bool) : Prog Bool := do
  let (a, b, c) ← Triple1
  let d ← Open1 (xor x a)
  let e ← Open1 (xor y b)
  if io.Id = 0 then
    return xor c (xor (d && b) (xor (e && a) (d && e)))
  else
    return xor c (xor (d && b) (e && a))

/-- Source: `And8` (vm.go 55-64).  In Go `&` binds tighter than `^`, as
`&&&` binds tighter than `^^^` here. -/
def And8 (io : Io) (x y : Nat) : Prog Nat := do
  let (a, b, c) ← Triple8
  let d ← Open8 (x ^^^ a)
  let e ← Open8 (y ^^^ b)
  if io.Id = 0 then
    return c ^^^ d &&& b ^^^ e &&& a ^^^ d &&& e
  else
    return c ^^^ d &&& b ^^^ e &&& a

/-- Source: `And32` (vm.go 66-75). -/
def And32 (io : Io) (x y : Nat) : Prog Nat := do
  let (a, b, c) ← Triple32
  let d ← Open32 (x ^^^ a)
  let e ← Open32 (y ^^^ b)
  if io.Id = 0 then
    return c ^^^ d &&& b ^^^ e &&& a ^^^ d &&& e
  else
    return c ^^^ d &&& b ^^^ e &&& a

/-- Source: `Not1` (vm.go 77-82). -/
def Not1 (io : Io) (a : Bool) : Bool :=
  if io.Id = 0 then !a else a

/-- Source: `Not8` (vm.go 84-89). -/
def Not8 (io : Io) (a : Nat) : Nat :=
  if io.Id = 0 then 0xff ^^^ a else a

/-- Source: `Not32` (vm.go 91-96). -/
def Not32 (io : Io) (a : Nat) : Nat :=
  if io.Id = 0 then 0xffffffff ^^^ a else a

/-- The loop `for i := 2; i > 0; i = i * 2` of `Add8` and `Add32`, with the
counter `i` of a `w`-bit unsigned type: `i * 2` wraps modulo `2^w`.  The first
argument bounds the number of iterations; running out of it is a failure. -/
def addLoop (w : Nat) (io : Io) (a b : Nat) : Nat → Nat → Nat → Bool → Prog Nat
  | 0, i, result, _ => if i > 0 then .fail else .ret result
  | fuel + 1, i, result, c =>
    if i > 0 then do
      let ai := decide ((a &&& i) > 0)
      let bi := decide ((b &&& i) > 0)
      /- compute the result bit -/
      let bi_xor_c := xor bi c
      let result := if xor ai bi_xor_c then result ||| i else result
      /- compute the carry bit -/
      let t ← And1 io (xor ai c) bi_xor_c
      addLoop w io a b fuel (i * 2 % 2 ^ w) result (xor c t)
    else
      .ret result

/-- Source: `Add8` (vm.go 98-117). -/
def Add8 (io : Io) (a b : Nat) : Prog Nat :=
  let result := 0
  let a0 := decide ((a &&& 1) > 0)
  let b0 := decide ((b &&& 1) > 0)
  let result := if xor a0 b0 then result ||| 1 else result
  let c := a0 && b0
  addLoop 8 io a b 8 2 result c

/-- Source: `Add32` (vm.go 119-138). -/
def Add32 (io : Io) (a b : Nat) : Prog Nat :=
  let result := 0
  let a0 := decide ((a &&& 1) > 0)
  let b0 := decide ((b &&& 1) > 0)
  let result := if xor a0 b0 then result ||| 1 else result
  let c := a0 && b0
  addLoop 32 io a b 32 2 result c

/-- The loop of `Sub8` and `Sub32`, as `addLoop`. -/
def subLoop (w : Nat) (io : Io) (a b : Nat) : Nat → Nat → Nat → Bool → Prog Nat
  | 0, i, result, _ => if i > 0 then .fail else .ret result
  | fuel + 1, i, result, c =>
    if i > 0 then do
      let ai := decide ((a &&& i) > 0)
      let bi := decide ((b &&& i) > 0)
      /- compute the result bit -/
      let bi_xor_c := xor bi c
      let result := if Not1 io (xor ai bi_xor_c) then result ||| i else result
      /- compute the carry bit -/
      let t ← And1 io (xor ai c) bi_xor_c
      subLoop w io a b fuel (i * 2 % 2 ^ w) result (xor ai t)
    else
      .ret result

/-- Source: `Sub8` (vm.go 140-159). -/
def Sub8 (io : Io) (a b : Nat) : Prog Nat := do
  let result := 0
  let a0 := decide ((a &&& 1) > 0)
  let b0 := decide ((b &&& 1) > 0)
  let result := if xor a0 b0 then result ||| 1 else result
  let t ← And1 io (Not1 io a0) (Not1 io b0)
  let c := xor a0 t
  subLoop 8 io a b 8 2 result c

/-- Source: `Sub32` (vm.go 161-180). -/
def Sub32 (io : Io) (a b : Nat) : Prog Nat := do
  let result := 0
  let a0 := decide ((a &&& 1) > 0)
  let b0 := decide ((b &&& 1) > 0)
  let result := if xor a0 b0 then result ||| 1 else result
  let t ← And1 io (Not1 io a0) (Not1 io b0)
  let c := xor a0 t
  subLoop 32 io a b 32 2 result c

/-- Source: `Input32` (vm.go 360-368). -/
def Input32 (io : Io) (party : Int) : Prog Nat :=
  let id := io.Id
  if id = party then
    match io.GetInput with
    | some X => .ret X
    | none => .fail
  else
    .ret 0

/-- Source: `Output32` (vm.go 370-374); the trace line is not modelled. -/
def Output32 (_io : Io) (x : Nat) : Prog Nat := do
  let result ← Open32 x
  return result

/-! ## The mock implementation `X` of `Io` -/

/-- Source: `type X struct` (vm.go 183-191).  The channel slices are not
fields here: what a party reads from them is an argument of `X.Open*`. -/
structure X where
  id : Int
  triples32 : List (Triple Nat)
  triples8 : List (Triple Nat)
  triples1 : List (Triple Bool)
  inputs : List Nat
deriving DecidableEq, Repr

/-- Source: `X.Id`. -/
def X.Id (x : X) : Int := x.id

/-- The body of `X.Triple32` (vm.go 197-201) run on the receiver: the triple
it returns and the receiver after `x.triples32 = x.triples32[1:]`.  Indexing an
empty slice panics. -/
def X.Triple32.body (x : X) : Option ((Nat × Nat × Nat) × X) :=
  match x.triples32 with
  | [] => none
  | result :: rest => some ((result.a, result.b, result.c), { x with triples32 := rest })

/-- Source: `func (x X) Triple32()`.  The receiver is declared by value, so
the body runs on a copy of the caller's struct: the caller gets the triple and
keeps its own `x`. -/
def X.Triple32 (x : X) : Option ((Nat × Nat × Nat) × X) :=
  (X.Triple32.body x).map fun r => (r.1, x)

/-- Source: `X.Open32` (vm.go 203-214) for a party with `n` read channels:
`recv i` is what `Receive32(i)` returns. -/
def X.Open32 (x : X) (n : Nat) (recv : Nat → Nat) (s : Nat) : Nat :=
  (List.range n).foldl (fun result (i : Nat) => if (i : Int) = x.Id then result else result ^^^ recv i) s

/-- Source: `X.Open8` (vm.go 254-265).  `Broadcast8` sends `uint32(n)` and
`Receive8` returns `uint8` of what it reads, the byte that was sent. -/
def X.Open8 (x : X) (n : Nat) (recv : Nat → Nat) (s : Nat) : Nat :=
  (List.range n).foldl (fun result (i : Nat) => if (i : Int) = x.Id then result else result ^^^ recv i) s

/-- Source: `X.Open1` (vm.go 312-323).  `Broadcast1` sends 1 for `true` and 0
for `false`, `Receive1` returns `result > 0`, the boolean that was sent. -/
def X.Open1 (x : X) (n : Nat) (recv : Nat → Bool) (s : Bool) : Bool :=
  (List.range n).foldl (fun result (i : Nat) => if (i : Int) = x.Id then result else xor result (recv i)) s

/-- Source: `X.GetInput` (vm.go 354-358): the first input, a panic when there
is none. -/
def X.GetInput (x : X) : Option Nat := x.inputs.head?

/-- The party-local interface of the mock. -/
def X.toIo (x : X) : Io := { Id := x.Id, GetInput := x.GetInput }

/-- The bare party with identifier `i`, used to evaluate `X.Open*`. -/
def party (i : Nat) : X := { id := i, triples32 := [], triples8 := [], triples1 := [], inputs := [] }

/-! ## Joint execution

All parties run their programs in lockstep: the `k`-th `Open` of one party
meets the `k`-th `Open` of every other party, so that every `Open` returns the
XOR of the values all parties broadcast in that round, and the `k`-th `Triple`
call of every party is served from the same dealt triple.  This is the
behaviour of `Open` that the gates are written for; the channels of the mock
`X` do not enforce it (see `Net` below, where the values of two successive
broadcasts can be received in either order). -/

/-- The triples dealt to the parties: each entry is one triple, as the list
of the shares of party 0, 1, ... -/
structure Supply where
  t1 : List (List (Triple Bool))
  t8 : List (List (Triple Nat))
  t32 : List (List (Triple Nat))

def asRet {α : Type} : Prog α → Option α
  | .ret a => some a
  | _ => none

def asTriple1 {α : Type} : Prog α → Option (Bool → Bool → Bool → Prog α)
  | .triple1 k => some k
  | _ => none

def asTriple8 {α : Type} : Prog α → Option (Nat → Nat → Nat → Prog α)
  | .triple8 k => some k
  | _ => none

def asTriple32 {α : Type} : Prog α → Option (Nat → Nat → Nat → Prog α)
  | .triple32 k => some k
  | _ => none

def asOpen1 {α : Type} : Prog α → Option (Bool × (Bool → Prog α))
  | .open1 v k => some (v, k)
  | _ => none

def asOpen8 {α : Type} : Prog α → Option (Nat × (Nat → Prog α))
  | .open8 v k => some (v, k)
  | _ => none

def asOpen32 {α : Type} : Prog α → Option (Nat × (Nat → Prog α))
  | .open32 v k => some (v, k)
  | _ => none

/-- Apply `g` to every element; `none` as soon as one application fails. -/
def collect {β γ : Type} (g : β → Option γ) : List β → Option (List γ)
  | [] => some []
  | x :: xs =>
    match g x, collect g xs with
    | some y, some ys => some (y :: ys)
    | _, _ => none

/-- Hand the shares `tr` of one triple to the waiting continuations `ks`. -/
def deal {α β : Type} (ks : List (β → β → β → Prog α)) (tr : List (Triple β)) : List (Prog α) :=
  List.zipWith (fun k t => k t.a t.b t.c) ks tr

/-- Joint run of party 0 (first argument) and parties 1, 2, ... (second
argument).  The parties must all be at the same call; otherwise, and when a
party panics or the triples run out, the run fails.  The result lists what
the parties return, party 0 first. -/
def run {α : Type} : Prog α → List (Prog α) → Supply → Option (List α)
  | .ret a, rest, _ => (collect asRet rest).map fun rs => a :: rs
  | .fail, _, _ => none
  | .triple1 k, rest, s =>
    match s.t1, collect asTriple1 rest with
    | (t0 :: tr) :: ts, some ks =>
      if tr.length = ks.length then
        run (k t0.a t0.b t0.c) (deal ks tr) { s with t1 := ts }
      else none
    | _, _ => none
  | .triple8 k, rest, s =>
    match s.t8, collect asTriple8 rest with
    | (t0 :: tr) :: ts, some ks =>
      if tr.length = ks.length then
        run (k t0.a t0.b t0.c) (deal ks tr) { s with t8 := ts }
      else none
    | _, _ => none
  | .triple32 k, rest, s =>
    match s.t32, collect asTriple32 rest with
    | (t0 :: tr) :: ts, some ks =>
      if tr.length = ks.length then
        run (k t0.a t0.b t0.c) (deal ks tr) { s with t32 := ts }
      else none
    | _, _ => none
  | .open1 v k, rest, s =>
    match collect asOpen1 rest with
    | some vks =>
      let vals := v :: vks.map Prod.fst
      let recv := fun j => vals.getD j false
      let n := vals.length
      run (k ((party 0).Open1 n recv v))
        (List.zipWith (fun i vk => vk.2 ((party (i + 1)).Open1 n recv vk.1)) (List.range vks.length) vks) s
    | none => none
  | .open8 v k, rest, s =>
    match collect asOpen8 rest with
    | some vks =>
      let vals := v :: vks.map Prod.fst
      let recv := fun j => vals.getD j 0
      let n := vals.length
      run (k ((party 0).Open8 n recv v))
        (List.zipWith (fun i vk => vk.2 ((party (i + 1)).Open8 n recv vk.1)) (List.range vks.length) vks) s
    | none => none
  | .open32 v k, rest, s =>
    match collect asOpen32 rest with
    | some vks =>
      let vals := v :: vks.map Prod.fst
      let recv := fun j => vals.getD j 0
      let n := vals.length
      run (k ((party 0).Open32 n recv v))
        (List.zipWith (fun i vk => vk.2 ((party (i + 1)).Open32 n recv vk.1)) (List.range vks.length) vks) s
    | none => none

/-- Joint run of the parties `ps` (party `i` runs `ps[i]`); there is at
least one party. -/
def runAll {α : Type} (ps : List (Prog α)) (s : Supply) : Option (List α) :=
  match ps with
  | [] => none
  | p0 :: rest => run p0 rest s

/-- The list `[f 0, ..., f (n-1)]`: one entry per party. -/
def parties {β : Type} (n : Nat) (f : Nat → β) : List β := (List.range n).map f

/-- XOR of `f 0, ..., f (n-1)`. -/
def xorAll (n : Nat) (f : Nat → Nat) : Nat := (List.range n).foldl (fun r i => r ^^^ f i) 0

/-- Boolean XOR of `f 0, ..., f (n-1)`. -/
def xorAllB (n : Nat) (f : Nat → Bool) : Bool := (List.range n).foldl (fun r i => xor r (f i)) false

/-- XOR of the elements of a list. -/
def xorList (l : List Nat) : Nat := l.foldl (fun r v => r ^^^ v) 0

/-- The party with identifier `i`, holding no input. -/
def ioOf (i : Nat) : Io := { Id := i, GetInput := none }

/-- What party `i` returns from `And1` when the opened values are `d`, `e`. -/
def andShareB (t : Nat → Triple Bool) (d e : Bool) (i : Nat) : Bool :=
  if i = 0 then xor (t i).c (xor (d && (t i).b) (xor (e && (t i).a) (d && e)))
  else xor (t i).c (xor (d && (t i).b) (e && (t i).a))

/-- What party `i` returns from `And8` or `And32` when the opened values are `d`, `e`. -/
def andShare (t : Nat → Triple Nat) (d e : Nat) (i : Nat) : Nat :=
  if i = 0 then (t i).c ^^^ d &&& (t i).b ^^^ e &&& (t i).a ^^^ d &&& e
  else (t i).c ^^^ d &&& (t i).b ^^^ e &&& (t i).a

/-! ## Cleartext reference for the ripple-carry loops -/

/-- A triple is valid for `n` parties when the shares of `c` XOR to the AND of
what the shares of `a` and of `b` XOR to. -/
def validTriple1 (n : Nat) (t : Nat → Triple Bool) : Prop :=
  (xorAllB n (fun i => (t i).a) && xorAllB n (fun i => (t i).b)) = xorAllB n (fun i => (t i).c)

instance (n : Nat) (t : Nat → Triple Bool) : Decidable (validTriple1 n t) := by
  unfold validTriple1; infer_instance

/-- The same for word triples. -/
def validTriple (n : Nat) (t : Nat → Triple Nat) : Prop :=
  xorAll n (fun i => (t i).a) &&& xorAll n (fun i => (t i).b) = xorAll n (fun i => (t i).c)

instance (n : Nat) (t : Nat → Triple Nat) : Decidable (validTriple n t) := by
  unfold validTriple; infer_instance

/-- The bit-by-bit loop on cleartext values: at bit `k` the result bit is
`f a_k b_k c` and the next carry is `g a_k b_k c`; `m` bits are processed. -/
def clearLoop (f g : Bool → Bool → Bool → Bool) (A B : Nat) : Nat → Nat → Nat → Bool → Nat
  | 0, _, R, _ => R
  | m + 1, k, R, C =>
    clearLoop f g A B m (k + 1) (R ^^^ (if f (A.testBit k) (B.testBit k) C then 2 ^ k else 0))
      (g (A.testBit k) (B.testBit k) C)

/-- Result bit of the adder loop. -/
def addBit (a b c : Bool) : Bool := xor a (xor b c)

/-- Carry update of the adder loop. -/
def addCarry (a b c : Bool) : Bool := xor c (xor a c && xor b c)

/-- Result bit of the subtractor loop. -/
def subBit (a b c : Bool) : Bool := !(xor a (xor b c))

/-- Carry update of the subtractor loop. -/
def subCarry (a b c : Bool) : Bool := xor a (xor a c && xor b c)

/-- XOR of the elements of a boolean list. -/
def xorListB (l : List Bool) : Bool := l.foldl (fun r v => xor r v) false

end GMW

namespace GMW

/-! ## Concrete runs -/

/-- Shares of a word triple for three parties: `a = 5`, `b = 15`, `c = 5`. -/
def witnessTriple (i : Nat) : Triple Nat :=
  [(⟨1, 2, 0⟩ : Triple Nat), ⟨3, 4, 0⟩, ⟨7, 9, 5⟩].getD i ⟨0, 0, 0⟩

/-- Shares of a bit triple for three parties: `a = 1`, `b = 1`, `c = 1`. -/
def witnessTriple1 (i : Nat) : Triple Bool :=
  [(⟨true, false, false⟩ : Triple Bool), ⟨false, true, true⟩, ⟨false, false, false⟩].getD i
    ⟨false, false, false⟩

/-- Three parties, one dealt triple of each width. -/
def witnessSupply : Supply :=
  { t1 := [parties 3 witnessTriple1], t8 := [parties 3 witnessTriple],
    t32 := [parties 3 witnessTriple] }

end GMW

namespace GMW

/-- Two parties and 32 dealt bit triples whose shares are all `false`
(`0 & 0 = 0`, so each is valid). -/
def zeroSupply : Supply :=
  { t1 := List.replicate 32 (parties 2 fun _ => ⟨false, false, false⟩), t8 := [], t32 := [] }

/-- Shares `1, 0` of the value `1`. -/
def sharesA (i : Nat) : Nat := [1, 0].getD i 0

/-- Shares `0, 1` of the value `1`. -/
def sharesB (i : Nat) : Nat := [0, 1].getD i 0

end GMW

namespace GMW

/-! ## Carved triples of the mock, inputs, triple generation -/

/-- The body of `X.Triple8` (vm.go 241-252) run on the receiver.  The call
`x.Triple32()` inside leaves the receiver as it is (see `X.Triple32`);
`uint8(v >> s)` keeps the low 8 bits. -/
def X.Triple8.body (x : X) : Option ((Nat × Nat × Nat) × X) := do
  let x ← (if x.triples8.length = 0 then do
      let ((a32, b32, c32), x) ← X.Triple32 x
      pure { x with triples8 :=
        [⟨(a32 >>> 0) % 256, (b32 >>> 0) % 256, (c32 >>> 0) % 256⟩,
         ⟨(a32 >>> 8) % 256, (b32 >>> 8) % 256, (c32 >>> 8) % 256⟩,
         ⟨(a32 >>> 16) % 256, (b32 >>> 16) % 256, (c32 >>> 16) % 256⟩,
         ⟨(a32 >>> 24) % 256, (b32 >>> 24) % 256, (c32 >>> 24) % 256⟩] }
    else pure x)
  match x.triples8 with
  | [] => none
  | result :: rest => some ((result.a, result.b, result.c), { x with triples8 := rest })

/-- Source: `func (x X) Triple8()`: value receiver, the caller keeps its `x`. -/
def X.Triple8 (x : X) : Option ((Nat × Nat × Nat) × X) :=
  (X.Triple8.body x).map fun r => (r.1, x)

/-- The body of `X.Triple1` (vm.go 292-304) run on the receiver. -/
def X.Triple1.body (x : X) : Option ((Bool × Bool × Bool) × X) := do
  let x ← (if x.triples1.length = 0 then do
      let ((a32, b32, c32), x) ← X.Triple32 x
      pure { x with triples1 := (List.range 32).map fun i =>
        ⟨decide (0 < (1 &&& (a32 >>> i))), decide (0 < (1 &&& (b32 >>> i))),
          decide (0 < (1 &&& (c32 >>> i)))⟩ }
    else pure x)
  match x.triples1 with
  | [] => none
  | result :: rest => some ((result.a, result.b, result.c), { x with triples1 := rest })

/-- Source: `func (x X) Triple1()`: value receiver, the caller keeps its `x`. -/
def X.Triple1 (x : X) : Option ((Bool × Bool × Bool) × X) :=
  (X.Triple1.body x).map fun r => (r.1, x)

/-- A party holding the 32-bit triples `(1, 2, 0)` and `(5, 6, 4)`. -/
def twoTriples : X :=
  { id := 0, triples32 := [⟨1, 2, 0⟩, ⟨5, 6, 4⟩], triples8 := [], triples1 := [], inputs := [] }

/-- Source: `rand32` (vm.go 376-383): the next draw of the random source
`rnd`, a value below `2^32`; `cur` counts the draws made so far. -/
def rand32 (rnd : Nat → Nat) (cur : Nat) : Nat × Nat :=
  (rnd cur % 2 ^ 32, cur + 1)

/-- The loop `for i := 1; i < n; i++` of `split_uint32`; the first argument
bounds the number of iterations. -/
def split_uint32.loop (rnd : Nat → Nat) (n : Nat) :
    Nat → Nat → Nat → List Nat → Nat → Option (Nat × List Nat × Nat)
  | 0, _, _, _, _ => none
  | fuel + 1, i, x, result, cur =>
    if i < n then
      let (xi, cur) := rand32 rnd cur
      let x := x ^^^ xi
      let result := result.set i xi
      split_uint32.loop rnd n fuel (i + 1) x result cur
    else
      some (x, result, cur)

/-- Source: `split_uint32` (vm.go 385-406).  The result is the slice and the
position in the random source; the two panics are errors. -/
def split_uint32 (rnd : Nat → Nat) (x : Nat) (n : Int) (cur : Nat) :
    Except String (List Nat × Nat) :=
  let x0 := x
  if n ≤ 0 then
    .error "Error: split"
  else
    let result := List.replicate n.toNat 0
    match split_uint32.loop rnd n.toNat n.toNat 1 x result cur with
    | none => .error "loop bound"
    | some (x, result, cur) =>
      let result := result.set 0 x
      let y := result.foldl (fun y s => y ^^^ s) 0
      if y ≠ x0 then
        .error "NOT EQUAL"
      else
        .ok (result, cur)

/-- Source: `triple32` (vm.go 408-420). -/
def triple32 (rnd : Nat → Nat) (n : Int) (cur : Nat) : Except String (List (Triple Nat) × Nat) := do
  let (a, cur) := rand32 rnd cur
  let (b, cur) := rand32 rnd cur
  let c := a &&& b
  let (a_shares, cur) ← split_uint32 rnd a n cur
  let (b_shares, cur) ← split_uint32 rnd b n cur
  let (c_shares, cur) ← split_uint32 rnd c n cur
  let result := (List.range n.toNat).map fun i =>
    (⟨a_shares.getD i 0, b_shares.getD i 0, c_shares.getD i 0⟩ : Triple Nat)
  return (result, cur)

end GMW

namespace OT

/-! ## OT extension (extend.go)

The two sides of the extension run as two programs that meet on the selector
channel, on the payload channel and in the base OT.  A program is a tree of
those actions; drawing random bytes is an action of one side alone. -/

/-- A side of the protocol: a result, a panic, or an action followed by the
rest of the program.
* `rand n`: `n` fresh random bytes (`randomBitVector`, `Randomize`);
* `baseRecv c`: `self.R.Receive(c)` of the base OT;
* `baseSend a b`: `self.S.Send(a, b)` of the base OT;
* `selSend v` / `selRecv`: a send / a receive on `otExtSelChan`;
* `msgSend y` / `msgRecv`: a send / a receive on `otExtChan`. -/
inductive Act (α : Type) where
  | ret : α → Act α
  | fail : Act α
  | rand : Nat → (List Nat → Act α) → Act α
  | baseRecv : Nat → (List Nat → Act α) → Act α
  | baseSend : List Nat → List Nat → Act α → Act α
  | selSend : Nat → Act α → Act α
  | selRecv : (Nat → Act α) → Act α
  | msgSend : List Nat → Act α → Act α
  | msgRecv : (List Nat → Act α) → Act α

/-- Sequencing. -/
def Act.bind {α β : Type} : Act α → (α → Act β) → Act β
  | .ret a, f => f a
  | .fail, _ => .fail
  | .rand n k, f => .rand n fun bs => (k bs).bind f
  | .baseRecv c k, f => .baseRecv c fun bs => (k bs).bind f
  | .baseSend a b k, f => .baseSend a b (k.bind f)
  | .selSend v k, f => .selSend v (k.bind f)
  | .selRecv k, f => .selRecv fun v => (k v).bind f
  | .msgSend y k, f => .msgSend y (k.bind f)
  | .msgRecv k, f => .msgRecv fun y => (k y).bind f

instance : Monad Act where
  pure := Act.ret
  bind := Act.bind

/-- A step that can panic. -/
def Act.ofOption {α : Type} : Option α → Act α
  | some a => .ret a
  | none => .fail

/-- `make([]byte, n)`: `n` zero bytes, a panic for a negative `n`. -/
def mkBytes (n : Int) : Option (List Nat) :=
  if n < 0 then none else some (List.replicate n.toNat 0)

/-- Indexing a slice with an `int`: a panic outside the range. -/
def index {α : Type} (l : List α) (i : Int) : Option α :=
  if i < 0 then none else l[i.toNat]?

/-- Storing into a slice at an `int` index: a panic outside the range. -/
def store {α : Type} (l : List α) (i : Int) (v : α) : Option (List α) :=
  if i < 0 ∨ (l.length : Int) ≤ i then none else some (l.set i.toNat v)

/-- Modelled from the spec: `xorBytes` of package `ot` (its file is not among
the sources): the bytewise XOR of `b` and `c`, written to the destination. -/
def xorBytes (b c : List Nat) : List Nat := List.zipWith (fun p q => p ^^^ q) b c

/-- Source: `xorBytesExact` (extend.go 209-214); the result is the new content
of `a`. -/
def xorBytesExact (a b c : List Nat) : Option (List Nat) :=
  if a.length ≠ b.length ∨ b.length ≠ c.length then none else some (xorBytes b c)

/-- Modelled from the spec: `bit.GetBit` of package `bit` (not among the
sources): bit `i` of a byte vector, little-endian within the byte,
`(v[i/8] >> (i mod 8)) & 1`. -/
def GetBit (v : List Nat) (i : Int) : Option Nat :=
  if i < 0 then none
  else (index v (i.tdiv 8)).map fun b => (b >>> (i.toNat % 8)) &&& 1

/-- Modelled from the spec: `bit.Matrix8` of package `bit` (not among the
sources): a bit matrix stored by rows, each row packed into `NumCols / 8`
bytes. -/
structure Matrix8 where
  NumRows : Nat
  NumCols : Nat
  data : List (List Nat)
deriving DecidableEq, Repr

/-- Modelled from the spec: `bit.NewMatrix8(rows, cols)`; both dimensions must
be multiples of 8. -/
def NewMatrix8 (rows cols : Int) : Option Matrix8 :=
  if rows < 0 ∨ cols < 0 ∨ rows.tmod 8 ≠ 0 ∨ cols.tmod 8 ≠ 0 then none
  else some { NumRows := rows.toNat, NumCols := cols.toNat,
              data := List.replicate rows.toNat (List.replicate (cols.toNat / 8) 0) }

/-- Modelled from the spec: `Matrix8.GetRow(i)`, a byte slice of length
`cols / 8`. -/
def Matrix8.GetRow (M : Matrix8) (i : Int) : Option (List Nat) := index M.data i

/-- Modelled from the spec: `Matrix8.SetRow(i, bytes)`. -/
def Matrix8.SetRow (M : Matrix8) (i : Int) (row : List Nat) : Option Matrix8 :=
  (store M.data i row).map fun d => { M with data := d }

/-- Bit `(i, j)` of a matrix, with the bit order of `GetBit`. -/
def Matrix8.bit (M : Matrix8) (i j : Nat) : Nat :=
  (((M.data.getD i []).getD (j / 8) 0) >>> (j % 8)) &&& 1

/-- Pack eight bits, least significant first, into a byte. -/
def packByte (f : Nat → Nat) : Nat :=
  f 0 + 2 * f 1 + 4 * f 2 + 8 * f 3 + 16 * f 4 + 32 * f 5 + 64 * f 6 + 128 * f 7

/-- Modelled from the spec: `Matrix8.Transpose()`: row `j` of the result is
column `j` of the source. -/
def Matrix8.Transpose (M : Matrix8) : Matrix8 :=
  { NumRows := M.NumCols, NumCols := M.NumRows,
    data := (List.range M.NumCols).map fun j =>
      (List.range (M.NumRows / 8)).map fun b => packByte fun t => M.bit (8 * b + t) j }

/-- Modelled from the spec: `Matrix8.Randomize()`: every byte of the matrix is
drawn afresh. -/
def Matrix8.Randomize (M : Matrix8) : Act Matrix8 :=
  .rand (M.NumRows * (M.NumCols / 8)) fun bs =>
    .ret { M with data := (List.range M.NumRows).map fun i =>
      (bs.drop (i * (M.NumCols / 8))).take (M.NumCols / 8) }

/-- Source: `randomBitVector` (extend.go 216-221): the pool is overwritten
with random bytes. -/
def randomBitVector (pool : List Nat) : Act (List Nat) :=
  .rand pool.length .ret

/-- Source: `RO` (extend.go 145-157).  `H input i` is byte `i` of the key
stream of the SHA-3 cipher keyed with `input`; it is XORed into a zero buffer
of `outBits / 8` bytes. -/
def RO (H : List Nat → Nat → Nat) (input : List Nat) (outBits : Int) : Option (List Nat) :=
  if outBits ≤ 0 then none
  else if outBits.tmod 8 ≠ 0 then none
  else
    let output := List.replicate (outBits.tdiv 8).toNat 0
    some ((List.range output.length).map fun i => output.getD i 0 ^^^ H input i)

/-- Source: `type ExtendSender struct` (extend.go 23-32), without the base
receiver and the channels. -/
structure ExtendSender where
  z0 : List (List Nat)
  z1 : List (List Nat)
  m : Int
  k : Int
  l : Int
  curPair : Int
deriving DecidableEq, Repr

/-- Source: `type ExtendReceiver struct` (extend.go 34-44), without the base
sender and the channels.  A nil `T` is the matrix without rows. -/
structure ExtendReceiver where
  r : List Nat
  m : Int
  k : Int
  l : Int
  curPair : Int
  T : Matrix8
deriving DecidableEq, Repr

/-- Source: `NewExtendSender` (extend.go 46-65). -/
def NewExtendSender (k l m : Int) : Option ExtendSender :=
  if k.tmod 8 ≠ 0 then none
  else if l.tmod 8 ≠ 0 then none
  else if m.tmod 8 ≠ 0 then none
  else some { z0 := [], z1 := [], m := m, k := k, l := l, curPair := m }

/-- Source: `NewExtendReceiver` (extend.go 67-86). -/
def NewExtendReceiver (k l m : Int) : Option ExtendReceiver :=
  if k.tmod 8 ≠ 0 then none
  else if l.tmod 8 ≠ 0 then none
  else if m.tmod 8 ≠ 0 then none
  else some { r := [], m := m, k := k, l := l, curPair := m,
              T := { NumRows := 0, NumCols := 0, data := [] } }

/-- The loop `for i := 0; i < QT.NumRows; i++` of `preProcessSender`; the
first argument is the number of iterations left. -/
def preProcessSender.recvLoop (self : ExtendSender) (s : List Nat) :
    Nat → Nat → Matrix8 → Act Matrix8
  | 0, _, QT => .ret QT
  | count + 1, i, QT =>
    (Act.ofOption (GetBit s i)).bind fun c =>
    .baseRecv c fun recvd =>
      if (recvd.length : Int) ≠ self.m.tdiv 8 then .fail
      else (Act.ofOption (QT.SetRow i recvd)).bind fun QT =>
        preProcessSender.recvLoop self s count (i + 1) QT

/-- The loop `for j := 0; j < m; j++` of `preProcessSender`. -/
def preProcessSender.zLoop (H : List Nat → Nat → Nat) (self : ExtendSender) (s : List Nat)
    (Q : Matrix8) : Nat → Nat → List (List Nat) → List (List Nat) → List Nat →
    Option (List (List Nat) × List (List Nat))
  | 0, _, z0, z1, _ => some (z0, z1)
  | count + 1, j, z0, z1, temp => do
    let row ← Q.GetRow j
    let h0 ← RO H row self.l
    let z0 ← store z0 j h0
    let temp ← xorBytesExact temp row s
    let h1 ← RO H temp self.l
    let z1 ← store z1 j h1
    preProcessSender.zLoop H self s Q count (j + 1) z0 z1 temp

/-- Source: `ExtendSender.preProcessSender` (extend.go 88-118). -/
def ExtendSender.preProcessSender (H : List Nat → Nat → Nat) (self : ExtendSender) (m : Int) :
    Act ExtendSender :=
  if m.tmod 8 ≠ 0 then .fail
  else
    let self := { self with m := m }
    let self := { self with curPair := 0 }
    (Act.ofOption (mkBytes (self.k.tdiv 8))).bind fun s =>
    (randomBitVector s).bind fun s =>
    (Act.ofOption (NewMatrix8 self.k self.m)).bind fun QT =>
    (preProcessSender.recvLoop self s QT.NumRows 0 QT).bind fun QT =>
    let Q := QT.Transpose
    (Act.ofOption (if m < 0 then none else some (List.replicate m.toNat ([] : List Nat)))).bind fun z0 =>
    (Act.ofOption (if m < 0 then none else some (List.replicate m.toNat ([] : List Nat)))).bind fun z1 =>
    (Act.ofOption (mkBytes (self.k.tdiv 8))).bind fun temp =>
    (Act.ofOption (preProcessSender.zLoop H self s Q m.toNat 0 z0 z1 temp)).bind fun z =>
    .ret { self with z0 := z.1, z1 := z.2 }

/-- The loop `for i := range in1` of `preProcessReceiver`. -/
def preProcessReceiver.in1Loop (self : ExtendReceiver) (TT : Matrix8) :
    Nat → Nat → List (List Nat) → Option (List (List Nat))
  | 0, _, in1 => some in1
  | count + 1, i, in1 => do
    let buf ← mkBytes (self.m.tdiv 8)
    let row ← TT.GetRow i
    let v ← xorBytesExact buf self.r row
    let in1 ← store in1 i v
    preProcessReceiver.in1Loop self TT count (i + 1) in1

/-- The loop `for i := 0; i < self.k; i++` of `preProcessReceiver`. -/
def preProcessReceiver.sendLoop (TT : Matrix8) (in1 : List (List Nat)) :
    Nat → Nat → Act Unit
  | 0, _ => .ret ()
  | count + 1, i =>
    (Act.ofOption (TT.GetRow i)).bind fun row =>
    (Act.ofOption (index in1 i)).bind fun v =>
    .baseSend row v (preProcessReceiver.sendLoop TT in1 count (i + 1))

/-- Source: `ExtendReceiver.preProcessReceiver` (extend.go 120-143). -/
def ExtendReceiver.preProcessReceiver (self : ExtendReceiver) (m : Int) : Act ExtendReceiver :=
  let self := { self with curPair := 0 }
  let self := { self with m := m }
  (Act.ofOption (mkBytes (self.m.tdiv 8))).bind fun r =>
  let r := r.map fun _ => 255
  (randomBitVector r).bind fun r =>
  let self := { self with r := r }
  (Act.ofOption (NewMatrix8 self.m self.k)).bind fun T =>
  T.Randomize.bind fun T =>
  let TT := T.Transpose
  let self := { self with T := T }
  (Act.ofOption (if self.k < 0 then none
    else some (List.replicate self.k.toNat ([] : List Nat)))).bind fun in1 =>
  (Act.ofOption (preProcessReceiver.in1Loop self TT in1.length 0 in1)).bind fun in1 =>
  (preProcessReceiver.sendLoop TT in1 self.k.toNat 0).bind fun _ =>
  .ret self

/-- Source: `ExtendSender.Send` (extend.go 159-187); the result is the
sender after the call. -/
def ExtendSender.Send (H : List Nat → Nat → Nat) (self : ExtendSender) (m0 m1 : List Nat) :
    Act ExtendSender :=
  if (m0.length : Int) * 8 ≠ self.l ∨ (m1.length : Int) * 8 ≠ self.l then .fail
  else
    (if self.curPair = self.m then self.preProcessSender H self.m else .ret self).bind fun self =>
    (Act.ofOption (mkBytes (self.l.tdiv 8))).bind fun y0 =>
    (Act.ofOption (mkBytes (self.l.tdiv 8))).bind fun y1 =>
    .selRecv fun smod =>
    (if smod = 0 then
        Act.ofOption (do
          let y0 ← xorBytesExact y0 m0 (← index self.z0 self.curPair)
          let y1 ← xorBytesExact y1 m1 (← index self.z1 self.curPair)
          pure (y0, y1))
      else if smod = 1 then
        Act.ofOption (do
          let y0 ← xorBytesExact y0 m1 (← index self.z0 self.curPair)
          let y1 ← xorBytesExact y1 m0 (← index self.z1 self.curPair)
          pure (y0, y1))
      else .fail).bind fun y =>
    .msgSend y.1 (.msgSend y.2 (.ret { self with curPair := self.curPair + 1 }))

/-- Source: `ExtendReceiver.Receive` (extend.go 189-207); the result is the
received message and the receiver after the call.  `s` is a `Selector`, a
byte. -/
def ExtendReceiver.Receive (H : List Nat → Nat → Nat) (self : ExtendReceiver) (s : Nat) :
    Act (List Nat × ExtendReceiver) :=
  (if self.curPair = self.m then self.preProcessReceiver self.m else .ret self).bind fun self =>
  (Act.ofOption (GetBit self.r self.curPair)).bind fun rbit =>
  let smod := (s % 256) ^^^ rbit
  .selSend smod (
  .msgRecv fun y0 =>
  .msgRecv fun y1 =>
  (Act.ofOption (mkBytes (self.l.tdiv 8))).bind fun w =>
  (Act.ofOption (GetBit self.r self.curPair)).bind fun rbit =>
  (if rbit = 0 then
      Act.ofOption (do xorBytesExact w y0 (← RO H (← self.T.GetRow self.curPair) self.l))
    else if rbit = 1 then
      Act.ofOption (do xorBytesExact w y1 (← RO H (← self.T.GetRow self.curPair) self.l))
    else .ret w).bind fun w =>
  .ret (w, { self with curPair := self.curPair + 1 }))

/-! ## The two sides together -/

/-- A random source: the stream of bytes and the position in it. -/
structure Tape where
  rnd : Nat → Nat
  cur : Nat

/-- The next `n` bytes of a random source. -/
def Tape.take (t : Tape) (n : Nat) : List Nat × Tape :=
  ((List.range n).map fun i => t.rnd (t.cur + i) % 256, { t with cur := t.cur + n })

/-- Run the actions a side can do alone (random draws) until it reaches a
result, a panic or a joint action. -/
def settle {β : Type} : Act β → Tape → Act β × Tape
  | .rand n k, t => settle (k (t.take n).1) (t.take n).2
  | a, t => (a, t)

/-- Joint run of the side `a` (first program) and the side `b`.  The
channels are unbuffered, so a send meets the matching receive of the other
side; the base OT hands the receiver the first message for the selector 0 and
the second for the selector 1.  Anything else (a panic, two sides at actions
that do not match) stops the run without a result. -/
def runOT {α β : Type} : Act α → Act β → Tape → Tape → Option (α × β)
  | .ret x, b, _, tb =>
    match (settle b tb).1 with
    | .ret y => some (x, y)
    | _ => none
  | .fail, _, _, _ => none
  | .rand n k, b, ta, tb => runOT (k (ta.take n).1) b (ta.take n).2 tb
  | .baseRecv c k, b, ta, tb =>
    match settle b tb with
    | (.baseSend m0 m1 b', tb') =>
      if c = 0 then runOT (k m0) b' ta tb' else if c = 1 then runOT (k m1) b' ta tb' else none
    | _ => none
  | .baseSend m0 m1 k, b, ta, tb =>
    match settle b tb with
    | (.baseRecv c kb, tb') =>
      if c = 0 then runOT k (kb m0) ta tb' else if c = 1 then runOT k (kb m1) ta tb' else none
    | _ => none
  | .selSend v k, b, ta, tb =>
    match settle b tb with
    | (.selRecv kb, tb') => runOT k (kb v) ta tb'
    | _ => none
  | .selRecv k, b, ta, tb =>
    match settle b tb with
    | (.selSend v b', tb') => runOT (k v) b' ta tb'
    | _ => none
  | .msgSend y k, b, ta, tb =>
    match settle b tb with
    | (.msgRecv kb, tb') => runOT k (kb y) ta tb'
    | _ => none
  | .msgRecv k, b, ta, tb =>
    match settle b tb with
    | (.msgSend y b', tb') => runOT (k y) b' ta tb'
    | _ => none

end OT

namespace OT

/-! ## A preprocessed pair of states -/

/-- A key stream for the examples: byte `i` for the key `input`. -/
def sumStream (input : List Nat) (i : Nat) : Nat := (input.foldl (fun a b => a + b) i) % 256

/-- A sender with `k = l = m = 8` after preprocessing, at pair 0. -/
def senderAt0 : ExtendSender :=
  { z0 := List.replicate 8 [9], z1 := List.replicate 8 [7], m := 8, k := 8, l := 8, curPair := 0 }

/-- The matching receiver: every bit of `r` is 1 and every row of `T` is `[7]`. -/
def receiverAt0 : ExtendReceiver :=
  { r := [255], m := 8, k := 8, l := 8, curPair := 0,
    T := { NumRows := 8, NumCols := 8, data := List.replicate 8 [7] } }

/-- A random source that is not read in a transfer without preprocessing. -/
def zeroTape : Tape := { rnd := fun _ => 0, cur := 0 }

end OT

namespace Gen

/-! ## Garbled-gate generator (gen.go)

The package `gc` (keys, wires, `Encrypt`, `GenKey`, `XorKey`, the channel
`Genio`) is not among the sources.  The block cipher `gc.Encrypt` is a
parameter `E`; the random bytes of `gc.GenKey` come from a stream `rnd`; what
the generator sends on `io` is appended to a log, what it receives is read
from an inbox.  A call returns a value together with the state after it, or
panics: the panic carries the state in which it happened, so that what was
sent before it stays visible. -/

/-- Source: `KEY_SIZE = aes.BlockSize`. -/
def KEY_SIZE : Nat := 16

/-- Modelled from the spec: `gc.Key`, a byte string (of length `KEY_SIZE`). -/
abbrev Key := List Nat

/-- Modelled from the spec: `gc.Wire`, the ordered pair `(K0, K1)` of keys. -/
structure Wire where
  k0 : Key
  k1 : Key
deriving DecidableEq, Repr

/-- The key `w[i]` of a wire: a panic for an index other than 0 and 1. -/
def Wire.at (w : Wire) (i : Nat) : Option Key :=
  if i = 0 then some w.k0 else if i = 1 then some w.k1 else none

/-- The expression `key[0] % 2`: a panic for an empty key. -/
def lsb (key : Key) : Option Nat := key.head?.map fun b => b % 2

/-- What the generator sends: a key (`SendK`) or a table (`SendT`). -/
inductive Msg where
  | K : Key → Msg
  | T : List (List Nat) → Msg
deriving DecidableEq, Repr

/-- The package-level variables `key0`, `const0`, `const1` (`none` is nil)
and `AESCount`, the position in the random source, the log of what was sent
and the keys the evaluator has uploaded and the generator has not yet read. -/
structure GenState where
  key0 : Option Key
  const0 : Option Wire
  const1 : Option Wire
  cur : Nat
  sent : List Msg
  AESCount : Nat
  inbox : List Key
deriving DecidableEq, Repr

/-- A step that panics, in the state `st`, when the value is missing. -/
def orPanic {α : Type} (st : GenState) : Option α → Except GenState α
  | some a => .ok a
  | none => .error st

/-- Source: `ALL_ZEROS`. -/
def ALL_ZEROS : Key := List.replicate KEY_SIZE 0

/-- Modelled from the spec: `gc.XorKey`, the bytewise XOR of two keys. -/
def XorKey (a b : Key) : Key := List.zipWith (fun p q => p ^^^ q) a b

/-- Modelled from the spec: `gc.GenKey(k)` for a key of `KEY_SIZE` bytes: the
key is filled with the next random bytes. -/
def GenKey (rnd : Nat → Nat) (st : GenState) : Key × GenState :=
  ((List.range KEY_SIZE).map fun i => rnd (st.cur + i) % 256, { st with cur := st.cur + KEY_SIZE })

/-- Source: `slot` (gen.go 40-48). -/
def slot (keys : List Key) : Option Nat :=
  keys.foldlM (fun result key => (lsb key).map fun b => result * 2 + b) 0

/-- Source: `encrypt` (gen.go 50-55). -/
def encrypt (E : Key → List Nat → List Nat) (keys : List Key) (result : List Nat) : List Nat :=
  keys.foldl (fun result key => E key result) result

/-- Source: `encrypt_nonoptimized` (gen.go 57-63); `AESCount` is a `uint`. -/
def encrypt_nonoptimized (E : Key → List Nat → List Nat) (keys : List Key) (result : List Nat)
    (st : GenState) : List Nat × GenState :=
  keys.foldl (fun (p : List Nat × GenState) key =>
    (E key p.1, { p.2 with AESCount := (p.2.AESCount + 1) % 2 ^ 64 })) (result, st)

/-- Source: `encrypt_slot_nonoptimized` (gen.go 65-68); the result is the
table after the store.  The index and the ciphertext are computed first, the
store panics for an index outside the table. -/
def encrypt_slot_nonoptimized (E : Key → List Nat → List Nat) (t : List (List Nat))
    (plaintext : List Nat) (keys : List Key) (st : GenState) :
    Except GenState (List (List Nat) × GenState) := do
  let i ← orPanic st (slot keys)
  let (c, st) := encrypt_nonoptimized E keys plaintext st
  if i < t.length then pure (t.set i c, st) else .error st

/-- Source: `YaoRState.encrypt_slot` (gen.go 70-79). -/
def encrypt_slot (E : Key → List Nat → List Nat) (t : List (List Nat)) (plaintext : List Nat)
    (keys : List Key) (st : GenState) : Except GenState (List (List Nat) × GenState) :=
  if keys.length ≠ 2 then
    encrypt_slot_nonoptimized E t plaintext keys st
  else do
    let i ← orPanic st (slot keys)
    let c := encrypt E keys plaintext
    if i < t.length then pure (t.set i c, st) else .error st

/-- Source: `init_key0` (gen.go 85-92). -/
def init_key0 (rnd : Nat → Nat) (st : GenState) : GenState :=
  match st.key0 with
  | some _ => st
  | none =>
    let (key0, st) := GenKey rnd st
    let key0 := key0.modifyHead fun b => b ||| 1
    { st with key0 := some key0 }

/-- Source: `reset` (gen.go 103-107). -/
def reset (st : GenState) : GenState :=
  { st with key0 := none, const0 := none, const1 := none }

/-- Source: `genWire` (gen.go 110-116). -/
def genWire (rnd : Nat → Nat) (st : GenState) : Except GenState (Wire × GenState) := do
  let st := init_key0 rnd st
  let (k0, st) := GenKey rnd st
  let k1 := XorKey k0 (← orPanic st st.key0)
  pure ({ k0 := k0, k1 := k1 }, st)

/-- Source: `init_constants` (gen.go 94-101). -/
def init_constants (rnd : Nat → Nat) (st : GenState) : Except GenState (Unit × GenState) :=
  match st.const0 with
  | none => do
    let (c0, st) ← genWire rnd st
    let st := { st with const0 := some c0 }
    let (c1, st) ← genWire rnd st
    let st := { st with const1 := some c1 }
    let st := { st with sent := st.sent ++ [Msg.K c0.k0] }
    let st := { st with sent := st.sent ++ [Msg.K c1.k1] }
    pure ((), st)
  | some _ => pure ((), st)

/-- Source: `YaoRState.genWireRR` (gen.go 118-131). -/
def genWireRR (E : Key → List Nat → List Nat) (rnd : Nat → Nat) (inKey0 inKey1 : Key)
    (gateVal : Nat) (st : GenState) : Except GenState (Wire × GenState) := do
  let st := init_key0 rnd st
  if gateVal = 0 then
    let k0 := encrypt E [inKey0, inKey1] ALL_ZEROS
    let k1 := XorKey k0 (← orPanic st st.key0)
    pure ({ k0 := k0, k1 := k1 }, st)
  else if gateVal = 1 then
    let k1 := encrypt E [inKey0, inKey1] ALL_ZEROS
    let k0 := XorKey k1 (← orPanic st st.key0)
    pure ({ k0 := k0, k1 := k1 }, st)
  else
    .error st

/-- The body of the loop over `i` in `And` and `Or`, for the truth table `op`
(`&` in `And`, `|` in `Or`): the output wire, and the table of three
ciphertexts is sent. -/
def gateBody (op : Nat → Nat → Nat) (E : Key → List Nat → List Nat) (rnd : Nat → Nat)
    (A B : Wire) (st : GenState) : Except GenState (Wire × GenState) := do
  let t : List (List Nat) := List.replicate 3 []
  let ii ← orPanic st (lsb A.k0)
  let jj ← orPanic st (lsb B.k0)
  let r := op ii jj
  let (w, st) ← genWireRR E rnd (← orPanic st (A.at ii)) (← orPanic st (B.at jj)) r st
  let t ← [1, 2, 3].foldlM (fun (t : List (List Nat)) (counter : Nat) => do
    let aa := counter % 2
    let bb := counter / 2
    let ii := aa ^^^ (← orPanic st (lsb A.k0))
    let jj := bb ^^^ (← orPanic st (lsb B.k0))
    let c := encrypt E [← orPanic st (A.at ii), ← orPanic st (B.at jj)]
      (← orPanic st (w.at (op ii jj)))
    pure (t.set (counter - 1) c)) t
  pure (w, { st with sent := st.sent ++ [Msg.T t] })

/-- The loop `for i := 0; i < len(a); i++` of `And` and `Or`. -/
def gateLoop (op : Nat → Nat → Nat) (E : Key → List Nat → List Nat) (rnd : Nat → Nat) :
    List Wire → List Wire → GenState → Except GenState (List Wire × GenState)
  | A :: a, B :: b, st => do
    let (w, st) ← gateBody op E rnd A B st
    let (ws, st) ← gateLoop op E rnd a b st
    pure (w :: ws, st)
  | _, _, st => pure ([], st)

/-- Source: `YaoRState.And` (gen.go 149-177). -/
def And (E : Key → List Nat → List Nat) (rnd : Nat → Nat) (a b : List Wire) (st : GenState) :
    Except GenState (List Wire × GenState) :=
  if a.length ≠ b.length then .error st
  else gateLoop (fun p q => p &&& q) E rnd a b st

/-- Source: `YaoRState.Or` (gen.go 179-207). -/
def Or (E : Key → List Nat → List Nat) (rnd : Nat → Nat) (a b : List Wire) (st : GenState) :
    Except GenState (List Wire × GenState) :=
  if a.length ≠ b.length then .error st
  else gateLoop (fun p q => p ||| q) E rnd a b st

/-- Source: `YaoRState.Xor` (gen.go 209-220); nothing is sent and no variable
is written, the state is returned as it was. -/
def Xor (a b : List Wire) (st : GenState) : Except GenState (List Wire × GenState) :=
  if a.length ≠ b.length then .error st
  else pure (List.zipWith (fun A B =>
    let k0 := XorKey A.k0 B.k0
    let k1 := XorKey A.k0 B.k1
    ({ k0 := k0, k1 := k1 } : Wire)) a b, st)

/-- Source: `YaoRState.True` (gen.go 222-225); a nil `const1` cannot be
returned as a wire here, it is a panic. -/
def YaoRState.True (rnd : Nat → Nat) (st : GenState) :
    Except GenState (List Wire × GenState) := do
  let (_, st) ← init_constants rnd st
  pure ([← orPanic st st.const1], st)

/-- Source: `YaoRState.False` (gen.go 227-230). -/
def YaoRState.False (rnd : Nat → Nat) (st : GenState) :
    Except GenState (List Wire × GenState) := do
  let (_, st) ← init_constants rnd st
  pure ([← orPanic st st.const0], st)

/-- Source: `resolveKey` (gen.go 307-316); `bytes.Equal` is equality of the
byte strings. -/
def resolveKey (w : Wire) (k : Key) : Option Nat :=
  if k = w.k0 then some 0
  else if k = w.k1 then some 1
  else none

/-- Modelled from the spec: `io.RecvK2()`, the next key uploaded by the
evaluator.  With no key to read the generator waits for ever, which ends the
run here like a panic. -/
def RecvK2 (st : GenState) : Except GenState (Key × GenState) :=
  match st.inbox with
  | k :: rest => pure (k, { st with inbox := rest })
  | [] => .error st

/-- Source: `YaoRState.RevealTo0` (gen.go 235-246). -/
def YaoRState.RevealTo0 : List Wire → GenState → Except GenState (List Bool × GenState)
  | [], st => pure ([], st)
  | A :: a, st => do
    let (k, st) ← RecvK2 st
    let bit ← orPanic st (resolveKey A k)
    let (result, st) ← YaoRState.RevealTo0 a st
    pure ((if bit = 0 then false else true) :: result, st)

/-- The assignment `key[0] = b`: a panic for an empty key. -/
def setFirst (key : Key) (b : Nat) : Option Key :=
  match key with
  | [] => none
  | _ :: rest => some (b :: rest)

/-- Source: `YaoRState.RevealTo1` (gen.go 249-259). -/
def YaoRState.RevealTo1 (E : Key → List Nat → List Nat) (rnd : Nat → Nat) :
    List Wire → GenState → Except GenState (Unit × GenState)
  | [], st => pure ((), st)
  | A :: a, st => do
    let t : List (List Nat) := List.replicate 2 []
    let (w, st) ← genWire rnd st
    let w0 ← orPanic st (setFirst w.k0 0)
    let w1 ← orPanic st (setFirst w.k1 1)
    let (t, st) ← encrypt_slot E t w0 [A.k0] st
    let (t, st) ← encrypt_slot E t w1 [A.k1] st
    let st := { st with sent := st.sent ++ [Msg.T t] }
    YaoRState.RevealTo1 E rnd a st

/-- A call of `True()` or of `False()`. -/
inductive ConstCall where
  | callTrue : ConstCall
  | callFalse : ConstCall
deriving DecidableEq, Repr

/-- One call. -/
def ConstCall.run (rnd : Nat → Nat) :
    ConstCall → GenState → Except GenState (List Wire × GenState)
  | .callTrue, st => YaoRState.True rnd st
  | .callFalse, st => YaoRState.False rnd st

/-- A sequence of calls of `True()` and `False()`, one after the other: the
list of the results. -/
def runCalls (rnd : Nat → Nat) :
    List ConstCall → GenState → Except GenState (List (List Wire) × GenState)
  | [], st => pure ([], st)
  | c :: cs, st => do
    let (r, st) ← c.run rnd st
    let (rs, st) ← runCalls rnd cs st
    pure (r :: rs, st)

/-- The offset `key0` of a session: `KEY_SIZE` bytes, the first one odd. -/
def KeyOk (key0 : Key) : Prop := key0.length = KEY_SIZE ∧ lsb key0 = some 1

instance (key0 : Key) : Decidable (KeyOk key0) := by unfold KeyOk; infer_instance

/-- The free-XOR invariant of a wire: keys of `KEY_SIZE` bytes with
`K1 = K0 XOR key0`. -/
def FreeXor (key0 : Key) (w : Wire) : Prop := w.k0.length = KEY_SIZE ∧ w.k1 = XorKey w.k0 key0

instance (key0 : Key) (w : Wire) : Decidable (FreeXor key0 w) := by unfold FreeXor; infer_instance

end Gen

namespace Gen

/-- The key of a wire for a bit: `K0` for 0, `K1` otherwise. -/
def Wire.sel (w : Wire) (i : Nat) : Key := if i = 0 then w.k0 else w.k1

/-- The output wire of a gate whose canonical row has the value `r` and the
row-reduced label `enc0`. -/
def rrWire (key0 enc0 : Key) (r : Nat) : Wire :=
  if r = 0 then { k0 := enc0, k1 := XorKey enc0 key0 } else { k0 := XorKey enc0 key0, k1 := enc0 }

end Gen

namespace Gen

/-- The output wire of a gate with truth table `op` for input wires whose
`K0` have the low bits `pa`, `pb`. -/
def gateWire (op : Nat → Nat → Nat) (E : Key → List Nat → List Nat) (key0 : Key) (A B : Wire)
    (pa pb : Nat) : Wire :=
  rrWire key0 (encrypt E [A.sel pa, B.sel pb] ALL_ZEROS) (op pa pb)

/-- The three ciphertexts of that gate, for `counter = 1, 2, 3`. -/
def gateTable (op : Nat → Nat → Nat) (E : Key → List Nat → List Nat) (key0 : Key) (A B : Wire)
    (pa pb : Nat) : List (List Nat) :=
  [encrypt E [A.sel (1 ^^^ pa), B.sel (0 ^^^ pb)]
      ((gateWire op E key0 A B pa pb).sel (op (1 ^^^ pa) (0 ^^^ pb))),
   encrypt E [A.sel (0 ^^^ pa), B.sel (1 ^^^ pb)]
      ((gateWire op E key0 A B pa pb).sel (op (0 ^^^ pa) (1 ^^^ pb))),
   encrypt E [A.sel (1 ^^^ pa), B.sel (1 ^^^ pb)]
      ((gateWire op E key0 A B pa pb).sel (op (1 ^^^ pa) (1 ^^^ pb)))]

end Gen

namespace Gen

/-! ## A concrete session -/

/-- A stand-in for the block cipher: a block of `KEY_SIZE` bytes computed
from the key and the plaintext. -/
def exampleCipher (k x : List Nat) : List Nat :=
  (List.range KEY_SIZE).map fun i => (7 * k.getD i 0 + 3 * x.getD i 0 + i + 1) % 256

/-- A random source for the examples. -/
def exampleStream (i : Nat) : Nat := (i * 37 + 11) % 251

/-- An offset: first byte 1, then zeros. -/
def exampleKey0 : Key := 1 :: List.replicate 15 0

/-- A wire with the free-XOR invariant for `exampleKey0`; `K0` has low bit 0. -/
def exampleWireA : Wire := { k0 := List.replicate 16 2, k1 := 3 :: List.replicate 15 2 }

/-- A wire with the free-XOR invariant for `exampleKey0`; `K0` has low bit 1. -/
def exampleWireB : Wire := { k0 := List.replicate 16 5, k1 := 4 :: List.replicate 15 5 }

/-- A session in which the offset is set. -/
def exampleState : GenState :=
  { key0 := some exampleKey0, const0 := none, const1 := none, cur := 0, sent := [],
    AESCount := 0, inbox := [] }

/-- A session after `reset`. -/
def freshState : GenState :=
  { key0 := none, const0 := none, const1 := none, cur := 0, sent := [],
    AESCount := 0, inbox := [] }

end Gen

namespace Gen

/-- What a call of `True()` or `False()` returns once the constants are
`c0`, `c1`. -/
def constValue (c0 c1 : Wire) : ConstCall → List Wire
  | .callTrue => [c1]
  | .callFalse => [c0]

/-- A session in which the evaluator has uploaded the label for 1 of
`exampleWireA` and the label for 0 of `exampleWireB`. -/
def revealState : GenState :=
  { exampleState with inbox := [exampleWireA.k1, exampleWireB.k0] }

end Gen

namespace GMW

/-! ## The example run -/

/-- Source: the body of the goroutine of `RunExample` (vm.go 476-481), for one
party.  The source drops the opened difference and hands the opened sum on;
here both are returned, the difference first. -/
def RunExample.body (io : Io) : Prog (Nat × Nat) := do
  let y ← Input32 io 3
  let z ← Input32 io 6
  let d ← Output32 io (← Sub32 io y z)
  let s ← Output32 io (← Add32 io y z)
  return (d, s)

/-- The parties of the scenario: party 3 holds the input `0x2A`, party 6
holds `0x07`, the others have no input to give. -/
def scenarioIo (i : Nat) : Io :=
  { Id := i, GetInput := if i = 3 then some 0x2A else if i = 6 then some 0x07 else none }

/-- Bit triples for seven parties: party `i` holds bit `i` of `a`, `b`, `c`. -/
def bitTriple (a b c : Nat) (i : Nat) : Triple Bool :=
  { a := a.testBit i, b := b.testBit i, c := c.testBit i }

/-- Sixty-three valid bit triples for seven parties. -/
def scenarioTriples : List (Nat → Triple Bool) :=
  (List.range 63).map fun j =>
    if j % 3 = 0 then bitTriple 0x2C 0x51 0x7F
    else if j % 3 = 1 then bitTriple 0x01 0x13 0x23
    else bitTriple 0x41 0x15 0x00

/-- The supply of the scenario. -/
def scenarioSupply : Supply :=
  { t1 := scenarioTriples.map (parties 7), t8 := [], t32 := [] }

end GMW

namespace OT

/-! ## Runs of transfers -/

/-- The part of `Send` after the test for preprocessing. -/
def sendTail (m0 m1 : List Nat) (self : ExtendSender) : Act ExtendSender :=
  (Act.ofOption (mkBytes (self.l.tdiv 8))).bind fun y0 =>
  (Act.ofOption (mkBytes (self.l.tdiv 8))).bind fun y1 =>
  .selRecv fun smod =>
  (if smod = 0 then
      Act.ofOption (do
        let y0 ← xorBytesExact y0 m0 (← index self.z0 self.curPair)
        let y1 ← xorBytesExact y1 m1 (← index self.z1 self.curPair)
        pure (y0, y1))
    else if smod = 1 then
      Act.ofOption (do
        let y0 ← xorBytesExact y0 m1 (← index self.z0 self.curPair)
        let y1 ← xorBytesExact y1 m0 (← index self.z1 self.curPair)
        pure (y0, y1))
    else .fail).bind fun y =>
  .msgSend y.1 (.msgSend y.2 (.ret { self with curPair := self.curPair + 1 }))

/-- The part of `Receive` after the test for preprocessing. -/
def receiveTail (H : List Nat → Nat → Nat) (s : Nat) (self : ExtendReceiver) :
    Act (List Nat × ExtendReceiver) :=
  (Act.ofOption (GetBit self.r self.curPair)).bind fun rbit =>
  let smod := (s % 256) ^^^ rbit
  .selSend smod (
  .msgRecv fun y0 =>
  .msgRecv fun y1 =>
  (Act.ofOption (mkBytes (self.l.tdiv 8))).bind fun w =>
  (Act.ofOption (GetBit self.r self.curPair)).bind fun rbit =>
  (if rbit = 0 then
      Act.ofOption (do xorBytesExact w y0 (← RO H (← self.T.GetRow self.curPair) self.l))
    else if rbit = 1 then
      Act.ofOption (do xorBytesExact w y1 (← RO H (← self.T.GetRow self.curPair) self.l))
    else .ret w).bind fun w =>
  .ret (w, { self with curPair := self.curPair + 1 }))

/-- The sender's side of a run of transfers: `Send` for each pair of
messages, one after the other. -/
def sendAll (H : List Nat → Nat → Nat) : List (List Nat × List Nat) → ExtendSender →
    Act ExtendSender
  | [], self => .ret self
  | p :: rest, self => (self.Send H p.1 p.2).bind fun self => sendAll H rest self

/-- The receiver's side of a run of transfers: `Receive` for each selector,
one after the other; the received messages are collected. -/
def receiveAll (H : List Nat → Nat → Nat) : List Nat → ExtendReceiver →
    Act (List (List Nat) × ExtendReceiver)
  | [], self => .ret ([], self)
  | s :: rest, self =>
    (self.Receive H s).bind fun p =>
    (receiveAll H rest p.2).bind fun q => .ret (p.1 :: q.1, q.2)

/-- The shape of a sender that has been preprocessed for the parameters
`k`, `l`, `m`: `z0` and `z1` have `m` entries of `l / 8` bytes. -/
def SenderReady (k l m : Int) (snd : ExtendSender) : Prop :=
  snd.k = k ∧ snd.l = l ∧ snd.m = m ∧
  (snd.z0.length : Int) = m ∧ (snd.z1.length : Int) = m ∧
  (∀ z ∈ snd.z0, (z.length : Int) * 8 = l) ∧ (∀ z ∈ snd.z1, (z.length : Int) * 8 = l)

instance (k l m : Int) (snd : ExtendSender) : Decidable (SenderReady k l m snd) := by
  unfold SenderReady; infer_instance

/-- The shape of a receiver that has been preprocessed for the parameters
`k`, `l`, `m`: `r` has `m` bits and `T` has `m` rows. -/
def ReceiverReady (k l m : Int) (rcv : ExtendReceiver) : Prop :=
  rcv.k = k ∧ rcv.l = l ∧ rcv.m = m ∧
  (rcv.r.length : Int) * 8 = m ∧ (rcv.T.data.length : Int) = m

instance (k l m : Int) (rcv : ExtendReceiver) : Decidable (ReceiverReady k l m rcv) := by
  unfold ReceiverReady; infer_instance

/-- The matrix `T` of `preProcessReceiver` after `Randomize`, for `m = 8 * mm`
rows and `k = 8 * kk` columns, filled with the random bytes `bs`. -/
def freshT (mm kk : Nat) (bs : List Nat) : Matrix8 :=
  { NumRows := 8 * mm, NumCols := 8 * kk,
    data := (List.range (8 * mm)).map fun i => (bs.drop (i * kk)).take kk }

/-- The receiver after the first part of `preProcessReceiver`: the counter is
reset, `r` and `T` are fresh. -/
def freshReceiver (self : ExtendReceiver) (mm kk : Nat) (r bs : List Nat) : ExtendReceiver :=
  { self with curPair := 0, m := 8 * (mm : Int), r := r, T := freshT mm kk bs }

/-- The sender at the start of `preProcessSender`: `m` is stored and the
counter is reset. -/
def freshSender (self : ExtendSender) (mm : Nat) : ExtendSender :=
  { self with m := 8 * (mm : Int), curPair := 0 }

/-- The pair counter after one more transfer: a transfer started at `m`
preprocesses (the counter restarts at 0) and ends at 1, any other transfer
adds one. -/
def nextPair (m c : Int) : Int := if c = m then 1 else c + 1

/-- The pair counter after `n` transfers of a pair constructed with the batch
size `m` (the constructors set the counter to `m`). -/
def counterAfter (m : Int) (n : Nat) : Int := (nextPair m)^[n] m

/-- A sender and a receiver for the same parameters whose counters are both
`c`, and which are preprocessed unless `c = m`. -/
def PairAt (k l m c : Int) (snd : ExtendSender) (rcv : ExtendReceiver) : Prop :=
  snd.k = k ∧ snd.l = l ∧ snd.m = m ∧ rcv.k = k ∧ rcv.l = l ∧ rcv.m = m ∧
  snd.curPair = c ∧ rcv.curPair = c ∧
  (c ≠ m → SenderReady k l m snd ∧ ReceiverReady k l m rcv)

instance (k l m c : Int) (snd : ExtendSender) (rcv : ExtendReceiver) :
    Decidable (PairAt k l m c snd rcv) := by
  unfold PairAt; infer_instance

end OT
namespace OT

/-- A constructed sender for `k = l = m = 8`. -/
def newSender8 : ExtendSender :=
  { z0 := [], z1 := [], m := 8, k := 8, l := 8, curPair := 8 }

/-- A constructed receiver for `k = l = m = 8`. -/
def newReceiver8 : ExtendReceiver :=
  { r := [], m := 8, k := 8, l := 8, curPair := 8, T := { NumRows := 0, NumCols := 0, data := [] } }

end OT

namespace GMW

/-! ## Carving a 32-bit triple -/

/-- The 8-bit triple of byte lane `j` of a 32-bit triple, as `X.Triple8`
builds it: `uint8(v >> 8j)` of each component. -/
def carve8 (j : Nat) (t : Triple Nat) : Triple Nat :=
  ⟨(t.a >>> (8 * j)) % 256, (t.b >>> (8 * j)) % 256, (t.c >>> (8 * j)) % 256⟩

/-- The one-bit triple of bit position `j` of a 32-bit triple, as `X.Triple1`
builds it: `0 < (1 & (v >> j))` of each component. -/
def carve1 (j : Nat) (t : Triple Nat) : Triple Bool :=
  ⟨decide (0 < (1 &&& (t.a >>> j))), decide (0 < (1 &&& (t.b >>> j))),
    decide (0 < (1 &&& (t.c >>> j)))⟩

/-- Three parties, each with two 32-bit triples and no carved triples; the
first triples share `a = 0xF0F01234`, `b = 0x3C3C3C3C`, `c = a & b`. -/
def carveParty (i : Nat) : X :=
  { id := i,
    triples32 := [⟨[0xF0F01234, 0x11111111, 0x11111111].getD i 0,
                   [0x0F0F0F0F, 0x33333333, 0x00000000].getD i 0,
                   [0x30301034, 0x00000000, 0x00000000].getD i 0⟩, ⟨1, 2, 0⟩],
    triples8 := [], triples1 := [], inputs := [] }

/-- The first 32-bit triple of `carveParty i`. -/
def carveTriple (i : Nat) : Triple Nat :=
  ⟨[0xF0F01234, 0x11111111, 0x11111111].getD i 0,
   [0x0F0F0F0F, 0x33333333, 0x00000000].getD i 0,
   [0x30301034, 0x00000000, 0x00000000].getD i 0⟩

end GMW

namespace OT

/-! ## Random sources for a run of the preprocessing -/

/-- A random source for the sender: byte `i` is `173 + 29 i mod 256`. -/
def senderTape : Tape := { rnd := fun i => 173 + 29 * i, cur := 0 }

/-- A random source for the receiver: byte `i` is `90 + 53 i mod 256`. -/
def receiverTape : Tape := { rnd := fun i => 90 + 53 * i, cur := 0 }

/-- The selector `s` the sender draws from `senderTape` for `k = 8`: `[173]`. -/
def tapeS : List Nat := (senderTape.take 1).1

/-- The vector `r` the receiver draws from `receiverTape` for `m = 8`: `[90]`. -/
def tapeR : List Nat := (receiverTape.take 1).1

/-- The bytes of `T` the receiver draws next for `m = k = 8`:
`[143, 196, 249, 46, 99, 152, 205, 2]`. -/
def tapeT : List Nat := ((receiverTape.take 1).2.take (8 * 1 * 1)).1

end OT

namespace GMW

/-! ## The channels of the mock

`Example` makes one unbuffered `chan uint32` for every ordered pair of parties.
`Broadcast*` starts one goroutine per peer, which sends its value and ends;
`Open*` returns once it has received one value from every peer, whether or not
the values it sent have been received.  The goroutines a party has started for
one peer in successive `Open*` calls wait on the same channel, and a receive
takes the value of any of them. -/

/-- A party of `RunExample` inside its goroutine: its struct, the rest of its
program and, while it is in the loop `for i := range x.rchannels` of `Open*`,
the index `i`; the value at the `Open*` that heads the program is then the
`result` accumulated so far. -/
structure Runner (α : Type) where
  x : X
  prog : Prog α
  loop : Option Nat

/-- The parties and the channels: `waiting[j][i]` lists the values of the
goroutines started by party `j` that wait to send to party `i`. -/
structure Net (α : Type) where
  ps : List (Runner α)
  waiting : List (List (List Nat))

/-- Source: the loop of `X.Broadcast32` (vm.go 216-228), `Broadcast8`,
`Broadcast1` for a party with `n` write channels whose started goroutines are
`row`: one more goroutine with the value `v` for every peer. -/
def X.Broadcast (x : X) (n : Nat) (row : List (List Nat)) (v : Nat) : List (List Nat) :=
  (List.range n).map fun (i : Nat) =>
    if (i : Int) = x.Id then row.getD i [] else row.getD i [] ++ [v]

/-- One step of party `p`.  Outside `Open*`: a `Triple*` call is answered by
the party's struct, an `Open*` call starts with the broadcast.  Inside the
loop of `Open*` at index `i`: the loop ends after the last channel, skips
`i == id`, and otherwise receives from party `i` the value of the waiting
goroutine number `c` (`Receive1` returns `result > 0`, `Receive8` returns
`uint8(result)`).  There is no step for a party that has returned or
panicked, nor for a receive with no such goroutine. -/
def Net.step {α : Type} (st : Net α) (p c : Nat) : Option (Net α) :=
  match st.ps[p]? with
  | none => none
  | some r =>
    let n := st.ps.length
    match r.loop with
    | none =>
      match r.prog with
      | .ret _ => none
      | .fail => none
      | .triple1 k =>
        (X.Triple1 r.x).map fun t =>
          { st with ps := st.ps.set p { x := t.2, prog := k t.1.1 t.1.2.1 t.1.2.2, loop := none } }
      | .triple8 k =>
        (X.Triple8 r.x).map fun t =>
          { st with ps := st.ps.set p { x := t.2, prog := k t.1.1 t.1.2.1 t.1.2.2, loop := none } }
      | .triple32 k =>
        (X.Triple32 r.x).map fun t =>
          { st with ps := st.ps.set p { x := t.2, prog := k t.1.1 t.1.2.1 t.1.2.2, loop := none } }
      | .open1 s _ =>
        some { ps := st.ps.set p { r with loop := some 0 },
               waiting := st.waiting.set p
                 (r.x.Broadcast n (st.waiting.getD p []) (if s then 1 else 0)) }
      | .open8 s _ =>
        some { ps := st.ps.set p { r with loop := some 0 },
               waiting := st.waiting.set p (r.x.Broadcast n (st.waiting.getD p []) s) }
      | .open32 s _ =>
        some { ps := st.ps.set p { r with loop := some 0 },
               waiting := st.waiting.set p (r.x.Broadcast n (st.waiting.getD p []) s) }
    | some i =>
      if n ≤ i then
        match r.prog with
        | .open1 result k => some { st with ps := st.ps.set p { r with prog := k result, loop := none } }
        | .open8 result k => some { st with ps := st.ps.set p { r with prog := k result, loop := none } }
        | .open32 result k => some { st with ps := st.ps.set p { r with prog := k result, loop := none } }
        | _ => none
      else if (i : Int) = r.x.Id then
        some { st with ps := st.ps.set p { r with loop := some (i + 1) } }
      else
        match ((st.waiting.getD i []).getD p [])[c]? with
        | none => none
        | some v =>
          let waiting := st.waiting.set i
            ((st.waiting.getD i []).set p (((st.waiting.getD i []).getD p []).eraseIdx c))
          match r.prog with
          | .open1 result k =>
            some { ps := st.ps.set p
                     { r with prog := .open1 (xor result (decide (v > 0))) k, loop := some (i + 1) },
                   waiting := waiting }
          | .open8 result k =>
            some { ps := st.ps.set p
                     { r with prog := .open8 (result ^^^ v % 256) k, loop := some (i + 1) },
                   waiting := waiting }
          | .open32 result k =>
            some { ps := st.ps.set p
                     { r with prog := .open32 (result ^^^ v) k, loop := some (i + 1) },
                   waiting := waiting }
          | _ => none

/-- A run along a schedule: the list of the steps `(p, c)` taken. -/
def Net.exec {α : Type} : List (Nat × Nat) → Net α → Option (Net α)
  | [], st => some st
  | (p, c) :: rest, st =>
    match st.step p c with
    | some st => Net.exec rest st
    | none => none

/-- What the parties have returned, party 0 first; `none` unless all have. -/
def Net.results {α : Type} (st : Net α) : Option (List α) :=
  collect asRet (st.ps.map fun r => r.prog)

/-- Source: the end of `RunExample` (vm.go 483-493) on the collected results:
a panic unless they are all equal. -/
def RunExample.check (results : List Nat) : Option Nat :=
  match results with
  | [] => none
  | result :: _ => if results.all fun r => r = result then some result else none

/-- The parties of `RunExample` before the goroutines start, with no
goroutine waiting on any channel. -/
def RunExample.start (xs : List X) : Net (Nat × Nat) :=
  { ps := xs.map fun x => { x := x, prog := RunExample.body x.toIo, loop := none },
    waiting := List.replicate xs.length (List.replicate xs.length []) }

/-- The parties of the scenario, as `Example` builds them but with the inputs
of the scenario: every party holds the share `(0, 0, 0)` of each of 200
triples, party 3 holds the input `0x2A`, party 6 holds `0x07`, the others
hold 0. -/
def raceParties : List X :=
  (List.range 7).map fun i =>
    { id := i, triples32 := List.replicate 200 ⟨0, 0, 0⟩, triples8 := [], triples1 := [],
      inputs := [if i = 3 then 0x2A else if i = 6 then 0x07 else 0] }

/-- `k` steps of party `p`, each receive taking the goroutine that has waited
longest. -/
def turns (p k : Nat) : List (Nat × Nat) := List.replicate k (p, 0)

/-- `k` steps of each of the parties `lo, ..., hi - 1`, one party after the other. -/
def allTurns (lo hi k : Nat) : List (Nat × Nat) :=
  ((List.range (hi - lo)).map fun p => turns (lo + p) k).flatten

/-- What the seven parties do together between two points at which no
goroutine waits: a `Triple1` call of each party, or an `Open1`, or an `Open32`
of each party. -/
inductive Round where
  | triple1
  | open1
  | open32
deriving DecidableEq, Repr

/-- The steps of a round: for `Triple1` one step of every party; for `Open*`
first the broadcast of every party, then for every party in turn the seven
indices of its receive loop and the end of the loop. -/
def Round.schedule : Round → List (Nat × Nat)
  | .triple1 => allTurns 0 7 1
  | .open1 => allTurns 0 7 1 ++ allTurns 0 7 8
  | .open32 => allTurns 0 7 1 ++ allTurns 0 7 8

/-- The steps of a list of rounds. -/
def roundsSchedule (rs : List Round) : List (Nat × Nat) := (rs.map Round.schedule).flatten

/-- The `Triple1` call of one party that is about to make it. -/
def Runner.triple1 {α : Type} (r : Runner α) : Option (Runner α) :=
  match r.loop, r.prog with
  | none, .triple1 k =>
    (X.Triple1 r.x).map fun t => { x := t.2, prog := k t.1.1 t.1.2.1 t.1.2.2, loop := none }
  | _, _ => none

/-- The channels of seven parties with no goroutine waiting. -/
def quiet : List (List (List Nat)) := List.replicate 7 (List.replicate 7 [])

/-- A round as one step: seven parties with the identifiers `0..6`, none of
them inside `Open*`, no goroutine waiting, all about to make the call of the
round.  In an `Open*` round every party receives what the others broadcast in
this round, so its call returns what `X.Open*` computes from these values. -/
def Net.round {α : Type} (st : Net α) : Round → Option (Net α)
  | .triple1 =>
    if st.ps.length = 7 then
      (collect Runner.triple1 st.ps).map fun ps => { st with ps := ps }
    else none
  | .open1 =>
    if st.ps.length = 7 ∧ st.waiting = quiet ∧
        (st.ps.map fun r => r.x.id) = [0, 1, 2, 3, 4, 5, 6] ∧
        (st.ps.map fun r => r.loop) = List.replicate 7 none then
      (collect asOpen1 (st.ps.map fun r => r.prog)).map fun vks =>
        { st with ps := List.zipWith (fun r vk =>
            { x := r.x,
              prog := vk.2 (r.x.Open1 7 (fun j => (vks.map Prod.fst).getD j false) vk.1),
              loop := none }) st.ps vks }
    else none
  | .open32 =>
    if st.ps.length = 7 ∧ st.waiting = quiet ∧
        (st.ps.map fun r => r.x.id) = [0, 1, 2, 3, 4, 5, 6] ∧
        (st.ps.map fun r => r.loop) = List.replicate 7 none then
      (collect asOpen32 (st.ps.map fun r => r.prog)).map fun vks =>
        { st with ps := List.zipWith (fun r vk =>
            { x := r.x,
              prog := vk.2 (r.x.Open32 7 (fun j => (vks.map Prod.fst).getD j 0) vk.1),
              loop := none }) st.ps vks }
    else none

/-- A list of rounds, one after the other. -/
def Net.rounds {α : Type} : List Round → Net α → Option (Net α)
  | [], st => some st
  | r :: rs, st =>
    match st.round r with
    | some st => Net.rounds rs st
    | none => none

/-- The rounds of one `And1`: `Triple1`, then the two `Open1`. -/
def and1Rounds : List Round := [.triple1, .open1, .open1]

/-- The rounds of `RunExample` up to the second `Open1` of the last `And1` of
`Add32`: 32 `And1` of `Sub32`, `Output32`, 30 `And1` of `Add32`, `Triple1` and
the first `Open1` of the last `And1`. -/
def commonRounds : List Round :=
  (List.replicate 32 and1Rounds).flatten ++ [.open32] ++
  (List.replicate 30 and1Rounds).flatten ++ [.triple1, .open1]

/-- The common part of the two schedules below: the rounds of `commonRounds`
and the broadcasts of the second `Open1` of the last `And1` of `Add32`. -/
def commonSchedule : List (Nat × Nat) := roundsSchedule commonRounds ++ allTurns 0 7 1

/-- The end of the run with every receive in the order of the broadcasts:
every party completes the `Open1`, then `Output32` as a round. -/
def lockTail : List (Nat × Nat) := allTurns 0 7 8 ++ Round.schedule .open32

/-- The end of the run with one receive out of order.  Party 0 completes the
`Open1` (8 steps) and starts `Output32` (the broadcast), so that two of its
goroutines wait to send to party 1; party 1, at index 0 of the loop of that
`Open1`, receives the value of the later one (step `(1, 1)`) and goes on;
parties 2 to 6 complete the `Open1`; parties 1 to 6 broadcast in `Output32`;
every party runs the loop of `Output32`. -/
def raceTail : List (Nat × Nat) :=
  turns 0 8 ++ turns 0 1 ++
  [(1, 1)] ++ turns 1 7 ++
  allTurns 2 7 8 ++
  allTurns 1 7 1 ++
  allTurns 0 7 8

/-- The schedule of `RunExample` with every receive in the order of the
broadcasts. -/
def lockSchedule : List (Nat × Nat) := commonSchedule ++ lockTail

/-- A schedule of `RunExample` in which party 1 receives from party 0 the
value of `Output32` before the value of the preceding `Open1`. -/
def raceSchedule : List (Nat × Nat) := commonSchedule ++ raceTail

end GMW

namespace GMW

/-- The parties as `Example(7)` builds them for `RunExample`: party `i` holds
the input `i`; the dealt triples are taken to be the shares `(0, 0, 0)`. -/
def builtParties : List X :=
  (List.range 7).map fun (i : Nat) =>
    { id := i, triples32 := List.replicate 200 ⟨0, 0, 0⟩, triples8 := [], triples1 := [],
      inputs := [i] }

end GMW

/-! # Theorems -/

namespace GMW

theorem xor_eq (x y : Bool) : xor x y = Bool.xor x y := by cases x <;> cases y <;> rfl

theorem And1_bind {β : Type} (io : Io) (x y : Bool) (k : Bool → Prog β) :
    (And1 io x y).bind k = .triple1 fun a b c => .open1 (xor x a) fun d => .open1 (xor y b) fun e =>
      k (if io.Id = 0 then xor c (xor (d && b) (xor (e && a) (d && e))) else xor c (xor (d && b) (e && a))) := by
  by_cases h : io.Id = 0 <;> simp [And1, h, Triple1, Open1, bind, Prog.bind, pure]

theorem And8_bind {β : Type} (io : Io) (x y : Nat) (k : Nat → Prog β) :
    (And8 io x y).bind k = .triple8 fun a b c => .open8 (x ^^^ a) fun d => .open8 (y ^^^ b) fun e =>
      k (if io.Id = 0 then c ^^^ d &&& b ^^^ e &&& a ^^^ d &&& e else c ^^^ d &&& b ^^^ e &&& a) := by
  by_cases h : io.Id = 0 <;> simp [And8, h, Triple8, Open8, bind, Prog.bind, pure]

theorem And32_bind {β : Type} (io : Io) (x y : Nat) (k : Nat → Prog β) :
    (And32 io x y).bind k = .triple32 fun a b c => .open32 (x ^^^ a) fun d => .open32 (y ^^^ b) fun e =>
      k (if io.Id = 0 then c ^^^ d &&& b ^^^ e &&& a ^^^ d &&& e else c ^^^ d &&& b ^^^ e &&& a) := by
  by_cases h : io.Id = 0 <;> simp [And32, h, Triple32, Open32, bind, Prog.bind, pure]

theorem bind_ret {α : Type} (p : Prog α) : p.bind .ret = p := by
  induction p with
  | ret a => rfl
  | fail => rfl
  | triple1 k ih => simp [Prog.bind, ih]
  | triple8 k ih => simp [Prog.bind, ih]
  | triple32 k ih => simp [Prog.bind, ih]
  | open1 v k ih => simp [Prog.bind, ih]
  | open8 v k ih => simp [Prog.bind, ih]
  | open32 v k ih => simp [Prog.bind, ih]

theorem collect_map {ι β γ : Type} (g : β → Option γ) (f : ι → β) (h : ι → γ)
    (hg : ∀ i, g (f i) = some (h i)) (l : List ι) :
    collect g (l.map f) = some (l.map h) := by
  induction l with
  | nil => rfl
  | cons a l ih => simp [collect, hg, ih]

theorem zipWith_map_map {ι β γ δ : Type} (F : β → γ → δ) (f : ι → β) (g : ι → γ) (l : List ι) :
    List.zipWith F (l.map f) (l.map g) = l.map fun i => F (f i) (g i) := by
  induction l with
  | nil => rfl
  | cons a l ih => simp [ih]

theorem zipWith_self_map {ι γ δ : Type} (F : ι → γ → δ) (g : ι → γ) (l : List ι) :
    List.zipWith F l (l.map g) = l.map fun i => F i (g i) := by
  induction l with
  | nil => rfl
  | cons a l ih => simp [ih]

theorem parties_succ {β : Type} (n : Nat) (f : Nat → β) :
    parties (n + 1) f = f 0 :: parties n fun i => f (i + 1) := by
  simp [parties, List.range_succ_eq_map, List.map_map, Function.comp_def]

theorem parties_length {β : Type} (n : Nat) (f : Nat → β) : (parties n f).length = n := by
  simp [parties]

theorem xorAll_succ (n : Nat) (f : Nat → Nat) : xorAll (n + 1) f = xorAll n f ^^^ f n := by
  simp [xorAll, List.range_succ, List.foldl_append]

theorem xorAll_congr (n : Nat) (f g : Nat → Nat) (h : ∀ i, i < n → f i = g i) :
    xorAll n f = xorAll n g := by
  induction n with
  | zero => rfl
  | succ n ih =>
    rw [xorAll_succ, xorAll_succ, ih (fun i hi => h i (Nat.lt_succ_of_lt hi)), h n (Nat.lt_succ_self n)]

theorem xorAll_xor (n : Nat) (f g : Nat → Nat) :
    xorAll n (fun i => f i ^^^ g i) = xorAll n f ^^^ xorAll n g := by
  induction n with
  | zero => simp [xorAll]
  | succ n ih =>
    rw [xorAll_succ, xorAll_succ, xorAll_succ, ih]
    ac_rfl

theorem xorAll_and (n : Nat) (d : Nat) (f : Nat → Nat) :
    xorAll n (fun i => d &&& f i) = d &&& xorAll n f := by
  induction n with
  | zero => simp [xorAll]
  | succ n ih => rw [xorAll_succ, xorAll_succ, ih, Nat.and_xor_distrib_left]

theorem xorAll_ite_zero (n : Nat) (hn : 0 < n) (v : Nat) :
    xorAll n (fun i => if i = 0 then v else 0) = v := by
  induction n with
  | zero => omega
  | succ n ih =>
    rcases Nat.eq_zero_or_pos n with h | h
    · subst h; rw [xorAll_succ]; simp [xorAll]
    · rw [xorAll_succ, ih h]; simp [Nat.ne_of_gt h]

/-- The fold of `X.Open32`, started at `s`: the received values of all parties
but `i` are XORed in. -/
theorem openFold (recv : Nat → Nat) (i : Nat) (n : Nat) (s : Nat) :
    (List.range n).foldl (fun result (j : Nat) => if (j : Int) = (i : Int) then result else result ^^^ recv j) s
      = if i < n then s ^^^ recv i ^^^ xorAll n recv else s ^^^ xorAll n recv := by
  induction n with
  | zero => simp [xorAll]
  | succ n ih =>
    rw [List.range_succ, List.foldl_append, ih, xorAll_succ]
    simp only [List.foldl_cons, List.foldl_nil, Nat.cast_inj]
    by_cases h1 : n = i
    · subst h1
      simp only [Nat.lt_irrefl, if_false, if_true, Nat.lt_succ_self]
      rw [show s ^^^ recv n ^^^ (xorAll n recv ^^^ recv n) = s ^^^ xorAll n recv ^^^ (recv n ^^^ recv n) by ac_rfl]
      simp
    · by_cases h2 : i < n
      · have h3 : i < n + 1 := by omega
        simp only [h1, h2, h3, if_true, if_false]
        ac_rfl
      · have h3 : ¬ i < n + 1 := by omega
        simp only [h1, h2, h3, if_false]
        ac_rfl

theorem X_Open32_eq (n i : Nat) (hi : i < n) (recv : Nat → Nat) :
    (party i).Open32 n recv (recv i) = xorAll n recv := by
  unfold X.Open32 party X.Id
  rw [openFold recv i n, if_pos hi, Nat.xor_self, Nat.zero_xor]

theorem X_Open8_eq (n i : Nat) (hi : i < n) (recv : Nat → Nat) :
    (party i).Open8 n recv (recv i) = xorAll n recv := X_Open32_eq n i hi recv

theorem parties_getD (n : Nat) (v : Nat → Nat) (j : Nat) (hj : j < n) :
    (parties n v).getD j 0 = v j := by
  simp [parties, List.getD, hj]

theorem xorList_parties (n : Nat) (r : Nat → Nat) : xorList (parties n r) = xorAll n r := by
  simp [xorList, parties, xorAll, List.foldl_map]

theorem runAll_ret {α : Type} (n : Nat) (hn : 0 < n) (r : Nat → α) (s : Supply) :
    runAll (parties n fun i => Prog.ret (r i)) s = some (parties n r) := by
  obtain ⟨m, rfl⟩ : ∃ m, n = m + 1 := ⟨n - 1, by omega⟩
  rw [parties_succ, parties_succ]
  simp only [runAll, run, parties]
  rw [collect_map asRet (fun i => Prog.ret (r (i + 1))) (fun i => r (i + 1)) (fun _ => rfl)]
  rfl

theorem runAll_open32 {α : Type} (n : Nat) (hn : 0 < n) (v : Nat → Nat) (k : Nat → Nat → Prog α)
    (s : Supply) :
    runAll (parties n fun i => Prog.open32 (v i) (k i)) s
      = runAll (parties n fun i => k i (xorAll n v)) s := by
  obtain ⟨m, rfl⟩ : ∃ m, n = m + 1 := ⟨n - 1, by omega⟩
  have hrecv : ∀ i, i < m + 1 →
      (party i).Open32 (m + 1) (fun j => (parties (m + 1) v).getD j 0) (v i) = xorAll (m + 1) v := by
    intro i hi
    have h := X_Open32_eq (m + 1) i hi (fun j => (parties (m + 1) v).getD j 0)
    simp only [parties_getD (m + 1) v i hi] at h
    rw [h]
    exact xorAll_congr _ _ _ (fun j hj => parties_getD (m + 1) v j hj)
  rw [parties_succ, parties_succ]
  simp only [runAll, run, parties]
  rw [collect_map asOpen32 (fun i => Prog.open32 (v (i + 1)) (k (i + 1))) (fun i => (v (i + 1), k (i + 1))) (fun _ => rfl)]
  simp only [List.length_map, List.length_range, List.length_cons, List.map_map, Function.comp_def]
  rw [zipWith_self_map]
  have hl : v 0 :: List.map (fun x => v (x + 1)) (List.range m) = parties (m + 1) v := by
    rw [parties_succ]; rfl
  rw [hl, hrecv 0 (Nat.succ_pos m)]
  congr 1
  apply List.map_congr_left
  intro i hi
  have hi' : i + 1 < m + 1 := by simpa using List.mem_range.mp hi
  simp only [hrecv (i + 1) hi']

theorem runAll_open8 {α : Type} (n : Nat) (hn : 0 < n) (v : Nat → Nat) (k : Nat → Nat → Prog α)
    (s : Supply) :
    runAll (parties n fun i => Prog.open8 (v i) (k i)) s
      = runAll (parties n fun i => k i (xorAll n v)) s := by
  obtain ⟨m, rfl⟩ : ∃ m, n = m + 1 := ⟨n - 1, by omega⟩
  have hrecv : ∀ i, i < m + 1 →
      (party i).Open8 (m + 1) (fun j => (parties (m + 1) v).getD j 0) (v i) = xorAll (m + 1) v := by
    intro i hi
    have h := X_Open8_eq (m + 1) i hi (fun j => (parties (m + 1) v).getD j 0)
    simp only [parties_getD (m + 1) v i hi] at h
    rw [h]
    exact xorAll_congr _ _ _ (fun j hj => parties_getD (m + 1) v j hj)
  rw [parties_succ, parties_succ]
  simp only [runAll, run, parties]
  rw [collect_map asOpen8 (fun i => Prog.open8 (v (i + 1)) (k (i + 1)))
    (fun i => (v (i + 1), k (i + 1))) (fun _ => rfl)]
  simp only [List.length_map, List.length_range, List.length_cons, List.map_map, Function.comp_def]
  rw [zipWith_self_map]
  have hl : v 0 :: List.map (fun x => v (x + 1)) (List.range m) = parties (m + 1) v := by
    rw [parties_succ]; rfl
  rw [hl, hrecv 0 (Nat.succ_pos m)]
  congr 1
  apply List.map_congr_left
  intro i hi
  have hi' : i + 1 < m + 1 := by simpa using List.mem_range.mp hi
  simp only [hrecv (i + 1) hi']

/-! ### The same for boolean shares -/

theorem xorAllB_succ (n : Nat) (f : Nat → Bool) : xorAllB (n + 1) f = xor (xorAllB n f) (f n) := by
  simp [xorAllB, List.range_succ, List.foldl_append]

theorem xorAllB_congr (n : Nat) (f g : Nat → Bool) (h : ∀ i, i < n → f i = g i) :
    xorAllB n f = xorAllB n g := by
  induction n with
  | zero => rfl
  | succ n ih =>
    rw [xorAllB_succ, xorAllB_succ, ih (fun i hi => h i (Nat.lt_succ_of_lt hi)), h n (Nat.lt_succ_self n)]

theorem xorAllB_xor (n : Nat) (f g : Nat → Bool) :
    xorAllB n (fun i => xor (f i) (g i)) = xor (xorAllB n f) (xorAllB n g) := by
  induction n with
  | zero => simp [xorAllB, xor]
  | succ n ih =>
    rw [xorAllB_succ, xorAllB_succ, xorAllB_succ, ih]
    generalize xorAllB n f = p
    generalize xorAllB n g = q
    cases p <;> cases q <;> cases f n <;> cases g n <;> rfl

theorem xorAllB_and (n : Nat) (d : Bool) (f : Nat → Bool) :
    xorAllB n (fun i => d && f i) = (d && xorAllB n f) := by
  induction n with
  | zero => simp [xorAllB]
  | succ n ih =>
    rw [xorAllB_succ, xorAllB_succ, ih]
    generalize xorAllB n f = p
    cases p <;> cases d <;> cases f n <;> rfl

theorem xorAllB_ite_zero (n : Nat) (hn : 0 < n) (v : Bool) :
    xorAllB n (fun i => if i = 0 then v else false) = v := by
  induction n with
  | zero => omega
  | succ n ih =>
    rcases Nat.eq_zero_or_pos n with h | h
    · subst h; rw [xorAllB_succ]; cases v <;> simp [xorAllB, xor]
    · rw [xorAllB_succ, ih h]; cases v <;> simp [Nat.ne_of_gt h, xor]

theorem openFoldB (recv : Nat → Bool) (i : Nat) (n : Nat) (s : Bool) :
    (List.range n).foldl (fun result (j : Nat) => if (j : Int) = (i : Int) then result else xor result (recv j)) s
      = if i < n then xor (xor s (recv i)) (xorAllB n recv) else xor s (xorAllB n recv) := by
  induction n with
  | zero => cases s <;> simp [xorAllB, xor]
  | succ n ih =>
    rw [List.range_succ, List.foldl_append, ih, xorAllB_succ]
    simp only [List.foldl_cons, List.foldl_nil, Nat.cast_inj]
    by_cases h1 : n = i
    · subst h1
      simp only [Nat.lt_irrefl, if_false, if_true, Nat.lt_succ_self]
      generalize xorAllB n recv = p
      cases p <;> cases s <;> cases recv n <;> rfl
    · by_cases h2 : i < n
      · have h3 : i < n + 1 := by omega
        simp only [h1, h2, h3, if_true, if_false]
        generalize xorAllB n recv = p
        cases p <;> cases s <;> cases recv n <;> cases recv i <;> rfl
      · have h3 : ¬ i < n + 1 := by omega
        simp only [h1, h2, h3, if_false]
        generalize xorAllB n recv = p
        cases p <;> cases s <;> cases recv n <;> rfl

theorem X_Open1_eq (n i : Nat) (hi : i < n) (recv : Nat → Bool) :
    (party i).Open1 n recv (recv i) = xorAllB n recv := by
  unfold X.Open1 party X.Id
  rw [openFoldB recv i n, if_pos hi]
  generalize xorAllB n recv = p
  cases p <;> cases recv i <;> rfl

theorem parties_getD_bool (n : Nat) (v : Nat → Bool) (j : Nat) (hj : j < n) :
    (parties n v).getD j false = v j := by
  simp [parties, List.getD, hj]

theorem runAll_open1 {α : Type} (n : Nat) (hn : 0 < n) (v : Nat → Bool) (k : Nat → Bool → Prog α)
    (s : Supply) :
    runAll (parties n fun i => Prog.open1 (v i) (k i)) s
      = runAll (parties n fun i => k i (xorAllB n v)) s := by
  obtain ⟨m, rfl⟩ : ∃ m, n = m + 1 := ⟨n - 1, by omega⟩
  have hrecv : ∀ i, i < m + 1 →
      (party i).Open1 (m + 1) (fun j => (parties (m + 1) v).getD j false) (v i) = xorAllB (m + 1) v := by
    intro i hi
    have h := X_Open1_eq (m + 1) i hi (fun j => (parties (m + 1) v).getD j false)
    simp only [parties_getD_bool (m + 1) v i hi] at h
    rw [h]
    exact xorAllB_congr _ _ _ (fun j hj => parties_getD_bool (m + 1) v j hj)
  rw [parties_succ, parties_succ]
  simp only [runAll, run, parties]
  rw [collect_map asOpen1 (fun i => Prog.open1 (v (i + 1)) (k (i + 1)))
    (fun i => (v (i + 1), k (i + 1))) (fun _ => rfl)]
  simp only [List.length_map, List.length_range, List.length_cons, List.map_map, Function.comp_def]
  rw [zipWith_self_map]
  have hl : v 0 :: List.map (fun x => v (x + 1)) (List.range m) = parties (m + 1) v := by
    rw [parties_succ]; rfl
  rw [hl, hrecv 0 (Nat.succ_pos m)]
  congr 1
  apply List.map_congr_left
  intro i hi
  have hi' : i + 1 < m + 1 := by simpa using List.mem_range.mp hi
  simp only [hrecv (i + 1) hi']

/-! ### Triple calls -/

theorem runAll_triple32 {α : Type} (n : Nat) (hn : 0 < n) (k : Nat → Nat → Nat → Nat → Prog α)
    (t : Nat → Triple Nat) (ts : List (List (Triple Nat))) (s : Supply)
    (hs : s.t32 = parties n t :: ts) :
    runAll (parties n fun i => Prog.triple32 (k i)) s
      = runAll (parties n fun i => k i (t i).a (t i).b (t i).c) { s with t32 := ts } := by
  obtain ⟨m, rfl⟩ : ∃ m, n = m + 1 := ⟨n - 1, by omega⟩
  rw [parties_succ, parties_succ]
  simp only [runAll, run, hs]
  rw [parties_succ]
  simp only [parties]
  rw [collect_map asTriple32 (fun i => Prog.triple32 (k (i + 1))) (fun i => k (i + 1)) (fun _ => rfl)]
  simp only [List.length_map, List.length_range, if_true, deal]
  rw [zipWith_map_map]

theorem runAll_triple8 {α : Type} (n : Nat) (hn : 0 < n) (k : Nat → Nat → Nat → Nat → Prog α)
    (t : Nat → Triple Nat) (ts : List (List (Triple Nat))) (s : Supply)
    (hs : s.t8 = parties n t :: ts) :
    runAll (parties n fun i => Prog.triple8 (k i)) s
      = runAll (parties n fun i => k i (t i).a (t i).b (t i).c) { s with t8 := ts } := by
  obtain ⟨m, rfl⟩ : ∃ m, n = m + 1 := ⟨n - 1, by omega⟩
  rw [parties_succ, parties_succ]
  simp only [runAll, run, hs]
  rw [parties_succ]
  simp only [parties]
  rw [collect_map asTriple8 (fun i => Prog.triple8 (k (i + 1))) (fun i => k (i + 1)) (fun _ => rfl)]
  simp only [List.length_map, List.length_range, if_true, deal]
  rw [zipWith_map_map]

theorem runAll_triple1 {α : Type} (n : Nat) (hn : 0 < n) (k : Nat → Bool → Bool → Bool → Prog α)
    (t : Nat → Triple Bool) (ts : List (List (Triple Bool))) (s : Supply)
    (hs : s.t1 = parties n t :: ts) :
    runAll (parties n fun i => Prog.triple1 (k i)) s
      = runAll (parties n fun i => k i (t i).a (t i).b (t i).c) { s with t1 := ts } := by
  obtain ⟨m, rfl⟩ : ∃ m, n = m + 1 := ⟨n - 1, by omega⟩
  rw [parties_succ, parties_succ]
  simp only [runAll, run, hs]
  rw [parties_succ]
  simp only [parties]
  rw [collect_map asTriple1 (fun i => Prog.triple1 (k (i + 1))) (fun i => k (i + 1)) (fun _ => rfl)]
  simp only [List.length_map, List.length_range, if_true, deal]
  rw [zipWith_map_map]

/-! ### The Beaver AND, jointly -/

theorem parties_congr {β : Type} (n : Nat) (f g : Nat → β) (h : ∀ i, i < n → f i = g i) :
    parties n f = parties n g :=
  List.map_congr_left fun i hi => h i (List.mem_range.mp hi)

theorem andShareB_xorAll (n : Nat) (hn : 0 < n) (t : Nat → Triple Bool) (X Y : Bool)
    (ht : (xorAllB n (fun i => (t i).a) && xorAllB n (fun i => (t i).b)) = xorAllB n (fun i => (t i).c)) :
    xorAllB n (andShareB t (xor X (xorAllB n fun i => (t i).a)) (xor Y (xorAllB n fun i => (t i).b)))
      = (X && Y) := by
  generalize hd : xor X (xorAllB n fun i => (t i).a) = d
  generalize he : xor Y (xorAllB n fun i => (t i).b) = e
  have h1 : ∀ i, andShareB t d e i
      = xor (t i).c (xor (d && (t i).b) (xor (e && (t i).a) (if i = 0 then (d && e) else false))) := by
    intro i
    unfold andShareB
    by_cases h : i = 0
    · simp only [h, if_true]
    · simp only [h, if_false]
      cases (t i).c <;> cases (d && (t i).b) <;> cases (e && (t i).a) <;> rfl
  rw [show andShareB t d e = fun i => xor (t i).c (xor (d && (t i).b)
    (xor (e && (t i).a) (if i = 0 then (d && e) else false))) from funext h1]
  rw [xorAllB_xor, xorAllB_xor, xorAllB_xor, xorAllB_and, xorAllB_and, xorAllB_ite_zero n hn, ← ht,
    ← hd, ← he]
  generalize xorAllB n (fun i => (t i).a) = A
  generalize xorAllB n (fun i => (t i).b) = B
  cases A <;> cases B <;> cases X <;> cases Y <;> rfl

theorem and_identity (X Y A B : Nat) :
    A &&& B ^^^ (X ^^^ A) &&& B ^^^ (Y ^^^ B) &&& A ^^^ (X ^^^ A) &&& (Y ^^^ B) = X &&& Y := by
  apply Nat.eq_of_testBit_eq
  intro j
  simp only [Nat.testBit_xor, Nat.testBit_and]
  cases A.testBit j <;> cases B.testBit j <;> cases X.testBit j <;> cases Y.testBit j <;> rfl

theorem andShare_xorAll (n : Nat) (hn : 0 < n) (t : Nat → Triple Nat) (X Y : Nat)
    (ht : xorAll n (fun i => (t i).a) &&& xorAll n (fun i => (t i).b) = xorAll n (fun i => (t i).c)) :
    xorAll n (andShare t (X ^^^ xorAll n fun i => (t i).a) (Y ^^^ xorAll n fun i => (t i).b))
      = X &&& Y := by
  generalize hd : X ^^^ (xorAll n fun i => (t i).a) = d
  generalize he : Y ^^^ (xorAll n fun i => (t i).b) = e
  have h1 : ∀ i, andShare t d e i
      = (t i).c ^^^ d &&& (t i).b ^^^ e &&& (t i).a ^^^ (if i = 0 then d &&& e else 0) := by
    intro i
    unfold andShare
    by_cases h : i = 0
    · simp only [h, if_true]
    · simp only [h, if_false, Nat.xor_zero]
  rw [show andShare t d e = fun i => (t i).c ^^^ d &&& (t i).b ^^^ e &&& (t i).a
    ^^^ (if i = 0 then d &&& e else 0) from funext h1]
  rw [xorAll_xor, xorAll_xor, xorAll_xor, xorAll_and, xorAll_and, xorAll_ite_zero n hn, ← ht,
    ← hd, ← he]
  exact and_identity X Y _ _

theorem runAll_And1_bind {α : Type} (n : Nat) (hn : 0 < n) (io : Nat → Io)
    (hio : ∀ i, i < n → (io i).Id = i) (x y : Nat → Bool) (k : Nat → Bool → Prog α)
    (t : Nat → Triple Bool) (ts : List (List (Triple Bool))) (s : Supply)
    (hs : s.t1 = parties n t :: ts) :
    runAll (parties n fun i => (And1 (io i) (x i) (y i)).bind (k i)) s
      = runAll (parties n fun i => k i (andShareB t
          (xorAllB n fun j => xor (x j) (t j).a) (xorAllB n fun j => xor (y j) (t j).b) i))
          { s with t1 := ts } := by
  simp only [And1_bind]
  rw [runAll_triple1 n hn _ t ts s hs, runAll_open1 n hn, runAll_open1 n hn]
  congr 1
  apply parties_congr
  intro i hi
  unfold andShareB
  rw [hio i hi]
  simp only [Nat.cast_eq_zero]

theorem runAll_And8_bind {α : Type} (n : Nat) (hn : 0 < n) (io : Nat → Io)
    (hio : ∀ i, i < n → (io i).Id = i) (x y : Nat → Nat) (k : Nat → Nat → Prog α)
    (t : Nat → Triple Nat) (ts : List (List (Triple Nat))) (s : Supply)
    (hs : s.t8 = parties n t :: ts) :
    runAll (parties n fun i => (And8 (io i) (x i) (y i)).bind (k i)) s
      = runAll (parties n fun i => k i (andShare t
          (xorAll n fun j => x j ^^^ (t j).a) (xorAll n fun j => y j ^^^ (t j).b) i))
          { s with t8 := ts } := by
  simp only [And8_bind]
  rw [runAll_triple8 n hn _ t ts s hs, runAll_open8 n hn, runAll_open8 n hn]
  congr 1
  apply parties_congr
  intro i hi
  unfold andShare
  rw [hio i hi]
  simp only [Nat.cast_eq_zero]

theorem runAll_And32_bind {α : Type} (n : Nat) (hn : 0 < n) (io : Nat → Io)
    (hio : ∀ i, i < n → (io i).Id = i) (x y : Nat → Nat) (k : Nat → Nat → Prog α)
    (t : Nat → Triple Nat) (ts : List (List (Triple Nat))) (s : Supply)
    (hs : s.t32 = parties n t :: ts) :
    runAll (parties n fun i => (And32 (io i) (x i) (y i)).bind (k i)) s
      = runAll (parties n fun i => k i (andShare t
          (xorAll n fun j => x j ^^^ (t j).a) (xorAll n fun j => y j ^^^ (t j).b) i))
          { s with t32 := ts } := by
  simp only [And32_bind]
  rw [runAll_triple32 n hn _ t ts s hs, runAll_open32 n hn, runAll_open32 n hn]
  congr 1
  apply parties_congr
  intro i hi
  unfold andShare
  rw [hio i hi]
  simp only [Nat.cast_eq_zero]

end GMW

namespace GMW

/-! ### Ripple-carry loops, jointly -/

theorem and_two_pow_pos (a k : Nat) : decide ((a &&& 2 ^ k) > 0) = a.testBit k := by
  by_cases h : a.testBit k = true
  · have h1 : (a &&& 2 ^ k).testBit k = true := by
      simp [h, Nat.testBit_two_pow_self]
    have h2 : a &&& 2 ^ k ≠ 0 := by
      intro h0
      rw [h0] at h1
      simp at h1
    simp [h, Nat.pos_of_ne_zero h2]
  · have h0 : a &&& 2 ^ k = 0 := by
      apply Nat.eq_of_testBit_eq
      intro j
      simp only [Nat.testBit_and, Nat.testBit_two_pow, Nat.zero_testBit]
      by_cases hj : k = j
      · subst hj; simp [h]
      · simp [hj]
    simp [h0, h]

theorem and_one_pos (a : Nat) : decide ((a &&& 1) > 0) = a.testBit 0 := by
  have := and_two_pow_pos a 0
  simpa using this

theorem testBit_xorAll (n : Nat) (f : Nat → Nat) (k : Nat) :
    (xorAll n f).testBit k = xorAllB n fun i => (f i).testBit k := by
  induction n with
  | zero => simp [xorAll, xorAllB]
  | succ n ih => rw [xorAll_succ, xorAllB_succ, Nat.testBit_xor, ih, xor_eq]

theorem xorAll_ite (n : Nat) (s : Nat → Bool) (v : Nat) :
    xorAll n (fun i => if s i then v else 0) = if xorAllB n s then v else 0 := by
  induction n with
  | zero => simp [xorAll, xorAllB]
  | succ n ih =>
    rw [xorAll_succ, xorAllB_succ, ih]
    cases xorAllB n s <;> cases s n <;> simp [xor]

theorem or_two_pow_eq_xor (r k : Nat) (h : r < 2 ^ k) : r ||| 2 ^ k = r ^^^ 2 ^ k := by
  apply Nat.eq_of_testBit_eq
  intro j
  simp only [Nat.testBit_or, Nat.testBit_xor, Nat.testBit_two_pow]
  by_cases hj : k = j
  · subst hj; simp [Nat.testBit_lt_two_pow h]
  · simp [hj]

theorem ite_or_two_pow (r k : Nat) (h : r < 2 ^ k) (s : Bool) :
    (if s then r ||| 2 ^ k else r) = r ^^^ (if s then 2 ^ k else 0) := by
  cases s
  · simp
  · simp [or_two_pow_eq_xor r k h]

theorem ite_or_two_pow_lt (r k : Nat) (h : r < 2 ^ k) (s : Bool) :
    (if s then r ||| 2 ^ k else r) < 2 ^ (k + 1) := by
  have h1 : r < 2 ^ (k + 1) := Nat.lt_trans h (Nat.pow_lt_pow_right (by decide) (Nat.lt_succ_self k))
  cases s
  · simpa using h1
  · simp only [if_true]
    exact Nat.or_lt_two_pow h1 (Nat.pow_lt_pow_right (by decide) (Nat.lt_succ_self k))

theorem addLoop_zero_i (w : Nat) (io : Io) (a b fuel result : Nat) (c : Bool) :
    addLoop w io a b (fuel + 1) 0 result c = .ret result := by
  simp [addLoop]

theorem addLoop_step (w : Nat) (io : Io) (a b fuel i result : Nat) (c : Bool) (hi : 0 < i) :
    addLoop w io a b (fuel + 1) i result c
      = (And1 io (xor (decide ((a &&& i) > 0)) c) (xor (decide ((b &&& i) > 0)) c)).bind fun t =>
          addLoop w io a b fuel (i * 2 % 2 ^ w)
            (if xor (decide ((a &&& i) > 0)) (xor (decide ((b &&& i) > 0)) c) then result ||| i else result)
            (xor c t) := by
  rw [addLoop, if_pos hi]
  rfl

theorem subLoop_zero_i (w : Nat) (io : Io) (a b fuel result : Nat) (c : Bool) :
    subLoop w io a b (fuel + 1) 0 result c = .ret result := by
  simp [subLoop]

theorem subLoop_step (w : Nat) (io : Io) (a b fuel i result : Nat) (c : Bool) (hi : 0 < i) :
    subLoop w io a b (fuel + 1) i result c
      = (And1 io (xor (decide ((a &&& i) > 0)) c) (xor (decide ((b &&& i) > 0)) c)).bind fun t =>
          subLoop w io a b fuel (i * 2 % 2 ^ w)
            (if Not1 io (xor (decide ((a &&& i) > 0)) (xor (decide ((b &&& i) > 0)) c))
              then result ||| i else result)
            (xor (decide ((a &&& i) > 0)) t) := by
  rw [subLoop, if_pos hi]
  rfl

end GMW

namespace GMW

theorem two_pow_mod_lt (k w : Nat) (h : k < w) : 2 ^ k % 2 ^ w = 2 ^ k :=
  Nat.mod_eq_of_lt (Nat.pow_lt_pow_right (by decide) h)

theorem andShareB_xorAll_code (n : Nat) (hn : 0 < n) (t : Nat → Triple Bool) (x y : Nat → Bool)
    (ht : validTriple1 n t) :
    xorAllB n (andShareB t (xorAllB n fun j => xor (x j) (t j).a)
      (xorAllB n fun j => xor (y j) (t j).b)) = (xorAllB n x && xorAllB n y) := by
  rw [xorAllB_xor, xorAllB_xor]
  exact andShareB_xorAll n hn t _ _ ht

theorem andShare_xorAll_code (n : Nat) (hn : 0 < n) (t : Nat → Triple Nat) (x y : Nat → Nat)
    (ht : validTriple n t) :
    xorAll n (andShare t (xorAll n fun j => x j ^^^ (t j).a)
      (xorAll n fun j => y j ^^^ (t j).b)) = xorAll n x &&& xorAll n y := by
  rw [xorAll_xor, xorAll_xor]
  exact andShare_xorAll n hn t _ _ ht

theorem addLoop_joint (w n : Nat) (hn : 0 < n) (io : Nat → Io) (hio : ∀ i, i < n → (io i).Id = i)
    (a b : Nat → Nat) :
    ∀ (m k : Nat), k + m = w → ∀ (res : Nat → Nat) (c : Nat → Bool)
      (ts : List (Nat → Triple Bool)) (s : Supply),
      m ≤ ts.length → (∀ t ∈ ts, validTriple1 n t) → s.t1 = ts.map (parties n) →
      (∀ i, res i < 2 ^ k) →
      ∃ r : Nat → Nat,
        runAll (parties n fun i => addLoop w (io i) (a i) (b i) (m + 1) (2 ^ k % 2 ^ w) (res i) (c i)) s
          = some (parties n r) ∧
        xorAll n r = clearLoop addBit addCarry (xorAll n a) (xorAll n b) m k (xorAll n res)
          (xorAllB n c) := by
  intro m
  induction m with
  | zero =>
    intro k hk res c ts s _ _ _ _
    have hkw : k = w := by omega
    subst hkw
    refine ⟨res, ?_, rfl⟩
    simp only [Nat.mod_self, addLoop_zero_i]
    exact runAll_ret n hn res s
  | succ m ih =>
    intro k hk res c ts s hlen hval hs hres
    have hkw : k < w := by omega
    rw [two_pow_mod_lt k w hkw]
    have hpos : 0 < 2 ^ k := Nat.two_pow_pos k
    match ts, hlen, hval, hs with
    | [], hlen, _, _ => simp at hlen
    | t :: ts', hlen, hval, hs =>
      simp only [addLoop_step _ _ _ _ _ _ _ _ hpos, and_two_pow_pos]
      rw [runAll_And1_bind n hn io hio _ _ _ t (ts'.map (parties n)) s (by simpa using hs)]
      have hmul : 2 ^ k * 2 % 2 ^ w = 2 ^ (k + 1) % 2 ^ w := by rw [Nat.pow_succ]
      simp only [hmul]
      have hvt : validTriple1 n t := hval t (List.mem_cons_self _ _)
      obtain ⟨r, hr1, hr2⟩ := ih (k + 1) (by omega)
        (fun i => if xor ((a i).testBit k) (xor ((b i).testBit k) (c i)) then res i ||| 2 ^ k else res i)
        (fun i => xor (c i) (andShareB t
          (xorAllB n fun j => xor (xor ((a j).testBit k) (c j)) (t j).a)
          (xorAllB n fun j => xor (xor ((b j).testBit k) (c j)) (t j).b) i))
        ts' { s with t1 := ts'.map (parties n) } (by simpa using hlen)
        (fun t' ht' => hval t' (List.mem_cons_of_mem _ ht')) rfl
        (fun i => ite_or_two_pow_lt (res i) k (hres i) _)
      refine ⟨r, hr1, ?_⟩
      rw [hr2, clearLoop]
      congr 1
      · simp only [fun i => ite_or_two_pow (res i) k (hres i)]
        rw [xorAll_xor, xorAll_ite, xorAllB_xor, xorAllB_xor, testBit_xorAll, testBit_xorAll]
        rfl
      · rw [xorAllB_xor, andShareB_xorAll_code n hn t _ _ hvt,
          xorAllB_xor, xorAllB_xor, testBit_xorAll, testBit_xorAll]
        rfl

end GMW

namespace GMW

theorem xorAllB_Not1 (n : Nat) (hn : 0 < n) (io : Nat → Io) (hio : ∀ i, i < n → (io i).Id = i)
    (v : Nat → Bool) : xorAllB n (fun i => Not1 (io i) (v i)) = !(xorAllB n v) := by
  have h : xorAllB n (fun i => Not1 (io i) (v i))
      = xorAllB n (fun i => xor (v i) (if i = 0 then true else false)) := by
    apply xorAllB_congr
    intro i hi
    unfold Not1
    rw [hio i hi]
    by_cases h0 : i = 0
    · subst h0; cases v 0 <;> rfl
    · have : ¬ ((i : Int) = 0) := by exact_mod_cast h0
      simp only [this, h0, if_false]
      cases v i <;> rfl
  rw [h, xorAllB_xor, xorAllB_ite_zero n hn]
  cases xorAllB n v <;> rfl

theorem subLoop_joint (w n : Nat) (hn : 0 < n) (io : Nat → Io) (hio : ∀ i, i < n → (io i).Id = i)
    (a b : Nat → Nat) :
    ∀ (m k : Nat), k + m = w → ∀ (res : Nat → Nat) (c : Nat → Bool)
      (ts : List (Nat → Triple Bool)) (s : Supply),
      m ≤ ts.length → (∀ t ∈ ts, validTriple1 n t) → s.t1 = ts.map (parties n) →
      (∀ i, res i < 2 ^ k) →
      ∃ r : Nat → Nat,
        runAll (parties n fun i => subLoop w (io i) (a i) (b i) (m + 1) (2 ^ k % 2 ^ w) (res i) (c i)) s
          = some (parties n r) ∧
        xorAll n r = clearLoop subBit subCarry (xorAll n a) (xorAll n b) m k (xorAll n res)
          (xorAllB n c) := by
  intro m
  induction m with
  | zero =>
    intro k hk res c ts s _ _ _ _
    have hkw : k = w := by omega
    subst hkw
    refine ⟨res, ?_, rfl⟩
    simp only [Nat.mod_self, subLoop_zero_i]
    exact runAll_ret n hn res s
  | succ m ih =>
    intro k hk res c ts s hlen hval hs hres
    have hkw : k < w := by omega
    rw [two_pow_mod_lt k w hkw]
    have hpos : 0 < 2 ^ k := Nat.two_pow_pos k
    match ts, hlen, hval, hs with
    | [], hlen, _, _ => simp at hlen
    | t :: ts', hlen, hval, hs =>
      simp only [subLoop_step _ _ _ _ _ _ _ _ hpos, and_two_pow_pos]
      rw [runAll_And1_bind n hn io hio _ _ _ t (ts'.map (parties n)) s (by simpa using hs)]
      have hmul : 2 ^ k * 2 % 2 ^ w = 2 ^ (k + 1) % 2 ^ w := by rw [Nat.pow_succ]
      simp only [hmul]
      have hvt : validTriple1 n t := hval t (List.mem_cons_self _ _)
      obtain ⟨r, hr1, hr2⟩ := ih (k + 1) (by omega)
        (fun i => if Not1 (io i) (xor ((a i).testBit k) (xor ((b i).testBit k) (c i)))
          then res i ||| 2 ^ k else res i)
        (fun i => xor ((a i).testBit k) (andShareB t
          (xorAllB n fun j => xor (xor ((a j).testBit k) (c j)) (t j).a)
          (xorAllB n fun j => xor (xor ((b j).testBit k) (c j)) (t j).b) i))
        ts' { s with t1 := ts'.map (parties n) } (by simpa using hlen)
        (fun t' ht' => hval t' (List.mem_cons_of_mem _ ht')) rfl
        (fun i => ite_or_two_pow_lt (res i) k (hres i) _)
      refine ⟨r, hr1, ?_⟩
      rw [hr2, clearLoop]
      congr 1
      · simp only [fun i => ite_or_two_pow (res i) k (hres i)]
        rw [xorAll_xor, xorAll_ite, xorAllB_Not1 n hn io hio, xorAllB_xor, xorAllB_xor,
          testBit_xorAll, testBit_xorAll]
        rfl
      · rw [xorAllB_xor, andShareB_xorAll_code n hn t _ _ hvt,
          xorAllB_xor, xorAllB_xor, testBit_xorAll, testBit_xorAll]
        rfl

/-! ### The cleartext loop computes the sum -/

theorem clearLoop_spec (w : Nat) (f g : Bool → Bool → Bool → Bool) (A B : Nat)
    (x y : BitVec w) (cin : Bool)
    (hf : ∀ k, k < w → ∀ c, f (A.testBit k) (B.testBit k) c = (x.getLsbD k ^^ (y.getLsbD k ^^ c)))
    (hg : ∀ k, k < w → ∀ c,
      g (A.testBit k) (B.testBit k) c = Bool.atLeastTwo (x.getLsbD k) (y.getLsbD k) c) :
    ∀ (m k : Nat), k + m = w → ∀ R : Nat,
      (∀ j, R.testBit j
        = (decide (j < k) && (x + y + BitVec.setWidth w (BitVec.ofBool cin)).toNat.testBit j)) →
      clearLoop f g A B m k R (BitVec.carry k x y cin)
        = (x + y + BitVec.setWidth w (BitVec.ofBool cin)).toNat := by
  intro m
  induction m with
  | zero =>
    intro k hk R hR
    have hkw : k = w := by omega
    subst hkw
    rw [clearLoop]
    apply Nat.eq_of_testBit_eq
    intro j
    rw [hR j]
    by_cases hj : j < k
    · simp [hj]
    · have hlt : (x + y + BitVec.setWidth k (BitVec.ofBool cin)).toNat < 2 ^ j :=
        Nat.lt_of_lt_of_le (BitVec.isLt _) (Nat.pow_le_pow_right (by decide) (by omega))
      simp [hj, Nat.testBit_lt_two_pow hlt]
  | succ m ih =>
    intro k hk R hR
    have hkw : k < w := by omega
    rw [clearLoop, hf k hkw, hg k hkw, ← BitVec.carry_succ]
    apply ih (k + 1) (by omega)
    intro j
    have hS : (x + y + BitVec.setWidth w (BitVec.ofBool cin)).toNat.testBit k
        = (x.getLsbD k ^^ (y.getLsbD k ^^ BitVec.carry k x y cin)) := by
      rw [BitVec.testBit_toNat, BitVec.getLsbD_add_add_bool hkw]
    rw [Nat.testBit_xor, hR j]
    by_cases hjk : j < k
    · have h1 : j < k + 1 := by omega
      have h2 : k ≠ j := by omega
      cases hb : (x.getLsbD k ^^ (y.getLsbD k ^^ BitVec.carry k x y cin)) <;>
        simp [hjk, h1, h2, Nat.testBit_two_pow]
    · by_cases hje : j = k
      · subst hje
        rw [hS]
        cases hb : (x.getLsbD j ^^ (y.getLsbD j ^^ BitVec.carry j x y cin)) <;>
          simp [Nat.testBit_two_pow_self]
      · have h1 : ¬ j < k + 1 := by omega
        have h2 : k ≠ j := by omega
        cases hb : (x.getLsbD k ^^ (y.getLsbD k ^^ BitVec.carry k x y cin)) <;>
          simp [hjk, h1, h2, Nat.testBit_two_pow]

end GMW

namespace GMW

theorem getLsbD_ofNat_lt (w A k : Nat) (h : k < w) : (BitVec.ofNat w A).getLsbD k = A.testBit k := by
  simp [BitVec.getLsbD_ofNat, h]

theorem testBit_ite_one (s : Bool) (j : Nat) :
    (if s then 1 else 0 : Nat).testBit j = (decide (j < 1) && s) := by
  cases s
  · simp
  · by_cases hj : j = 0
    · subst hj; simp
    · have : ¬ j < 1 := by omega
      have h1 : (1 : Nat) = 2 ^ 0 := rfl
      simp only [if_true, this, decide_False, Bool.false_and]
      rw [h1, Nat.testBit_two_pow]
      simp; omega

/-- The adder loop started as in `Add8`/`Add32`, for shares whose local carry
out of bit 0 is consistent with the cleartext carry. -/
theorem add_joint (w n : Nat) (hw : 2 ≤ w) (hn : 0 < n) (io : Nat → Io)
    (hio : ∀ i, i < n → (io i).Id = i) (a b : Nat → Nat)
    (ts : List (Nat → Triple Bool)) (s : Supply)
    (hlen : w - 1 ≤ ts.length) (hval : ∀ t ∈ ts, validTriple1 n t) (hs : s.t1 = ts.map (parties n))
    (hc : xorAllB n (fun i => (a i).testBit 0 && (b i).testBit 0)
      = ((xorAll n a).testBit 0 && (xorAll n b).testBit 0)) :
    ∃ r : Nat → Nat,
      runAll (parties n fun i => addLoop w (io i) (a i) (b i) w 2
        (if xor (decide (((a i) &&& 1) > 0)) (decide (((b i) &&& 1) > 0)) then 0 ||| 1 else 0)
        (decide (((a i) &&& 1) > 0) && decide (((b i) &&& 1) > 0))) s = some (parties n r) ∧
      xorAll n r = (xorAll n a + xorAll n b) % 2 ^ w := by
  obtain ⟨m, rfl⟩ : ∃ m, w = m + 1 := ⟨w - 1, by omega⟩
  have h2 : (2 : Nat) = 2 ^ 1 % 2 ^ (m + 1) := by
    rw [two_pow_mod_lt 1 (m + 1) (by omega)]; rfl
  simp only [and_one_pos]
  obtain ⟨r, hr1, hr2⟩ := addLoop_joint (m + 1) n hn io hio a b m 1 (by omega)
    (fun i => if xor ((a i).testBit 0) ((b i).testBit 0) then 0 ||| 1 else 0)
    (fun i => (a i).testBit 0 && (b i).testBit 0) ts s (by simpa using hlen) hval hs
    (fun i => by dsimp only; split <;> simp)
  rw [← h2] at hr1
  refine ⟨r, hr1, ?_⟩
  rw [hr2, hc]
  have hspec := clearLoop_spec (m + 1) addBit addCarry (xorAll n a) (xorAll n b)
    (BitVec.ofNat (m + 1) (xorAll n a)) (BitVec.ofNat (m + 1) (xorAll n b)) false
    (fun k hk c => by
      rw [getLsbD_ofNat_lt _ _ _ hk, getLsbD_ofNat_lt _ _ _ hk]
      unfold addBit
      cases (xorAll n a).testBit k <;> cases (xorAll n b).testBit k <;> cases c <;> rfl)
    (fun k hk c => by
      rw [getLsbD_ofNat_lt _ _ _ hk, getLsbD_ofNat_lt _ _ _ hk]
      unfold addCarry
      cases (xorAll n a).testBit k <;> cases (xorAll n b).testBit k <;> cases c <;> rfl)
    m 1 (by omega)
    (xorAll n fun i => if xor ((a i).testBit 0) ((b i).testBit 0) then 0 ||| 1 else 0)
    (by
      intro j
      have e1 : (xorAll n fun i => if xor ((a i).testBit 0) ((b i).testBit 0) = true then 0 ||| 1 else 0)
          = if xorAllB n (fun i => xor ((a i).testBit 0) ((b i).testBit 0)) then 1 else 0 := by
        rw [← xorAll_ite]; rfl
      rw [e1, testBit_ite_one]
      by_cases hj : j < 1
      · have hj0 : j = 0 := by omega
        subst hj0
        rw [BitVec.testBit_toNat, BitVec.getLsbD_add_add_bool (by omega),
          getLsbD_ofNat_lt _ _ _ (by omega), getLsbD_ofNat_lt _ _ _ (by omega),
          xorAllB_xor, ← testBit_xorAll, ← testBit_xorAll]
        simp [xor_eq]
      · simp [hj])
  have hcar : BitVec.carry 1 (BitVec.ofNat (m + 1) (xorAll n a)) (BitVec.ofNat (m + 1) (xorAll n b)) false
      = ((xorAll n a).testBit 0 && (xorAll n b).testBit 0) := by
    rw [BitVec.carry_succ, getLsbD_ofNat_lt _ _ _ (by omega), getLsbD_ofNat_lt _ _ _ (by omega)]
    simp
  rw [hcar] at hspec
  rw [hspec]
  simp [BitVec.toNat_add]

end GMW

namespace GMW

/-- The subtractor as started in `Sub8`/`Sub32`: the first `And1` and then the loop. -/
theorem sub_joint (w n : Nat) (hw : 2 ≤ w) (hn : 0 < n) (io : Nat → Io)
    (hio : ∀ i, i < n → (io i).Id = i) (a b : Nat → Nat)
    (ts : List (Nat → Triple Bool)) (s : Supply)
    (hlen : w ≤ ts.length) (hval : ∀ t ∈ ts, validTriple1 n t) (hs : s.t1 = ts.map (parties n)) :
    ∃ r : Nat → Nat,
      runAll (parties n fun i =>
        (And1 (io i) (Not1 (io i) (decide (((a i) &&& 1) > 0)))
          (Not1 (io i) (decide (((b i) &&& 1) > 0)))).bind fun t =>
          subLoop w (io i) (a i) (b i) w 2
            (if xor (decide (((a i) &&& 1) > 0)) (decide (((b i) &&& 1) > 0)) then 0 ||| 1 else 0)
            (xor (decide (((a i) &&& 1) > 0)) t)) s = some (parties n r) ∧
      xorAll n r = (BitVec.ofNat w (xorAll n a) - BitVec.ofNat w (xorAll n b)).toNat := by
  obtain ⟨m, rfl⟩ : ∃ m, w = m + 1 := ⟨w - 1, by omega⟩
  have h2 : (2 : Nat) = 2 ^ 1 % 2 ^ (m + 1) := by
    rw [two_pow_mod_lt 1 (m + 1) (by omega)]; rfl
  simp only [and_one_pos]
  match ts, hlen, hval, hs with
  | [], hlen, _, _ => simp at hlen
  | t :: ts', hlen, hval, hs =>
    rw [runAll_And1_bind n hn io hio _ _ _ t (ts'.map (parties n)) s (by simpa using hs)]
    have hvt : validTriple1 n t := hval t (List.mem_cons_self _ _)
    obtain ⟨r, hr1, hr2⟩ := subLoop_joint (m + 1) n hn io hio a b m 1 (by omega)
      (fun i => if xor ((a i).testBit 0) ((b i).testBit 0) then 0 ||| 1 else 0)
      (fun i => xor ((a i).testBit 0) (andShareB t
        (xorAllB n fun j => xor (Not1 (io j) ((a j).testBit 0)) (t j).a)
        (xorAllB n fun j => xor (Not1 (io j) ((b j).testBit 0)) (t j).b) i))
      ts' { s with t1 := ts'.map (parties n) } (by simpa using hlen)
      (fun t' ht' => hval t' (List.mem_cons_of_mem _ ht')) rfl
      (fun i => by dsimp only; split <;> simp)
    rw [← h2] at hr1
    refine ⟨r, hr1, ?_⟩
    rw [hr2, xorAllB_xor, andShareB_xorAll_code n hn t _ _ hvt, xorAllB_Not1 n hn io hio,
      xorAllB_Not1 n hn io hio, ← testBit_xorAll, ← testBit_xorAll]
    have hspec := clearLoop_spec (m + 1) subBit subCarry (xorAll n a) (xorAll n b)
      (BitVec.ofNat (m + 1) (xorAll n a)) (~~~ BitVec.ofNat (m + 1) (xorAll n b)) true
      (fun k hk c => by
        rw [BitVec.getLsbD_not, getLsbD_ofNat_lt _ _ _ hk, getLsbD_ofNat_lt _ _ _ hk]
        unfold subBit
        simp only [hk, decide_True, Bool.true_and]
        cases (xorAll n a).testBit k <;> cases (xorAll n b).testBit k <;> cases c <;> rfl)
      (fun k hk c => by
        rw [BitVec.getLsbD_not, getLsbD_ofNat_lt _ _ _ hk, getLsbD_ofNat_lt _ _ _ hk]
        unfold subCarry
        simp only [hk, decide_True, Bool.true_and]
        cases (xorAll n a).testBit k <;> cases (xorAll n b).testBit k <;> cases c <;> rfl)
      m 1 (by omega)
      (xorAll n fun i => if xor ((a i).testBit 0) ((b i).testBit 0) then 0 ||| 1 else 0)
      (by
        intro j
        have e1 : (xorAll n fun i => if xor ((a i).testBit 0) ((b i).testBit 0) = true then 0 ||| 1 else 0)
            = if xorAllB n (fun i => xor ((a i).testBit 0) ((b i).testBit 0)) then 1 else 0 := by
          rw [← xorAll_ite]; rfl
        rw [e1, testBit_ite_one]
        by_cases hj : j < 1
        · have hj0 : j = 0 := by omega
          subst hj0
          rw [BitVec.testBit_toNat, BitVec.getLsbD_add_add_bool (by omega), BitVec.getLsbD_not,
            getLsbD_ofNat_lt _ _ _ (by omega), getLsbD_ofNat_lt _ _ _ (by omega),
            xorAllB_xor, ← testBit_xorAll, ← testBit_xorAll]
          simp only [BitVec.carry_zero, xor_eq]
          cases (xorAll n a).testBit 0 <;> cases (xorAll n b).testBit 0 <;> simp
        · simp [hj])
    have hcar : BitVec.carry 1 (BitVec.ofNat (m + 1) (xorAll n a))
        (~~~ BitVec.ofNat (m + 1) (xorAll n b)) true
        = xor ((xorAll n a).testBit 0) (!(xorAll n a).testBit 0 && !(xorAll n b).testBit 0) := by
      rw [BitVec.carry_succ, BitVec.getLsbD_not, getLsbD_ofNat_lt _ _ _ (by omega),
        getLsbD_ofNat_lt _ _ _ (by omega)]
      simp only [BitVec.carry_zero, xor_eq]
      cases (xorAll n a).testBit 0 <;> cases (xorAll n b).testBit 0 <;> simp
    rw [hcar] at hspec
    rw [hspec]
    congr 1
    rw [BitVec.sub_toAdd, BitVec.neg_eq_not_add, BitVec.add_assoc]
    congr 2
    apply BitVec.eq_of_toNat_eq
    simp

theorem toNat_sub_int32 (A B : Nat) :
    (((BitVec.ofNat 32 A - BitVec.ofNat 32 B).toNat : Nat) : Int) = ((A : Int) - (B : Int)) % 2 ^ 32 := by
  rw [BitVec.toNat_sub]
  simp only [BitVec.toNat_ofNat]
  norm_num
  omega

theorem toNat_sub_int8 (A B : Nat) :
    (((BitVec.ofNat 8 A - BitVec.ofNat 8 B).toNat : Nat) : Int) = ((A : Int) - (B : Int)) % 2 ^ 8 := by
  rw [BitVec.toNat_sub]
  simp only [BitVec.toNat_ofNat]
  norm_num
  omega

end GMW

namespace GMW

theorem xorListB_parties (n : Nat) (r : Nat → Bool) : xorListB (parties n r) = xorAllB n r := by
  simp [xorListB, parties, xorAllB, List.foldl_map]

/-- C1. Beaver AND on shares: for `n ≥ 1` parties with identifiers `0..n-1`, any
shares `x i`, `y i` and any valid dealt triple, the joint run of `And32` returns
one share per party and the shares XOR to the AND of the shared values; the
same for `And8` and for `And1`. -/
theorem gmw_and_correct (n : Nat) (hn : 1 ≤ n) (io : Nat → Io)
    (hio : ∀ i, i < n → (io i).Id = i)
    (x y x8 y8 : Nat → Nat) (x1 y1 : Nat → Bool)
    (t32 t8 : Nat → Triple Nat) (t1 : Nat → Triple Bool) (s : Supply)
    (r32 r8 : List (List (Triple Nat))) (r1 : List (List (Triple Bool)))
    (h32 : s.t32 = parties n t32 :: r32) (h8 : s.t8 = parties n t8 :: r8)
    (h1 : s.t1 = parties n t1 :: r1)
    (v32 : validTriple n t32) (v8 : validTriple n t8) (v1 : validTriple1 n t1) :
    (∃ rs, runAll (parties n fun i => And32 (io i) (x i) (y i)) s = some rs ∧ rs.length = n ∧
      xorList rs = xorAll n x &&& xorAll n y) ∧
    (∃ rs, runAll (parties n fun i => And8 (io i) (x8 i) (y8 i)) s = some rs ∧ rs.length = n ∧
      xorList rs = xorAll n x8 &&& xorAll n y8) ∧
    (∃ rs, runAll (parties n fun i => And1 (io i) (x1 i) (y1 i)) s = some rs ∧ rs.length = n ∧
      xorListB rs = (xorAllB n x1 && xorAllB n y1)) := by
  have hn' : 0 < n := hn
  refine ⟨?_, ?_, ?_⟩
  · have e : (fun i => And32 (io i) (x i) (y i))
        = fun i => (And32 (io i) (x i) (y i)).bind Prog.ret := by
      funext i; rw [bind_ret]
    rw [e, runAll_And32_bind n hn' io hio x y _ t32 r32 s h32, runAll_ret n hn']
    exact ⟨_, rfl, parties_length _ _, by
      rw [xorList_parties]; exact andShare_xorAll_code n hn' t32 x y v32⟩
  · have e : (fun i => And8 (io i) (x8 i) (y8 i))
        = fun i => (And8 (io i) (x8 i) (y8 i)).bind Prog.ret := by
      funext i; rw [bind_ret]
    rw [e, runAll_And8_bind n hn' io hio x8 y8 _ t8 r8 s h8, runAll_ret n hn']
    exact ⟨_, rfl, parties_length _ _, by
      rw [xorList_parties]; exact andShare_xorAll_code n hn' t8 x8 y8 v8⟩
  · have e : (fun i => And1 (io i) (x1 i) (y1 i))
        = fun i => (And1 (io i) (x1 i) (y1 i)).bind Prog.ret := by
      funext i; rw [bind_ret]
    rw [e, runAll_And1_bind n hn' io hio x1 y1 _ t1 r1 s h1, runAll_ret n hn']
    exact ⟨_, rfl, parties_length _ _, by
      rw [xorListB_parties]; exact andShareB_xorAll_code n hn' t1 x1 y1 v1⟩

theorem gmw_and_correct_witness :
    (validTriple 3 witnessTriple ∧ validTriple1 3 witnessTriple1) ∧
    ((∃ rs, runAll (parties 3 fun i => And32 (ioOf i) ([5, 6, 7].getD i 0) ([9, 1, 12].getD i 0))
        witnessSupply = some rs ∧ rs.length = 3 ∧
        xorList rs = xorAll 3 (fun i => [5, 6, 7].getD i 0) &&& xorAll 3 (fun i => [9, 1, 12].getD i 0)) ∧
     (∃ rs, runAll (parties 3 fun i => And8 (ioOf i) ([5, 6, 7].getD i 0) ([9, 1, 12].getD i 0))
        witnessSupply = some rs ∧ rs.length = 3 ∧
        xorList rs = xorAll 3 (fun i => [5, 6, 7].getD i 0) &&& xorAll 3 (fun i => [9, 1, 12].getD i 0)) ∧
     (∃ rs, runAll (parties 3 fun i => And1 (ioOf i) ([true, true, true].getD i false)
          ([false, true, false].getD i false)) witnessSupply = some rs ∧ rs.length = 3 ∧
        xorListB rs = (xorAllB 3 (fun i => [true, true, true].getD i false) &&
          xorAllB 3 (fun i => [false, true, false].getD i false)))) :=
  ⟨⟨by decide, by decide⟩,
    gmw_and_correct 3 (by decide) (fun i => ioOf i) (fun _ _ => rfl)
      (fun i => [5, 6, 7].getD i 0) (fun i => [9, 1, 12].getD i 0)
      (fun i => [5, 6, 7].getD i 0) (fun i => [9, 1, 12].getD i 0)
      (fun i => [true, true, true].getD i false) (fun i => [false, true, false].getD i false)
      witnessTriple witnessTriple witnessTriple1
      witnessSupply [] [] [] rfl rfl rfl (by decide) (by decide) (by decide)⟩

end GMW

namespace GMW

/-- C2 (evaluation of the code). Two parties hold shares `1, 0` of `a = 1` and
`0, 1` of `b = 1`, and every `And1` is served by a valid triple.  `Add32` and
`Add8` return the shares `1, 1`, which XOR to `0`, while `a + b = 2`: the
carry out of bit 0 is computed by each party from its own shares alone. -/
theorem gmw_add_carry_lost :
    runAll (parties 2 fun i => Add32 (ioOf i) (sharesA i) (sharesB i)) zeroSupply = some [1, 1] ∧
    runAll (parties 2 fun i => Add8 (ioOf i) (sharesA i) (sharesB i)) zeroSupply = some [1, 1] ∧
    xorList [1, 1] = 0 ∧
    (xorAll 2 sharesA + xorAll 2 sharesB) % 2 ^ 32 = 2 ∧
    (xorAll 2 sharesA + xorAll 2 sharesB) % 2 ^ 8 = 2 ∧
    (∀ t ∈ zeroSupply.t1, t = parties 2 (fun _ => ⟨false, false, false⟩)) ∧
    validTriple1 2 (fun _ => ⟨false, false, false⟩) := by
  refine ⟨by decide, by decide, by decide, by decide, by decide, by decide, by decide⟩

/-- The same for every choice of valid triples: the shares returned by `Add32`
on the shares above XOR to `0`. -/
theorem add32_carry_lost_any_triples (ts : List (Nat → Triple Bool)) (s : Supply)
    (hlen : 31 ≤ ts.length) (hval : ∀ t ∈ ts, validTriple1 2 t) (hs : s.t1 = ts.map (parties 2)) :
    ∃ rs, runAll (parties 2 fun i => Add32 (ioOf i) (sharesA i) (sharesB i)) s = some rs ∧
      xorList rs = 0 := by
  have h2 : (2 : Nat) = 2 ^ 1 % 2 ^ 32 := by decide
  obtain ⟨r, hr1, hr2⟩ := addLoop_joint 32 2 (by decide) (fun i => ioOf i) (fun _ _ => rfl)
    sharesA sharesB 31 1 (by decide)
    (fun i => if xor (decide ((sharesA i &&& 1) > 0)) (decide ((sharesB i &&& 1) > 0))
      then 0 ||| 1 else 0)
    (fun i => decide ((sharesA i &&& 1) > 0) && decide ((sharesB i &&& 1) > 0))
    ts s hlen hval hs (fun i => by dsimp only; split <;> simp)
  rw [← h2] at hr1
  refine ⟨_, hr1, ?_⟩
  rw [xorList_parties, hr2]
  decide

/-- C3. Subtraction on shares: for `n ≥ 1` parties with identifiers `0..n-1`,
any shares `a i`, `b i` and valid dealt triples for every `And1`, the joint run
of `Sub32` returns one share per party and the shares XOR to the difference of
the shared values modulo `2^32`; the same for `Sub8` modulo `2^8`. -/
theorem gmw_sub_correct (n : Nat) (hn : 1 ≤ n) (io : Nat → Io)
    (hio : ∀ i, i < n → (io i).Id = i) (a b : Nat → Nat)
    (ts : List (Nat → Triple Bool)) (s : Supply)
    (hlen : 32 ≤ ts.length) (hval : ∀ t ∈ ts, validTriple1 n t) (hs : s.t1 = ts.map (parties n)) :
    (∃ rs, runAll (parties n fun i => Sub32 (io i) (a i) (b i)) s = some rs ∧ rs.length = n ∧
      ((xorList rs : Nat) : Int) = ((xorAll n a : Nat) - (xorAll n b : Nat) : Int) % 2 ^ 32) ∧
    (∃ rs, runAll (parties n fun i => Sub8 (io i) (a i) (b i)) s = some rs ∧ rs.length = n ∧
      ((xorList rs : Nat) : Int) = ((xorAll n a : Nat) - (xorAll n b : Nat) : Int) % 2 ^ 8) := by
  have hn' : 0 < n := hn
  constructor
  · obtain ⟨r, hr1, hr2⟩ := sub_joint 32 n (by decide) hn' io hio a b ts s hlen hval hs
    refine ⟨parties n r, hr1, parties_length _ _, ?_⟩
    rw [xorList_parties, hr2]
    exact toNat_sub_int32 _ _
  · obtain ⟨r, hr1, hr2⟩ := sub_joint 8 n (by decide) hn' io hio a b ts s (by omega) hval hs
    refine ⟨parties n r, hr1, parties_length _ _, ?_⟩
    rw [xorList_parties, hr2]
    exact toNat_sub_int8 _ _

theorem gmw_sub_correct_witness :
    (32 ≤ (List.replicate 32 (fun _ : Nat => (⟨false, false, false⟩ : Triple Bool))).length ∧
      validTriple1 2 (fun _ => ⟨false, false, false⟩)) ∧
    ((∃ rs, runAll (parties 2 fun i => Sub32 (ioOf i) (sharesA i) (sharesB i)) zeroSupply = some rs ∧
        rs.length = 2 ∧
        ((xorList rs : Nat) : Int) = ((xorAll 2 sharesA : Nat) - (xorAll 2 sharesB : Nat) : Int) % 2 ^ 32) ∧
     (∃ rs, runAll (parties 2 fun i => Sub8 (ioOf i) (sharesA i) (sharesB i)) zeroSupply = some rs ∧
        rs.length = 2 ∧
        ((xorList rs : Nat) : Int) = ((xorAll 2 sharesA : Nat) - (xorAll 2 sharesB : Nat) : Int) % 2 ^ 8)) :=
  ⟨⟨by decide, by decide⟩,
    gmw_sub_correct 2 (by decide) (fun i => ioOf i) (fun _ _ => rfl) sharesA sharesB
      (List.replicate 32 (fun _ => ⟨false, false, false⟩)) zeroSupply (by decide)
      (by intro t ht; rw [List.eq_of_mem_replicate ht]; decide) (by decide)⟩

end GMW

namespace GMW

/-- C8 (evaluation of the code). A party holds the queue `(1, 2, 0), (5, 6, 4)`.
`Triple32` returns `(1, 2, 0)` and the party's queue is as before; the next
call returns `(1, 2, 0)` again, not `(5, 6, 4)`: the pop is made on the
by-value receiver. -/
theorem gmw_triple32_not_consumed :
    X.Triple32 twoTriples = some ((1, 2, 0), twoTriples) ∧
    (X.Triple32 twoTriples).bind (fun r => X.Triple32 r.2) = some ((1, 2, 0), twoTriples) ∧
    ((X.Triple32.body twoTriples).map fun r => r.2.triples32) = some [⟨5, 6, 4⟩] ∧
    ((1, 2, 0) : Nat × Nat × Nat) ≠ (5, 6, 4) := by
  refine ⟨by decide, by decide, by decide, by decide⟩

/-- For every party with a nonempty queue, `Triple32` returns the head and
leaves the party unchanged. -/
theorem X_Triple32_unchanged (x : X) (t : Triple Nat) (rest : List (Triple Nat))
    (h : x.triples32 = t :: rest) : X.Triple32 x = some ((t.a, t.b, t.c), x) := by
  simp [X.Triple32, X.Triple32.body, h]

end GMW

namespace GMW

theorem xorAll_ite_eq (n p v : Nat) :
    xorAll n (fun i => if i = p then v else 0) = if p < n then v else 0 := by
  induction n with
  | zero => simp [xorAll]
  | succ n ih =>
    rw [xorAll_succ, ih]
    by_cases h1 : n = p
    · subst h1; simp
    · by_cases h2 : p < n
      · have h3 : p < n + 1 := by omega
        simp [h1, h2, h3]
      · have h3 : ¬ p < n + 1 := by omega
        simp [h1, h2, h3]

/-- C9. Input followed by output: for `n ≥ 1` parties with identifiers
`0..n-1`, a party `p < n` whose `GetInput` returns `v`, every party that runs
`Output32(io, Input32(io, p))` obtains `v`. -/
theorem gmw_input_output (n : Nat) (hn : 1 ≤ n) (p : Nat) (hp : p < n) (v : Nat)
    (io : Nat → Io) (hio : ∀ i, i < n → (io i).Id = i) (hget : (io p).GetInput = some v)
    (s : Supply) :
    runAll (parties n fun i => (Input32 (io i) p).bind (Output32 (io i))) s
      = some (List.replicate n v) := by
  have e : ∀ i, i < n → (Input32 (io i) p).bind (Output32 (io i))
      = Prog.open32 (if i = p then v else 0) Prog.ret := by
    intro i hi
    unfold Input32
    simp only [hio i hi, Nat.cast_inj]
    by_cases h : i = p
    · subst h
      simp [hget, Prog.bind, Output32, Open32, bind, pure]
    · simp [h, Prog.bind, Output32, Open32, bind, pure]
  rw [parties_congr n _ _ e, runAll_open32 n hn, runAll_ret n hn, xorAll_ite_eq, if_pos hp]
  simp [parties]

theorem gmw_input_output_witness :
    (1 < 3 ∧ (({ Id := 1, GetInput := some 42 } : Io).GetInput = some 42)) ∧
    runAll (parties 3 fun i =>
      (Input32 ({ Id := i, GetInput := if i = 1 then some 42 else none } : Io) ((1 : Nat) : Int)).bind
        (Output32 ({ Id := i, GetInput := if i = 1 then some 42 else none } : Io)))
      witnessSupply = some (List.replicate 3 42) :=
  ⟨⟨by decide, rfl⟩,
    gmw_input_output 3 (by decide) 1 (by decide) 42
      (fun i => { Id := i, GetInput := if i = 1 then some 42 else none }) (fun _ _ => rfl) rfl
      witnessSupply⟩

/-! ### Triple generation -/

theorem foldl_xor_acc (l : List Nat) (acc : Nat) :
    l.foldl (fun y s => y ^^^ s) acc = acc ^^^ l.foldl (fun y s => y ^^^ s) 0 := by
  induction l generalizing acc with
  | nil => simp
  | cons a l ih =>
    simp only [List.foldl_cons]
    rw [ih, ih (0 ^^^ a)]
    simp [Nat.xor_assoc]

theorem xorList_cons (a : Nat) (l : List Nat) : xorList (a :: l) = a ^^^ xorList l := by
  unfold xorList
  rw [List.foldl_cons, foldl_xor_acc]
  simp

theorem xorList_set (l : List Nat) (i v : Nat) (h : i < l.length) :
    xorList (l.set i v) = xorList l ^^^ l.getD i 0 ^^^ v := by
  induction l generalizing i with
  | nil => simp at h
  | cons a l ih =>
    cases i with
    | zero =>
      simp only [List.set_cons_zero, xorList_cons, List.getD_cons_zero]
      rw [show a ^^^ xorList l ^^^ a ^^^ v = (a ^^^ a) ^^^ (v ^^^ xorList l) by ac_rfl]
      simp
    | succ i =>
      simp only [List.set_cons_succ, xorList_cons, List.getD_cons_succ]
      rw [ih i (by simpa using h)]
      ac_rfl

theorem split_loop_spec (rnd : Nat → Nat) (n x0 : Nat) :
    ∀ (fuel i x : Nat) (result : List Nat) (cur : Nat),
      n < i + fuel → 1 ≤ i → i ≤ n → result.length = n →
      (∀ j, i ≤ j → result.getD j 0 = 0) → result.getD 0 0 = 0 → x ^^^ xorList result = x0 →
      ∃ x' result' cur', split_uint32.loop rnd n fuel i x result cur = some (x', result', cur') ∧
        result'.length = n ∧ result'.getD 0 0 = 0 ∧ x' ^^^ xorList result' = x0 := by
  intro fuel
  induction fuel with
  | zero =>
    intro i x result cur hf hi hin hlen hz h0 hx
    omega
  | succ fuel ih =>
    intro i x result cur hf hi hle hlen hz h0 hx
    rw [split_uint32.loop]
    by_cases hin : i < n
    · rw [if_pos hin]
      simp only [rand32]
      apply ih (i + 1) _ _ _ (by omega) (by omega) (by omega) (by simpa using hlen)
      · intro j hj
        rw [List.getD_eq_getElem?_getD, List.getElem?_set_ne (by omega), ← List.getD_eq_getElem?_getD]
        exact hz j (by omega)
      · rw [List.getD_eq_getElem?_getD, List.getElem?_set_ne (by omega), ← List.getD_eq_getElem?_getD]
        exact h0
      · rw [xorList_set result i _ (by omega), hz i (Nat.le_refl i), ← hx]
        generalize rnd cur % 2 ^ 32 = xi
        rw [show x ^^^ xi ^^^ (xorList result ^^^ 0 ^^^ xi)
          = (x ^^^ xorList result) ^^^ (xi ^^^ xi) ^^^ 0 by ac_rfl]
        simp
    · rw [if_neg hin]
      exact ⟨x, result, cur, rfl, hlen, h0, hx⟩

theorem split_uint32_spec (rnd : Nat → Nat) (x : Nat) (n : Int) (hn : 1 ≤ n) (cur : Nat) :
    ∃ shares cur', split_uint32 rnd x n cur = .ok (shares, cur') ∧
      shares.length = n.toNat ∧ xorList shares = x := by
  have hpos : 0 < n.toNat := by omega
  obtain ⟨x', r', cur', h1, h2, h3, h4⟩ := split_loop_spec rnd n.toNat x n.toNat 1 x
    (List.replicate n.toNat 0) cur (by omega) (Nat.le_refl 1) (by omega) (by simp)
    (by intro j _; simp [List.getD_eq_getElem?_getD, List.getElem?_replicate]; split <;> rfl)
    (by simp [List.getD_eq_getElem?_getD, List.getElem?_replicate]; split <;> rfl)
    (by
      have : xorList (List.replicate n.toNat 0) = 0 := by
        generalize n.toNat = k
        induction k with
        | zero => rfl
        | succ k ih => rw [List.replicate_succ, xorList_cons, ih]; rfl
      rw [this]; simp)
  have hx : xorList (r'.set 0 x') = x := by
    rw [xorList_set r' 0 x' (by omega), h3, ← h4]
    rw [show xorList r' ^^^ 0 ^^^ x' = x' ^^^ xorList r' by simp [Nat.xor_comm]]
  refine ⟨r'.set 0 x', cur', ?_, by simpa using h2, hx⟩
  unfold split_uint32
  have hn0 : ¬ n ≤ 0 := by omega
  simp only [hn0, if_false, h1]
  have hy : List.foldl (fun y s => y ^^^ s) 0 (r'.set 0 x') = x := hx
  simp [hy]

theorem range_map_getD (l : List Nat) : (List.range l.length).map (fun i => l.getD i 0) = l := by
  apply List.ext_getElem
  · simp
  · intro i h1 h2
    simp [List.getD_eq_getElem?_getD, List.getElem?_eq_getElem h2]

/-- C10. Generated triples: for every `n ≥ 1` and every random source,
`split_uint32(x, n)` returns `n` values that XOR to `x` (no panic), and
`triple32(n)` returns `n` share triples with `(XOR a) & (XOR b) = XOR c`. -/
theorem gmw_triple_generation (rnd : Nat → Nat) (n : Int) (hn : 1 ≤ n) (x cur : Nat) :
    (∃ shares cur', split_uint32 rnd x n cur = .ok (shares, cur') ∧
      (shares.length : Int) = n ∧ xorList shares = x) ∧
    (∃ tr cur', triple32 rnd n cur = .ok (tr, cur') ∧ (tr.length : Int) = n ∧
      xorList (tr.map fun t => t.a) &&& xorList (tr.map fun t => t.b)
        = xorList (tr.map fun t => t.c)) := by
  constructor
  · obtain ⟨sh, cur', h1, h2, h3⟩ := split_uint32_spec rnd x n hn cur
    exact ⟨sh, cur', h1, by omega, h3⟩
  · obtain ⟨sa, c1, ha1, ha2, ha3⟩ := split_uint32_spec rnd (rnd cur % 2 ^ 32) n hn (cur + 1 + 1)
    obtain ⟨sb, c2, hb1, hb2, hb3⟩ := split_uint32_spec rnd (rnd (cur + 1) % 2 ^ 32) n hn c1
    obtain ⟨sc, c3, hc1, hc2, hc3⟩ := split_uint32_spec rnd
      (rnd cur % 2 ^ 32 &&& rnd (cur + 1) % 2 ^ 32) n hn c2
    refine ⟨(List.range n.toNat).map fun i =>
      (⟨sa.getD i 0, sb.getD i 0, sc.getD i 0⟩ : Triple Nat), c3, ?_, ?_, ?_⟩
    · simp only [triple32, rand32, bind, Except.bind, ha1, hb1, hc1, pure, Except.pure]
    · simp; omega
    · simp only [List.map_map, Function.comp_def]
      have ea := range_map_getD sa
      have eb := range_map_getD sb
      have ec := range_map_getD sc
      rw [ha2] at ea; rw [hb2] at eb; rw [hc2] at ec
      rw [ea, eb, ec, ha3, hb3, hc3]

theorem gmw_triple_generation_witness :
    ((1 : Int) ≤ 3) ∧
    ((∃ shares cur', split_uint32 (fun i => 7 * i + 3) 10 3 0 = .ok (shares, cur') ∧
        (shares.length : Int) = 3 ∧ xorList shares = 10) ∧
      (∃ tr cur', triple32 (fun i => 7 * i + 3) 3 0 = .ok (tr, cur') ∧ (tr.length : Int) = 3 ∧
        xorList (tr.map fun t => t.a) &&& xorList (tr.map fun t => t.b)
          = xorList (tr.map fun t => t.c))) :=
  ⟨by decide, gmw_triple_generation (fun i => 7 * i + 3) 3 (by decide) 10 0⟩

end GMW

namespace OT

theorem xorBytes_length (b c : List Nat) (h : b.length = c.length) :
    (xorBytes b c).length = b.length := by
  simp [xorBytes, h]

theorem xorBytes_cancel (b c : List Nat) (h : b.length = c.length) :
    xorBytes (xorBytes b c) c = b := by
  induction b generalizing c with
  | nil => simp [xorBytes]
  | cons x b ih =>
    cases c with
    | nil => simp at h
    | cons y c =>
      simp only [xorBytes, List.zipWith_cons_cons] at ih ⊢
      rw [ih c (by simpa using h), Nat.xor_assoc, Nat.xor_self, Nat.xor_zero]

theorem RO_length (H : List Nat → Nat → Nat) (x : List Nat) (l : Int) (h : List Nat)
    (hro : RO H x l = some h) : h.length = (l.tdiv 8).toNat := by
  unfold RO at hro
  split at hro
  · simp at hro
  · split at hro
    · simp at hro
    · simp only [Option.some.injEq] at hro
      rw [← hro]
      simp

theorem msg_length (m0 : List Nat) (l : Int) (h : (m0.length : Int) * 8 = l) :
    l.tdiv 8 = m0.length := by
  rw [← h, Int.mul_tdiv_cancel _ (by decide)]

theorem GetBit_le_one (v : List Nat) (i : Int) (b : Nat) (h : GetBit v i = some b) :
    b = 0 ∨ b = 1 := by
  unfold GetBit at h
  split at h
  · simp at h
  cases hidx : index v (i.tdiv 8) with
  | none => simp [hidx] at h
  | some x =>
    simp only [hidx, Option.map_some', Option.some.injEq] at h
    rw [← h, Nat.and_one_is_mod]
    omega

/-- C4. One extended transfer: sender and receiver with the same `k, l, m` and
the same pair counter `j < m`, in a preprocessed state (`z0[j]`, `z1[j]` are
oracle outputs of `l` bits and the one selected by bit `j` of `r` is
`RO(T.GetRow(j), l)`), messages of `l/8` bytes and a selector `s` in `{0,1}`:
the joint run of `Send(m0, m1)` and `Receive(s)` ends, `Receive` returns `m0`
for `s = 0` and `m1` for `s = 1`, and both counters are `j + 1`. -/
theorem ot_transfer_correct (H : List Nat → Nat → Nat) (snd : ExtendSender) (rcv : ExtendReceiver)
    (j : Int) (s rbit : Nat) (m0 m1 row h z0j z1j q0 q1 : List Nat) (ta tb : Tape)
    (_hk : snd.k = rcv.k) (hl : snd.l = rcv.l) (hm : snd.m = rcv.m)
    (hcs : snd.curPair = j) (hcr : rcv.curPair = j) (hj : j < snd.m)
    (hs : s = 0 ∨ s = 1)
    (hm0 : (m0.length : Int) * 8 = snd.l) (hm1 : (m1.length : Int) * 8 = snd.l)
    (hbit : GetBit rcv.r j = some rbit)
    (hrow : rcv.T.GetRow j = some row) (hro : RO H row rcv.l = some h)
    (hz0 : index snd.z0 j = some z0j) (hz1 : index snd.z1 j = some z1j)
    (hq0 : RO H q0 snd.l = some z0j) (hq1 : RO H q1 snd.l = some z1j)
    (hlink : (rbit = 0 → z0j = h) ∧ (rbit = 1 → z1j = h)) :
    ∃ snd' rcv', runOT (snd.Send H m0 m1) (rcv.Receive H s) ta tb
        = some (snd', (if s = 0 then m0 else m1), rcv') ∧
      snd'.curPair = j + 1 ∧ rcv'.curPair = j + 1 := by
  have hne1 : ¬ snd.curPair = snd.m := by omega
  have hne2 : ¬ rcv.curPair = rcv.m := by omega
  have hlen0 : snd.l.tdiv 8 = m0.length := msg_length m0 _ hm0
  have hlen1 : snd.l.tdiv 8 = m1.length := msg_length m1 _ hm1
  have hz0len : z0j.length = m0.length := by
    rw [RO_length H q0 _ _ hq0, hlen0]; simp
  have hz1len : z1j.length = m0.length := by
    rw [RO_length H q1 _ _ hq1, hlen0]; simp
  have hm01 : m1.length = m0.length := by
    have := hlen0.symm.trans hlen1; exact_mod_cast this.symm
  have hhlen : h.length = m0.length := by
    rw [RO_length H row _ _ hro, ← hl, hlen0]; simp
  have hmk : mkBytes (snd.l.tdiv 8) = some (List.replicate m0.length 0) := by
    rw [hlen0]; simp [mkBytes]
  have hmk' : mkBytes (rcv.l.tdiv 8) = some (List.replicate m0.length 0) := by
    rw [← hl]; exact hmk
  have hrb := GetBit_le_one _ _ _ hbit
  refine ⟨{ snd with curPair := snd.curPair + 1 }, { rcv with curPair := rcv.curPair + 1 }, ?_,
    by simp [hcs], by simp [hcr]⟩
  unfold ExtendSender.Send ExtendReceiver.Receive
  have hg : ¬ ((m0.length : Int) * 8 ≠ snd.l ∨ (m1.length : Int) * 8 ≠ snd.l) := by
    simp [hm0, hm1]
  rw [if_neg hg, if_neg hne1, if_neg hne2]
  simp only [Act.bind, hmk, hmk', Act.ofOption, hcs, hcr, hbit, hz0, hz1, hrow, hro, runOT, settle]
  rcases hs with rfl | rfl <;> rcases hrb with rfl | rfl
  · have e := hlink.1 rfl
    subst e
    simp [xorBytesExact, hz0len, hz1len, hm01, xorBytes_length, Act.bind, Act.ofOption, runOT, settle,
      bind, Option.bind, pure, xorBytes_cancel, hro, hrow, hbit]
  · have e := hlink.2 rfl
    subst e
    simp [xorBytesExact, hz0len, hz1len, hm01, xorBytes_length, Act.bind, Act.ofOption, runOT, settle,
      bind, Option.bind, pure, xorBytes_cancel, hro, hrow, hbit]
  · have e := hlink.1 rfl
    subst e
    simp [xorBytesExact, hz0len, hz1len, hm01, xorBytes_length, Act.bind, Act.ofOption, runOT, settle,
      bind, Option.bind, pure, xorBytes_cancel, hro, hrow, hbit]
  · have e := hlink.2 rfl
    subst e
    simp [xorBytesExact, hz0len, hz1len, hm01, xorBytes_length, Act.bind, Act.ofOption, runOT, settle,
      bind, Option.bind, pure, xorBytes_cancel, hro, hrow, hbit]

end OT

namespace OT

theorem ot_transfer_correct_witness :
    ((0 : Int) < senderAt0.m ∧ GetBit receiverAt0.r 0 = some 1 ∧
      receiverAt0.T.GetRow 0 = some [7] ∧ RO sumStream [7] receiverAt0.l = some [7] ∧
      index senderAt0.z1 0 = some [7]) ∧
    ∃ snd' rcv', runOT (senderAt0.Send sumStream [100] [200]) (receiverAt0.Receive sumStream 1)
        zeroTape zeroTape = some (snd', (if (1 : Nat) = 0 then [100] else [200]), rcv') ∧
      snd'.curPair = 0 + 1 ∧ rcv'.curPair = 0 + 1 :=
  ⟨⟨by decide, by decide, by decide, by decide, by decide⟩,
    ot_transfer_correct sumStream senderAt0 receiverAt0 0 1 1 [100] [200] [7] [7] [9] [7] [9] [7]
      zeroTape zeroTape rfl rfl rfl rfl rfl (by decide) (Or.inr rfl) (by decide) (by decide)
      (by decide) (by decide) (by decide) (by decide) (by decide) (by decide) (by decide)
      ⟨by decide, fun _ => rfl⟩⟩

end OT

namespace Gen

@[simp] theorem ok_bind {ε α β : Type} (a : α) (f : α → Except ε β) :
    (Except.ok a >>= f) = f a := rfl

@[simp] theorem error_bind {ε α β : Type} (e : ε) (f : α → Except ε β) :
    ((Except.error e : Except ε α) >>= f) = .error e := rfl

@[simp] theorem pure_eq_ok {ε α : Type} (a : α) : (pure a : Except ε α) = .ok a := rfl

@[simp] theorem orPanic_some {α : Type} (st : GenState) (a : α) :
    orPanic st (some a) = .ok a := rfl

@[simp] theorem orPanic_none {α : Type} (st : GenState) :
    orPanic st (none : Option α) = .error st := rfl

theorem xor_mod_two (x y : Nat) : (x ^^^ y) % 2 = (x % 2 + y % 2) % 2 := by
  have h := Nat.testBit_xor x y 0
  simp only [Nat.testBit_zero] at h
  rcases Nat.mod_two_eq_zero_or_one x with hx | hx <;>
    rcases Nat.mod_two_eq_zero_or_one y with hy | hy <;>
    rcases Nat.mod_two_eq_zero_or_one (x ^^^ y) with hz | hz <;>
    simp [hx, hy, hz] at h ⊢

theorem key_cons (k : Key) (h : k.length = KEY_SIZE) : ∃ a t, k = a :: t := by
  cases k with
  | nil => simp [KEY_SIZE] at h
  | cons a t => exact ⟨a, t, rfl⟩

theorem init_key0_some (rnd : Nat → Nat) (st : GenState) (key0 : Key) (h : st.key0 = some key0) :
    init_key0 rnd st = st := by
  simp [init_key0, h]

/-- The keys of a wire with the free-XOR invariant have opposite low bits. -/
theorem lsb_opposite (key0 : Key) (w : Wire) (hk : KeyOk key0) (hw : FreeXor key0 w) :
    ∃ p, p < 2 ∧ lsb w.k0 = some p ∧ lsb w.k1 = some (1 - p) := by
  obtain ⟨a, t, ha⟩ := key_cons w.k0 hw.1
  obtain ⟨d, td, hd⟩ := key_cons key0 hk.1
  have hd1 : d % 2 = 1 := by
    have := hk.2
    simpa [lsb, hd] using this
  refine ⟨a % 2, Nat.mod_lt _ (by decide), by simp [lsb, ha], ?_⟩
  rw [hw.2, ha, hd]
  simp only [XorKey, List.zipWith_cons_cons, lsb, List.head?_cons, Option.map_some',
    Option.some.injEq]
  rw [xor_mod_two, hd1]
  omega

end Gen

namespace Gen

theorem Wire.at_of_lt (w : Wire) (i : Nat) (h : i < 2) : w.at i = some (w.sel i) := by
  unfold Wire.at Wire.sel
  by_cases h0 : i = 0
  · simp [h0]
  · have h1 : i = 1 := by omega
    simp [h1]

theorem genWireRR_eval (E : Key → List Nat → List Nat) (rnd : Nat → Nat) (in0 in1 key0 : Key)
    (r : Nat) (hr : r < 2) (st : GenState) (hkey : st.key0 = some key0) :
    genWireRR E rnd in0 in1 r st = .ok (rrWire key0 (encrypt E [in0, in1] ALL_ZEROS) r, st) := by
  unfold genWireRR rrWire
  rw [init_key0_some rnd st key0 hkey]
  by_cases h0 : r = 0
  · simp [h0, hkey]
  · have h1 : r = 1 := by omega
    simp [h1, hkey]

/-- What `gateBody` returns and sends for input wires whose low bits are known. -/
theorem gateBody_eval (op : Nat → Nat → Nat) (hop : ∀ p q, p < 2 → q < 2 → op p q < 2)
    (E : Key → List Nat → List Nat) (rnd : Nat → Nat) (A B : Wire) (st : GenState) (key0 : Key)
    (pa pb : Nat) (hpa : pa < 2) (hpb : pb < 2)
    (hA : lsb A.k0 = some pa) (hB : lsb B.k0 = some pb) (hkey : st.key0 = some key0) :
    gateBody op E rnd A B st =
      .ok (gateWire op E key0 A B pa pb,
        { st with sent := st.sent ++ [Msg.T (gateTable op E key0 A B pa pb)] }) := by
  have hx : ∀ c, c < 2 → c ^^^ pa < 2 := by
    intro c hc
    have : pa = 0 ∨ pa = 1 := by omega
    have : c = 0 ∨ c = 1 := by omega
    rcases ‹pa = 0 ∨ pa = 1› with rfl | rfl <;> rcases ‹c = 0 ∨ c = 1› with rfl | rfl <;> decide
  have hy : ∀ c, c < 2 → c ^^^ pb < 2 := by
    intro c hc
    have : pb = 0 ∨ pb = 1 := by omega
    have : c = 0 ∨ c = 1 := by omega
    rcases ‹pb = 0 ∨ pb = 1› with rfl | rfl <;> rcases ‹c = 0 ∨ c = 1› with rfl | rfl <;> decide
  unfold gateBody
  simp only [hA, hB, orPanic_some, ok_bind, pure_eq_ok, Wire.at_of_lt A pa hpa,
    Wire.at_of_lt B pb hpb, genWireRR_eval E rnd _ _ key0 _ (hop pa pb hpa hpb) st hkey,
    List.foldlM_cons, List.foldlM_nil,
    Wire.at_of_lt A _ (hx 1 (by decide)), Wire.at_of_lt A _ (hx 0 (by decide)),
    Wire.at_of_lt B _ (hy 1 (by decide)), Wire.at_of_lt B _ (hy 0 (by decide)),
    Wire.at_of_lt _ _ (hop _ _ (hx 1 (by decide)) (hy 0 (by decide))),
    Wire.at_of_lt _ _ (hop _ _ (hx 0 (by decide)) (hy 1 (by decide))),
    Wire.at_of_lt _ _ (hop _ _ (hx 1 (by decide)) (hy 1 (by decide)))]
  rfl

end Gen
namespace Gen

theorem and_lt_two (p q : Nat) (hp : p < 2) (_hq : q < 2) : p &&& q < 2 :=
  Nat.lt_of_le_of_lt Nat.and_le_left hp

theorem gate_single (op : Nat → Nat → Nat) (E : Key → List Nat → List Nat) (rnd : Nat → Nat)
    (A B W : Wire) (st st' : GenState) (h : gateBody op E rnd A B st = .ok (W, st')) :
    gateLoop op E rnd [A] [B] st = .ok ([W], st') := by
  simp [gateLoop, h]

/-- C5. The garbled AND gate: for input wires `A`, `B` with the free-XOR
invariant, `And` returns a wire `W` and sends one table `T` of three
ciphertexts such that for all bits `x`, `y`, with `p`, `q` the low bits of the
labels `A[x]`, `B[y]`: if `p = q = 0` the double encryption of the zero block
under `A[x], B[y]` is `W[x & y]`, and otherwise `T[p + 2q - 1]` is the double
encryption of `W[x & y]` under `A[x], B[y]`. -/
theorem gen_and_gate_correct (E : Key → List Nat → List Nat) (rnd : Nat → Nat) (st : GenState)
    (key0 : Key) (A B : Wire) (hkey : st.key0 = some key0) (hk : KeyOk key0)
    (hA : FreeXor key0 A) (hB : FreeXor key0 B) :
    ∃ W T st', And E rnd [A] [B] st = .ok ([W], st') ∧ st'.sent = st.sent ++ [Msg.T T] ∧
      T.length = 3 ∧
      ∀ x y, x < 2 → y < 2 →
        ∃ kx ky p q wxy, A.at x = some kx ∧ B.at y = some ky ∧ lsb kx = some p ∧ lsb ky = some q ∧
          W.at (x &&& y) = some wxy ∧
          (if p = 0 ∧ q = 0 then encrypt E [kx, ky] ALL_ZEROS = wxy
           else T[p + 2 * q - 1]? = some (encrypt E [kx, ky] wxy)) := by
  obtain ⟨pa, hpa, hA0, hA1⟩ := lsb_opposite key0 A hk hA
  obtain ⟨pb, hpb, hB0, hB1⟩ := lsb_opposite key0 B hk hB
  have hbody := gateBody_eval (fun p q => p &&& q) and_lt_two E rnd A B st key0 pa pb hpa hpb
    hA0 hB0 hkey
  refine ⟨gateWire (fun p q => p &&& q) E key0 A B pa pb,
    gateTable (fun p q => p &&& q) E key0 A B pa pb,
    { st with sent := st.sent ++ [Msg.T (gateTable (fun p q => p &&& q) E key0 A B pa pb)] },
    ?_, ?_, ?_, ?_⟩
  · unfold And
    simp only [List.length_singleton, ne_eq, not_true_eq_false, if_false]
    exact gate_single _ E rnd A B _ st _ hbody
  · rfl
  · rfl
  · intro x y hx hy
    have hxy : x &&& y < 2 := and_lt_two x y hx hy
    refine ⟨A.sel x, B.sel y, if x = 0 then pa else 1 - pa, if y = 0 then pb else 1 - pb,
      Wire.sel _ (x &&& y), Wire.at_of_lt A x hx, Wire.at_of_lt B y hy, ?_, ?_,
      Wire.at_of_lt _ _ hxy, ?_⟩
    · unfold Wire.sel; split <;> assumption
    · unfold Wire.sel; split <;> assumption
    · have hpa' : pa = 0 ∨ pa = 1 := by omega
      have hpb' : pb = 0 ∨ pb = 1 := by omega
      have hx' : x = 0 ∨ x = 1 := by omega
      have hy' : y = 0 ∨ y = 1 := by omega
      rcases hpa' with rfl | rfl <;> rcases hpb' with rfl | rfl <;>
        rcases hx' with rfl | rfl <;> rcases hy' with rfl | rfl <;>
        simp [Wire.sel, rrWire, gateWire, gateTable]

end Gen
namespace Gen

theorem or_one_mod_two (b : Nat) : (b ||| 1) % 2 = 1 := by
  have h := Nat.testBit_or b 1 0
  simp only [Nat.testBit_zero] at h
  rcases Nat.mod_two_eq_zero_or_one (b ||| 1) with hz | hz
  · simp [hz] at h
  · exact hz

theorem XorKey_length (a b : Key) (ha : a.length = KEY_SIZE) (hb : b.length = KEY_SIZE) :
    (XorKey a b).length = KEY_SIZE := by
  simp [XorKey, ha, hb]

theorem XorKey_cancel (a d : Key) (h : a.length ≤ d.length) : XorKey (XorKey a d) d = a := by
  induction a generalizing d with
  | nil => simp [XorKey]
  | cons x a ih =>
    cases d with
    | nil => simp at h
    | cons y d =>
      simp only [XorKey, List.zipWith_cons_cons] at ih ⊢
      rw [ih d (by simpa using h), Nat.xor_assoc, Nat.xor_self, Nat.xor_zero]

theorem XorKey_assoc (a b c : Key) : XorKey (XorKey a b) c = XorKey a (XorKey b c) := by
  induction a generalizing b c with
  | nil => simp [XorKey]
  | cons x a ih =>
    cases b with
    | nil => simp [XorKey]
    | cons y b =>
      cases c with
      | nil => simp [XorKey]
      | cons z c =>
        simp only [XorKey, List.zipWith_cons_cons] at ih ⊢
        rw [ih b c, Nat.xor_assoc]

theorem XorKey_comm (a b : Key) : XorKey a b = XorKey b a := by
  induction a generalizing b with
  | nil => cases b <;> simp [XorKey]
  | cons x a ih =>
    cases b with
    | nil => simp [XorKey]
    | cons y b =>
      simp only [XorKey, List.zipWith_cons_cons] at ih ⊢
      rw [ih b, Nat.xor_comm]

theorem GenKey_length (rnd : Nat → Nat) (st : GenState) : (GenKey rnd st).1.length = KEY_SIZE := by
  simp [GenKey]

theorem GenKey_key0 (rnd : Nat → Nat) (st : GenState) : (GenKey rnd st).2.key0 = st.key0 := rfl

theorem lsb_ne (key0 : Key) (w : Wire) (hk : KeyOk key0) (hw : FreeXor key0 w) :
    lsb w.k0 ≠ lsb w.k1 := by
  obtain ⟨p, hp, h0, h1⟩ := lsb_opposite key0 w hk hw
  rw [h0, h1]
  intro h
  simp only [Option.some.injEq] at h
  omega

/-- After `init_key0` the offset is set and well formed, and it is the one the
session already had. -/
theorem init_key0_ok (rnd : Nat → Nat) (st : GenState)
    (hst : ∀ d, st.key0 = some d → KeyOk d) :
    ∃ d, (init_key0 rnd st).key0 = some d ∧ KeyOk d ∧ (∀ d0, st.key0 = some d0 → d = d0) := by
  cases h : st.key0 with
  | some d =>
    refine ⟨d, ?_, hst d h, fun d0 h0 => by simpa using h0⟩
    rw [init_key0_some rnd st d h, h]
  | none =>
    refine ⟨(GenKey rnd st).1.modifyHead fun b => b ||| 1, ?_, ?_, fun d0 h0 => by simp at h0⟩
    · simp [init_key0, h]
    · obtain ⟨a, t, ha⟩ := key_cons (GenKey rnd st).1 (GenKey_length rnd st)
      have hl := GenKey_length rnd st
      rw [ha] at hl ⊢
      refine ⟨by simpa using hl, ?_⟩
      simp [lsb, or_one_mod_two]

theorem genWire_ok (rnd : Nat → Nat) (st : GenState) (hst : ∀ d, st.key0 = some d → KeyOk d) :
    ∃ w st' d, genWire rnd st = .ok (w, st') ∧ st'.key0 = some d ∧ KeyOk d ∧
      (∀ d0, st.key0 = some d0 → d = d0) ∧ FreeXor d w ∧ lsb w.k0 ≠ lsb w.k1 := by
  obtain ⟨d, hd1, hd2, hd3⟩ := init_key0_ok rnd st hst
  have hw : FreeXor d (Wire.mk (GenKey rnd (init_key0 rnd st)).1
      (XorKey (GenKey rnd (init_key0 rnd st)).1 d)) := ⟨GenKey_length _ _, rfl⟩
  refine ⟨_, (GenKey rnd (init_key0 rnd st)).2, d, ?_, by rw [GenKey_key0, hd1], hd2, hd3, hw,
    lsb_ne d _ hd2 hw⟩
  simp [genWire, GenKey_key0, hd1]

theorem encrypt_length (E : Key → List Nat → List Nat) (hE : ∀ k x, (E k x).length = KEY_SIZE)
    (k1 k2 : Key) (x : List Nat) : (encrypt E [k1, k2] x).length = KEY_SIZE := by
  simp [encrypt, hE]

theorem rrWire_ok (key0 enc0 : Key) (r : Nat) (hk : KeyOk key0) (he : enc0.length = KEY_SIZE) :
    FreeXor key0 (rrWire key0 enc0 r) := by
  unfold rrWire
  by_cases h : r = 0
  · simp only [h, if_true]
    exact ⟨he, rfl⟩
  · simp only [h, if_false]
    exact ⟨XorKey_length _ _ he hk.1, (XorKey_cancel enc0 key0 (by rw [he, hk.1])).symm⟩

theorem genWireRR_ok (E : Key → List Nat → List Nat) (hE : ∀ k x, (E k x).length = KEY_SIZE)
    (rnd : Nat → Nat) (st : GenState) (hst : ∀ d, st.key0 = some d → KeyOk d)
    (in0 in1 : Key) (gateVal : Nat) (hg : gateVal < 2) :
    ∃ w st' d, genWireRR E rnd in0 in1 gateVal st = .ok (w, st') ∧ st'.key0 = some d ∧ KeyOk d ∧
      (∀ d0, st.key0 = some d0 → d = d0) ∧ FreeXor d w ∧ lsb w.k0 ≠ lsb w.k1 := by
  obtain ⟨d, hd1, hd2, hd3⟩ := init_key0_ok rnd st hst
  have hw := rrWire_ok d (encrypt E [in0, in1] ALL_ZEROS) gateVal hd2 (encrypt_length E hE _ _ _)
  refine ⟨_, init_key0 rnd st, d, ?_, hd1, hd2, hd3, hw, lsb_ne d _ hd2 hw⟩
  have h := genWireRR_eval E rnd in0 in1 d gateVal hg (init_key0 rnd st) hd1
  unfold genWireRR at h ⊢
  rw [init_key0_some rnd (init_key0 rnd st) d hd1] at h
  exact h

theorem gateLoop_ok (op : Nat → Nat → Nat) (hop : ∀ p q, p < 2 → q < 2 → op p q < 2)
    (E : Key → List Nat → List Nat) (hE : ∀ k x, (E k x).length = KEY_SIZE) (rnd : Nat → Nat)
    (d : Key) (hk : KeyOk d) :
    ∀ (a b : List Wire) (st : GenState), st.key0 = some d → a.length = b.length →
      (∀ w ∈ a, FreeXor d w) → (∀ w ∈ b, FreeXor d w) →
      ∃ ws st', gateLoop op E rnd a b st = .ok (ws, st') ∧ st'.key0 = some d ∧
        ws.length = a.length ∧ ∀ w ∈ ws, FreeXor d w ∧ lsb w.k0 ≠ lsb w.k1 := by
  intro a
  induction a with
  | nil =>
    intro b st hkey hlen _ _
    cases b with
    | nil => exact ⟨[], st, by simp [gateLoop], hkey, rfl, by simp⟩
    | cons B b => simp at hlen
  | cons A a ih =>
    intro b st hkey hlen ha hb
    cases b with
    | nil => simp at hlen
    | cons B b =>
      obtain ⟨pa, hpa, hA0, _⟩ := lsb_opposite d A hk (ha A (List.mem_cons_self _ _))
      obtain ⟨pb, hpb, hB0, _⟩ := lsb_opposite d B hk (hb B (List.mem_cons_self _ _))
      have hbody := gateBody_eval op hop E rnd A B st d pa pb hpa hpb hA0 hB0 hkey
      obtain ⟨ws, st', h1, h2, h3, h4⟩ := ih b
        { st with sent := st.sent ++ [Msg.T (gateTable op E d A B pa pb)] } hkey
        (by simpa using hlen) (fun w hw => ha w (List.mem_cons_of_mem _ hw))
        (fun w hw => hb w (List.mem_cons_of_mem _ hw))
      have hw : FreeXor d (gateWire op E d A B pa pb) :=
        rrWire_ok d _ _ hk (encrypt_length E hE _ _ _)
      refine ⟨gateWire op E d A B pa pb :: ws, st', ?_, h2, by simp [h3], ?_⟩
      · simp [gateLoop, hbody, h1]
      · intro w hmem
        rcases List.mem_cons.mp hmem with rfl | hmem
        · exact ⟨hw, lsb_ne d _ hk hw⟩
        · exact h4 w hmem

theorem or_lt_two (p q : Nat) (hp : p < 2) (hq : q < 2) : p ||| q < 2 := by
  have hp' : p = 0 ∨ p = 1 := by omega
  have hq' : q = 0 ∨ q = 1 := by omega
  rcases hp' with rfl | rfl <;> rcases hq' with rfl | rfl <;> decide

theorem Xor_ok (d : Key) (hk : KeyOk d) :
    ∀ (a b : List Wire), (∀ w ∈ a, FreeXor d w) → (∀ w ∈ b, FreeXor d w) →
      ∀ w ∈ List.zipWith (fun A B => ({ k0 := XorKey A.k0 B.k0, k1 := XorKey A.k0 B.k1 } : Wire)) a b,
        FreeXor d w ∧ lsb w.k0 ≠ lsb w.k1 := by
  intro a
  induction a with
  | nil => intro b _ _ w hw; simp at hw
  | cons A a ih =>
    intro b ha hb w hw
    cases b with
    | nil => simp at hw
    | cons B b =>
      simp only [List.zipWith_cons_cons, List.mem_cons] at hw
      rcases hw with rfl | hw
      · have hA := ha A (List.mem_cons_self _ _)
        have hB := hb B (List.mem_cons_self _ _)
        have hf : FreeXor d { k0 := XorKey A.k0 B.k0, k1 := XorKey A.k0 B.k1 } := by
          refine ⟨XorKey_length _ _ hA.1 hB.1, ?_⟩
          show XorKey A.k0 B.k1 = XorKey (XorKey A.k0 B.k0) d
          rw [hB.2, XorKey_assoc]
        exact ⟨hf, lsb_ne d _ hk hf⟩
      · exact ih b (fun w hw => ha w (List.mem_cons_of_mem _ hw))
          (fun w hw => hb w (List.mem_cons_of_mem _ hw)) w hw

/-- C6. The free-XOR invariant within a session (the offset, once set, is
well formed): every wire returned by `genWire`, by `genWireRR` with a gate
value in `{0,1}`, by `And` and `Or` on input wires with the invariant, and by
`Xor` on input wires with the invariant, satisfies `K1 = K0 XOR key0` for the
session's `key0`, and its two keys have different low bits.  The cipher
returns blocks of `KEY_SIZE` bytes. -/
theorem gen_free_xor_invariant (E : Key → List Nat → List Nat)
    (hE : ∀ k x, (E k x).length = KEY_SIZE) (rnd : Nat → Nat) (st : GenState)
    (hst : ∀ d, st.key0 = some d → KeyOk d) :
    (∃ w st' d, genWire rnd st = .ok (w, st') ∧ st'.key0 = some d ∧ KeyOk d ∧
      (∀ d0, st.key0 = some d0 → d = d0) ∧ FreeXor d w ∧ lsb w.k0 ≠ lsb w.k1) ∧
    (∀ in0 in1 gateVal, gateVal < 2 →
      ∃ w st' d, genWireRR E rnd in0 in1 gateVal st = .ok (w, st') ∧ st'.key0 = some d ∧
        KeyOk d ∧ (∀ d0, st.key0 = some d0 → d = d0) ∧ FreeXor d w ∧ lsb w.k0 ≠ lsb w.k1) ∧
    (∀ a b d, st.key0 = some d → a.length = b.length →
      (∀ w ∈ a, FreeXor d w) → (∀ w ∈ b, FreeXor d w) →
      (∃ ws st', And E rnd a b st = .ok (ws, st') ∧ st'.key0 = some d ∧
        ∀ w ∈ ws, FreeXor d w ∧ lsb w.k0 ≠ lsb w.k1) ∧
      (∃ ws st', Or E rnd a b st = .ok (ws, st') ∧ st'.key0 = some d ∧
        ∀ w ∈ ws, FreeXor d w ∧ lsb w.k0 ≠ lsb w.k1) ∧
      (∃ ws, Xor a b st = .ok (ws, st) ∧ ∀ w ∈ ws, FreeXor d w ∧ lsb w.k0 ≠ lsb w.k1)) := by
  refine ⟨genWire_ok rnd st hst, fun in0 in1 g hg => genWireRR_ok E hE rnd st hst in0 in1 g hg, ?_⟩
  intro a b d hkey hlen ha hb
  have hk := hst d hkey
  refine ⟨?_, ?_, ?_⟩
  · obtain ⟨ws, st', h1, h2, _, h4⟩ := gateLoop_ok _ and_lt_two E hE rnd d hk a b st hkey hlen ha hb
    exact ⟨ws, st', by simp [And, hlen, h1], h2, h4⟩
  · obtain ⟨ws, st', h1, h2, _, h4⟩ := gateLoop_ok _ or_lt_two E hE rnd d hk a b st hkey hlen ha hb
    exact ⟨ws, st', by simp [Or, hlen, h1], h2, h4⟩
  · exact ⟨_, by simp [Xor, hlen], Xor_ok d hk a b ha hb⟩

end Gen

namespace Gen

theorem gen_and_gate_correct_witness :
    (exampleState.key0 = some exampleKey0 ∧ KeyOk exampleKey0 ∧ FreeXor exampleKey0 exampleWireA ∧
      FreeXor exampleKey0 exampleWireB) ∧
    ∃ W T st', And exampleCipher exampleStream [exampleWireA] [exampleWireB] exampleState
        = .ok ([W], st') ∧ st'.sent = exampleState.sent ++ [Msg.T T] ∧ T.length = 3 ∧
      ∀ x y, x < 2 → y < 2 →
        ∃ kx ky p q wxy, exampleWireA.at x = some kx ∧ exampleWireB.at y = some ky ∧
          lsb kx = some p ∧ lsb ky = some q ∧ W.at (x &&& y) = some wxy ∧
          (if p = 0 ∧ q = 0 then encrypt exampleCipher [kx, ky] ALL_ZEROS = wxy
           else T[p + 2 * q - 1]? = some (encrypt exampleCipher [kx, ky] wxy)) :=
  ⟨⟨rfl, by decide, by decide, by decide⟩,
    gen_and_gate_correct exampleCipher exampleStream exampleState exampleKey0 exampleWireA
      exampleWireB rfl (by decide) (by decide) (by decide)⟩

theorem exampleCipher_length (k x : List Nat) : (exampleCipher k x).length = KEY_SIZE := by
  simp [exampleCipher]

theorem gen_free_xor_invariant_witness :
    (∀ k x, (exampleCipher k x).length = KEY_SIZE) ∧
    (∃ w st' d, genWire exampleStream freshState = .ok (w, st') ∧ st'.key0 = some d ∧ KeyOk d ∧
      (∀ d0, freshState.key0 = some d0 → d = d0) ∧ FreeXor d w ∧ lsb w.k0 ≠ lsb w.k1) :=
  ⟨exampleCipher_length,
    (gen_free_xor_invariant exampleCipher exampleCipher_length exampleStream freshState
      (fun d h => by simp [freshState] at h)).1⟩

/-- C7. The XOR gate: for vectors of equal length `Xor` sends nothing (the
state is unchanged) and wire `i` of the result is
`(a[i].K0 XOR b[i].K0, a[i].K0 XOR b[i].K1)`; and when `a[i]`, `b[i]` have the
free-XOR invariant, `a[i][x] XOR b[i][y]` is key `x XOR y` of the result wire. -/
theorem gen_xor_gate (a b : List Wire) (st : GenState) (hlen : a.length = b.length) :
    ∃ ws, Xor a b st = .ok (ws, st) ∧ ws.length = a.length ∧
      ∀ i, i < a.length →
        ∃ A B W, a[i]? = some A ∧ b[i]? = some B ∧ ws[i]? = some W ∧
          W = { k0 := XorKey A.k0 B.k0, k1 := XorKey A.k0 B.k1 } ∧
          ∀ d, KeyOk d → FreeXor d A → FreeXor d B → ∀ x y, x < 2 → y < 2 →
            XorKey (A.sel x) (B.sel y) = W.sel (x ^^^ y) := by
  refine ⟨List.zipWith (fun A B => (Wire.mk (XorKey A.k0 B.k0) (XorKey A.k0 B.k1))) a b,
    by simp [Xor, hlen], by simp [hlen], ?_⟩
  intro i hi
  have hib : i < b.length := hlen ▸ hi
  refine ⟨a[i], b[i], Wire.mk (XorKey a[i].k0 b[i].k0) (XorKey a[i].k0 b[i].k1),
    List.getElem?_eq_getElem hi, List.getElem?_eq_getElem hib, ?_, rfl, ?_⟩
  · rw [List.getElem?_eq_getElem (by simp [hi, hib])]
    simp
  · intro d hk hA hB x y hx hy
    have hx' : x = 0 ∨ x = 1 := by omega
    have hy' : y = 0 ∨ y = 1 := by omega
    have hA1 := hA.2
    have hB1 := hB.2
    rcases hx' with rfl | rfl <;> rcases hy' with rfl | rfl
    · simp [Wire.sel]
    · simp [Wire.sel]
    · simp only [Wire.sel]
      simp only [show (1 : Nat) ^^^ 0 = 1 by decide, if_true, if_false, Nat.one_ne_zero]
      rw [hA1, hB1, XorKey_assoc, XorKey_comm d]
    · simp only [Wire.sel]
      simp only [show (1 : Nat) ^^^ 1 = 0 by decide, if_true, if_false, Nat.one_ne_zero]
      rw [hA1, hB1, XorKey_assoc, XorKey_comm d, XorKey_cancel _ _ (by rw [hB.1, hk.1])]

theorem gen_xor_gate_witness :
    ([exampleWireA, exampleWireB].length = [exampleWireB, exampleWireA].length) ∧
    ∃ ws, Xor [exampleWireA, exampleWireB] [exampleWireB, exampleWireA] exampleState
        = .ok (ws, exampleState) ∧ ws.length = [exampleWireA, exampleWireB].length ∧
      ∀ i, i < [exampleWireA, exampleWireB].length →
        ∃ A B W, [exampleWireA, exampleWireB][i]? = some A ∧
          [exampleWireB, exampleWireA][i]? = some B ∧ ws[i]? = some W ∧
          W = { k0 := XorKey A.k0 B.k0, k1 := XorKey A.k0 B.k1 } ∧
          ∀ d, KeyOk d → FreeXor d A → FreeXor d B → ∀ x y, x < 2 → y < 2 →
            XorKey (A.sel x) (B.sel y) = W.sel (x ^^^ y) :=
  ⟨by decide, gen_xor_gate [exampleWireA, exampleWireB] [exampleWireB, exampleWireA] exampleState
    (by decide)⟩

end Gen

namespace GMW

theorem xorAll_lt (w n : Nat) (a : Nat → Nat) (h : ∀ i, i < n → a i < 2 ^ w) :
    xorAll n a < 2 ^ w := by
  induction n with
  | zero => simp [xorAll, Nat.two_pow_pos]
  | succ n ih =>
    rw [xorAll_succ]
    exact Nat.xor_lt_two_pow (ih fun i hi => h i (by omega)) (h n (by omega))

theorem mask_xor_eq_not (w A : Nat) (h : A < 2 ^ w) :
    (2 ^ w - 1) ^^^ A = (~~~ BitVec.ofNat w A).toNat := by
  rw [BitVec.toNat_not, BitVec.toNat_ofNat, Nat.mod_eq_of_lt h]
  apply Nat.eq_of_testBit_eq
  intro i
  have h1 : (2 : Nat) ^ w - 1 - A = 2 ^ w - (A + 1) := by omega
  rw [h1, Nat.testBit_two_pow_sub_succ h, Nat.testBit_xor, Nat.testBit_two_pow_sub_one]
  by_cases hi : i < w
  · simp [hi]
  · simp only [hi, decide_False, Bool.false_and, Bool.false_xor]
    exact Nat.testBit_lt_two_pow
      (Nat.lt_of_lt_of_le h (Nat.pow_le_pow_right (by decide) (by omega)))

theorem xorAll_mask (n : Nat) (hn : 0 < n) (io : Nat → Io) (hio : ∀ i, i < n → (io i).Id = i)
    (mask : Nat) (a : Nat → Nat) :
    xorAll n (fun i => if (io i).Id = 0 then mask ^^^ a i else a i) = mask ^^^ xorAll n a := by
  have h : xorAll n (fun i => if (io i).Id = 0 then mask ^^^ a i else a i)
      = xorAll n (fun i => a i ^^^ (if i = 0 then mask else 0)) := by
    apply xorAll_congr
    intro i hi
    rw [hio i hi]
    by_cases h0 : i = 0
    · subst h0; simp [Nat.xor_comm]
    · have : ¬ ((i : Int) = 0) := by exact_mod_cast h0
      simp [this, h0]
  rw [h, xorAll_xor, xorAll_ite_zero n hn, Nat.xor_comm]

theorem id_ne_zero (n : Nat) (io : Nat → Io) (hio : ∀ i, i < n → (io i).Id = i) (i : Nat)
    (hi : i < n) (h0 : i ≠ 0) : ¬ (io i).Id = 0 := by
  rw [hio i hi]
  exact_mod_cast h0

/-- C16. The NOT gates of GMW: for `n ≥ 1` parties with identifiers `0..n-1`
and any shares, `Not32` returns `0xffffffff XOR a_0` for party 0 and `a_i`
for every other party, so the XOR of the results over all parties is
`0xffffffff XOR (XOR_i a_i)`, which for 32-bit shares is the bitwise
complement of `XOR_i a_i`; the same for `Not8` with the mask `0xff` and 8-bit
shares; and `Not1` negates party 0's share only, so the XOR of the results is
the negation of the XOR of the shares. -/
theorem gmw_not_complement (n : Nat) (hn : 1 ≤ n) (io : Nat → Io)
    (hio : ∀ i, i < n → (io i).Id = i) (a : Nat → Nat) (v : Nat → Bool) :
    (Not32 (io 0) (a 0) = 0xffffffff ^^^ a 0 ∧
      (∀ i, i < n → i ≠ 0 → Not32 (io i) (a i) = a i) ∧
      xorAll n (fun i => Not32 (io i) (a i)) = 0xffffffff ^^^ xorAll n a ∧
      ((∀ i, i < n → a i < 2 ^ 32) →
        xorAll n (fun i => Not32 (io i) (a i)) = (~~~ BitVec.ofNat 32 (xorAll n a)).toNat)) ∧
    (Not8 (io 0) (a 0) = 0xff ^^^ a 0 ∧
      (∀ i, i < n → i ≠ 0 → Not8 (io i) (a i) = a i) ∧
      xorAll n (fun i => Not8 (io i) (a i)) = 0xff ^^^ xorAll n a ∧
      ((∀ i, i < n → a i < 2 ^ 8) →
        xorAll n (fun i => Not8 (io i) (a i)) = (~~~ BitVec.ofNat 8 (xorAll n a)).toNat)) ∧
    (Not1 (io 0) (v 0) = (!v 0) ∧
      (∀ i, i < n → i ≠ 0 → Not1 (io i) (v i) = v i) ∧
      xorAllB n (fun i => Not1 (io i) (v i)) = !xorAllB n v) := by
  have h0 : (io 0).Id = 0 := by simpa using hio 0 hn
  have h32 : xorAll n (fun i => Not32 (io i) (a i)) = 0xffffffff ^^^ xorAll n a :=
    xorAll_mask n hn io hio 0xffffffff a
  have h8 : xorAll n (fun i => Not8 (io i) (a i)) = 0xff ^^^ xorAll n a :=
    xorAll_mask n hn io hio 0xff a
  refine ⟨⟨?_, ?_, h32, ?_⟩, ⟨?_, ?_, h8, ?_⟩, ?_, ?_, xorAllB_Not1 n hn io hio v⟩
  · simp [Not32, h0]
  · intro i hi hi0
    simp [Not32, id_ne_zero n io hio i hi hi0]
  · intro hb
    rw [h32]
    exact mask_xor_eq_not 32 _ (xorAll_lt 32 n a hb)
  · simp [Not8, h0]
  · intro i hi hi0
    simp [Not8, id_ne_zero n io hio i hi hi0]
  · intro hb
    rw [h8]
    exact mask_xor_eq_not 8 _ (xorAll_lt 8 n a hb)
  · simp [Not1, h0]
  · intro i hi hi0
    simp [Not1, id_ne_zero n io hio i hi hi0]

theorem gmw_not_complement_witness :
    (1 ≤ 3 ∧ ∀ i, i < 3 → (ioOf i).Id = i) ∧
    (Not32 (ioOf 0) (sharesA 0) = 0xffffffff ^^^ sharesA 0 ∧
      (∀ i, i < 3 → i ≠ 0 → Not32 (ioOf i) (sharesA i) = sharesA i) ∧
      xorAll 3 (fun i => Not32 (ioOf i) (sharesA i)) = 0xffffffff ^^^ xorAll 3 sharesA ∧
      ((∀ i, i < 3 → sharesA i < 2 ^ 32) →
        xorAll 3 (fun i => Not32 (ioOf i) (sharesA i))
          = (~~~ BitVec.ofNat 32 (xorAll 3 sharesA)).toNat)) ∧
    (Not8 (ioOf 0) (sharesA 0) = 0xff ^^^ sharesA 0 ∧
      (∀ i, i < 3 → i ≠ 0 → Not8 (ioOf i) (sharesA i) = sharesA i) ∧
      xorAll 3 (fun i => Not8 (ioOf i) (sharesA i)) = 0xff ^^^ xorAll 3 sharesA ∧
      ((∀ i, i < 3 → sharesA i < 2 ^ 8) →
        xorAll 3 (fun i => Not8 (ioOf i) (sharesA i))
          = (~~~ BitVec.ofNat 8 (xorAll 3 sharesA)).toNat)) ∧
    (Not1 (ioOf 0) (decide (sharesB 0 = 1)) = (!decide (sharesB 0 = 1)) ∧
      (∀ i, i < 3 → i ≠ 0 →
        Not1 (ioOf i) (decide (sharesB i = 1)) = decide (sharesB i = 1)) ∧
      xorAllB 3 (fun i => Not1 (ioOf i) (decide (sharesB i = 1)))
        = !xorAllB 3 (fun i => decide (sharesB i = 1))) :=
  ⟨⟨by decide, fun _ _ => rfl⟩,
    gmw_not_complement 3 (by decide) ioOf (fun _ _ => rfl) sharesA
      (fun i => decide (sharesB i = 1))⟩

end GMW

namespace OT

/-- C13. The constructors of the OT extension check their parameters: when
one of `k`, `l`, `m` is not a multiple of 8 both `NewExtendSender` and
`NewExtendReceiver` fail; when all three are multiples of 8 both return an
object with these `k`, `l`, `m` and `curPair = m` (the value at which a
transfer starts with the preprocessing); `k = l = m = 128` is such a case. -/
theorem ot_constructors_validate (k l m : Int) :
    ((¬ (8 : Int) ∣ k ∨ ¬ (8 : Int) ∣ l ∨ ¬ (8 : Int) ∣ m) →
      NewExtendSender k l m = none ∧ NewExtendReceiver k l m = none) ∧
    (((8 : Int) ∣ k ∧ (8 : Int) ∣ l ∧ (8 : Int) ∣ m) →
      (∃ s, NewExtendSender k l m = some s ∧ s.k = k ∧ s.l = l ∧ s.m = m ∧
        s.curPair = s.m ∧ s.z0 = [] ∧ s.z1 = []) ∧
      (∃ r, NewExtendReceiver k l m = some r ∧ r.k = k ∧ r.l = l ∧ r.m = m ∧
        r.curPair = r.m ∧ r.r = [])) ∧
    (∃ s r, NewExtendSender 128 128 128 = some s ∧ NewExtendReceiver 128 128 128 = some r ∧
      s.curPair = 128 ∧ r.curPair = 128) := by
  refine ⟨?_, ?_, ?_⟩
  · intro h
    simp only [Int.dvd_iff_tmod_eq_zero] at h
    unfold NewExtendSender NewExtendReceiver
    by_cases hk : k.tmod 8 = 0
    · by_cases hl : l.tmod 8 = 0
      · have hm : ¬ m.tmod 8 = 0 := by
          rcases h with h | h | h
          · exact absurd hk h
          · exact absurd hl h
          · exact h
        simp [hk, hl, hm]
      · simp [hk, hl]
    · simp [hk]
  · rintro ⟨hk, hl, hm⟩
    rw [Int.dvd_iff_tmod_eq_zero] at hk hl hm
    unfold NewExtendSender NewExtendReceiver
    simp [hk, hl, hm]
  · exact ⟨_, _, rfl, rfl, rfl, rfl⟩

end OT

namespace OT

theorem ot_constructors_validate_witness :
    (¬ (8 : Int) ∣ 12 ∧ (8 : Int) ∣ 128) ∧
    (NewExtendSender 12 128 128 = none ∧ NewExtendReceiver 12 128 128 = none) ∧
    ((∃ s, NewExtendSender 128 128 128 = some s ∧ s.k = 128 ∧ s.l = 128 ∧ s.m = 128 ∧
        s.curPair = s.m ∧ s.z0 = [] ∧ s.z1 = []) ∧
      (∃ r, NewExtendReceiver 128 128 128 = some r ∧ r.k = 128 ∧ r.l = 128 ∧ r.m = 128 ∧
        r.curPair = r.m ∧ r.r = [])) :=
  ⟨⟨by decide, by decide⟩,
    (ot_constructors_validate 12 128 128).1 (Or.inl (by decide)),
    (ot_constructors_validate 128 128 128).2.1 ⟨by decide, by decide, by decide⟩⟩

end OT

namespace GMW

/-! ### Loops followed by the rest of a program -/

theorem Prog.bind_assoc {α β γ : Type} (p : Prog α) (f : α → Prog β) (g : β → Prog γ) :
    (p.bind f).bind g = p.bind fun a => (f a).bind g := by
  induction p with
  | ret a => rfl
  | fail => rfl
  | triple1 k ih => simp only [Prog.bind, ih]
  | triple8 k ih => simp only [Prog.bind, ih]
  | triple32 k ih => simp only [Prog.bind, ih]
  | open1 v k ih => simp only [Prog.bind, ih]
  | open8 v k ih => simp only [Prog.bind, ih]
  | open32 v k ih => simp only [Prog.bind, ih]

theorem supply_t1_self (s : Supply) (l : List (List (Triple Bool))) (h : s.t1 = l) :
    { s with t1 := l } = s := by
  subst h
  rfl

theorem addLoop_joint_bind {α : Type} (w n : Nat) (hn : 0 < n) (io : Nat → Io)
    (hio : ∀ i, i < n → (io i).Id = i) (a b : Nat → Nat) (K : Nat → Nat → Prog α) :
    ∀ (m k : Nat), k + m = w → ∀ (res : Nat → Nat) (c : Nat → Bool)
      (ts : List (Nat → Triple Bool)) (s : Supply),
      m ≤ ts.length → (∀ t ∈ ts, validTriple1 n t) → s.t1 = ts.map (parties n) →
      (∀ i, res i < 2 ^ k) →
      ∃ r : Nat → Nat,
        runAll (parties n fun i =>
          (addLoop w (io i) (a i) (b i) (m + 1) (2 ^ k % 2 ^ w) (res i) (c i)).bind (K i)) s
          = runAll (parties n fun i => K i (r i)) { s with t1 := (ts.drop m).map (parties n) } ∧
        xorAll n r = clearLoop addBit addCarry (xorAll n a) (xorAll n b) m k (xorAll n res)
          (xorAllB n c) := by
  intro m
  induction m with
  | zero =>
    intro k hk res c ts s _ _ hs _
    have hkw : k = w := by omega
    subst hkw
    refine ⟨res, ?_, rfl⟩
    simp only [Nat.mod_self, addLoop_zero_i, Prog.bind, List.drop_zero]
    rw [supply_t1_self s _ hs]
  | succ m ih =>
    intro k hk res c ts s hlen hval hs hres
    have hkw : k < w := by omega
    rw [two_pow_mod_lt k w hkw]
    have hpos : 0 < 2 ^ k := Nat.two_pow_pos k
    match ts, hlen, hval, hs with
    | [], hlen, _, _ => simp at hlen
    | t :: ts', hlen, hval, hs =>
      simp only [addLoop_step _ _ _ _ _ _ _ _ hpos, and_two_pow_pos, Prog.bind_assoc]
      rw [runAll_And1_bind n hn io hio _ _ _ t (ts'.map (parties n)) s (by simpa using hs)]
      have hmul : 2 ^ k * 2 % 2 ^ w = 2 ^ (k + 1) % 2 ^ w := by rw [Nat.pow_succ]
      simp only [hmul]
      have hvt : validTriple1 n t := hval t (List.mem_cons_self _ _)
      obtain ⟨r, hr1, hr2⟩ := ih (k + 1) (by omega)
        (fun i => if xor ((a i).testBit k) (xor ((b i).testBit k) (c i)) then res i ||| 2 ^ k else res i)
        (fun i => xor (c i) (andShareB t
          (xorAllB n fun j => xor (xor ((a j).testBit k) (c j)) (t j).a)
          (xorAllB n fun j => xor (xor ((b j).testBit k) (c j)) (t j).b) i))
        ts' { s with t1 := ts'.map (parties n) } (by simpa using hlen)
        (fun t' ht' => hval t' (List.mem_cons_of_mem _ ht')) rfl
        (fun i => ite_or_two_pow_lt (res i) k (hres i) _)
      refine ⟨r, hr1, ?_⟩
      rw [hr2, clearLoop]
      congr 1
      · simp only [fun i => ite_or_two_pow (res i) k (hres i)]
        rw [xorAll_xor, xorAll_ite, xorAllB_xor, xorAllB_xor, testBit_xorAll, testBit_xorAll]
        rfl
      · rw [xorAllB_xor, andShareB_xorAll_code n hn t _ _ hvt,
          xorAllB_xor, xorAllB_xor, testBit_xorAll, testBit_xorAll]
        rfl

theorem subLoop_joint_bind {α : Type} (w n : Nat) (hn : 0 < n) (io : Nat → Io)
    (hio : ∀ i, i < n → (io i).Id = i) (a b : Nat → Nat) (K : Nat → Nat → Prog α) :
    ∀ (m k : Nat), k + m = w → ∀ (res : Nat → Nat) (c : Nat → Bool)
      (ts : List (Nat → Triple Bool)) (s : Supply),
      m ≤ ts.length → (∀ t ∈ ts, validTriple1 n t) → s.t1 = ts.map (parties n) →
      (∀ i, res i < 2 ^ k) →
      ∃ r : Nat → Nat,
        runAll (parties n fun i =>
          (subLoop w (io i) (a i) (b i) (m + 1) (2 ^ k % 2 ^ w) (res i) (c i)).bind (K i)) s
          = runAll (parties n fun i => K i (r i)) { s with t1 := (ts.drop m).map (parties n) } ∧
        xorAll n r = clearLoop subBit subCarry (xorAll n a) (xorAll n b) m k (xorAll n res)
          (xorAllB n c) := by
  intro m
  induction m with
  | zero =>
    intro k hk res c ts s _ _ hs _
    have hkw : k = w := by omega
    subst hkw
    refine ⟨res, ?_, rfl⟩
    simp only [Nat.mod_self, subLoop_zero_i, Prog.bind, List.drop_zero]
    rw [supply_t1_self s _ hs]
  | succ m ih =>
    intro k hk res c ts s hlen hval hs hres
    have hkw : k < w := by omega
    rw [two_pow_mod_lt k w hkw]
    have hpos : 0 < 2 ^ k := Nat.two_pow_pos k
    match ts, hlen, hval, hs with
    | [], hlen, _, _ => simp at hlen
    | t :: ts', hlen, hval, hs =>
      simp only [subLoop_step _ _ _ _ _ _ _ _ hpos, and_two_pow_pos, Prog.bind_assoc]
      rw [runAll_And1_bind n hn io hio _ _ _ t (ts'.map (parties n)) s (by simpa using hs)]
      have hmul : 2 ^ k * 2 % 2 ^ w = 2 ^ (k + 1) % 2 ^ w := by rw [Nat.pow_succ]
      simp only [hmul]
      have hvt : validTriple1 n t := hval t (List.mem_cons_self _ _)
      obtain ⟨r, hr1, hr2⟩ := ih (k + 1) (by omega)
        (fun i => if Not1 (io i) (xor ((a i).testBit k) (xor ((b i).testBit k) (c i)))
          then res i ||| 2 ^ k else res i)
        (fun i => xor ((a i).testBit k) (andShareB t
          (xorAllB n fun j => xor (xor ((a j).testBit k) (c j)) (t j).a)
          (xorAllB n fun j => xor (xor ((b j).testBit k) (c j)) (t j).b) i))
        ts' { s with t1 := ts'.map (parties n) } (by simpa using hlen)
        (fun t' ht' => hval t' (List.mem_cons_of_mem _ ht')) rfl
        (fun i => ite_or_two_pow_lt (res i) k (hres i) _)
      refine ⟨r, hr1, ?_⟩
      rw [hr2, clearLoop]
      congr 1
      · simp only [fun i => ite_or_two_pow (res i) k (hres i)]
        rw [xorAll_xor, xorAll_ite, xorAllB_Not1 n hn io hio, xorAllB_xor, xorAllB_xor,
          testBit_xorAll, testBit_xorAll]
        rfl
      · rw [xorAllB_xor, andShareB_xorAll_code n hn t _ _ hvt,
          xorAllB_xor, xorAllB_xor, testBit_xorAll, testBit_xorAll]
        rfl

/-- The cleartext adder loop started after bit 0 computes the sum. -/
theorem add_clear (m n : Nat) (a b : Nat → Nat) :
    clearLoop addBit addCarry (xorAll n a) (xorAll n b) m 1
      (xorAll n fun i => if xor ((a i).testBit 0) ((b i).testBit 0) then 0 ||| 1 else 0)
      ((xorAll n a).testBit 0 && (xorAll n b).testBit 0)
      = (xorAll n a + xorAll n b) % 2 ^ (m + 1) := by
  have hspec := clearLoop_spec (m + 1) addBit addCarry (xorAll n a) (xorAll n b)
    (BitVec.ofNat (m + 1) (xorAll n a)) (BitVec.ofNat (m + 1) (xorAll n b)) false
    (fun k hk c => by
      rw [getLsbD_ofNat_lt _ _ _ hk, getLsbD_ofNat_lt _ _ _ hk]
      unfold addBit
      cases (xorAll n a).testBit k <;> cases (xorAll n b).testBit k <;> cases c <;> rfl)
    (fun k hk c => by
      rw [getLsbD_ofNat_lt _ _ _ hk, getLsbD_ofNat_lt _ _ _ hk]
      unfold addCarry
      cases (xorAll n a).testBit k <;> cases (xorAll n b).testBit k <;> cases c <;> rfl)
    m 1 (by omega)
    (xorAll n fun i => if xor ((a i).testBit 0) ((b i).testBit 0) then 0 ||| 1 else 0)
    (by
      intro j
      have e1 : (xorAll n fun i => if xor ((a i).testBit 0) ((b i).testBit 0) = true then 0 ||| 1 else 0)
          = if xorAllB n (fun i => xor ((a i).testBit 0) ((b i).testBit 0)) then 1 else 0 := by
        rw [← xorAll_ite]; rfl
      rw [e1, testBit_ite_one]
      by_cases hj : j < 1
      · have hj0 : j = 0 := by omega
        subst hj0
        rw [BitVec.testBit_toNat, BitVec.getLsbD_add_add_bool (by omega),
          getLsbD_ofNat_lt _ _ _ (by omega), getLsbD_ofNat_lt _ _ _ (by omega),
          xorAllB_xor, ← testBit_xorAll, ← testBit_xorAll]
        simp [xor_eq]
      · simp [hj])
  have hcar : BitVec.carry 1 (BitVec.ofNat (m + 1) (xorAll n a)) (BitVec.ofNat (m + 1) (xorAll n b)) false
      = ((xorAll n a).testBit 0 && (xorAll n b).testBit 0) := by
    rw [BitVec.carry_succ, getLsbD_ofNat_lt _ _ _ (by omega), getLsbD_ofNat_lt _ _ _ (by omega)]
    simp
  rw [hcar] at hspec
  rw [hspec]
  simp [BitVec.toNat_add]

/-- The cleartext subtractor loop started after bit 0 computes the difference. -/
theorem sub_clear (m n : Nat) (a b : Nat → Nat) :
    clearLoop subBit subCarry (xorAll n a) (xorAll n b) m 1
      (xorAll n fun i => if xor ((a i).testBit 0) ((b i).testBit 0) then 0 ||| 1 else 0)
      (xor ((xorAll n a).testBit 0) (!(xorAll n a).testBit 0 && !(xorAll n b).testBit 0))
      = (BitVec.ofNat (m + 1) (xorAll n a) - BitVec.ofNat (m + 1) (xorAll n b)).toNat := by
  have hspec := clearLoop_spec (m + 1) subBit subCarry (xorAll n a) (xorAll n b)
    (BitVec.ofNat (m + 1) (xorAll n a)) (~~~ BitVec.ofNat (m + 1) (xorAll n b)) true
    (fun k hk c => by
      rw [BitVec.getLsbD_not, getLsbD_ofNat_lt _ _ _ hk, getLsbD_ofNat_lt _ _ _ hk]
      unfold subBit
      simp only [hk, decide_True, Bool.true_and]
      cases (xorAll n a).testBit k <;> cases (xorAll n b).testBit k <;> cases c <;> rfl)
    (fun k hk c => by
      rw [BitVec.getLsbD_not, getLsbD_ofNat_lt _ _ _ hk, getLsbD_ofNat_lt _ _ _ hk]
      unfold subCarry
      simp only [hk, decide_True, Bool.true_and]
      cases (xorAll n a).testBit k <;> cases (xorAll n b).testBit k <;> cases c <;> rfl)
    m 1 (by omega)
    (xorAll n fun i => if xor ((a i).testBit 0) ((b i).testBit 0) then 0 ||| 1 else 0)
    (by
      intro j
      have e1 : (xorAll n fun i => if xor ((a i).testBit 0) ((b i).testBit 0) = true then 0 ||| 1 else 0)
          = if xorAllB n (fun i => xor ((a i).testBit 0) ((b i).testBit 0)) then 1 else 0 := by
        rw [← xorAll_ite]; rfl
      rw [e1, testBit_ite_one]
      by_cases hj : j < 1
      · have hj0 : j = 0 := by omega
        subst hj0
        rw [BitVec.testBit_toNat, BitVec.getLsbD_add_add_bool (by omega), BitVec.getLsbD_not,
          getLsbD_ofNat_lt _ _ _ (by omega), getLsbD_ofNat_lt _ _ _ (by omega),
          xorAllB_xor, ← testBit_xorAll, ← testBit_xorAll]
        simp only [BitVec.carry_zero, xor_eq]
        cases (xorAll n a).testBit 0 <;> cases (xorAll n b).testBit 0 <;> simp
      · simp [hj])
  have hcar : BitVec.carry 1 (BitVec.ofNat (m + 1) (xorAll n a))
      (~~~ BitVec.ofNat (m + 1) (xorAll n b)) true
      = xor ((xorAll n a).testBit 0) (!(xorAll n a).testBit 0 && !(xorAll n b).testBit 0) := by
    rw [BitVec.carry_succ, BitVec.getLsbD_not, getLsbD_ofNat_lt _ _ _ (by omega),
      getLsbD_ofNat_lt _ _ _ (by omega)]
    simp only [BitVec.carry_zero, xor_eq]
    cases (xorAll n a).testBit 0 <;> cases (xorAll n b).testBit 0 <;> simp
  rw [hcar] at hspec
  rw [hspec]
  congr 1
  rw [BitVec.sub_toAdd, BitVec.neg_eq_not_add, BitVec.add_assoc]
  congr 2
  apply BitVec.eq_of_toNat_eq
  simp

/-- `Add8`/`Add32` followed by the rest of the program. -/
theorem add_joint_bind {α : Type} (w n : Nat) (hw : 2 ≤ w) (hn : 0 < n) (io : Nat → Io)
    (hio : ∀ i, i < n → (io i).Id = i) (a b : Nat → Nat) (K : Nat → Nat → Prog α)
    (ts : List (Nat → Triple Bool)) (s : Supply)
    (hlen : w - 1 ≤ ts.length) (hval : ∀ t ∈ ts, validTriple1 n t) (hs : s.t1 = ts.map (parties n))
    (hc : xorAllB n (fun i => (a i).testBit 0 && (b i).testBit 0)
      = ((xorAll n a).testBit 0 && (xorAll n b).testBit 0)) :
    ∃ r : Nat → Nat,
      runAll (parties n fun i => (addLoop w (io i) (a i) (b i) w 2
        (if xor (decide (((a i) &&& 1) > 0)) (decide (((b i) &&& 1) > 0)) then 0 ||| 1 else 0)
        (decide (((a i) &&& 1) > 0) && decide (((b i) &&& 1) > 0))).bind (K i)) s
        = runAll (parties n fun i => K i (r i))
            { s with t1 := (ts.drop (w - 1)).map (parties n) } ∧
      xorAll n r = (xorAll n a + xorAll n b) % 2 ^ w := by
  obtain ⟨m, rfl⟩ : ∃ m, w = m + 1 := ⟨w - 1, by omega⟩
  have h2 : (2 : Nat) = 2 ^ 1 % 2 ^ (m + 1) := by
    rw [two_pow_mod_lt 1 (m + 1) (by omega)]; rfl
  simp only [and_one_pos]
  obtain ⟨r, hr1, hr2⟩ := addLoop_joint_bind (m + 1) n hn io hio a b K m 1 (by omega)
    (fun i => if xor ((a i).testBit 0) ((b i).testBit 0) then 0 ||| 1 else 0)
    (fun i => (a i).testBit 0 && (b i).testBit 0) ts s (by simpa using hlen) hval hs
    (fun i => by dsimp only; split <;> simp)
  rw [← h2] at hr1
  refine ⟨r, hr1, ?_⟩
  rw [hr2, hc]
  exact add_clear m n a b

/-- `Sub8`/`Sub32` followed by the rest of the program. -/
theorem sub_joint_bind {α : Type} (w n : Nat) (hw : 2 ≤ w) (hn : 0 < n) (io : Nat → Io)
    (hio : ∀ i, i < n → (io i).Id = i) (a b : Nat → Nat) (K : Nat → Nat → Prog α)
    (ts : List (Nat → Triple Bool)) (s : Supply)
    (hlen : w ≤ ts.length) (hval : ∀ t ∈ ts, validTriple1 n t) (hs : s.t1 = ts.map (parties n)) :
    ∃ r : Nat → Nat,
      runAll (parties n fun i =>
        ((And1 (io i) (Not1 (io i) (decide (((a i) &&& 1) > 0)))
          (Not1 (io i) (decide (((b i) &&& 1) > 0)))).bind fun t =>
          subLoop w (io i) (a i) (b i) w 2
            (if xor (decide (((a i) &&& 1) > 0)) (decide (((b i) &&& 1) > 0)) then 0 ||| 1 else 0)
            (xor (decide (((a i) &&& 1) > 0)) t)).bind (K i)) s
        = runAll (parties n fun i => K i (r i)) { s with t1 := (ts.drop w).map (parties n) } ∧
      xorAll n r = (BitVec.ofNat w (xorAll n a) - BitVec.ofNat w (xorAll n b)).toNat := by
  obtain ⟨m, rfl⟩ : ∃ m, w = m + 1 := ⟨w - 1, by omega⟩
  have h2 : (2 : Nat) = 2 ^ 1 % 2 ^ (m + 1) := by
    rw [two_pow_mod_lt 1 (m + 1) (by omega)]; rfl
  simp only [and_one_pos, Prog.bind_assoc]
  match ts, hlen, hval, hs with
  | [], hlen, _, _ => simp at hlen
  | t :: ts', hlen, hval, hs =>
    rw [runAll_And1_bind n hn io hio _ _ _ t (ts'.map (parties n)) s (by simpa using hs)]
    have hvt : validTriple1 n t := hval t (List.mem_cons_self _ _)
    obtain ⟨r, hr1, hr2⟩ := subLoop_joint_bind (m + 1) n hn io hio a b K m 1 (by omega)
      (fun i => if xor ((a i).testBit 0) ((b i).testBit 0) then 0 ||| 1 else 0)
      (fun i => xor ((a i).testBit 0) (andShareB t
        (xorAllB n fun j => xor (Not1 (io j) ((a j).testBit 0)) (t j).a)
        (xorAllB n fun j => xor (Not1 (io j) ((b j).testBit 0)) (t j).b) i))
      ts' { s with t1 := ts'.map (parties n) } (by simpa using hlen)
      (fun t' ht' => hval t' (List.mem_cons_of_mem _ ht')) rfl
      (fun i => by dsimp only; split <;> simp)
    rw [← h2] at hr1
    refine ⟨r, hr1, ?_⟩
    rw [hr2, xorAllB_xor, andShareB_xorAll_code n hn t _ _ hvt, xorAllB_Not1 n hn io hio,
      xorAllB_Not1 n hn io hio, ← testBit_xorAll, ← testBit_xorAll]
    exact sub_clear m n a b

end GMW

namespace GMW

theorem RunExample.body_eq (io : Io) (y z : Nat) (hy : Input32 io 3 = .ret y)
    (hz : Input32 io 6 = .ret z) :
    RunExample.body io
      = ((And1 io (Not1 io (decide ((y &&& 1) > 0))) (Not1 io (decide ((z &&& 1) > 0)))).bind
          fun t => subLoop 32 io y z 32 2
            (if xor (decide ((y &&& 1) > 0)) (decide ((z &&& 1) > 0)) then 0 ||| 1 else 0)
            (xor (decide ((y &&& 1) > 0)) t)).bind fun d =>
        Prog.open32 d fun o1 =>
          (addLoop 32 io y z 32 2
            (if xor (decide ((y &&& 1) > 0)) (decide ((z &&& 1) > 0)) then 0 ||| 1 else 0)
            (decide ((y &&& 1) > 0) && decide ((z &&& 1) > 0))).bind fun sm =>
          Prog.open32 sm fun o2 => Prog.ret (o1, o2) := by
  have h : RunExample.body io
      = (Input32 io 3).bind fun y => (Input32 io 6).bind fun z =>
          (Sub32 io y z).bind fun d => (Output32 io d).bind fun o1 =>
          (Add32 io y z).bind fun sm => (Output32 io sm).bind fun o2 => Prog.ret (o1, o2) := rfl
  rw [h, hy, hz]
  rfl

/-- The example run when every `Open` returns the XOR of what all parties
broadcast in the same round (the lockstep run `runAll`): seven parties with
identifiers `0..6`, party 3 holding the input `0x2A`, party 6 holding `0x07`,
`y = Input32(io, 3)`, `z = Input32(io, 6)`.  For every supply of valid bit
triples (63 are used: 32 by `Sub32`, then 31 by `Add32`) the joint run ends and
every party obtains `0x23` from `Output32(Sub32(io, y, z))` and `0x31` from
`Output32(Add32(io, y, z))`. -/
theorem gmw_example_run (io : Nat → Io) (hio : ∀ i, i < 7 → (io i).Id = i)
    (h3 : (io 3).GetInput = some 0x2A) (h6 : (io 6).GetInput = some 0x07)
    (ts : List (Nat → Triple Bool)) (s : Supply)
    (hlen : 63 ≤ ts.length) (hval : ∀ t ∈ ts, validTriple1 7 t)
    (hs : s.t1 = ts.map (parties 7)) :
    runAll (parties 7 fun i => RunExample.body (io i)) s
      = some (List.replicate 7 (0x23, 0x31)) := by
  have hy : ∀ i, i < 7 → Input32 (io i) 3 = .ret (if i = 3 then 0x2A else 0) := by
    intro i hi
    unfold Input32
    simp only [hio i hi]
    by_cases h : i = 3
    · subst h; simp [h3]
    · have : ¬ ((i : Int) = 3) := by exact_mod_cast h
      simp [h, this]
  have hz : ∀ i, i < 7 → Input32 (io i) 6 = .ret (if i = 6 then 0x07 else 0) := by
    intro i hi
    unfold Input32
    simp only [hio i hi]
    by_cases h : i = 6
    · subst h; simp [h6]
    · have : ¬ ((i : Int) = 6) := by exact_mod_cast h
      simp [h, this]
  rw [parties_congr 7 _ _ fun i hi => RunExample.body_eq (io i) _ _ (hy i hi) (hz i hi)]
  obtain ⟨r1, hr1, hv1⟩ := sub_joint_bind 32 7 (by decide) (by decide) io hio
    (fun i => if i = 3 then 0x2A else 0) (fun i => if i = 6 then 0x07 else 0)
    (fun i d => Prog.open32 d fun o1 =>
      (addLoop 32 (io i) (if i = 3 then 0x2A else 0) (if i = 6 then 0x07 else 0) 32 2
        (if xor (decide (((if i = 3 then 0x2A else 0) &&& 1) > 0))
          (decide (((if i = 6 then 0x07 else 0) &&& 1) > 0)) then 0 ||| 1 else 0)
        (decide (((if i = 3 then 0x2A else 0) &&& 1) > 0)
          && decide (((if i = 6 then 0x07 else 0) &&& 1) > 0))).bind fun sm =>
      Prog.open32 sm fun o2 => Prog.ret (o1, o2))
    ts s (by omega) hval hs
  rw [hr1, runAll_open32 7 (by decide)]
  obtain ⟨r2, hr2, hv2⟩ := add_joint_bind 32 7 (by decide) (by decide) io hio
    (fun i => if i = 3 then 0x2A else 0) (fun i => if i = 6 then 0x07 else 0)
    (fun _ sm => Prog.open32 sm fun o2 => Prog.ret (xorAll 7 r1, o2))
    (ts.drop 32) { s with t1 := (ts.drop 32).map (parties 7) }
    (by rw [List.length_drop]; omega) (fun t ht => hval t (List.mem_of_mem_drop ht)) rfl
    (by decide)
  rw [hr2, runAll_open32 7 (by decide), runAll_ret 7 (by decide), hv1, hv2]
  rfl

theorem gmw_example_run_witness :
    ((∀ i, i < 7 → (scenarioIo i).Id = i) ∧ (scenarioIo 3).GetInput = some 0x2A ∧
      (scenarioIo 6).GetInput = some 0x07 ∧ 63 ≤ scenarioTriples.length ∧
      (∀ t ∈ scenarioTriples, validTriple1 7 t)) ∧
    runAll (parties 7 fun i => RunExample.body (scenarioIo i)) scenarioSupply
      = some (List.replicate 7 (0x23, 0x31)) :=
  ⟨⟨fun _ _ => rfl, rfl, rfl, by decide, by decide⟩,
    gmw_example_run scenarioIo (fun _ _ => rfl) rfl rfl scenarioTriples scenarioSupply
      (by decide) (by decide) rfl⟩

end GMW

namespace Gen

/-! ### Arity of the gates -/

theorem init_key0_isSome (rnd : Nat → Nat) (st : GenState) :
    ∃ d, (init_key0 rnd st).key0 = some d := by
  cases h : st.key0 with
  | some d => exact ⟨d, by rw [init_key0_some rnd st d h, h]⟩
  | none => exact ⟨(GenKey rnd st).1.modifyHead fun b => b ||| 1, by simp [init_key0, h]⟩

theorem init_key0_idem (rnd : Nat → Nat) (st : GenState) :
    init_key0 rnd (init_key0 rnd st) = init_key0 rnd st := by
  obtain ⟨d, hd⟩ := init_key0_isSome rnd st
  exact init_key0_some rnd _ d hd

theorem genWireRR_init (E : Key → List Nat → List Nat) (rnd : Nat → Nat) (in0 in1 : Key)
    (r : Nat) (st : GenState) :
    genWireRR E rnd in0 in1 r st = genWireRR E rnd in0 in1 r (init_key0 rnd st) := by
  unfold genWireRR
  rw [init_key0_idem]

theorem lsb_of_ne_nil (k : Key) (h : k ≠ []) : ∃ p, p < 2 ∧ lsb k = some p := by
  cases k with
  | nil => exact absurd rfl h
  | cons a t => exact ⟨a % 2, Nat.mod_lt _ (by decide), rfl⟩

/-- What `gateBody` returns and sends in a session whose offset may still be
unset. -/
theorem gateBody_eval_init (op : Nat → Nat → Nat) (hop : ∀ p q, p < 2 → q < 2 → op p q < 2)
    (E : Key → List Nat → List Nat) (rnd : Nat → Nat) (A B : Wire) (st : GenState) (key0 : Key)
    (pa pb : Nat) (hpa : pa < 2) (hpb : pb < 2)
    (hA : lsb A.k0 = some pa) (hB : lsb B.k0 = some pb)
    (hkey : (init_key0 rnd st).key0 = some key0) :
    gateBody op E rnd A B st =
      .ok (gateWire op E key0 A B pa pb,
        { init_key0 rnd st with
          sent := (init_key0 rnd st).sent ++ [Msg.T (gateTable op E key0 A B pa pb)] }) := by
  have hx : ∀ c, c < 2 → c ^^^ pa < 2 := by
    intro c hc
    have : pa = 0 ∨ pa = 1 := by omega
    have : c = 0 ∨ c = 1 := by omega
    rcases ‹pa = 0 ∨ pa = 1› with rfl | rfl <;> rcases ‹c = 0 ∨ c = 1› with rfl | rfl <;> decide
  have hy : ∀ c, c < 2 → c ^^^ pb < 2 := by
    intro c hc
    have : pb = 0 ∨ pb = 1 := by omega
    have : c = 0 ∨ c = 1 := by omega
    rcases ‹pb = 0 ∨ pb = 1› with rfl | rfl <;> rcases ‹c = 0 ∨ c = 1› with rfl | rfl <;> decide
  unfold gateBody
  simp only [hA, hB, orPanic_some, ok_bind, pure_eq_ok, Wire.at_of_lt A pa hpa,
    Wire.at_of_lt B pb hpb, genWireRR_init E rnd _ _ _ st,
    genWireRR_eval E rnd _ _ key0 _ (hop pa pb hpa hpb) (init_key0 rnd st) hkey,
    List.foldlM_cons, List.foldlM_nil,
    Wire.at_of_lt A _ (hx 1 (by decide)), Wire.at_of_lt A _ (hx 0 (by decide)),
    Wire.at_of_lt B _ (hy 1 (by decide)), Wire.at_of_lt B _ (hy 0 (by decide)),
    Wire.at_of_lt _ _ (hop _ _ (hx 1 (by decide)) (hy 0 (by decide))),
    Wire.at_of_lt _ _ (hop _ _ (hx 0 (by decide)) (hy 1 (by decide))),
    Wire.at_of_lt _ _ (hop _ _ (hx 1 (by decide)) (hy 1 (by decide)))]
  rfl

/-- The loop of `And` and `Or` returns one wire for each pair of input wires
whose `K0` are not empty, and sends one table for each. -/
theorem gateLoop_total (op : Nat → Nat → Nat) (hop : ∀ p q, p < 2 → q < 2 → op p q < 2)
    (E : Key → List Nat → List Nat) (rnd : Nat → Nat) :
    ∀ (a b : List Wire) (st : GenState), a.length = b.length →
      (∀ w ∈ a, w.k0 ≠ []) → (∀ w ∈ b, w.k0 ≠ []) →
      ∃ ws st', gateLoop op E rnd a b st = .ok (ws, st') ∧ ws.length = a.length ∧
        ∃ ts : List (List (List Nat)), ts.length = a.length ∧
          st'.sent = st.sent ++ ts.map Msg.T := by
  intro a
  induction a with
  | nil =>
    intro b st hlen _ _
    cases b with
    | nil => exact ⟨[], st, by simp [gateLoop], rfl, [], rfl, by simp⟩
    | cons B b => simp at hlen
  | cons A a ih =>
    intro b st hlen ha hb
    cases b with
    | nil => simp at hlen
    | cons B b =>
      obtain ⟨pa, hpa, hA0⟩ := lsb_of_ne_nil A.k0 (ha A (List.mem_cons_self _ _))
      obtain ⟨pb, hpb, hB0⟩ := lsb_of_ne_nil B.k0 (hb B (List.mem_cons_self _ _))
      obtain ⟨d, hd⟩ := init_key0_isSome rnd st
      have hbody := gateBody_eval_init op hop E rnd A B st d pa pb hpa hpb hA0 hB0 hd
      obtain ⟨ws, st', h1, h2, ts, h3, h4⟩ := ih b
        { init_key0 rnd st with
          sent := (init_key0 rnd st).sent ++ [Msg.T (gateTable op E d A B pa pb)] }
        (by simpa using hlen) (fun w hw => ha w (List.mem_cons_of_mem _ hw))
        (fun w hw => hb w (List.mem_cons_of_mem _ hw))
      refine ⟨gateWire op E d A B pa pb :: ws, st', ?_, by simp [h2],
        gateTable op E d A B pa pb :: ts, by simp [h3], ?_⟩
      · simp [gateLoop, hbody, h1]
      · rw [h4]
        have hs : (init_key0 rnd st).sent = st.sent := by
          unfold init_key0
          cases st.key0 <;> rfl
        simp [hs]

/-- C12. Arity of the gates.  For wire vectors of different lengths each of
`And`, `Or` and `Xor` panics in the state in which it was called: nothing has
been sent (and nothing else has changed) when the panic happens.  For vectors
of the same length `Xor` returns `len(a)` wires, and `And` and `Or` return
`len(a)` wires (and send `len(a)` tables) when the `K0` of the input wires are
not empty byte strings. -/
theorem gen_gate_arity (E : Key → List Nat → List Nat) (rnd : Nat → Nat) (a b : List Wire)
    (st : GenState) :
    (a.length ≠ b.length →
      And E rnd a b st = .error st ∧ Or E rnd a b st = .error st ∧ Xor a b st = .error st) ∧
    (a.length = b.length →
      (∃ ws, Xor a b st = .ok (ws, st) ∧ ws.length = a.length) ∧
      ((∀ w ∈ a, w.k0 ≠ []) → (∀ w ∈ b, w.k0 ≠ []) →
        (∃ ws st', And E rnd a b st = .ok (ws, st') ∧ ws.length = a.length ∧
          ∃ ts : List (List (List Nat)), ts.length = a.length ∧
            st'.sent = st.sent ++ ts.map Msg.T) ∧
        (∃ ws st', Or E rnd a b st = .ok (ws, st') ∧ ws.length = a.length ∧
          ∃ ts : List (List (List Nat)), ts.length = a.length ∧
            st'.sent = st.sent ++ ts.map Msg.T))) := by
  refine ⟨fun h => ⟨by simp [And, h], by simp [Or, h], by simp [Xor, h]⟩, fun h => ⟨?_, ?_⟩⟩
  · exact ⟨List.zipWith (fun A B => (Wire.mk (XorKey A.k0 B.k0) (XorKey A.k0 B.k1))) a b,
      by simp [Xor, h], by simp [h]⟩
  · intro ha hb
    refine ⟨?_, ?_⟩
    · simpa [And, h] using gateLoop_total _ and_lt_two E rnd a b st h ha hb
    · simpa [Or, h] using gateLoop_total _ or_lt_two E rnd a b st h ha hb

theorem gen_gate_arity_witness :
    [exampleWireA, exampleWireB].length ≠ [exampleWireB].length ∧
    (And exampleCipher exampleStream [exampleWireA, exampleWireB] [exampleWireB] exampleState
        = .error exampleState ∧
      Or exampleCipher exampleStream [exampleWireA, exampleWireB] [exampleWireB] exampleState
        = .error exampleState ∧
      Xor [exampleWireA, exampleWireB] [exampleWireB] exampleState = .error exampleState) :=
  ⟨by decide,
    (gen_gate_arity exampleCipher exampleStream [exampleWireA, exampleWireB] [exampleWireB]
      exampleState).1 (by decide)⟩

end Gen

namespace Gen

/-! ### Order of the double encryption, addressing of the rows -/

theorem rrWire_sel (key0 enc0 : Key) (r : Nat) : (rrWire key0 enc0 r).sel r = enc0 := by
  unfold rrWire Wire.sel
  by_cases h : r = 0 <;> simp [h]

theorem genWireRR_sel (E : Key → List Nat → List Nat) (rnd : Nat → Nat) (in0 in1 : Key)
    (r : Nat) (hr : r < 2) (st : GenState) :
    ∃ w st', genWireRR E rnd in0 in1 r st = .ok (w, st') ∧
      w.sel r = encrypt E [in0, in1] ALL_ZEROS := by
  obtain ⟨d, hd⟩ := init_key0_isSome rnd st
  refine ⟨rrWire d (encrypt E [in0, in1] ALL_ZEROS) r, init_key0 rnd st, ?_, rrWire_sel _ _ _⟩
  rw [genWireRR_init]
  exact genWireRR_eval E rnd in0 in1 d r hr _ hd

/-- C19, the claim fails: for the cipher `exampleCipher`, two keys and the
zero block, `encrypt([k1, k2], X)` is not `E_{k1}(E_{k2}(X))`. -/
theorem gen_encrypt_first_key_outermost_fails :
    encrypt exampleCipher [exampleWireA.k0, exampleWireB.k0] ALL_ZEROS
      ≠ exampleCipher exampleWireA.k0 (exampleCipher exampleWireB.k0 ALL_ZEROS) := by
  decide

/-- C19, amended.  The double encryption nests the first key innermost: for
every cipher `E`, keys `k1`, `k2` and block `X`,
`encrypt([k1, k2], X) = E_{k2}(E_{k1}(X))`; and the wire `W` returned by
`genWireRR(in0, in1, r)` for `r` in `{0,1}` has `W[r] = E_{in1}(E_{in0}(0^L))`,
which for the canonical row of a gate is `E_{B[pb]}(E_{A[pa]}(0^L))`. -/
theorem gen_encrypt_nesting (E : Key → List Nat → List Nat) (k1 k2 : Key) (X : List Nat)
    (rnd : Nat → Nat) (in0 in1 : Key) (r : Nat) (hr : r < 2) (st : GenState) :
    encrypt E [k1, k2] X = E k2 (E k1 X) ∧
    ∃ w st', genWireRR E rnd in0 in1 r st = .ok (w, st') ∧
      w.at r = some (E in1 (E in0 ALL_ZEROS)) := by
  refine ⟨rfl, ?_⟩
  obtain ⟨w, st', h1, h2⟩ := genWireRR_sel E rnd in0 in1 r hr st
  exact ⟨w, st', h1, by rw [Wire.at_of_lt w r hr, h2]; rfl⟩

theorem gen_encrypt_nesting_witness :
    (1 < 2) ∧
    (encrypt exampleCipher [exampleWireA.k0, exampleWireB.k0] ALL_ZEROS
        = exampleCipher exampleWireB.k0 (exampleCipher exampleWireA.k0 ALL_ZEROS) ∧
      ∃ w st', genWireRR exampleCipher exampleStream exampleWireA.k0 exampleWireB.k1 1 freshState
          = .ok (w, st') ∧
        w.at 1 = some (exampleCipher exampleWireB.k1 (exampleCipher exampleWireA.k0 ALL_ZEROS))) :=
  ⟨by decide,
    gen_encrypt_nesting exampleCipher exampleWireA.k0 exampleWireB.k0 ALL_ZEROS exampleStream
      exampleWireA.k0 exampleWireB.k1 1 (by decide) freshState⟩

theorem slot_pair (k1 k2 : Key) (a b : Nat) (h1 : lsb k1 = some a) (h2 : lsb k2 = some b) :
    slot [k1, k2] = some (2 * a + b) := by
  simp [slot, h1, h2, Nat.mul_comm]

/-- The rows of the table of a gate with truth table `op`, addressed by the
low bits of the labels. -/
theorem gate_rows (op : Nat → Nat → Nat) (hop : ∀ p q, p < 2 → q < 2 → op p q < 2)
    (E : Key → List Nat → List Nat) (rnd : Nat → Nat) (st : GenState)
    (key0 : Key) (A B : Wire) (hkey : st.key0 = some key0) (hk : KeyOk key0)
    (hA : FreeXor key0 A) (hB : FreeXor key0 B) :
    ∃ W T st', gateLoop op E rnd [A] [B] st = .ok ([W], st') ∧
      st'.sent = st.sent ++ [Msg.T T] ∧ T.length = 3 ∧
      ∀ x y, x < 2 → y < 2 →
        ∃ p q s, lsb (A.sel x) = some p ∧ lsb (B.sel y) = some q ∧
          slot [B.sel y, A.sel x] = some s ∧ s = 2 * q + p ∧
          (if s = 0 then encrypt E [A.sel x, B.sel y] ALL_ZEROS = W.sel (op x y)
           else T[s - 1]? = some (encrypt E [A.sel x, B.sel y] (W.sel (op x y)))) := by
  obtain ⟨pa, hpa, hA0, hA1⟩ := lsb_opposite key0 A hk hA
  obtain ⟨pb, hpb, hB0, hB1⟩ := lsb_opposite key0 B hk hB
  have hbody := gateBody_eval op hop E rnd A B st key0 pa pb hpa hpb hA0 hB0 hkey
  refine ⟨gateWire op E key0 A B pa pb, gateTable op E key0 A B pa pb,
    { st with sent := st.sent ++ [Msg.T (gateTable op E key0 A B pa pb)] },
    gate_single _ E rnd A B _ st _ hbody, rfl, rfl, ?_⟩
  intro x y hx hy
  have hp : lsb (A.sel x) = some (if x = 0 then pa else 1 - pa) := by
    unfold Wire.sel; split <;> assumption
  have hq : lsb (B.sel y) = some (if y = 0 then pb else 1 - pb) := by
    unfold Wire.sel; split <;> assumption
  refine ⟨_, _, _, hp, hq, slot_pair _ _ _ _ hq hp, rfl, ?_⟩
  have hpa' : pa = 0 ∨ pa = 1 := by omega
  have hpb' : pb = 0 ∨ pb = 1 := by omega
  have hx' : x = 0 ∨ x = 1 := by omega
  have hy' : y = 0 ∨ y = 1 := by omega
  have hsel : (gateWire op E key0 A B pa pb).sel (op pa pb)
      = encrypt E [A.sel pa, B.sel pb] ALL_ZEROS := rrWire_sel _ _ _
  rcases hpa' with rfl | rfl <;> rcases hpb' with rfl | rfl <;>
    rcases hx' with rfl | rfl <;> rcases hy' with rfl | rfl <;>
    simp [gateTable, hsel]

/-- C18, the claim fails: for the wires `exampleWireA`, `exampleWireB` and the
bits `x = y = 1` the labels have the low bits `p = 1`, `q = 0`, so
`s = slot([A[1], B[1]]) = 2`, and the row `T[s - 1]` of the table sent by
`And` is not the ciphertext of that pair (which is in `T[0]`). -/
theorem gen_slot_addressing_fails :
    ∃ W T st', And exampleCipher exampleStream [exampleWireA] [exampleWireB] exampleState
        = .ok ([W], st') ∧ st'.sent = [Msg.T T] ∧
      slot [exampleWireA.k1, exampleWireB.k1] = some 2 ∧
      T[2 - 1]? ≠ some (encrypt exampleCipher [exampleWireA.k1, exampleWireB.k1] W.k1) ∧
      T[0]? = some (encrypt exampleCipher [exampleWireA.k1, exampleWireB.k1] W.k1) := by
  refine ⟨_, _, _, rfl, rfl, rfl, by decide, by decide⟩

/-- C18, amended.  The rows of the table of `And` and of `Or` are addressed
with the low bit of the label of `A` as the low bit of the row number: for
input wires `A`, `B` with the free-XOR invariant and bits `x`, `y`, with
`p`, `q` the low bits of `A[x]`, `B[y]` and `s = slot([B[y], A[x]]) = 2q + p`,
the pair with `s = 0` is the elided row, `encrypt([A[x], B[y]], 0^L) = W[x & y]`,
and for `s ≠ 0` the table has `T[s - 1] = encrypt([A[x], B[y]], W[x & y])`;
likewise for `Or` with `x | y`. -/
theorem gen_slot_addressing (E : Key → List Nat → List Nat) (rnd : Nat → Nat) (st : GenState)
    (key0 : Key) (A B : Wire) (hkey : st.key0 = some key0) (hk : KeyOk key0)
    (hA : FreeXor key0 A) (hB : FreeXor key0 B) :
    (∃ W T st', And E rnd [A] [B] st = .ok ([W], st') ∧
      st'.sent = st.sent ++ [Msg.T T] ∧ T.length = 3 ∧
      ∀ x y, x < 2 → y < 2 →
        ∃ p q s, lsb (A.sel x) = some p ∧ lsb (B.sel y) = some q ∧
          slot [B.sel y, A.sel x] = some s ∧ s = 2 * q + p ∧
          (if s = 0 then encrypt E [A.sel x, B.sel y] ALL_ZEROS = W.sel (x &&& y)
           else T[s - 1]? = some (encrypt E [A.sel x, B.sel y] (W.sel (x &&& y))))) ∧
    (∃ W T st', Or E rnd [A] [B] st = .ok ([W], st') ∧
      st'.sent = st.sent ++ [Msg.T T] ∧ T.length = 3 ∧
      ∀ x y, x < 2 → y < 2 →
        ∃ p q s, lsb (A.sel x) = some p ∧ lsb (B.sel y) = some q ∧
          slot [B.sel y, A.sel x] = some s ∧ s = 2 * q + p ∧
          (if s = 0 then encrypt E [A.sel x, B.sel y] ALL_ZEROS = W.sel (x ||| y)
           else T[s - 1]? = some (encrypt E [A.sel x, B.sel y] (W.sel (x ||| y))))) := by
  constructor
  · simpa [And] using gate_rows (fun p q => p &&& q) and_lt_two E rnd st key0 A B hkey hk hA hB
  · simpa [Or] using gate_rows (fun p q => p ||| q) or_lt_two E rnd st key0 A B hkey hk hA hB

theorem gen_slot_addressing_witness :
    (exampleState.key0 = some exampleKey0 ∧ KeyOk exampleKey0 ∧ FreeXor exampleKey0 exampleWireA ∧
      FreeXor exampleKey0 exampleWireB) ∧
    ∃ W T st', And exampleCipher exampleStream [exampleWireA] [exampleWireB] exampleState
        = .ok ([W], st') ∧
      st'.sent = exampleState.sent ++ [Msg.T T] ∧ T.length = 3 ∧
      ∀ x y, x < 2 → y < 2 →
        ∃ p q s, lsb (exampleWireA.sel x) = some p ∧ lsb (exampleWireB.sel y) = some q ∧
          slot [exampleWireB.sel y, exampleWireA.sel x] = some s ∧ s = 2 * q + p ∧
          (if s = 0 then
              encrypt exampleCipher [exampleWireA.sel x, exampleWireB.sel y] ALL_ZEROS
                = W.sel (x &&& y)
           else T[s - 1]? = some
              (encrypt exampleCipher [exampleWireA.sel x, exampleWireB.sel y] (W.sel (x &&& y)))) :=
  ⟨⟨rfl, by decide, by decide, by decide⟩,
    (gen_slot_addressing exampleCipher exampleStream exampleState exampleKey0 exampleWireA
      exampleWireB rfl (by decide) (by decide) (by decide)).1⟩

end Gen

namespace Gen

/-! ### Reveal to the generator -/

theorem resolveKey_sel (w : Wire) (h : w.k0 ≠ w.k1) (b : Nat) (hb : b < 2) :
    resolveKey w (w.sel b) = some b := by
  unfold resolveKey Wire.sel
  by_cases h0 : b = 0
  · simp [h0]
  · have h1 : b = 1 := by omega
    simp [h1, Ne.symm h]

theorem resolveKey_foreign (w : Wire) (k : Key) (h0 : k ≠ w.k0) (h1 : k ≠ w.k1) :
    resolveKey w k = none := by
  simp [resolveKey, h0, h1]

theorem freeXor_keys_ne (d : Key) (w : Wire) (hk : KeyOk d) (hw : FreeXor d w) : w.k0 ≠ w.k1 := by
  intro h
  exact lsb_ne d w hk hw (by rw [h])

theorem RevealTo0_spec :
    ∀ (a : List Wire) (bits : List Nat) (st : GenState) (rest : List Key),
      bits.length = a.length → (∀ w ∈ a, w.k0 ≠ w.k1) → (∀ b ∈ bits, b < 2) →
      st.inbox = List.zipWith Wire.sel a bits ++ rest →
      YaoRState.RevealTo0 a st
        = .ok (bits.map (fun b => decide (b = 1)), { st with inbox := rest }) := by
  intro a
  induction a with
  | nil =>
    intro bits st rest hlen _ _ hin
    cases bits with
    | nil =>
      simp only [List.zipWith_nil_left, List.nil_append] at hin
      subst hin
      rfl
    | cons b bs => simp at hlen
  | cons A a ih =>
    intro bits st rest hlen ha hb hin
    cases bits with
    | nil => simp at hlen
    | cons b bs =>
      have hb2 : b < 2 := hb b (List.mem_cons_self _ _)
      simp only [List.zipWith_cons_cons, List.cons_append] at hin
      have hrecv : RecvK2 st
          = .ok (A.sel b, { st with inbox := List.zipWith Wire.sel a bs ++ rest }) := by
        simp [RecvK2, hin]
      have hres := resolveKey_sel A (ha A (List.mem_cons_self _ _)) b hb2
      have hrec := ih bs { st with inbox := List.zipWith Wire.sel a bs ++ rest } rest
        (by simpa using hlen) (fun w hw => ha w (List.mem_cons_of_mem _ hw))
        (fun c hc => hb c (List.mem_cons_of_mem _ hc)) rfl
      simp only [YaoRState.RevealTo0, hrecv, ok_bind, hres, orPanic_some, hrec, pure_eq_ok,
        List.map_cons]
      have hb' : b = 0 ∨ b = 1 := by omega
      rcases hb' with rfl | rfl <;> rfl

theorem RevealTo0_foreign (w : Wire) (k : Key) (h0 : k ≠ w.k0) (h1 : k ≠ w.k1)
    (a : List Wire) (st : GenState) (rest : List Key) (hin : st.inbox = k :: rest) :
    YaoRState.RevealTo0 (w :: a) st = .error { st with inbox := rest } := by
  have hrecv : RecvK2 st = .ok (k, { st with inbox := rest }) := by
    simp [RecvK2, hin]
  simp only [YaoRState.RevealTo0, hrecv, ok_bind, resolveKey_foreign w k h0 h1, orPanic_none,
    error_bind]

/-- C15. Reveal to the generator.  For a wire `w` with `w[0] ≠ w[1]` (every
wire with the free-XOR invariant is one) `resolveKey(w, w[b]) = b` for `b` in
`{0,1}`; so when the evaluator uploads the labels `a[i][b_i]`, `RevealTo0(a)`
returns the vector of the `b_i = 1` and nothing is left of these uploads; and
for a key `k` that is neither `w[0]` nor `w[1]`, `resolveKey(w, k)` panics,
and so does `RevealTo0` on reading `k` for the wire `w`. -/
theorem gen_reveal_to_generator (a : List Wire) (bits : List Nat) (st : GenState)
    (rest : List Key) (hlen : bits.length = a.length) (ha : ∀ w ∈ a, w.k0 ≠ w.k1)
    (hb : ∀ b ∈ bits, b < 2) (hin : st.inbox = List.zipWith Wire.sel a bits ++ rest) :
    (∀ w : Wire, w.k0 ≠ w.k1 → resolveKey w w.k0 = some 0 ∧ resolveKey w w.k1 = some 1) ∧
    (∀ d w, KeyOk d → FreeXor d w → w.k0 ≠ w.k1) ∧
    YaoRState.RevealTo0 a st
      = .ok (bits.map (fun b => decide (b = 1)), { st with inbox := rest }) ∧
    (∀ (w : Wire) (k : Key), k ≠ w.k0 → k ≠ w.k1 →
      resolveKey w k = none ∧
      ∀ (a' : List Wire) (st' : GenState) (rest' : List Key), st'.inbox = k :: rest' →
        YaoRState.RevealTo0 (w :: a') st' = .error { st' with inbox := rest' }) :=
  ⟨fun w h => ⟨resolveKey_sel w h 0 (by decide), resolveKey_sel w h 1 (by decide)⟩,
    fun d w hk hw => freeXor_keys_ne d w hk hw,
    RevealTo0_spec a bits st rest hlen ha hb hin,
    fun w k h0 h1 => ⟨resolveKey_foreign w k h0 h1,
      fun a' st' rest' hin' => RevealTo0_foreign w k h0 h1 a' st' rest' hin'⟩⟩

theorem gen_reveal_to_generator_witness :
    ([1, 0].length = [exampleWireA, exampleWireB].length ∧
      (∀ w ∈ [exampleWireA, exampleWireB], w.k0 ≠ w.k1) ∧ (∀ b ∈ [1, 0], b < 2) ∧
      revealState.inbox = List.zipWith Wire.sel [exampleWireA, exampleWireB] [1, 0] ++ []) ∧
    YaoRState.RevealTo0 [exampleWireA, exampleWireB] revealState
      = .ok ([true, false], { revealState with inbox := [] }) :=
  ⟨⟨rfl, by decide, by decide, rfl⟩,
    (gen_reveal_to_generator [exampleWireA, exampleWireB] [1, 0] revealState [] rfl (by decide)
      (by decide) rfl).2.2.1⟩

/-! ### Constants -/

theorem init_key0_frame (rnd : Nat → Nat) (st : GenState) :
    (init_key0 rnd st).sent = st.sent ∧ (init_key0 rnd st).const0 = st.const0 ∧
      (init_key0 rnd st).const1 = st.const1 := by
  unfold init_key0
  cases st.key0 <;> exact ⟨rfl, rfl, rfl⟩

/-- A call of `genWire` in a session with a well-formed offset: it returns, the
wire has the invariant, nothing is sent and the constants are not touched. -/
theorem genWire_frame (rnd : Nat → Nat) (st : GenState)
    (hst : ∀ d, st.key0 = some d → KeyOk d) :
    ∃ w st' d, genWire rnd st = .ok (w, st') ∧ st'.key0 = some d ∧ KeyOk d ∧ FreeXor d w ∧
      (∀ d0, st.key0 = some d0 → d = d0) ∧
      st'.sent = st.sent ∧ st'.const0 = st.const0 ∧ st'.const1 = st.const1 := by
  obtain ⟨d, hd1, hd2, hd3⟩ := init_key0_ok rnd st hst
  obtain ⟨f1, f2, f3⟩ := init_key0_frame rnd st
  have hw : FreeXor d (Wire.mk (GenKey rnd (init_key0 rnd st)).1
      (XorKey (GenKey rnd (init_key0 rnd st)).1 d)) := ⟨GenKey_length _ _, rfl⟩
  refine ⟨_, (GenKey rnd (init_key0 rnd st)).2, d, ?_, by rw [GenKey_key0, hd1], hd2, hw, hd3,
    f1, f2, f3⟩
  simp [genWire, GenKey_key0, hd1]

theorem init_constants_first (rnd : Nat → Nat) (st : GenState)
    (hst : ∀ d, st.key0 = some d → KeyOk d) (h0 : st.const0 = none) :
    ∃ c0 c1 st' d, init_constants rnd st = .ok ((), st') ∧
      st'.const0 = some c0 ∧ st'.const1 = some c1 ∧
      st'.sent = st.sent ++ [Msg.K c0.k0, Msg.K c1.k1] ∧
      st'.key0 = some d ∧ KeyOk d ∧ FreeXor d c0 ∧ FreeXor d c1 := by
  obtain ⟨c0, st1, d, hg1, hk1, hd, hw0, _, s1, _, _⟩ := genWire_frame rnd st hst
  obtain ⟨c1, st2, d', hg2, hk2, _, hw1, hdd, s2, hc0, _⟩ :=
    genWire_frame rnd { st1 with const0 := some c0 } (fun e he => by
      have : e = d := by
        have h := hk1.symm.trans he
        simpa using h.symm
      rw [this]; exact hd)
  have hd' : d' = d := hdd d hk1
  subst hd'
  refine ⟨c0, c1,
    { st2 with const1 := some c1, sent := (st2.sent ++ [Msg.K c0.k0]) ++ [Msg.K c1.k1] }, d',
    ?_, hc0, rfl, ?_, hk2, hd, hw0, hw1⟩
  · unfold init_constants
    split
    · simp only [hg1, ok_bind, hg2, pure_eq_ok]
    · rename_i w hw
      rw [h0] at hw
      exact absurd hw (by simp)
  · show (st2.sent ++ [Msg.K c0.k0]) ++ [Msg.K c1.k1] = st.sent ++ [Msg.K c0.k0, Msg.K c1.k1]
    rw [s2]
    show (st1.sent ++ [Msg.K c0.k0]) ++ [Msg.K c1.k1] = _
    rw [s1]
    simp

theorem init_constants_later (rnd : Nat → Nat) (st : GenState) (c0 : Wire)
    (h0 : st.const0 = some c0) : init_constants rnd st = .ok ((), st) := by
  unfold init_constants
  split
  · rename_i h
    rw [h0] at h
    exact absurd h (by simp)
  · rfl

theorem constCall_later (rnd : Nat → Nat) (st : GenState) (c0 c1 : Wire)
    (h0 : st.const0 = some c0) (h1 : st.const1 = some c1) (c : ConstCall) :
    c.run rnd st = .ok (constValue c0 c1 c, st) := by
  cases c <;>
    simp [ConstCall.run, YaoRState.True, YaoRState.False, init_constants_later rnd st c0 h0,
      h0, h1, constValue]

theorem runCalls_later (rnd : Nat → Nat) (st : GenState) (c0 c1 : Wire)
    (h0 : st.const0 = some c0) (h1 : st.const1 = some c1) (cs : List ConstCall) :
    runCalls rnd cs st = .ok (cs.map (constValue c0 c1), st) := by
  induction cs with
  | nil => rfl
  | cons c cs ih => simp [runCalls, constCall_later rnd st c0 c1 h0 h1 c, ih]

/-- C14. The constant wires.  In the state after `reset` (whatever the
session was before), a first call of `True()` or `False()` returns, creates
the wires `const0`, `const1` (with the free-XOR invariant) and sends exactly
the two keys `const0[0]`, `const1[1]`, in this order; after it, every sequence
of calls of `True()` and `False()` leaves the whole state as it is (nothing is
sent, the constants are unchanged), every `True()` returning `[const1]` and
every `False()` returning `[const0]`. -/
theorem gen_constants_once (rnd : Nat → Nat) (st : GenState) (c : ConstCall)
    (cs : List ConstCall) :
    ∃ c0 c1 st1 d, c.run rnd (reset st) = .ok (constValue c0 c1 c, st1) ∧
      st1.const0 = some c0 ∧ st1.const1 = some c1 ∧
      st1.sent = st.sent ++ [Msg.K c0.k0, Msg.K c1.k1] ∧
      st1.key0 = some d ∧ KeyOk d ∧ FreeXor d c0 ∧ FreeXor d c1 ∧
      runCalls rnd cs st1 = .ok (cs.map (constValue c0 c1), st1) ∧
      runCalls rnd (c :: cs) (reset st) = .ok ((c :: cs).map (constValue c0 c1), st1) := by
  obtain ⟨c0, c1, st1, d, hi, h0, h1, hs, hk, hd, hw0, hw1⟩ :=
    init_constants_first rnd (reset st) (fun d h => by simp [reset] at h) rfl
  have hfirst : c.run rnd (reset st) = .ok (constValue c0 c1 c, st1) := by
    cases c <;> simp [ConstCall.run, YaoRState.True, YaoRState.False, hi, h0, h1, constValue]
  have hlater := runCalls_later rnd st1 c0 c1 h0 h1 cs
  refine ⟨c0, c1, st1, d, hfirst, h0, h1, hs, hk, hd, hw0, hw1, hlater, ?_⟩
  simp [runCalls, hfirst, hlater]

end Gen

namespace Gen

/-! ### Reveal to the evaluator -/

theorem encrypt_slot_single (E : Key → List Nat → List Nat) (t : List (List Nat))
    (x : List Nat) (k : Key) (st : GenState) (p : Nat) (hp : lsb k = some p)
    (hlt : p < t.length) :
    encrypt_slot E t x [k] st
      = .ok (t.set p (E k x), { st with AESCount := (st.AESCount + 1) % 2 ^ 64 }) := by
  simp [encrypt_slot, encrypt_slot_nonoptimized, slot, hp, encrypt_nonoptimized, hlt]

theorem setFirst_cons (k : Key) (b : Nat) (h : k.length = KEY_SIZE) :
    ∃ w, setFirst k b = some w ∧ w.length = KEY_SIZE ∧ w.head? = some b := by
  obtain ⟨a, t, rfl⟩ := key_cons k h
  exact ⟨b :: t, rfl, by simpa using h, rfl⟩

/-- C20. Reveal to the evaluator.  For a wire `a` with the free-XOR invariant
(in a session whose offset, if set, is well formed) `RevealTo1` returns and
sends one table `t` of two entries; with `w0`, `w1` two blocks of `KEY_SIZE`
bytes whose first bytes are 0 and 1, and `p` the low bit of `a[0]` (the low
bit of `a[1]` is `1 - p`), `t[p] = E_{a[0]}(w0)` and `t[1 - p] = E_{a[1]}(w1)`:
both entries are set and `t[a[b][0] mod 2] = E_{a[b]}(w_b)`.  So for a
decryption `D` of `E`, decrypting `t[k[0] mod 2]` under the label `k = a[b]`
gives a block whose first byte is `b`. -/
theorem gen_reveal_to_evaluator (E : Key → List Nat → List Nat) (rnd : Nat → Nat)
    (st : GenState) (d : Key) (a : Wire) (hst : ∀ d', st.key0 = some d' → KeyOk d')
    (hk : KeyOk d) (ha : FreeXor d a) :
    ∃ t w0 w1 st', YaoRState.RevealTo1 E rnd [a] st = .ok ((), st') ∧
      st'.sent = st.sent ++ [Msg.T t] ∧ t.length = 2 ∧
      w0.length = KEY_SIZE ∧ w0.head? = some 0 ∧ w1.length = KEY_SIZE ∧ w1.head? = some 1 ∧
      (∃ p, p < 2 ∧ lsb a.k0 = some p ∧ lsb a.k1 = some (1 - p) ∧
        t[p]? = some (E a.k0 w0) ∧ t[1 - p]? = some (E a.k1 w1)) ∧
      (∀ D : Key → List Nat → List Nat, (∀ k x, D k (E k x) = x) →
        ∀ b, b < 2 → ∃ p c, lsb (a.sel b) = some p ∧ t[p]? = some c ∧
          (D (a.sel b) c).head? = some b) := by
  obtain ⟨w, st1, d1, hg, _, hd1, hw, _, hs1, _, _⟩ := genWire_frame rnd st hst
  obtain ⟨w0, hw0, hl0, hh0⟩ := setFirst_cons w.k0 0 hw.1
  obtain ⟨w1, hw1, hl1, hh1⟩ := setFirst_cons w.k1 1
    (by rw [hw.2]; exact XorKey_length _ _ hw.1 hd1.1)
  obtain ⟨p, hp, hp0, hp1⟩ := lsb_opposite d a hk ha
  have hrows : ((List.replicate 2 ([] : List Nat)).set p (E a.k0 w0)).set (1 - p) (E a.k1 w1)
      = if p = 0 then [E a.k0 w0, E a.k1 w1] else [E a.k1 w1, E a.k0 w0] := by
    have : p = 0 ∨ p = 1 := by omega
    rcases this with rfl | rfl <;> rfl
  have hrun : YaoRState.RevealTo1 E rnd [a] st
      = .ok ((), { st1 with
          AESCount := ((st1.AESCount + 1) % 2 ^ 64 + 1) % 2 ^ 64,
          sent := st1.sent ++ [Msg.T
            (((List.replicate 2 ([] : List Nat)).set p (E a.k0 w0)).set (1 - p) (E a.k1 w1))] }) := by
    have e1 := encrypt_slot_single E (List.replicate 2 ([] : List Nat)) w0 a.k0 st1 p hp0
      (by simpa using hp)
    have e2 := encrypt_slot_single E ((List.replicate 2 ([] : List Nat)).set p (E a.k0 w0)) w1
      a.k1 { st1 with AESCount := (st1.AESCount + 1) % 2 ^ 64 } (1 - p) hp1
      (by simp only [List.length_set, List.length_replicate]; omega)
    simp only [YaoRState.RevealTo1, hg, ok_bind, hw0, hw1, orPanic_some, e1, e2, pure_eq_ok]
  refine ⟨_, w0, w1, _, hrun, by rw [← hs1], by simp, hl0, hh0, hl1, hh1,
    ⟨p, hp, hp0, hp1, ?_, ?_⟩, ?_⟩
  · rw [hrows]
    have : p = 0 ∨ p = 1 := by omega
    rcases this with rfl | rfl <;> rfl
  · rw [hrows]
    have : p = 0 ∨ p = 1 := by omega
    rcases this with rfl | rfl <;> rfl
  · intro D hD b hb
    have hb' : b = 0 ∨ b = 1 := by omega
    have hp' : p = 0 ∨ p = 1 := by omega
    rcases hb' with rfl | rfl
    · refine ⟨p, E a.k0 w0, hp0, ?_, by rw [show a.sel 0 = a.k0 from rfl, hD]; exact hh0⟩
      rw [hrows]
      rcases hp' with rfl | rfl <;> rfl
    · refine ⟨1 - p, E a.k1 w1, hp1, ?_, by rw [show a.sel 1 = a.k1 from rfl, hD]; exact hh1⟩
      rw [hrows]
      rcases hp' with rfl | rfl <;> rfl

theorem gen_reveal_to_evaluator_witness :
    ((∀ d', exampleState.key0 = some d' → KeyOk d') ∧ KeyOk exampleKey0 ∧
      FreeXor exampleKey0 exampleWireB) ∧
    ∃ t w0 w1 st', YaoRState.RevealTo1 exampleCipher exampleStream [exampleWireB] exampleState
        = .ok ((), st') ∧
      st'.sent = exampleState.sent ++ [Msg.T t] ∧ t.length = 2 ∧
      w0.length = KEY_SIZE ∧ w0.head? = some 0 ∧ w1.length = KEY_SIZE ∧ w1.head? = some 1 ∧
      (∃ p, p < 2 ∧ lsb exampleWireB.k0 = some p ∧ lsb exampleWireB.k1 = some (1 - p) ∧
        t[p]? = some (exampleCipher exampleWireB.k0 w0) ∧
        t[1 - p]? = some (exampleCipher exampleWireB.k1 w1)) ∧
      (∀ D : Key → List Nat → List Nat, (∀ k x, D k (exampleCipher k x) = x) →
        ∀ b, b < 2 → ∃ p c, lsb (exampleWireB.sel b) = some p ∧ t[p]? = some c ∧
          (D (exampleWireB.sel b) c).head? = some b) :=
  ⟨⟨by decide, by decide, by decide⟩,
    gen_reveal_to_evaluator exampleCipher exampleStream exampleState exampleKey0 exampleWireB
      (by decide) (by decide) (by decide)⟩

end Gen

namespace OT

/-! ### The pair counter -/

theorem Act.seq_assoc {α β γ : Type} (p : Act α) (f : α → Act β) (g : β → Act γ) :
    (p.bind f).bind g = p.bind fun a => (f a).bind g := by
  induction p with
  | ret a => rfl
  | fail => rfl
  | rand n k ih => simp only [Act.bind, ih]
  | baseRecv c k ih => simp only [Act.bind, ih]
  | baseSend a b k ih => simp only [Act.bind, ih]
  | selSend v k ih => simp only [Act.bind, ih]
  | selRecv k ih => simp only [Act.bind, ih]
  | msgSend y k ih => simp only [Act.bind, ih]
  | msgRecv k ih => simp only [Act.bind, ih]

theorem Act.seq_ret {α : Type} (p : Act α) : p.bind .ret = p := by
  induction p with
  | ret a => rfl
  | fail => rfl
  | rand n k ih => simp only [Act.bind, ih]
  | baseRecv c k ih => simp only [Act.bind, ih]
  | baseSend a b k ih => simp only [Act.bind, ih]
  | selSend v k ih => simp only [Act.bind, ih]
  | selRecv k ih => simp only [Act.bind, ih]
  | msgSend y k ih => simp only [Act.bind, ih]
  | msgRecv k ih => simp only [Act.bind, ih]

theorem settle_idem {β : Type} (b : Act β) :
    ∀ t : Tape, settle (settle b t).1 (settle b t).2 = settle b t := by
  induction b with
  | rand n k ih => intro t; simp only [settle]; exact ih _ _
  | ret a => intro t; rfl
  | fail => intro t; rfl
  | baseRecv c k _ => intro t; rfl
  | baseSend a b k _ => intro t; rfl
  | selSend v k _ => intro t; rfl
  | selRecv k _ => intro t; rfl
  | msgSend y k _ => intro t; rfl
  | msgRecv k _ => intro t; rfl

/-- The joint run sees the second side only through `settle`. -/
theorem runOT_settle {α β : Type} (a : Act α) :
    ∀ (b : Act β) (ta tb : Tape),
      runOT a b ta tb = runOT a (settle b tb).1 ta (settle b tb).2 := by
  induction a with
  | ret x => intro b ta tb; simp only [runOT, settle_idem]
  | fail => intro b ta tb; rfl
  | rand n k ih => intro b ta tb; simp only [runOT]; exact ih _ _ _ _
  | baseRecv c k _ => intro b ta tb; simp only [runOT, settle_idem]
  | baseSend m0 m1 k _ => intro b ta tb; simp only [runOT, settle_idem]
  | selSend v k _ => intro b ta tb; simp only [runOT, settle_idem]
  | selRecv k _ => intro b ta tb; simp only [runOT, settle_idem]
  | msgSend y k _ => intro b ta tb; simp only [runOT, settle_idem]
  | msgRecv k _ => intro b ta tb; simp only [runOT, settle_idem]

theorem runOT_congr_settle {α β : Type} (a : Act α) (b b' : Act β) (ta tb tb' : Tape)
    (h : settle b tb = settle b' tb') : runOT a b ta tb = runOT a b' ta tb' := by
  rw [runOT_settle a b, runOT_settle a b', h]

end OT
namespace OT

theorem Send_eq (H : List Nat → Nat → Nat) (self : ExtendSender) (m0 m1 : List Nat)
    (h0 : (m0.length : Int) * 8 = self.l) (h1 : (m1.length : Int) * 8 = self.l) :
    self.Send H m0 m1
      = (if self.curPair = self.m then self.preProcessSender H self.m else .ret self).bind
          (sendTail m0 m1) := by
  unfold ExtendSender.Send
  rw [if_neg (by simp [h0, h1])]
  rfl

theorem Receive_eq (H : List Nat → Nat → Nat) (self : ExtendReceiver) (s : Nat) :
    self.Receive H s
      = (if self.curPair = self.m then self.preProcessReceiver self.m else .ret self).bind
          (receiveTail H s) := rfl

theorem index_of_lt {α : Type} (l : List α) (j : Int) (h0 : 0 ≤ j) (h1 : j < l.length) :
    ∃ x, index l j = some x ∧ x ∈ l := by
  have hj : j.toNat < l.length := by omega
  refine ⟨l[j.toNat], ?_, List.getElem_mem _⟩
  unfold index
  rw [if_neg (by omega), List.getElem?_eq_getElem hj]

theorem GetBit_some (v : List Nat) (j : Int) (h0 : 0 ≤ j) (h1 : j < (v.length : Int) * 8) :
    ∃ c, GetBit v j = some c := by
  have h2 : 0 ≤ j.tdiv 8 := Int.tdiv_nonneg h0 (by decide)
  have h3 : j.tdiv 8 < v.length := by
    rw [Int.tdiv_eq_ediv h0 (by decide)]
    omega
  obtain ⟨x, hx, _⟩ := index_of_lt v (j.tdiv 8) h2 h3
  exact ⟨_, by unfold GetBit; rw [if_neg (by omega), hx]; rfl⟩

theorem RO_some (H : List Nat → Nat → Nat) (x : List Nat) (l : Int) (hl : 0 < l)
    (h8 : l.tmod 8 = 0) : ∃ h, RO H x l = some h ∧ (h.length : Int) * 8 = l := by
  have e : RO H x l = some ((List.range (List.replicate (l.tdiv 8).toNat 0).length).map fun i =>
      (List.replicate (l.tdiv 8).toNat 0).getD i 0 ^^^ H x i) := by
    unfold RO
    rw [if_neg (by omega), if_neg (by simp [h8])]
  refine ⟨_, e, ?_⟩
  rw [RO_length H x l _ e]
  have h1 : 0 ≤ l.tdiv 8 := Int.tdiv_nonneg (by omega) (by decide)
  have h2 := Int.tmod_add_tdiv l 8
  rw [Int.toNat_of_nonneg h1]
  omega

/-- One transfer between a sender and a receiver that are preprocessed and
at the same pair `j`, `0 ≤ j < m`, followed by the rest of the two programs:
nothing is drawn from the random sources, and only the counters change. -/
theorem tail_joint (H : List Nat → Nat → Nat) (k l m : Int) (snd : ExtendSender)
    (rcv : ExtendReceiver) (hS : SenderReady k l m snd) (hR : ReceiverReady k l m rcv)
    (hl : 0 < l) (j : Int) (hj0 : 0 ≤ j) (hjm : j < m)
    (hcs : snd.curPair = j) (hcr : rcv.curPair = j)
    (m0 m1 : List Nat) (hm0 : (m0.length : Int) * 8 = l) (hm1 : (m1.length : Int) * 8 = l)
    (s : Nat) (hs : s = 0 ∨ s = 1) :
    ∃ w : List Nat, ∀ (γ δ : Type) (KS : ExtendSender → Act γ)
        (KR : List Nat × ExtendReceiver → Act δ) (ta tb : Tape),
      runOT ((sendTail m0 m1 snd).bind KS) ((receiveTail H s rcv).bind KR) ta tb
        = runOT (KS { snd with curPair := j + 1 }) (KR (w, { rcv with curPair := j + 1 }))
            ta tb := by
  obtain ⟨hsk, hsl, hsm, hz0n, hz1n, hz0, hz1⟩ := hS
  obtain ⟨hrk, hrl, hrm, hrn, hTn⟩ := hR
  obtain ⟨z0j, hi0, hmem0⟩ := index_of_lt snd.z0 j hj0 (by omega)
  obtain ⟨z1j, hi1, hmem1⟩ := index_of_lt snd.z1 j hj0 (by omega)
  obtain ⟨rbit, hbit⟩ := GetBit_some rcv.r j hj0 (by omega)
  obtain ⟨row, hrow, _⟩ := index_of_lt rcv.T.data j hj0 (by omega)
  have h8 : l.tmod 8 = 0 := by rw [← hm0]; exact Int.mul_tmod_left _ _
  obtain ⟨h, hro, hhl⟩ := RO_some H row l hl h8
  have hlen0 : l.tdiv 8 = m0.length := msg_length m0 _ hm0
  have hm01 : m1.length = m0.length := by omega
  have hz0len : z0j.length = m0.length := by have := hz0 z0j hmem0; omega
  have hz1len : z1j.length = m0.length := by have := hz1 z1j hmem1; omega
  have hhlen : h.length = m0.length := by omega
  have hmk : mkBytes (l.tdiv 8) = some (List.replicate m0.length 0) := by
    rw [hlen0]; simp [mkBytes]
  have hrb := GetBit_le_one _ _ _ hbit
  have hrow' : rcv.T.GetRow j = some row := hrow
  refine ⟨if rbit = 0 then xorBytes (xorBytes (if s = rbit then m0 else m1) z0j) h
    else xorBytes (xorBytes (if s = rbit then m1 else m0) z1j) h, ?_⟩
  intro γ δ KS KR ta tb
  unfold sendTail receiveTail
  simp only [Act.bind, hsl, hrl, hmk, Act.ofOption, hcs, hcr, hbit, hi0, hi1, hrow', hro, runOT,
    settle]
  rcases hs with rfl | rfl <;> rcases hrb with rfl | rfl <;>
    simp [xorBytesExact, hz0len, hz1len, hm01, hhlen, xorBytes_length, Act.bind, Act.ofOption,
      runOT, settle, bind, Option.bind, pure, hro, hrow', hbit]

end OT
namespace OT

/-! ### Preprocessing, jointly -/

theorem tdiv_eight (n : Nat) : (8 * (n : Int)).tdiv 8 = n :=
  Int.mul_tdiv_cancel_left _ (by decide)

theorem tmod_eight (n : Nat) : (8 * (n : Int)).tmod 8 = 0 :=
  Int.mul_tmod_right _ _

theorem toNat_eight (n : Nat) : (8 * (n : Int)).toNat = 8 * n := by
  omega

theorem mkBytes_eight (n : Nat) : mkBytes ((8 * (n : Int)).tdiv 8) = some (List.replicate n 0) := by
  rw [tdiv_eight]
  simp [mkBytes]

theorem NewMatrix8_eight (a b : Nat) :
    NewMatrix8 (8 * (a : Int)) (8 * (b : Int))
      = some { NumRows := 8 * a, NumCols := 8 * b,
               data := List.replicate (8 * a) (List.replicate b 0) } := by
  unfold NewMatrix8
  rw [if_neg (by simp [tmod_eight])]
  simp [toNat_eight]

theorem take_length (t : Tape) (n : Nat) : (t.take n).1.length = n := by
  simp [Tape.take]

theorem preProcessSender_eq (H : List Nat → Nat → Nat) (self : ExtendSender) (kk mm : Nat)
    (hk : self.k = 8 * (kk : Int)) :
    self.preProcessSender H (8 * (mm : Int))
      = .rand kk fun s =>
        (preProcessSender.recvLoop (freshSender self mm) s (8 * kk) 0
          { NumRows := 8 * kk, NumCols := 8 * mm,
            data := List.replicate (8 * kk) (List.replicate mm 0) }).bind fun QT =>
        (Act.ofOption (preProcessSender.zLoop H (freshSender self mm) s
          QT.Transpose (8 * mm) 0 (List.replicate (8 * mm) []) (List.replicate (8 * mm) [])
          (List.replicate kk 0))).bind fun z =>
        .ret { freshSender self mm with z0 := z.1, z1 := z.2 } := by
  unfold ExtendSender.preProcessSender
  rw [if_neg (by simp [tmod_eight])]
  simp only [hk, mkBytes_eight, NewMatrix8_eight, Act.ofOption, Act.bind, randomBitVector,
    List.length_replicate, toNat_eight, freshSender]

theorem preProcessReceiver_eq (self : ExtendReceiver) (kk mm : Nat)
    (hk : self.k = 8 * (kk : Int)) :
    self.preProcessReceiver (8 * (mm : Int))
      = .rand mm fun r => .rand (8 * mm * kk) fun bs =>
        (Act.ofOption (preProcessReceiver.in1Loop (freshReceiver self mm kk r bs)
          (freshT mm kk bs).Transpose (8 * kk) 0 (List.replicate (8 * kk) []))).bind fun in1 =>
        (preProcessReceiver.sendLoop (freshT mm kk bs).Transpose in1 (8 * kk) 0).bind fun _ =>
        .ret (freshReceiver self mm kk r bs) := by
  unfold ExtendReceiver.preProcessReceiver
  have e : 8 * kk / 8 = kk := by omega
  simp only [hk, mkBytes_eight, NewMatrix8_eight, Act.ofOption, Act.bind, randomBitVector,
    Matrix8.Randomize, List.length_replicate, List.length_map, toNat_eight, tdiv_eight,
    Int.toNat_ofNat, e, freshReceiver, freshT]

end OT
namespace OT

theorem index_nat {α : Type} (l : List α) (i : Nat) : index l (i : Int) = l[i]? := by
  unfold index
  rw [if_neg (by omega)]
  simp

theorem store_nat {α : Type} (l : List α) (i : Nat) (v : α) (h : i < l.length) :
    store l (i : Int) v = some (l.set i v) := by
  unfold store
  rw [if_neg (by omega)]
  simp

theorem Transpose_row (M : Matrix8) (i : Nat) (h : i < M.NumCols) :
    ∃ row, M.Transpose.GetRow (i : Int) = some row ∧ row.length = M.NumRows / 8 := by
  refine ⟨(List.range (M.NumRows / 8)).map fun b => packByte fun t => M.bit (8 * b + t) i, ?_,
    by simp⟩
  unfold Matrix8.GetRow Matrix8.Transpose
  rw [index_nat]
  simp [h]

theorem set_good {α : Type} (P : α → Prop) (l : List α) (i : Nat) (v : α) (hi : i < l.length)
    (hv : P v) (hl : ∀ j, j < i → ∃ x, l[j]? = some x ∧ P x) :
    ∀ j, j < i + 1 → ∃ x, (l.set i v)[j]? = some x ∧ P x := by
  intro j hj
  by_cases e : j = i
  · subst e
    exact ⟨v, by simp [hi], hv⟩
  · obtain ⟨x, hx, hp⟩ := hl j (by omega)
    exact ⟨x, by rw [List.getElem?_set_ne (Ne.symm e)]; exact hx, hp⟩

/-- The loop that fills `in1` succeeds and every entry it writes has `m / 8`
bytes. -/
theorem in1Loop_ok (self : ExtendReceiver) (TT : Matrix8) (mm : Nat)
    (hm : self.m = 8 * (mm : Int)) (hr : self.r.length = mm) :
    ∀ (count i : Nat) (in1 : List (List Nat)), i + count ≤ in1.length →
      (∀ j, i ≤ j → j < i + count → ∃ row, TT.GetRow (j : Int) = some row ∧ row.length = mm) →
      (∀ j, j < i → ∃ v, in1[j]? = some v ∧ v.length = mm) →
      ∃ in1', preProcessReceiver.in1Loop self TT count i in1 = some in1' ∧
        in1'.length = in1.length ∧ ∀ j, j < i + count → ∃ v, in1'[j]? = some v ∧ v.length = mm := by
  intro count
  induction count with
  | zero =>
    intro i in1 _ _ hgood
    exact ⟨in1, rfl, rfl, by simpa using hgood⟩
  | succ count ih =>
    intro i in1 hlen hrows hgood
    obtain ⟨row, hrow, hrl⟩ := hrows i (Nat.le_refl _) (by omega)
    have hx : xorBytesExact (List.replicate mm 0) self.r row = some (xorBytes self.r row) := by
      simp [xorBytesExact, hr, hrl]
    have hxl : (xorBytes self.r row).length = mm := by
      rw [xorBytes_length _ _ (by rw [hr, hrl]), hr]
    obtain ⟨in1', h1, h2, h3⟩ := ih (i + 1) (in1.set i (xorBytes self.r row))
      (by simp; omega) (fun j h1 h2 => hrows j (by omega) (by omega))
      (set_good (fun v => v.length = mm) in1 i _ (by omega) hxl hgood)
    refine ⟨in1', ?_, by simpa using h2, fun j hj => h3 j (by omega)⟩
    simp only [preProcessReceiver.in1Loop, hm, mkBytes_eight, hrow, hx,
      store_nat in1 i _ (by omega), Option.bind_eq_bind, Option.some_bind]
    exact h1

/-- The loop that fills `z0` and `z1` succeeds and every entry it writes has
`l / 8` bytes. -/
theorem zLoop_ok (H : List Nat → Nat → Nat) (self : ExtendSender) (s : List Nat) (Q : Matrix8)
    (ll : Nat) (hl : self.l = 8 * (ll : Int)) (hll : 0 < ll) :
    ∀ (count j : Nat) (z0 z1 : List (List Nat)) (temp : List Nat),
      j + count ≤ z0.length → j + count ≤ z1.length → temp.length = s.length →
      (∀ i, j ≤ i → i < j + count →
        ∃ row, Q.GetRow (i : Int) = some row ∧ row.length = s.length) →
      (∀ i, i < j → ∃ v, z0[i]? = some v ∧ v.length = ll) →
      (∀ i, i < j → ∃ v, z1[i]? = some v ∧ v.length = ll) →
      ∃ z0' z1', preProcessSender.zLoop H self s Q count j z0 z1 temp = some (z0', z1') ∧
        z0'.length = z0.length ∧ z1'.length = z1.length ∧
        (∀ i, i < j + count → ∃ v, z0'[i]? = some v ∧ v.length = ll) ∧
        (∀ i, i < j + count → ∃ v, z1'[i]? = some v ∧ v.length = ll) := by
  intro count
  induction count with
  | zero =>
    intro j z0 z1 temp _ _ _ _ h0 h1
    exact ⟨z0, z1, rfl, rfl, rfl, by simpa using h0, by simpa using h1⟩
  | succ count ih =>
    intro j z0 z1 temp hz0 hz1 htemp hrows h0 h1
    obtain ⟨row, hrow, hrl⟩ := hrows j (Nat.le_refl _) (by omega)
    obtain ⟨a0, ha0, hal0⟩ := RO_some H row (8 * (ll : Int)) (by omega) (tmod_eight ll)
    obtain ⟨a1, ha1, hal1⟩ := RO_some H (xorBytes row s) (8 * (ll : Int)) (by omega)
      (tmod_eight ll)
    have hx : xorBytesExact temp row s = some (xorBytes row s) := by
      simp [xorBytesExact, htemp, hrl]
    have hxl : (xorBytes row s).length = s.length := by
      rw [xorBytes_length _ _ hrl, hrl]
    obtain ⟨z0', z1', e1, e2, e3, e4, e5⟩ := ih (j + 1) (z0.set j a0) (z1.set j a1)
      (xorBytes row s) (by simp; omega) (by simp; omega) hxl
      (fun i h1 h2 => hrows i (by omega) (by omega))
      (set_good (fun v => v.length = ll) z0 j _ (by omega) (by omega) h0)
      (set_good (fun v => v.length = ll) z1 j _ (by omega) (by omega) h1)
    refine ⟨z0', z1', ?_, by simpa using e2, by simpa using e3, fun i hi => e4 i (by omega),
      fun i hi => e5 i (by omega)⟩
    simp only [preProcessSender.zLoop, hl, hrow, ha0, ha1, hx, store_nat z0 j _ (by omega),
      store_nat z1 j _ (by omega), Option.bind_eq_bind, Option.some_bind]
    exact e1

theorem GetBit_nat (v : List Nat) (i : Nat) (h : i < 8 * v.length) :
    ∃ c, GetBit v (i : Int) = some c ∧ (c = 0 ∨ c = 1) := by
  obtain ⟨c, hc⟩ := GetBit_some v (i : Int) (by omega) (by omega)
  exact ⟨c, hc, GetBit_le_one _ _ _ hc⟩

/-- The base OTs of the preprocessing: the loop of the sender against the loop
of the receiver, each followed by the rest of its program. -/
theorem loops_joint (self : ExtendSender) (s : List Nat) (TT : Matrix8)
    (in1 : List (List Nat)) (mm : Nat) (hm : self.m = 8 * (mm : Int)) :
    ∀ (count i : Nat) (QT : Matrix8), i + count ≤ QT.data.length → i + count ≤ 8 * s.length →
      (∀ j, i ≤ j → j < i + count → ∃ row, TT.GetRow (j : Int) = some row ∧ row.length = mm) →
      (∀ j, j < i + count → ∃ v, in1[j]? = some v ∧ v.length = mm) →
      ∃ QT', (∀ (γ δ : Type) (KS : Matrix8 → Act γ) (KR : Unit → Act δ) (ta tb : Tape),
          runOT ((preProcessSender.recvLoop self s count i QT).bind KS)
            ((preProcessReceiver.sendLoop TT in1 count i).bind KR) ta tb
            = runOT (KS QT') (KR ()) ta tb) ∧
        QT'.NumRows = QT.NumRows ∧ QT'.NumCols = QT.NumCols ∧
        QT'.data.length = QT.data.length := by
  intro count
  induction count with
  | zero =>
    intro i QT _ _ _ _
    exact ⟨QT, fun _ _ _ _ _ _ => rfl, rfl, rfl, rfl⟩
  | succ count ih =>
    intro i QT hQ hs hrows hin
    obtain ⟨c, hc, hc01⟩ := GetBit_nat s i (by omega)
    obtain ⟨row, hrow, hrl⟩ := hrows i (Nat.le_refl _) (by omega)
    obtain ⟨v, hv, hvl⟩ := hin i (by omega)
    have hset : ∀ recvd : List Nat,
        QT.SetRow (i : Int) recvd = some { QT with data := QT.data.set i recvd } := by
      intro recvd
      unfold Matrix8.SetRow
      rw [store_nat _ _ _ (by omega)]
      rfl
    have hnext : ∀ recvd : List Nat, recvd.length = mm →
        ∃ QT', (∀ (γ δ : Type) (KS : Matrix8 → Act γ) (KR : Unit → Act δ) (ta tb : Tape),
            runOT ((preProcessSender.recvLoop self s count (i + 1)
                { QT with data := QT.data.set i recvd }).bind KS)
              ((preProcessReceiver.sendLoop TT in1 count (i + 1)).bind KR) ta tb
              = runOT (KS QT') (KR ()) ta tb) ∧
          QT'.NumRows = QT.NumRows ∧ QT'.NumCols = QT.NumCols ∧
          QT'.data.length = QT.data.length := by
      intro recvd _
      obtain ⟨QT', e1, e2, e3, e4⟩ := ih (i + 1) { QT with data := QT.data.set i recvd }
        (by simp; omega) (by omega) (fun j h1 h2 => hrows j (by omega) (by omega))
        (fun j hj => hin j (by omega))
      exact ⟨QT', e1, e2, e3, by simpa using e4⟩
    have hlenrow : ¬ ((row.length : Int) ≠ (8 * (mm : Int)).tdiv 8) := by
      rw [tdiv_eight, hrl]; simp
    have hlenv : ¬ ((v.length : Int) ≠ (8 * (mm : Int)).tdiv 8) := by
      rw [tdiv_eight, hvl]; simp
    rcases hc01 with rfl | rfl
    · obtain ⟨QT', e1, e2⟩ := hnext row hrl
      refine ⟨QT', ?_, e2⟩
      intro γ δ KS KR ta tb
      rw [← e1 γ δ KS KR ta tb]
      simp only [preProcessSender.recvLoop, preProcessReceiver.sendLoop, hc, hrow, index_nat, hv,
        Act.ofOption, Act.bind, runOT, settle, hm, if_true, hlenrow, if_false, hset]
    · obtain ⟨QT', e1, e2⟩ := hnext v hvl
      refine ⟨QT', ?_, e2⟩
      intro γ δ KS KR ta tb
      rw [← e1 γ δ KS KR ta tb]
      simp only [preProcessSender.recvLoop, preProcessReceiver.sendLoop, hc, hrow, index_nat, hv,
        Act.ofOption, Act.bind, runOT, settle, hm, if_true, hlenv, if_false, hset,
        Nat.one_ne_zero]

end OT
namespace OT

theorem all_of_index {α : Type} (P : α → Prop) (l : List α) (n : Nat) (hn : l.length = n)
    (h : ∀ i, i < n → ∃ v, l[i]? = some v ∧ P v) : ∀ z ∈ l, P z := by
  intro z hz
  obtain ⟨i, hi, rfl⟩ := List.getElem_of_mem hz
  obtain ⟨v, hv, hp⟩ := h i (by omega)
  rw [List.getElem?_eq_getElem hi] at hv
  simp only [Option.some.injEq] at hv
  rw [hv]
  exact hp

/-- The two preprocessing programs against each other, each followed by the
rest of its program: the run goes on from a sender and a receiver that are
ready for `m` transfers, with the counters at 0. -/
theorem preprocess_joint (H : List Nat → Nat → Nat) (snd : ExtendSender)
    (rcv : ExtendReceiver) (kk ll mm : Nat) (hll : 0 < ll)
    (hsk : snd.k = 8 * (kk : Int)) (hsl : snd.l = 8 * (ll : Int))
    (hrk : rcv.k = 8 * (kk : Int)) (hrl : rcv.l = 8 * (ll : Int)) (ta tb : Tape) :
    ∃ snd' rcv' ta' tb',
      (∀ (γ δ : Type) (KS : ExtendSender → Act γ) (KR : ExtendReceiver → Act δ),
        runOT ((snd.preProcessSender H (8 * (mm : Int))).bind KS)
          ((rcv.preProcessReceiver (8 * (mm : Int))).bind KR) ta tb
          = runOT (KS snd') (KR rcv') ta' tb') ∧
      SenderReady (8 * (kk : Int)) (8 * (ll : Int)) (8 * (mm : Int)) snd' ∧
      ReceiverReady (8 * (kk : Int)) (8 * (ll : Int)) (8 * (mm : Int)) rcv' ∧
      snd'.curPair = 0 ∧ rcv'.curPair = 0 := by
  -- the receiver up to its first joint action
  have hrowsT : ∀ j, 0 ≤ j → j < 0 + 8 * kk →
      ∃ row, (freshT mm kk ((tb.take mm).2.take (8 * mm * kk)).1).Transpose.GetRow (j : Int)
        = some row ∧ row.length = mm := by
    intro j _ hj
    obtain ⟨row, h1, h2⟩ := Transpose_row (freshT mm kk ((tb.take mm).2.take (8 * mm * kk)).1) j
      (by simpa [freshT] using hj)
    exact ⟨row, h1, by rw [h2]; simp [freshT]⟩
  obtain ⟨in1, hin1, _, hin1good⟩ := in1Loop_ok
    (freshReceiver rcv mm kk (tb.take mm).1 ((tb.take mm).2.take (8 * mm * kk)).1)
    (freshT mm kk ((tb.take mm).2.take (8 * mm * kk)).1).Transpose mm rfl (take_length tb mm)
    (8 * kk) 0 (List.replicate (8 * kk) []) (by simp) hrowsT (by intro j hj; omega)
  have hsettle : ∀ (δ : Type) (KR : ExtendReceiver → Act δ), settle
      ((Act.rand mm fun r => Act.rand (8 * mm * kk) fun bs =>
        (Act.ofOption (preProcessReceiver.in1Loop (freshReceiver rcv mm kk r bs)
          (freshT mm kk bs).Transpose (8 * kk) 0 (List.replicate (8 * kk) []))).bind fun in1 =>
        (preProcessReceiver.sendLoop (freshT mm kk bs).Transpose in1 (8 * kk) 0).bind fun _ =>
        Act.ret (freshReceiver rcv mm kk r bs)).bind KR) tb
      = settle ((preProcessReceiver.sendLoop
          (freshT mm kk ((tb.take mm).2.take (8 * mm * kk)).1).Transpose in1 (8 * kk) 0).bind
            fun _ => KR (freshReceiver rcv mm kk (tb.take mm).1
              ((tb.take mm).2.take (8 * mm * kk)).1))
          ((tb.take mm).2.take (8 * mm * kk)).2 := by
    intro δ KR
    simp only [Act.bind, settle, hin1, Act.ofOption, Act.seq_assoc]
  -- the base OTs
  obtain ⟨QT, hrun, hQ1, hQ2, hQ3⟩ := loops_joint (freshSender snd mm) (ta.take kk).1
    (freshT mm kk ((tb.take mm).2.take (8 * mm * kk)).1).Transpose in1 mm rfl (8 * kk) 0
    { NumRows := 8 * kk, NumCols := 8 * mm,
      data := List.replicate (8 * kk) (List.replicate mm 0) }
    (by simp) (by rw [take_length]; omega) hrowsT (by simpa using hin1good)
  dsimp only at hQ1 hQ2 hQ3
  -- the oracle outputs
  obtain ⟨z0, z1, hz, hz0n, hz1n, hz0, hz1⟩ := zLoop_ok H (freshSender snd mm) (ta.take kk).1
    QT.Transpose ll hsl hll (8 * mm) 0 (List.replicate (8 * mm) []) (List.replicate (8 * mm) [])
    (List.replicate kk 0) (by simp) (by simp) (by simp [take_length])
    (by
      intro i _ hi
      obtain ⟨row, h1, h2⟩ := Transpose_row QT i (by rw [hQ2]; omega)
      exact ⟨row, h1, by rw [h2, hQ1, take_length]; omega⟩)
    (by intro i hi; omega) (by intro i hi; omega)
  refine ⟨{ freshSender snd mm with z0 := z0, z1 := z1 },
    freshReceiver rcv mm kk (tb.take mm).1 ((tb.take mm).2.take (8 * mm * kk)).1,
    (ta.take kk).2, ((tb.take mm).2.take (8 * mm * kk)).2, ?_, ?_, ?_, rfl, rfl⟩
  · intro γ δ KS KR
    rw [preProcessSender_eq H snd kk mm hsk, preProcessReceiver_eq rcv kk mm hrk,
      runOT_congr_settle _ _ _ _ _ _ (hsettle δ KR)]
    simp only [Act.bind, runOT, Act.seq_assoc]
    rw [hrun]
    simp only [hz, Act.ofOption, Act.bind]
  · simp only [List.length_replicate] at hz0n hz1n
    refine ⟨hsk, hsl, rfl, by show ((z0.length : Nat) : Int) = _; rw [hz0n]; simp,
      by show ((z1.length : Nat) : Int) = _; rw [hz1n]; simp, ?_, ?_⟩
    · exact all_of_index (fun z => (z.length : Int) * 8 = 8 * (ll : Int)) z0 (8 * mm) hz0n
        (fun i hi => by
          obtain ⟨v, h1, h2⟩ := hz0 i (by omega)
          exact ⟨v, h1, by
            show ((v.length : Nat) : Int) * 8 = 8 * (ll : Int)
            rw [h2]; omega⟩)
    · exact all_of_index (fun z => (z.length : Int) * 8 = 8 * (ll : Int)) z1 (8 * mm) hz1n
        (fun i hi => by
          obtain ⟨v, h1, h2⟩ := hz1 i (by omega)
          exact ⟨v, h1, by
            show ((v.length : Nat) : Int) * 8 = 8 * (ll : Int)
            rw [h2]; omega⟩)
  · refine ⟨hrk, hrl, rfl, ?_, ?_⟩
    · show (((tb.take mm).1.length : Nat) : Int) * 8 = _
      rw [take_length]; omega
    · simp [freshReceiver, freshT]

end OT
namespace OT

theorem SenderReady_curPair (k l m c : Int) (snd : ExtendSender) (h : SenderReady k l m snd) :
    SenderReady k l m { snd with curPair := c } := h

theorem ReceiverReady_curPair (k l m c : Int) (rcv : ExtendReceiver)
    (h : ReceiverReady k l m rcv) : ReceiverReady k l m { rcv with curPair := c } := h

/-- One transfer of a matching pair, followed by the rest of the two programs. -/
theorem transfer_joint (H : List Nat → Nat → Nat) (kk ll mm : Nat) (hll : 0 < ll)
    (hmm : 0 < mm) (snd : ExtendSender) (rcv : ExtendReceiver) (c : Int)
    (hinv : PairAt (8 * (kk : Int)) (8 * (ll : Int)) (8 * (mm : Int)) c snd rcv)
    (hc0 : 0 ≤ c) (hcm : c ≤ 8 * (mm : Int))
    (m0 m1 : List Nat) (hm0 : (m0.length : Int) * 8 = 8 * (ll : Int))
    (hm1 : (m1.length : Int) * 8 = 8 * (ll : Int)) (s : Nat) (hs : s = 0 ∨ s = 1)
    (γ δ : Type) (KS : ExtendSender → Act γ) (KR : List Nat × ExtendReceiver → Act δ)
    (ta tb : Tape) :
    ∃ snd' rcv' w ta' tb',
      runOT ((snd.Send H m0 m1).bind KS) ((rcv.Receive H s).bind KR) ta tb
        = runOT (KS snd') (KR (w, rcv')) ta' tb' ∧
      PairAt (8 * (kk : Int)) (8 * (ll : Int)) (8 * (mm : Int)) (nextPair (8 * (mm : Int)) c)
        snd' rcv' := by
  obtain ⟨hsk, hsl, hsm, hrk, hrl, hrm, hcs, hcr, hready⟩ := hinv
  rw [Send_eq H snd m0 m1 (by rw [hsl]; exact hm0) (by rw [hsl]; exact hm1), Receive_eq]
  by_cases hc : c = 8 * (mm : Int)
  · rw [if_pos (by rw [hcs, hsm, hc]), if_pos (by rw [hcr, hrm, hc]), hsm, hrm,
      Act.seq_assoc, Act.seq_assoc]
    obtain ⟨snd0, rcv0, ta', tb', hrun, hS, hR, hs0, hr0⟩ := preprocess_joint H snd rcv kk ll mm
      hll hsk hsl hrk hrl ta tb
    obtain ⟨w, hw⟩ := tail_joint H _ _ _ snd0 rcv0 hS hR (by omega) 0 (Int.le_refl _) (by omega)
      hs0 hr0 m0 m1 hm0 hm1 s hs
    refine ⟨{ snd0 with curPair := 0 + 1 }, { rcv0 with curPair := 0 + 1 }, w, ta', tb', ?_, ?_⟩
    · rw [hrun]
      exact hw γ δ KS KR ta' tb'
    · have hn : nextPair (8 * (mm : Int)) c = 0 + 1 := by simp [nextPair, hc]
      rw [hn]
      exact ⟨hS.1, hS.2.1, hS.2.2.1, hR.1, hR.2.1, hR.2.2.1, rfl, rfl, fun _ => ⟨hS, hR⟩⟩
  · obtain ⟨hS, hR⟩ := hready hc
    rw [if_neg (by rw [hcs, hsm]; exact hc), if_neg (by rw [hcr, hrm]; exact hc)]
    obtain ⟨w, hw⟩ := tail_joint H _ _ _ snd rcv hS hR (by omega) c hc0 (by omega)
      hcs hcr m0 m1 hm0 hm1 s hs
    refine ⟨{ snd with curPair := c + 1 }, { rcv with curPair := c + 1 }, w, ta, tb, ?_, ?_⟩
    · exact hw γ δ KS KR ta tb
    · have hn : nextPair (8 * (mm : Int)) c = c + 1 := by simp [nextPair, hc]
      rw [hn]
      exact ⟨hsk, hsl, hsm, hrk, hrl, hrm, rfl, rfl, fun _ => ⟨hS, hR⟩⟩

theorem nextPair_range (m c : Int) (hm : 1 ≤ m) (h0 : 0 ≤ c) (h1 : c ≤ m) :
    1 ≤ nextPair m c ∧ nextPair m c ≤ m := by
  unfold nextPair
  split <;> omega

/-- A run of transfers of a matching pair, followed by the rest of the two
programs. -/
theorem run_joint (H : List Nat → Nat → Nat) (kk ll mm : Nat) (hll : 0 < ll) (hmm : 0 < mm) :
    ∀ (msgs : List (List Nat × List Nat)) (sels : List Nat), msgs.length = sels.length →
      (∀ p ∈ msgs, (p.1.length : Int) * 8 = 8 * (ll : Int) ∧
        (p.2.length : Int) * 8 = 8 * (ll : Int)) →
      (∀ s ∈ sels, s = 0 ∨ s = 1) →
      ∀ (snd : ExtendSender) (rcv : ExtendReceiver) (c : Int),
        PairAt (8 * (kk : Int)) (8 * (ll : Int)) (8 * (mm : Int)) c snd rcv →
        0 ≤ c → c ≤ 8 * (mm : Int) →
        ∀ (γ δ : Type) (KS : ExtendSender → Act γ)
          (KR : List (List Nat) × ExtendReceiver → Act δ) (ta tb : Tape),
          ∃ sndN rcvN ws ta' tb',
            runOT ((sendAll H msgs snd).bind KS) ((receiveAll H sels rcv).bind KR) ta tb
              = runOT (KS sndN) (KR (ws, rcvN)) ta' tb' ∧
            PairAt (8 * (kk : Int)) (8 * (ll : Int)) (8 * (mm : Int))
              ((nextPair (8 * (mm : Int)))^[msgs.length] c) sndN rcvN ∧
            ws.length = msgs.length := by
  intro msgs
  induction msgs with
  | nil =>
    intro sels hlen _ _ snd rcv c hinv _ _ γ δ KS KR ta tb
    cases sels with
    | nil => exact ⟨snd, rcv, [], ta, tb, rfl, hinv, rfl⟩
    | cons s sels => simp at hlen
  | cons p msgs ih =>
    intro sels hlen hmsgs hsels snd rcv c hinv hc0 hcm γ δ KS KR ta tb
    cases sels with
    | nil => simp at hlen
    | cons s sels =>
      obtain ⟨hp0, hp1⟩ := hmsgs p (List.mem_cons_self _ _)
      obtain ⟨snd1, rcv1, w, ta1, tb1, hrun1, hinv1⟩ := transfer_joint H kk ll mm hll hmm snd rcv
        c hinv hc0 hcm p.1 p.2 hp0 hp1 s (hsels s (List.mem_cons_self _ _)) γ δ
        (fun a => (sendAll H msgs a).bind KS)
        (fun q => (receiveAll H sels q.2).bind fun r => KR (q.1 :: r.1, r.2)) ta tb
      obtain ⟨h1, h2⟩ := nextPair_range (8 * (mm : Int)) c (by omega) hc0 hcm
      obtain ⟨sndN, rcvN, ws, taN, tbN, hrunN, hinvN, hws⟩ := ih sels (by simpa using hlen)
        (fun q hq => hmsgs q (List.mem_cons_of_mem _ hq))
        (fun q hq => hsels q (List.mem_cons_of_mem _ hq)) snd1 rcv1 _ hinv1 (by omega) h2 γ δ KS
        (fun r => KR (w :: r.1, r.2)) ta1 tb1
      refine ⟨sndN, rcvN, w :: ws, taN, tbN, ?_, ?_, by simp [hws]⟩
      · rw [← hrunN, ← hrun1]
        simp only [sendAll, receiveAll, Act.seq_assoc, Act.bind]
      · simpa [Function.iterate_succ] using hinvN

end OT
namespace OT

theorem counterAfter_succ (m : Int) (n : Nat) :
    counterAfter m (n + 1) = nextPair m (counterAfter m n) := by
  unfold counterAfter
  rw [Function.iterate_succ_apply']

theorem succ_mod_cases (M n : Nat) (hM : 2 ≤ M) :
    (n % M + 1 = M ∧ (n + 1) % M = 0) ∨ (n % M + 1 < M ∧ (n + 1) % M = n % M + 1) := by
  have h1 : n % M < M := Nat.mod_lt _ (by omega)
  have h2 : (n + 1) % M = (n % M + 1) % M := by
    rw [Nat.add_mod, Nat.mod_eq_of_lt (by omega : 1 < M)]
  by_cases h : n % M + 1 = M
  · left
    exact ⟨h, by rw [h2, h, Nat.mod_self]⟩
  · right
    exact ⟨by omega, by rw [h2, Nat.mod_eq_of_lt (by omega)]⟩

/-- The counter after `n + 1` transfers is `n mod m + 1`. -/
theorem counterAfter_closed (M : Nat) (hM : 2 ≤ M) (n : Nat) :
    counterAfter (M : Int) (n + 1) = ((n % M + 1 : Nat) : Int) := by
  induction n with
  | zero =>
    rw [counterAfter_succ]
    simp [counterAfter, nextPair]
  | succ n ih =>
    rw [counterAfter_succ, ih]
    unfold nextPair
    rcases succ_mod_cases M n hM with ⟨h1, h2⟩ | ⟨h1, h2⟩
    · rw [if_pos (by exact_mod_cast h1), h2]
      simp
    · rw [if_neg (by intro h; have : n % M + 1 = M := by exact_mod_cast h
                     omega), h2]
      push_cast
      ring

/-- The counter is `m` exactly after `0, m, 2m, ...` transfers; it is always
in `[1, m]`. -/
theorem counterAfter_spec (M : Nat) (hM : 2 ≤ M) (n : Nat) :
    (counterAfter (M : Int) n = M ↔ n % M = 0) ∧
      1 ≤ counterAfter (M : Int) n ∧ counterAfter (M : Int) n ≤ M := by
  cases n with
  | zero => simp [counterAfter]; omega
  | succ n =>
    rw [counterAfter_closed M hM n]
    have h1 : n % M < M := Nat.mod_lt _ (by omega)
    rcases succ_mod_cases M n hM with ⟨h2, h3⟩ | ⟨h2, h3⟩
    · refine ⟨⟨fun _ => h3, fun _ => by exact_mod_cast h2⟩, by omega, by omega⟩
    · refine ⟨⟨fun h => ?_, fun h => ?_⟩, by omega, by omega⟩
      · have : n % M + 1 = M := by exact_mod_cast h
        omega
      · omega

theorem constructed_pair (k l m : Int) (snd : ExtendSender) (rcv : ExtendReceiver)
    (hs : NewExtendSender k l m = some snd) (hr : NewExtendReceiver k l m = some rcv) :
    PairAt k l m m snd rcv := by
  by_cases h1 : k.tmod 8 = 0 <;> by_cases h2 : l.tmod 8 = 0 <;> by_cases h3 : m.tmod 8 = 0 <;>
    simp only [NewExtendSender, NewExtendReceiver, h1, h2, h3, ne_eq, not_true_eq_false,
      not_false_eq_true, if_true, if_false, Option.some.injEq] at hs hr <;>
    first
      | exact absurd hs (by simp)
      | (subst hs; subst hr
         exact ⟨rfl, rfl, rfl, rfl, rfl, rfl, rfl, rfl, fun h => absurd rfl h⟩)

theorem eight_mul_of_dvd (x : Int) (h0 : 0 ≤ x) (h8 : (8 : Int) ∣ x) :
    ∃ n : Nat, x = 8 * (n : Int) := by
  obtain ⟨c, hc⟩ := h8
  exact ⟨c.toNat, by omega⟩

/-- C17, amended.  The pair counter.  For parameters `k ≥ 0`, `l > 0`, `m ≥ 8`, all
multiples of 8, messages of `l / 8` bytes and selectors in `{0,1}`:
* a transfer between a sender and a receiver whose counters are both `m`
  is the preprocessing followed by the rest of the transfer; the joint
  preprocessing ends with both counters 0, `z0` and `z1` of `m` entries
  (of `l / 8` bytes), `r` of `m` bits and `T` of `m` rows; the whole transfer
  ends with both counters 1;
* a transfer between a preprocessed sender and receiver whose counters are
  both `j`, `0 ≤ j < m`, is the rest of the transfer alone (no preprocessing);
  it ends with both counters `j + 1` and nothing else changed;
* a run of `n` transfers of a constructed pair ends, with both counters
  `counterAfter m n`;
* `counterAfter m n` is always in `[1, m]` and is `m` (so that transfer
  number `n + 1` starts with the preprocessing) exactly when `m` divides `n`;
  the index used by transfer number `n + 1`, which is 0 after a preprocessing
  and `counterAfter m n` otherwise, is in `[0, m)`. -/
theorem ot_pair_counter (H : List Nat → Nat → Nat) (k l m : Int)
    (hk0 : 0 ≤ k) (hk8 : (8 : Int) ∣ k) (hl0 : 0 < l) (hl8 : (8 : Int) ∣ l)
    (hm : 8 ≤ m) (hm8 : (8 : Int) ∣ m) :
    (∀ (snd : ExtendSender) (rcv : ExtendReceiver) (m0 m1 : List Nat) (s : Nat) (ta tb : Tape),
      PairAt k l m m snd rcv →
      (m0.length : Int) * 8 = l → (m1.length : Int) * 8 = l → (s = 0 ∨ s = 1) →
      snd.Send H m0 m1 = (snd.preProcessSender H m).bind (sendTail m0 m1) ∧
      rcv.Receive H s = (rcv.preProcessReceiver m).bind (receiveTail H s) ∧
      ∃ snd0 rcv0 w,
        runOT (snd.preProcessSender H m) (rcv.preProcessReceiver m) ta tb = some (snd0, rcv0) ∧
        snd0.curPair = 0 ∧ rcv0.curPair = 0 ∧
        SenderReady k l m snd0 ∧ ReceiverReady k l m rcv0 ∧
        runOT (snd.Send H m0 m1) (rcv.Receive H s) ta tb
          = some ({ snd0 with curPair := 1 }, w, { rcv0 with curPair := 1 })) ∧
    (∀ (snd : ExtendSender) (rcv : ExtendReceiver) (j : Int) (m0 m1 : List Nat) (s : Nat)
        (ta tb : Tape),
      PairAt k l m j snd rcv → 0 ≤ j → j < m →
      (m0.length : Int) * 8 = l → (m1.length : Int) * 8 = l → (s = 0 ∨ s = 1) →
      snd.Send H m0 m1 = sendTail m0 m1 snd ∧
      rcv.Receive H s = receiveTail H s rcv ∧
      ∃ w, runOT (snd.Send H m0 m1) (rcv.Receive H s) ta tb
          = some ({ snd with curPair := j + 1 }, w, { rcv with curPair := j + 1 })) ∧
    (∀ (snd : ExtendSender) (rcv : ExtendReceiver) (msgs : List (List Nat × List Nat))
        (sels : List Nat) (ta tb : Tape),
      NewExtendSender k l m = some snd → NewExtendReceiver k l m = some rcv →
      msgs.length = sels.length →
      (∀ p ∈ msgs, (p.1.length : Int) * 8 = l ∧ (p.2.length : Int) * 8 = l) →
      (∀ s ∈ sels, s = 0 ∨ s = 1) →
      ∃ sndN rcvN ws,
        runOT (sendAll H msgs snd) (receiveAll H sels rcv) ta tb = some (sndN, ws, rcvN) ∧
        sndN.curPair = counterAfter m msgs.length ∧
        rcvN.curPair = counterAfter m msgs.length ∧ ws.length = msgs.length) ∧
    (∀ n : Nat,
      (counterAfter m n = m ↔ (n : Int) % m = 0) ∧
      1 ≤ counterAfter m n ∧ counterAfter m n ≤ m ∧
      0 ≤ (if counterAfter m n = m then 0 else counterAfter m n) ∧
      (if counterAfter m n = m then 0 else counterAfter m n) < m) := by
  obtain ⟨kk, rfl⟩ := eight_mul_of_dvd k hk0 hk8
  obtain ⟨ll, rfl⟩ := eight_mul_of_dvd l (by omega) hl8
  obtain ⟨mm, rfl⟩ := eight_mul_of_dvd m (by omega) hm8
  have hll : 0 < ll := by omega
  have hmm : 0 < mm := by omega
  refine ⟨?_, ?_, ?_, ?_⟩
  · intro snd rcv m0 m1 s ta tb hinv hm0 hm1 hs
    obtain ⟨hsk, hsl, hsm, hrk, hrl, hrm, hcs, hcr, _⟩ := hinv
    have e1 : snd.Send H m0 m1
        = (snd.preProcessSender H (8 * (mm : Int))).bind (sendTail m0 m1) := by
      rw [Send_eq H snd m0 m1 (by rw [hsl]; exact hm0) (by rw [hsl]; exact hm1),
        if_pos (by rw [hcs, hsm]), hsm]
    have e2 : rcv.Receive H s
        = (rcv.preProcessReceiver (8 * (mm : Int))).bind (receiveTail H s) := by
      rw [Receive_eq, if_pos (by rw [hcr, hrm]), hrm]
    refine ⟨e1, e2, ?_⟩
    obtain ⟨snd0, rcv0, ta', tb', hrun, hS, hR, hs0, hr0⟩ := preprocess_joint H snd rcv kk ll mm
      hll hsk hsl hrk hrl ta tb
    obtain ⟨w, hw⟩ := tail_joint H _ _ _ snd0 rcv0 hS hR (by omega) 0 (Int.le_refl _) (by omega)
      hs0 hr0 m0 m1 hm0 hm1 s hs
    refine ⟨snd0, rcv0, w, ?_, hs0, hr0, hS, hR, ?_⟩
    · have h := hrun _ _ Act.ret Act.ret
      rw [Act.seq_ret, Act.seq_ret] at h
      rw [h]
      rfl
    · rw [e1, e2, hrun, ← Act.seq_ret (sendTail m0 m1 snd0),
        ← Act.seq_ret (receiveTail H s rcv0), hw]
      rfl
  · intro snd rcv j m0 m1 s ta tb hinv hj0 hjm hm0 hm1 hs
    obtain ⟨hsk, hsl, hsm, hrk, hrl, hrm, hcs, hcr, hready⟩ := hinv
    obtain ⟨hS, hR⟩ := hready (by omega)
    have e1 : snd.Send H m0 m1 = sendTail m0 m1 snd := by
      rw [Send_eq H snd m0 m1 (by rw [hsl]; exact hm0) (by rw [hsl]; exact hm1),
        if_neg (by rw [hcs, hsm]; omega)]
      rfl
    have e2 : rcv.Receive H s = receiveTail H s rcv := by
      rw [Receive_eq, if_neg (by rw [hcr, hrm]; omega)]
      rfl
    refine ⟨e1, e2, ?_⟩
    obtain ⟨w, hw⟩ := tail_joint H _ _ _ snd rcv hS hR (by omega) j hj0 hjm hcs hcr m0 m1 hm0 hm1
      s hs
    refine ⟨w, ?_⟩
    rw [e1, e2, ← Act.seq_ret (sendTail m0 m1 snd), ← Act.seq_ret (receiveTail H s rcv), hw]
    rfl
  · intro snd rcv msgs sels ta tb hsnd hrcv hlen hmsgs hsels
    have hinv := constructed_pair _ _ _ snd rcv hsnd hrcv
    obtain ⟨sndN, rcvN, ws, ta', tb', hrun, hinvN, hws⟩ := run_joint H kk ll mm hll hmm msgs sels
      hlen hmsgs hsels snd rcv _ hinv (by omega) (Int.le_refl _) _ _ Act.ret Act.ret ta tb
    rw [Act.seq_ret, Act.seq_ret] at hrun
    exact ⟨sndN, rcvN, ws, by rw [hrun]; rfl, hinvN.2.2.2.2.2.2.1, hinvN.2.2.2.2.2.2.2.1, hws⟩
  · intro n
    have h8 : (8 : Int) * (mm : Int) = ((8 * mm : Nat) : Int) := by push_cast; ring
    rw [h8]
    obtain ⟨h1, h2, h3⟩ := counterAfter_spec (8 * mm) (by omega) n
    refine ⟨?_, h2, h3, ?_, ?_⟩
    · rw [h1]
      constructor
      · intro h; exact_mod_cast congrArg (Nat.cast : Nat → Int) h
      · intro h; exact_mod_cast h
    · split <;> omega
    · split <;> omega

end OT
namespace OT

/-- C17, the claim fails without a bound on `l` and `k`: the constructors
accept `k = 8, l = 0, m = 8`, the sender and the receiver start with
`curPair = m = 8`, and the first transfer (of two empty messages) does not
finish: the preprocessing panics in `RO`, which rejects an output of 0 bits.
Likewise for `k = -8, l = 8, m = 8`, where the allocation of `k / 8` bytes
panics. -/
theorem ot_pair_counter_needs_output :
    (∃ snd rcv, NewExtendSender 8 0 8 = some snd ∧ NewExtendReceiver 8 0 8 = some rcv ∧
      snd.curPair = snd.m ∧ rcv.curPair = rcv.m ∧ 8 ≤ snd.m ∧
      runOT (snd.Send sumStream [] []) (rcv.Receive sumStream 0) zeroTape zeroTape = none) ∧
    (∃ snd rcv, NewExtendSender (-8) 8 8 = some snd ∧ NewExtendReceiver (-8) 8 8 = some rcv ∧
      snd.curPair = snd.m ∧ rcv.curPair = rcv.m ∧ 8 ≤ snd.m ∧
      runOT (snd.Send sumStream [1] [2]) (rcv.Receive sumStream 0) zeroTape zeroTape = none) := by
  refine ⟨⟨_, _, rfl, rfl, rfl, rfl, by decide, by decide⟩,
    ⟨_, _, rfl, rfl, rfl, rfl, by decide, by decide⟩⟩

theorem ot_pair_counter_witness :
    ((0 : Int) ≤ 8 ∧ (8 : Int) ∣ 8 ∧ (0 : Int) < 8 ∧ (8 : Int) ≤ 8 ∧
      NewExtendSender 8 8 8 = some newSender8 ∧ NewExtendReceiver 8 8 8 = some newReceiver8 ∧
      (∀ p ∈ [([1], [2]), ([3], [4])],
        ((p : List Nat × List Nat).1.length : Int) * 8 = 8 ∧ (p.2.length : Int) * 8 = 8) ∧
      (∀ s ∈ [0, 1], s = 0 ∨ s = 1)) ∧
    ∃ sndN rcvN ws,
      runOT (sendAll sumStream [([1], [2]), ([3], [4])] newSender8)
        (receiveAll sumStream [0, 1] newReceiver8) zeroTape zeroTape = some (sndN, ws, rcvN) ∧
      sndN.curPair = counterAfter 8 [([1], [2]), ([3], [4])].length ∧
      rcvN.curPair = counterAfter 8 [([1], [2]), ([3], [4])].length ∧
      ws.length = [([1], [2]), ([3], [4])].length :=
  ⟨⟨by decide, by decide, by decide, by decide, rfl, rfl, by decide, by decide⟩,
    (ot_pair_counter sumStream 8 8 8 (by decide) (by decide) (by decide) (by decide) (by decide)
      (by decide)).2.2.1 newSender8 newReceiver8 [([1], [2]), ([3], [4])] [0, 1] zeroTape zeroTape
      rfl rfl rfl (by decide) (by decide)⟩

end OT

namespace Gen

/-- C21. The garbled OR gate: for input wires `A`, `B` with the free-XOR
invariant, `Or` returns a wire `W` and sends one table `T` of three
ciphertexts such that for all bits `x`, `y`, with `p`, `q` the low bits of the
labels `A[x]`, `B[y]`: if `p = q = 0` the double encryption of the zero block
under `A[x], B[y]` is `W[x | y]`, and otherwise `T[p + 2q - 1]` is the double
encryption of `W[x | y]` under `A[x], B[y]`. -/
theorem gen_or_gate_correct (E : Key → List Nat → List Nat) (rnd : Nat → Nat) (st : GenState)
    (key0 : Key) (A B : Wire) (hkey : st.key0 = some key0) (hk : KeyOk key0)
    (hA : FreeXor key0 A) (hB : FreeXor key0 B) :
    ∃ W T st', Or E rnd [A] [B] st = .ok ([W], st') ∧ st'.sent = st.sent ++ [Msg.T T] ∧
      T.length = 3 ∧
      ∀ x y, x < 2 → y < 2 →
        ∃ kx ky p q wxy, A.at x = some kx ∧ B.at y = some ky ∧ lsb kx = some p ∧ lsb ky = some q ∧
          W.at (x ||| y) = some wxy ∧
          (if p = 0 ∧ q = 0 then encrypt E [kx, ky] ALL_ZEROS = wxy
           else T[p + 2 * q - 1]? = some (encrypt E [kx, ky] wxy)) := by
  obtain ⟨pa, hpa, hA0, hA1⟩ := lsb_opposite key0 A hk hA
  obtain ⟨pb, hpb, hB0, hB1⟩ := lsb_opposite key0 B hk hB
  have hbody := gateBody_eval (fun p q => p ||| q) or_lt_two E rnd A B st key0 pa pb hpa hpb
    hA0 hB0 hkey
  refine ⟨gateWire (fun p q => p ||| q) E key0 A B pa pb,
    gateTable (fun p q => p ||| q) E key0 A B pa pb,
    { st with sent := st.sent ++ [Msg.T (gateTable (fun p q => p ||| q) E key0 A B pa pb)] },
    ?_, rfl, rfl, ?_⟩
  · unfold Or
    simp only [List.length_singleton, ne_eq, not_true_eq_false, if_false]
    exact gate_single _ E rnd A B _ st _ hbody
  · intro x y hx hy
    have hxy : x ||| y < 2 := or_lt_two x y hx hy
    refine ⟨A.sel x, B.sel y, if x = 0 then pa else 1 - pa, if y = 0 then pb else 1 - pb,
      Wire.sel _ (x ||| y), Wire.at_of_lt A x hx, Wire.at_of_lt B y hy, ?_, ?_,
      Wire.at_of_lt _ _ hxy, ?_⟩
    · unfold Wire.sel; split <;> assumption
    · unfold Wire.sel; split <;> assumption
    · have hpa' : pa = 0 ∨ pa = 1 := by omega
      have hpb' : pb = 0 ∨ pb = 1 := by omega
      have hx' : x = 0 ∨ x = 1 := by omega
      have hy' : y = 0 ∨ y = 1 := by omega
      rcases hpa' with rfl | rfl <;> rcases hpb' with rfl | rfl <;>
        rcases hx' with rfl | rfl <;> rcases hy' with rfl | rfl <;>
        simp [Wire.sel, rrWire, gateWire, gateTable]

theorem gen_or_gate_correct_witness :
    (exampleState.key0 = some exampleKey0 ∧ KeyOk exampleKey0 ∧ FreeXor exampleKey0 exampleWireA ∧
      FreeXor exampleKey0 exampleWireB) ∧
    ∃ W T st', Or exampleCipher exampleStream [exampleWireA] [exampleWireB] exampleState
        = .ok ([W], st') ∧ st'.sent = exampleState.sent ++ [Msg.T T] ∧ T.length = 3 ∧
      ∀ x y, x < 2 → y < 2 →
        ∃ kx ky p q wxy, exampleWireA.at x = some kx ∧ exampleWireB.at y = some ky ∧
          lsb kx = some p ∧ lsb ky = some q ∧ W.at (x ||| y) = some wxy ∧
          (if p = 0 ∧ q = 0 then encrypt exampleCipher [kx, ky] ALL_ZEROS = wxy
           else T[p + 2 * q - 1]? = some (encrypt exampleCipher [kx, ky] wxy)) :=
  ⟨⟨rfl, by decide, by decide, by decide⟩,
    gen_or_gate_correct exampleCipher exampleStream exampleState exampleKey0 exampleWireA
      exampleWireB rfl (by decide) (by decide) (by decide)⟩

end Gen

namespace GMW

/-! ### Carved triples -/

theorem testBit_carve (x s k : Nat) :
    ((x >>> s) % 256).testBit k = (decide (k < 8) && x.testBit (s + k)) := by
  have h : (256 : Nat) = 2 ^ 8 := rfl
  rw [h, Nat.testBit_mod_two_pow, Nat.testBit_shiftRight]

theorem xorAll_carve (n s : Nat) (f : Nat → Nat) :
    xorAll n (fun i => (f i >>> s) % 256) = (xorAll n f >>> s) % 256 := by
  apply Nat.eq_of_testBit_eq
  intro k
  rw [testBit_xorAll, testBit_carve, testBit_xorAll]
  simp only [testBit_carve]
  rw [xorAllB_and]

theorem decide_pos_eq_testBit (x j : Nat) : decide (0 < (1 &&& (x >>> j))) = x.testBit j := by
  unfold Nat.testBit
  cases h : 1 &&& (x >>> j) <;> simp

theorem validTriple_bit (n : Nat) (t : Nat → Triple Nat) (h : validTriple n t) (k : Nat) :
    ((xorAll n fun i => (t i).a).testBit k && (xorAll n fun i => (t i).b).testBit k)
      = (xorAll n fun i => (t i).c).testBit k := by
  unfold validTriple at h
  rw [← h, Nat.testBit_and]

theorem carve8_valid (n : Nat) (t : Nat → Triple Nat) (h : validTriple n t) (j : Nat) :
    validTriple n fun i => carve8 j (t i) := by
  unfold validTriple carve8
  simp only []
  rw [xorAll_carve n (8 * j) fun i => (t i).a, xorAll_carve n (8 * j) fun i => (t i).b,
    xorAll_carve n (8 * j) fun i => (t i).c]
  apply Nat.eq_of_testBit_eq
  intro k
  rw [Nat.testBit_and, testBit_carve, testBit_carve, testBit_carve,
    ← validTriple_bit n t h (8 * j + k)]
  cases decide (k < 8) <;> simp

theorem carve1_valid (n : Nat) (t : Nat → Triple Nat) (h : validTriple n t) (j : Nat) :
    validTriple1 n fun i => carve1 j (t i) := by
  unfold validTriple1 carve1
  simp only [decide_pos_eq_testBit]
  rw [← testBit_xorAll n (fun i => (t i).a), ← testBit_xorAll n (fun i => (t i).b),
    ← testBit_xorAll n (fun i => (t i).c)]
  exact validTriple_bit n t h j

theorem Triple8_body_carves (x : X) (t : Triple Nat) (rest : List (Triple Nat))
    (h32 : x.triples32 = t :: rest) (h8 : x.triples8 = []) :
    X.Triple8.body x
      = some (((carve8 0 t).a, (carve8 0 t).b, (carve8 0 t).c),
          { x with triples8 := [carve8 1 t, carve8 2 t, carve8 3 t] }) := by
  simp [X.Triple8.body, X.Triple32, X.Triple32.body, h32, h8, carve8, bind, Option.bind, pure]

theorem Triple1_body_carves (x : X) (t : Triple Nat) (rest : List (Triple Nat))
    (h32 : x.triples32 = t :: rest) (h1 : x.triples1 = []) :
    X.Triple1.body x
      = some (((carve1 0 t).a, (carve1 0 t).b, (carve1 0 t).c),
          { x with triples1 := (List.range 31).map fun j => carve1 (j + 1) t }) := by
  have hr : List.range 32 = 0 :: (List.range 31).map (fun j => j + 1) := by decide
  simp only [X.Triple1.body, X.Triple32, X.Triple32.body, h32, h1, bind, Option.bind, pure,
    List.length_nil, if_true, Option.map, hr, List.map_cons, List.map_map]
  rfl

/-- C22. Carving a 32-bit triple.  For `n ≥ 1` parties whose next 32-bit
triples `(a_i, b_i, c_i)` satisfy `(XOR a_i) & (XOR b_i) = XOR c_i` and which
hold no carved triples: the body of `Triple8` returns the triple of byte lane
0 and stores those of the lanes 1, 2, 3, lane `j` being
`(uint8(a_i >> 8j), uint8(b_i >> 8j), uint8(c_i >> 8j))`, and each of the four
satisfies the invariant across the parties; the body of `Triple1` returns the
triple of bit 0 and stores those of the bits 1 to 31, and each of the 32
satisfies the invariant across the parties. -/
theorem gmw_carved_triples (n : Nat) (hn : 1 ≤ n) (xs : Nat → X) (t : Nat → Triple Nat)
    (rest : Nat → List (Triple Nat))
    (h32 : ∀ i, i < n → (xs i).triples32 = t i :: rest i)
    (h8 : ∀ i, i < n → (xs i).triples8 = []) (h1 : ∀ i, i < n → (xs i).triples1 = [])
    (hval : validTriple n t) :
    (∀ i, i < n → ∃ x', X.Triple8.body (xs i)
        = some (((carve8 0 (t i)).a, (carve8 0 (t i)).b, (carve8 0 (t i)).c), x') ∧
      carve8 0 (t i) :: x'.triples8 = (List.range 4).map fun j => carve8 j (t i)) ∧
    (∀ j, j < 4 → validTriple n fun i => carve8 j (t i)) ∧
    (∀ i, i < n → ∃ x', X.Triple1.body (xs i)
        = some (((carve1 0 (t i)).a, (carve1 0 (t i)).b, (carve1 0 (t i)).c), x') ∧
      carve1 0 (t i) :: x'.triples1 = (List.range 32).map fun j => carve1 j (t i)) ∧
    (∀ j, j < 32 → validTriple1 n fun i => carve1 j (t i)) := by
  have _ := hn
  refine ⟨fun i hi => ⟨_, Triple8_body_carves (xs i) (t i) (rest i) (h32 i hi) (h8 i hi), rfl⟩,
    fun j _ => carve8_valid n t hval j,
    fun i hi => ⟨_, Triple1_body_carves (xs i) (t i) (rest i) (h32 i hi) (h1 i hi), ?_⟩,
    fun j _ => carve1_valid n t hval j⟩
  have hr : List.range 32 = 0 :: (List.range 31).map (fun j => j + 1) := by decide
  rw [hr]
  simp only [List.map_cons, List.map_map]
  rfl

theorem gmw_carved_triples_witness :
    (1 ≤ 3 ∧ (∀ i, i < 3 → (carveParty i).triples32 = carveTriple i :: [⟨1, 2, 0⟩]) ∧
      (∀ i, i < 3 → (carveParty i).triples8 = []) ∧
      (∀ i, i < 3 → (carveParty i).triples1 = []) ∧ validTriple 3 carveTriple) ∧
    (∀ i, i < 3 → ∃ x', X.Triple8.body (carveParty i)
        = some (((carve8 0 (carveTriple i)).a, (carve8 0 (carveTriple i)).b,
            (carve8 0 (carveTriple i)).c), x') ∧
      carve8 0 (carveTriple i) :: x'.triples8
        = (List.range 4).map fun j => carve8 j (carveTriple i)) ∧
    (∀ j, j < 4 → validTriple 3 fun i => carve8 j (carveTriple i)) ∧
    (∀ i, i < 3 → ∃ x', X.Triple1.body (carveParty i)
        = some (((carve1 0 (carveTriple i)).a, (carve1 0 (carveTriple i)).b,
            (carve1 0 (carveTriple i)).c), x') ∧
      carve1 0 (carveTriple i) :: x'.triples1
        = (List.range 32).map fun j => carve1 j (carveTriple i)) ∧
    (∀ j, j < 32 → validTriple1 3 fun i => carve1 j (carveTriple i)) :=
  ⟨⟨by decide, fun _ _ => rfl, fun _ _ => rfl, fun _ _ => rfl, by decide⟩,
    gmw_carved_triples 3 (by decide) carveParty carveTriple (fun _ => [⟨1, 2, 0⟩])
      (fun _ _ => rfl) (fun _ _ => rfl) (fun _ _ => rfl) (by decide)⟩

end GMW

namespace OT

/-! ### Bits of bytes -/

theorem packByte_bits (x : Nat) (h : x < 256) : packByte (fun t => (x >>> t) &&& 1) = x := by
  unfold packByte
  simp only [Nat.shiftRight_eq_div_pow, Nat.and_one_is_mod]
  omega

theorem bit_packByte (f : Nat → Nat) (hf : ∀ t, f t ≤ 1) (t : Nat) (ht : t < 8) :
    (packByte f >>> t) &&& 1 = f t := by
  have h0 := hf 0
  have h1 := hf 1
  have h2 := hf 2
  have h3 := hf 3
  have h4 := hf 4
  have h5 := hf 5
  have h6 := hf 6
  have h7 := hf 7
  unfold packByte
  rw [Nat.shiftRight_eq_div_pow, Nat.and_one_is_mod]
  interval_cases t <;> omega

theorem bit_xor (x y t : Nat) :
    ((x ^^^ y) >>> t) &&& 1 = ((x >>> t) &&& 1) ^^^ ((y >>> t) &&& 1) := by
  apply Nat.eq_of_testBit_eq
  intro i
  simp only [Nat.testBit_and, Nat.testBit_xor, Nat.testBit_shiftRight]
  cases (1 : Nat).testBit i <;> simp

theorem packByte_xor (x y : Nat) (hx : x < 256) (hy : y < 256) :
    packByte (fun t => ((x >>> t) &&& 1) ^^^ ((y >>> t) &&& 1)) = x ^^^ y := by
  have h : x ^^^ y < 2 ^ 8 := Nat.xor_lt_two_pow hx hy
  rw [← packByte_bits (x ^^^ y) h]
  simp only [bit_xor]

theorem bit_le_one (x t : Nat) : (x >>> t) &&& 1 ≤ 1 := by
  rw [Nat.and_one_is_mod]
  omega

theorem Matrix8.bit_bound (M : Matrix8) (i j : Nat) : M.bit i j ≤ 1 :=
  OT.bit_le_one _ _

end OT
namespace OT

/-! ### What the loops of the preprocessing write -/

theorem set_entries {α : Type} (P : Nat → α → Prop) (l : List α) (i : Nat) (v : α)
    (hi : i < l.length) (hv : P i v) (hl : ∀ j, j < i → ∃ x, l[j]? = some x ∧ P j x) :
    ∀ j, j < i + 1 → ∃ x, (l.set i v)[j]? = some x ∧ P j x := by
  intro j hj
  by_cases e : j = i
  · subst e
    exact ⟨v, by simp [hi], hv⟩
  · obtain ⟨x, hx, hp⟩ := hl j (by omega)
    exact ⟨x, by rw [List.getElem?_set_ne (Ne.symm e)]; exact hx, hp⟩

theorem GetRow_getD (M : Matrix8) (j : Nat) (row : List Nat) (h : M.GetRow (j : Int) = some row) :
    M.data.getD j [] = row := by
  unfold Matrix8.GetRow at h
  rw [index_nat] at h
  rw [List.getD_eq_getElem?_getD, h]
  rfl

/-- The loop that fills `in1`: entry `i` is `r XOR TT.GetRow(i)`. -/
theorem in1Loop_rows (self : ExtendReceiver) (TT : Matrix8) (mm : Nat)
    (hm : self.m = 8 * (mm : Int)) (hr : self.r.length = mm) :
    ∀ (count i : Nat) (in1 : List (List Nat)), i + count ≤ in1.length →
      (∀ j, i ≤ j → j < i + count → ∃ row, TT.GetRow (j : Int) = some row ∧ row.length = mm) →
      (∀ j, j < i → ∃ v, in1[j]? = some v ∧
        (v.length = mm ∧ v = xorBytes self.r (TT.data.getD j []))) →
      ∃ in1', preProcessReceiver.in1Loop self TT count i in1 = some in1' ∧
        in1'.length = in1.length ∧
        ∀ j, j < i + count → ∃ v, in1'[j]? = some v ∧
          (v.length = mm ∧ v = xorBytes self.r (TT.data.getD j [])) := by
  intro count
  induction count with
  | zero =>
    intro i in1 _ _ hgood
    exact ⟨in1, rfl, rfl, by simpa using hgood⟩
  | succ count ih =>
    intro i in1 hlen hrows hgood
    obtain ⟨row, hrow, hrl⟩ := hrows i (Nat.le_refl _) (by omega)
    have hx : xorBytesExact (List.replicate mm 0) self.r row = some (xorBytes self.r row) := by
      simp [xorBytesExact, hr, hrl]
    have hxl : (xorBytes self.r row).length = mm := by
      rw [xorBytes_length _ _ (by rw [hr, hrl]), hr]
    obtain ⟨in1', h1, h2, h3⟩ := ih (i + 1) (in1.set i (xorBytes self.r row))
      (by simp; omega) (fun j h1 h2 => hrows j (by omega) (by omega))
      (set_entries (fun j v => v.length = mm ∧ v = xorBytes self.r (TT.data.getD j [])) in1 i _
        (by omega) ⟨hxl, by rw [GetRow_getD TT i row hrow]⟩ hgood)
    refine ⟨in1', ?_, by simpa using h2, fun j hj => h3 j (by omega)⟩
    simp only [preProcessReceiver.in1Loop, hm, mkBytes_eight, hrow, hx,
      store_nat in1 i _ (by omega), Option.bind_eq_bind, Option.some_bind]
    exact h1

/-- The loop that fills `z0` and `z1`: entry `j` of `z0` is `RO(Q.GetRow(j), l)`
and entry `j` of `z1` is `RO(Q.GetRow(j) XOR s, l)`. -/
theorem zLoop_rows (H : List Nat → Nat → Nat) (self : ExtendSender) (s : List Nat) (Q : Matrix8)
    (ll : Nat) (hl : self.l = 8 * (ll : Int)) (hll : 0 < ll) :
    ∀ (count j : Nat) (z0 z1 : List (List Nat)) (temp : List Nat),
      j + count ≤ z0.length → j + count ≤ z1.length → temp.length = s.length →
      (∀ i, j ≤ i → i < j + count →
        ∃ row, Q.GetRow (i : Int) = some row ∧ row.length = s.length) →
      (∀ i, i < j → ∃ v, z0[i]? = some v ∧ RO H (Q.data.getD i []) (8 * (ll : Int)) = some v) →
      (∀ i, i < j → ∃ v, z1[i]? = some v ∧
        RO H (xorBytes (Q.data.getD i []) s) (8 * (ll : Int)) = some v) →
      ∃ z0' z1', preProcessSender.zLoop H self s Q count j z0 z1 temp = some (z0', z1') ∧
        z0'.length = z0.length ∧ z1'.length = z1.length ∧
        (∀ i, i < j + count → ∃ v, z0'[i]? = some v ∧
          RO H (Q.data.getD i []) (8 * (ll : Int)) = some v) ∧
        (∀ i, i < j + count → ∃ v, z1'[i]? = some v ∧
          RO H (xorBytes (Q.data.getD i []) s) (8 * (ll : Int)) = some v) := by
  intro count
  induction count with
  | zero =>
    intro j z0 z1 temp _ _ _ _ h0 h1
    exact ⟨z0, z1, rfl, rfl, rfl, by simpa using h0, by simpa using h1⟩
  | succ count ih =>
    intro j z0 z1 temp hz0 hz1 htemp hrows h0 h1
    obtain ⟨row, hrow, hrl⟩ := hrows j (Nat.le_refl _) (by omega)
    obtain ⟨a0, ha0, _⟩ := RO_some H row (8 * (ll : Int)) (by omega) (tmod_eight ll)
    obtain ⟨a1, ha1, _⟩ := RO_some H (xorBytes row s) (8 * (ll : Int)) (by omega)
      (tmod_eight ll)
    have hx : xorBytesExact temp row s = some (xorBytes row s) := by
      simp [xorBytesExact, htemp, hrl]
    have hxl : (xorBytes row s).length = s.length := by
      rw [xorBytes_length _ _ hrl, hrl]
    obtain ⟨z0', z1', e1, e2, e3, e4, e5⟩ := ih (j + 1) (z0.set j a0) (z1.set j a1)
      (xorBytes row s) (by simp; omega) (by simp; omega) hxl
      (fun i h1 h2 => hrows i (by omega) (by omega))
      (set_entries (fun i v => RO H (Q.data.getD i []) (8 * (ll : Int)) = some v) z0 j _
        (by omega) (by show RO H (Q.data.getD j []) _ = _; rw [GetRow_getD Q j row hrow]; exact ha0) h0)
      (set_entries (fun i v => RO H (xorBytes (Q.data.getD i []) s) (8 * (ll : Int)) = some v)
        z1 j _ (by omega)
        (by show RO H (xorBytes (Q.data.getD j []) s) _ = _
            rw [GetRow_getD Q j row hrow]; exact ha1) h1)
    refine ⟨z0', z1', ?_, by simpa using e2, by simpa using e3, fun i hi => e4 i (by omega),
      fun i hi => e5 i (by omega)⟩
    simp only [preProcessSender.zLoop, hl, hrow, ha0, ha1, hx, store_nat z0 j _ (by omega),
      store_nat z1 j _ (by omega), Option.bind_eq_bind, Option.some_bind]
    exact e1

/-- The base OTs of the preprocessing, with what they store: row `i` of `QT`
is row `i` of `TT` if bit `i` of `s` is 0 and `in1[i]` otherwise. -/
theorem loops_joint_rows (self : ExtendSender) (s : List Nat) (TT : Matrix8)
    (in1 : List (List Nat)) (mm : Nat) (hm : self.m = 8 * (mm : Int)) :
    ∀ (count i : Nat) (QT : Matrix8), i + count ≤ QT.data.length → i + count ≤ 8 * s.length →
      (∀ j, i ≤ j → j < i + count → ∃ row, TT.GetRow (j : Int) = some row ∧ row.length = mm) →
      (∀ j, j < i + count → ∃ v, in1[j]? = some v ∧ v.length = mm) →
      (∀ j, j < i → ∃ row, QT.data[j]? = some row ∧
        row = if GetBit s (j : Int) = some 0 then TT.data.getD j [] else in1.getD j []) →
      ∃ QT', (∀ (γ δ : Type) (KS : Matrix8 → Act γ) (KR : Unit → Act δ) (ta tb : Tape),
          runOT ((preProcessSender.recvLoop self s count i QT).bind KS)
            ((preProcessReceiver.sendLoop TT in1 count i).bind KR) ta tb
            = runOT (KS QT') (KR ()) ta tb) ∧
        QT'.NumRows = QT.NumRows ∧ QT'.NumCols = QT.NumCols ∧
        QT'.data.length = QT.data.length ∧
        ∀ j, j < i + count → ∃ row, QT'.data[j]? = some row ∧
          row = if GetBit s (j : Int) = some 0 then TT.data.getD j [] else in1.getD j [] := by
  intro count
  induction count with
  | zero =>
    intro i QT _ _ _ _ hgood
    exact ⟨QT, fun _ _ _ _ _ _ => rfl, rfl, rfl, rfl, by simpa using hgood⟩
  | succ count ih =>
    intro i QT hQ hs hrows hin hgood
    obtain ⟨c, hc, hc01⟩ := GetBit_nat s i (by omega)
    obtain ⟨row, hrow, hrl⟩ := hrows i (Nat.le_refl _) (by omega)
    obtain ⟨v, hv, hvl⟩ := hin i (by omega)
    have hvD : in1.getD i [] = v := by
      rw [List.getD_eq_getElem?_getD, hv]; rfl
    have hset : ∀ recvd : List Nat,
        QT.SetRow (i : Int) recvd = some { QT with data := QT.data.set i recvd } := by
      intro recvd
      unfold Matrix8.SetRow
      rw [store_nat _ _ _ (by omega)]
      rfl
    have hnext : ∀ recvd : List Nat,
        (recvd = if GetBit s (i : Int) = some 0 then TT.data.getD i [] else in1.getD i []) →
        ∃ QT', (∀ (γ δ : Type) (KS : Matrix8 → Act γ) (KR : Unit → Act δ) (ta tb : Tape),
            runOT ((preProcessSender.recvLoop self s count (i + 1)
                { QT with data := QT.data.set i recvd }).bind KS)
              ((preProcessReceiver.sendLoop TT in1 count (i + 1)).bind KR) ta tb
              = runOT (KS QT') (KR ()) ta tb) ∧
          QT'.NumRows = QT.NumRows ∧ QT'.NumCols = QT.NumCols ∧
          QT'.data.length = QT.data.length ∧
          ∀ j, j < i + (count + 1) → ∃ row, QT'.data[j]? = some row ∧
            row = if GetBit s (j : Int) = some 0 then TT.data.getD j [] else in1.getD j [] := by
      intro recvd hrec
      obtain ⟨QT', e1, e2, e3, e4, e5⟩ := ih (i + 1) { QT with data := QT.data.set i recvd }
        (by simp; omega) (by omega) (fun j h1 h2 => hrows j (by omega) (by omega))
        (fun j hj => hin j (by omega))
        (set_entries (fun j row => row = if GetBit s (j : Int) = some 0 then TT.data.getD j []
          else in1.getD j []) QT.data i recvd (by omega) hrec hgood)
      exact ⟨QT', e1, e2, e3, by simpa using e4, fun j hj => e5 j (by omega)⟩
    have hlenrow : ¬ ((row.length : Int) ≠ (8 * (mm : Int)).tdiv 8) := by
      rw [tdiv_eight, hrl]; simp
    have hlenv : ¬ ((v.length : Int) ≠ (8 * (mm : Int)).tdiv 8) := by
      rw [tdiv_eight, hvl]; simp
    rcases hc01 with rfl | rfl
    · obtain ⟨QT', e1, e2⟩ := hnext row (by rw [hc, if_pos rfl, GetRow_getD TT i row hrow])
      refine ⟨QT', ?_, e2⟩
      intro γ δ KS KR ta tb
      rw [← e1 γ δ KS KR ta tb]
      simp only [preProcessSender.recvLoop, preProcessReceiver.sendLoop, hc, hrow, index_nat, hv,
        Act.ofOption, Act.bind, runOT, settle, hm, if_true, hlenrow, if_false, hset]
    · obtain ⟨QT', e1, e2⟩ := hnext v (by rw [hc, if_neg (by simp), hvD])
      refine ⟨QT', ?_, e2⟩
      intro γ δ KS KR ta tb
      rw [← e1 γ δ KS KR ta tb]
      simp only [preProcessSender.recvLoop, preProcessReceiver.sendLoop, hc, hrow, index_nat, hv,
        Act.ofOption, Act.bind, runOT, settle, hm, if_true, hlenv, if_false, hset,
        Nat.one_ne_zero]

end OT
namespace OT

/-! ### Transposing twice -/

theorem packByte_congr (f g : Nat → Nat) (h : ∀ t, t < 8 → f t = g t) :
    packByte f = packByte g := by
  unfold packByte
  rw [h 0 (by omega), h 1 (by omega), h 2 (by omega), h 3 (by omega), h 4 (by omega),
    h 5 (by omega), h 6 (by omega), h 7 (by omega)]

theorem range_map_eq_of_getD (g : Nat → Nat) (l : List Nat) (n : Nat) (hl : l.length = n)
    (h : ∀ b, b < n → g b = l.getD b 0) : (List.range n).map g = l := by
  apply List.ext_getElem (by simp [hl])
  intro i h1 h2
  simp only [List.getElem_map, List.getElem_range]
  rw [h i (by omega), List.getD_eq_getElem _ _ h2]

theorem range_map_getD_lt (g : Nat → Nat) (n b : Nat) (hb : b < n) :
    ((List.range n).map g).getD b 0 = g b := by
  rw [List.getD_eq_getElem _ _ (by simpa using hb)]
  simp

theorem xorBytes_getD (a b : List Nat) (c : Nat) (ha : c < a.length) (hb : c < b.length) :
    (xorBytes a b).getD c 0 = a.getD c 0 ^^^ b.getD c 0 := by
  unfold xorBytes
  rw [List.getD_eq_getElem _ _ (by simp; omega), List.getD_eq_getElem _ _ ha,
    List.getD_eq_getElem _ _ hb]
  simp

theorem getD_lt_of_all (l : List Nat) (b : Nat) (h : ∀ x ∈ l, x < 256) : l.getD b 0 < 256 := by
  by_cases hb : b < l.length
  · rw [List.getD_eq_getElem _ _ hb]
    exact h _ (List.getElem_mem _)
  · rw [List.getD_eq_default _ _ (by omega)]
    decide

theorem Transpose_getD (M : Matrix8) (i : Nat) (h : i < M.NumCols) :
    M.Transpose.data.getD i []
      = (List.range (M.NumRows / 8)).map fun b => packByte fun t => M.bit (8 * b + t) i := by
  unfold Matrix8.Transpose
  rw [List.getD_eq_getElem _ _ (by simpa using h)]
  simp

theorem Transpose_bit (M : Matrix8) (i j : Nat) (hi : i < M.NumCols)
    (hj : j / 8 < M.NumRows / 8) : M.Transpose.bit i j = M.bit j i := by
  have e : M.Transpose.bit i j
      = ((M.Transpose.data.getD i []).getD (j / 8) 0 >>> (j % 8)) &&& 1 := rfl
  rw [e, Transpose_getD M i hi, range_map_getD_lt _ _ _ hj,
    bit_packByte _ (fun t => Matrix8.bit_bound M _ _) _ (Nat.mod_lt _ (by decide)),
    Nat.div_add_mod]

theorem GetBit_byte (v : List Nat) (b t : Nat) (hb : b < v.length) (ht : t < 8) :
    GetBit v ((8 * b + t : Nat) : Int) = some ((v.getD b 0 >>> t) &&& 1) := by
  have e : (((8 * b + t : Nat) : Int)).tdiv 8 = (b : Int) := by
    rw [Int.tdiv_eq_ediv (by omega) (by decide)]
    omega
  have e2 : (((8 * b + t : Nat) : Int)).toNat % 8 = t := by omega
  unfold GetBit
  rw [if_neg (by omega), e, index_nat, e2, List.getElem?_eq_getElem hb,
    List.getD_eq_getElem _ _ hb]
  rfl

theorem bit_of_byte (M : Matrix8) (j b t : Nat) (ht : t < 8) :
    M.bit j (8 * b + t) = ((M.data.getD j []).getD b 0 >>> t) &&& 1 := by
  have e1 : (8 * b + t) / 8 = b := by omega
  have e2 : (8 * b + t) % 8 = t := by omega
  unfold Matrix8.bit
  rw [e1, e2]

/-- The rows of `Q`.  `T` has `8 mm` rows of `kk` bytes, `QT` has `8 kk` rows,
row `i` being row `i` of the transpose of `T` if bit `i` of `s` is 0 and
`r XOR` that row otherwise.  Then row `j` of the transpose of `QT` is
`T[j] XOR s` if bit `j` of `r` is 1 and `T[j]` otherwise. -/
theorem Q_row (s r : List Nat) (T QT : Matrix8) (kk mm : Nat)
    (hs : s.length = kk) (hs256 : ∀ x ∈ s, x < 256) (hr : r.length = mm)
    (hTR : T.NumRows = 8 * mm) (hTC : T.NumCols = 8 * kk)
    (hT : ∀ j, j < 8 * mm → (T.data.getD j []).length = kk ∧ ∀ x ∈ T.data.getD j [], x < 256)
    (hQR : QT.NumRows = 8 * kk) (hQC : QT.NumCols = 8 * mm)
    (hrows : ∀ i, i < 8 * kk → ∃ row, QT.data[i]? = some row ∧
      row = if GetBit s (i : Int) = some 0 then T.Transpose.data.getD i []
        else xorBytes r (T.Transpose.data.getD i []))
    (j : Nat) (hj : j < 8 * mm) :
    QT.Transpose.data.getD j []
      = if (r.getD (j / 8) 0 >>> (j % 8)) &&& 1 = 1 then xorBytes (T.data.getD j []) s
        else T.data.getD j [] := by
  obtain ⟨hTl, hT256⟩ := hT j hj
  have hmm : 8 * mm / 8 = mm := by omega
  have hkk : 8 * kk / 8 = kk := by omega
  have hj8 : j / 8 < mm := by omega
  -- the bits of `QT`
  have hbit : ∀ i, i < 8 * kk → QT.bit i j
      = (if GetBit s (i : Int) = some 0 then 0 else (r.getD (j / 8) 0 >>> (j % 8)) &&& 1)
          ^^^ T.bit j i := by
    intro i hi
    obtain ⟨row, h1, h2⟩ := hrows i hi
    have hTT : (T.Transpose.data.getD i []).length = mm := by
      rw [Transpose_getD T i (by omega), hTR, hmm]; simp
    have hb : T.Transpose.bit i j = T.bit j i :=
      Transpose_bit T i j (by omega) (by rw [hTR, hmm]; exact hj8)
    have hrowD : QT.data.getD i [] = row := by
      rw [List.getD_eq_getElem?_getD, h1]
      rfl
    have e : QT.bit i j = ((row.getD (j / 8) 0) >>> (j % 8)) &&& 1 := by
      unfold Matrix8.bit
      rw [hrowD]
    rw [e, h2]
    split
    · rw [← hb, Nat.zero_xor]
      rfl
    · rw [xorBytes_getD _ _ _ (by omega) (by omega), bit_xor, ← hb]
      rfl
  rw [Transpose_getD QT j (by omega), hQR, hkk]
  have hcases := bit_le_one (r.getD (j / 8) 0) (j % 8)
  by_cases hrj : (r.getD (j / 8) 0 >>> (j % 8)) &&& 1 = 1
  · rw [if_pos hrj]
    apply range_map_eq_of_getD _ _ _ (by rw [xorBytes_length _ _ (by omega), hTl])
    intro b hb
    refine Eq.trans (packByte_congr _ (fun t => (((T.data.getD j []).getD b 0 >>> t) &&& 1)
        ^^^ ((s.getD b 0 >>> t) &&& 1)) ?_)
      ((packByte_xor _ _ (getD_lt_of_all _ b hT256) (getD_lt_of_all _ b hs256)).trans
        (xorBytes_getD _ _ _ (by omega) (by omega)).symm)
    intro t ht
    rw [hbit (8 * b + t) (by omega), GetBit_byte s b t (by omega) ht, bit_of_byte T j b t ht,
      hrj, Nat.xor_comm]
    congr 1
    have := bit_le_one (s.getD b 0) t
    by_cases h0 : (s.getD b 0 >>> t) &&& 1 = 0
    · rw [h0]; rfl
    · rw [if_neg (by simpa using h0)]
      omega
  · rw [if_neg hrj]
    have hz : (r.getD (j / 8) 0 >>> (j % 8)) &&& 1 = 0 := by omega
    apply range_map_eq_of_getD _ _ _ hTl
    intro b hb
    refine Eq.trans (packByte_congr _ (fun t => ((T.data.getD j []).getD b 0 >>> t) &&& 1) ?_)
      (packByte_bits _ (getD_lt_of_all _ b hT256))
    intro t ht
    rw [hbit (8 * b + t) (by omega), bit_of_byte T j b t ht, hz, ite_self, Nat.zero_xor]

end OT
namespace OT

/-! ### The linking invariant -/

theorem take_lt (t : Tape) (n : Nat) : ∀ x ∈ (t.take n).1, x < 256 := by
  intro x hx
  simp only [Tape.take, List.mem_map, List.mem_range] at hx
  obtain ⟨i, _, rfl⟩ := hx
  exact Nat.mod_lt _ (by decide)

theorem GetBit_getD (v : List Nat) (j : Nat) (h : j < 8 * v.length) :
    GetBit v (j : Int) = some ((v.getD (j / 8) 0 >>> (j % 8)) &&& 1) := by
  have e := GetBit_byte v (j / 8) (j % 8) (by omega) (Nat.mod_lt _ (by decide))
  rw [Nat.div_add_mod] at e
  exact e

theorem freshT_GetRow (mm kk : Nat) (bs : List Nat) (j : Nat) (hj : j < 8 * mm) :
    (freshT mm kk bs).GetRow (j : Int) = some ((freshT mm kk bs).data.getD j []) := by
  unfold Matrix8.GetRow
  rw [index_nat, List.getD_eq_getElem?_getD]
  simp [freshT, hj]

theorem freshT_rows (mm kk : Nat) (bs : List Nat) (hlen : bs.length = 8 * mm * kk)
    (hbs : ∀ x ∈ bs, x < 256) (j : Nat) (hj : j < 8 * mm) :
    ((freshT mm kk bs).data.getD j []).length = kk ∧
      ∀ x ∈ (freshT mm kk bs).data.getD j [], x < 256 := by
  have e : (freshT mm kk bs).data.getD j [] = (bs.drop (j * kk)).take kk := by
    rw [List.getD_eq_getElem?_getD]
    simp [freshT, hj]
  rw [e]
  constructor
  · have h1 : (j + 1) * kk ≤ 8 * mm * kk := Nat.mul_le_mul_right kk hj
    rw [List.length_take, List.length_drop, hlen]
    have h2 : (j + 1) * kk = j * kk + kk := by ring
    omega
  · intro x hx
    exact hbs x (List.mem_of_mem_drop (List.mem_of_mem_take hx))

end OT
namespace OT

/-- C23. The linking invariant of the IKNP preprocessing.  Sender and receiver
have `k = 8 kk`, the sender has `l = 8 ll`, and they run `preProcessSender(m)` and
`preProcessReceiver(m)` for `m = 8 mm` against each other, the base OT handing
over the first message for the selector 0 and the second for 1.  With `s` the
sender's sampled selector, `r` and `T` (filled with `bs`) the receiver's
samples: the receiver's loop builds `in1`; the base OTs end and leave the
sender with a matrix `QT`; for every `j < m`, row `j` of `Q = QT.Transpose()`
is `T[j] XOR s` if bit `j` of `r` is 1 and `T[j]` otherwise.  For `l > 0` the
joint run of the two programs ends with the sender holding `z0`, `z1` (what its
last loop computes from `Q`) and the receiver holding `r` and `T`, and for
every `j < m`, with `h = RO(T.GetRow(j), l)`: `z0[j] = h` when bit `j` of `r`
is 0 and `z1[j] = h` when it is 1. -/
theorem ot_linking_invariant (H : List Nat → Nat → Nat) (snd : ExtendSender)
    (rcv : ExtendReceiver) (kk ll mm : Nat)
    (hsk : snd.k = 8 * (kk : Int)) (hsl : snd.l = 8 * (ll : Int))
    (hrk : rcv.k = 8 * (kk : Int)) (ta tb : Tape)
    (s r bs : List Nat) (hs : s = (ta.take kk).1) (hr : r = (tb.take mm).1)
    (hbs : bs = ((tb.take mm).2.take (8 * mm * kk)).1) :
    ∃ in1 QT,
      preProcessReceiver.in1Loop (freshReceiver rcv mm kk r bs) (freshT mm kk bs).Transpose
        (8 * kk) 0 (List.replicate (8 * kk) []) = some in1 ∧
      (∀ ta' tb' : Tape,
        runOT (preProcessSender.recvLoop (freshSender snd mm) s (8 * kk) 0
            { NumRows := 8 * kk, NumCols := 8 * mm,
              data := List.replicate (8 * kk) (List.replicate mm 0) })
          (preProcessReceiver.sendLoop (freshT mm kk bs).Transpose in1 (8 * kk) 0) ta' tb'
          = some (QT, ())) ∧
      (∀ j : Nat, j < 8 * mm → ∃ Tj rj,
        (freshT mm kk bs).GetRow (j : Int) = some Tj ∧ GetBit r (j : Int) = some rj ∧
        QT.Transpose.GetRow (j : Int) = some (if rj = 1 then xorBytes Tj s else Tj)) ∧
      (0 < ll → ∃ z0 z1,
        preProcessSender.zLoop H (freshSender snd mm) s QT.Transpose (8 * mm) 0
          (List.replicate (8 * mm) []) (List.replicate (8 * mm) []) (List.replicate kk 0)
          = some (z0, z1) ∧
        runOT (snd.preProcessSender H (8 * (mm : Int))) (rcv.preProcessReceiver (8 * (mm : Int)))
          ta tb
          = some ({ freshSender snd mm with z0 := z0, z1 := z1 },
              freshReceiver rcv mm kk r bs) ∧
        ∀ j : Nat, j < 8 * mm → ∃ Tj rj h z0j z1j,
          (freshT mm kk bs).GetRow (j : Int) = some Tj ∧ GetBit r (j : Int) = some rj ∧
          RO H Tj (8 * (ll : Int)) = some h ∧
          index z0 (j : Int) = some z0j ∧ index z1 (j : Int) = some z1j ∧
          (rj = 0 → z0j = h) ∧ (rj = 1 → z1j = h)) := by
  have hslen : s.length = kk := by rw [hs, take_length]
  have hs256 : ∀ x ∈ s, x < 256 := by rw [hs]; exact take_lt ta kk
  have hrlen : r.length = mm := by rw [hr, take_length]
  have hbslen : bs.length = 8 * mm * kk := by rw [hbs, take_length]
  have hbs256 : ∀ x ∈ bs, x < 256 := by rw [hbs]; exact take_lt _ _
  -- the rows of the transpose of `T`
  have hrowsT : ∀ j, 0 ≤ j → j < 0 + 8 * kk →
      ∃ row, (freshT mm kk bs).Transpose.GetRow (j : Int) = some row ∧ row.length = mm := by
    intro j _ hj
    obtain ⟨row, h1, h2⟩ := Transpose_row (freshT mm kk bs) j (by simpa [freshT] using hj)
    exact ⟨row, h1, by rw [h2]; simp [freshT]⟩
  -- the receiver's loop
  obtain ⟨in1, hin1, _, hin1rows⟩ := in1Loop_rows (freshReceiver rcv mm kk r bs)
    (freshT mm kk bs).Transpose mm rfl hrlen (8 * kk) 0 (List.replicate (8 * kk) [])
    (by simp) hrowsT (by intro j hj; omega)
  have hin1D : ∀ j, j < 8 * kk →
      in1.getD j [] = xorBytes r ((freshT mm kk bs).Transpose.data.getD j []) := by
    intro j hj
    obtain ⟨v, h1, _, h3⟩ := hin1rows j (by omega)
    rw [List.getD_eq_getElem?_getD, h1]
    exact h3
  -- the base OTs
  obtain ⟨QT, hrun, hQ1, hQ2, hQ3, hQrows⟩ := loops_joint_rows (freshSender snd mm) s
    (freshT mm kk bs).Transpose in1 mm rfl (8 * kk) 0
    { NumRows := 8 * kk, NumCols := 8 * mm,
      data := List.replicate (8 * kk) (List.replicate mm 0) }
    (by simp) (by rw [hslen]; omega) hrowsT
    (fun j hj => by
      obtain ⟨v, h1, h2, _⟩ := hin1rows j hj
      exact ⟨v, h1, h2⟩)
    (by intro j hj; omega)
  dsimp only at hQ1 hQ2 hQ3
  -- the rows of `Q`
  have hQrow : ∀ j, j < 8 * mm →
      QT.Transpose.GetRow (j : Int)
        = some (if (r.getD (j / 8) 0 >>> (j % 8)) &&& 1 = 1
            then xorBytes ((freshT mm kk bs).data.getD j []) s
            else (freshT mm kk bs).data.getD j []) := by
    intro j hj
    obtain ⟨row, h1, _⟩ := Transpose_row QT j (by rw [hQ2]; exact hj)
    rw [h1, ← GetRow_getD _ j row h1]
    congr 1
    exact Q_row s r (freshT mm kk bs) QT kk mm hslen hs256 hrlen rfl rfl
      (freshT_rows mm kk bs hbslen hbs256) hQ1 hQ2
      (fun i hi => by
        obtain ⟨row, e1, e2⟩ := hQrows i (by omega)
        exact ⟨row, e1, by rw [e2, hin1D i hi]⟩)
      j hj
  refine ⟨in1, QT, hin1, ?_, ?_, ?_⟩
  · intro ta' tb'
    have e := hrun Matrix8 Unit .ret .ret ta' tb'
    rw [Act.seq_ret, Act.seq_ret] at e
    rw [e]
    rfl
  · intro j hj
    exact ⟨_, _, freshT_GetRow mm kk bs j hj, GetBit_getD r j (by omega), hQrow j hj⟩
  · intro hll
    obtain ⟨z0, z1, hz, hz0n, hz1n, hz0, hz1⟩ := zLoop_rows H (freshSender snd mm) s
      QT.Transpose ll hsl hll (8 * mm) 0 (List.replicate (8 * mm) [])
      (List.replicate (8 * mm) []) (List.replicate kk 0) (by simp) (by simp)
      (by simp [hslen])
      (by
        intro i _ hi
        obtain ⟨row, h1, h2⟩ := Transpose_row QT i (by rw [hQ2]; omega)
        exact ⟨row, h1, by rw [h2, hQ1, hslen]; omega⟩)
      (by intro i hi; omega) (by intro i hi; omega)
    refine ⟨z0, z1, hz, ?_, ?_⟩
    · have hsettle : settle
          ((Act.rand mm fun r => Act.rand (8 * mm * kk) fun bs =>
            (Act.ofOption (preProcessReceiver.in1Loop (freshReceiver rcv mm kk r bs)
              (freshT mm kk bs).Transpose (8 * kk) 0 (List.replicate (8 * kk) []))).bind
              fun in1 =>
            (preProcessReceiver.sendLoop (freshT mm kk bs).Transpose in1 (8 * kk) 0).bind
              fun _ => Act.ret (freshReceiver rcv mm kk r bs))) tb
          = settle ((preProcessReceiver.sendLoop (freshT mm kk bs).Transpose in1 (8 * kk) 0).bind
              fun _ => Act.ret (freshReceiver rcv mm kk r bs))
              ((tb.take mm).2.take (8 * mm * kk)).2 := by
        subst hr hbs
        simp only [Act.bind, settle, hin1, Act.ofOption]
      rw [preProcessSender_eq H snd kk mm hsk, preProcessReceiver_eq rcv kk mm hrk,
        runOT_congr_settle _ _ _ _ _ _ hsettle]
      simp only [runOT]
      rw [← hs, hrun]
      simp only [hz, Act.ofOption, Act.bind, runOT, settle]
    · intro j hj
      obtain ⟨hTl, _⟩ := freshT_rows mm kk bs hbslen hbs256 j hj
      obtain ⟨h, hh, _⟩ := RO_some H ((freshT mm kk bs).data.getD j []) (8 * (ll : Int))
        (by omega) (tmod_eight ll)
      obtain ⟨v0, e0, f0⟩ := hz0 j (by omega)
      obtain ⟨v1, e1, f1⟩ := hz1 j (by omega)
      have hq := hQrow j hj
      have hqD := GetRow_getD _ j _ hq
      refine ⟨_, _, h, v0, v1, freshT_GetRow mm kk bs j hj, GetBit_getD r j (by omega), hh,
        by rw [index_nat]; exact e0, by rw [index_nat]; exact e1, ?_, ?_⟩
      · intro hr0
        rw [hqD, if_neg (by omega), hh] at f0
        exact (Option.some.inj f0).symm
      · intro hr1
        rw [hqD, if_pos hr1, xorBytes_cancel _ _ (by rw [hTl, hslen]), hh] at f1
        exact (Option.some.inj f1).symm

end OT
namespace OT

theorem ot_linking_invariant_witness :
    (newSender8.k = 8 * ((1 : Nat) : Int) ∧ newSender8.l = 8 * ((1 : Nat) : Int) ∧
      newReceiver8.k = 8 * ((1 : Nat) : Int) ∧
      tapeS = (senderTape.take 1).1 ∧ tapeR = (receiverTape.take 1).1 ∧
      tapeT = ((receiverTape.take 1).2.take (8 * 1 * 1)).1 ∧ 0 < 1) ∧
    ∃ in1 QT,
      preProcessReceiver.in1Loop (freshReceiver newReceiver8 1 1 tapeR tapeT)
        (freshT 1 1 tapeT).Transpose (8 * 1) 0 (List.replicate (8 * 1) []) = some in1 ∧
      (∀ ta' tb' : Tape,
        runOT (preProcessSender.recvLoop (freshSender newSender8 1) tapeS (8 * 1) 0
            { NumRows := 8 * 1, NumCols := 8 * 1,
              data := List.replicate (8 * 1) (List.replicate 1 0) })
          (preProcessReceiver.sendLoop (freshT 1 1 tapeT).Transpose in1 (8 * 1) 0) ta' tb'
          = some (QT, ())) ∧
      (∀ j : Nat, j < 8 * 1 → ∃ Tj rj,
        (freshT 1 1 tapeT).GetRow (j : Int) = some Tj ∧ GetBit tapeR (j : Int) = some rj ∧
        QT.Transpose.GetRow (j : Int) = some (if rj = 1 then xorBytes Tj tapeS else Tj)) ∧
      ∃ z0 z1,
        preProcessSender.zLoop sumStream (freshSender newSender8 1) tapeS QT.Transpose (8 * 1) 0
          (List.replicate (8 * 1) []) (List.replicate (8 * 1) []) (List.replicate 1 0)
          = some (z0, z1) ∧
        runOT (newSender8.preProcessSender sumStream (8 * ((1 : Nat) : Int)))
          (newReceiver8.preProcessReceiver (8 * ((1 : Nat) : Int))) senderTape receiverTape
          = some ({ freshSender newSender8 1 with z0 := z0, z1 := z1 },
              freshReceiver newReceiver8 1 1 tapeR tapeT) ∧
        ∀ j : Nat, j < 8 * 1 → ∃ Tj rj h z0j z1j,
          (freshT 1 1 tapeT).GetRow (j : Int) = some Tj ∧ GetBit tapeR (j : Int) = some rj ∧
          RO sumStream Tj (8 * ((1 : Nat) : Int)) = some h ∧
          index z0 (j : Int) = some z0j ∧ index z1 (j : Int) = some z1j ∧
          (rj = 0 → z0j = h) ∧ (rj = 1 → z1j = h) := by
  refine ⟨⟨rfl, rfl, rfl, rfl, rfl, rfl, by decide⟩, ?_⟩
  obtain ⟨in1, QT, h1, h2, h3, h4⟩ := ot_linking_invariant sumStream newSender8 newReceiver8
    1 1 1 rfl rfl rfl senderTape receiverTape tapeS tapeR tapeT rfl rfl rfl
  exact ⟨in1, QT, h1, h2, h3, h4 (by decide)⟩

end OT

namespace GMW

/-! ### The example run on the channels of the mock -/

theorem Net.exec_append {α : Type} (a b : List (Nat × Nat)) (st : Net α) :
    st.exec (a ++ b) = (st.exec a).bind fun st => st.exec b := by
  induction a generalizing st with
  | nil => rfl
  | cons x a ih =>
    obtain ⟨p, c⟩ := x
    simp only [List.cons_append, Net.exec]
    cases h : st.step p c with
    | none => rfl
    | some st1 => exact ih st1

theorem list_seven {β : Type} (l : List β) (h : l.length = 7) :
    ∃ a b c d e f g, l = [a, b, c, d, e, f, g] := by
  match l, h with
  | [a, b, c, d, e, f, g], _ => exact ⟨a, b, c, d, e, f, g, rfl⟩

theorem range_seven : List.range 7 = [0, 1, 2, 3, 4, 5, 6] := by decide

theorem allTurns_one : allTurns 0 7 1 = [(0, 0), (1, 0), (2, 0), (3, 0), (4, 0), (5, 0), (6, 0)] := by
  decide

theorem allTurns_eight : allTurns 0 7 8
    = turns 0 8 ++ (turns 1 8 ++ (turns 2 8 ++ (turns 3 8 ++ (turns 4 8 ++ (turns 5 8 ++ turns 6 8))))) := by
  decide

theorem turns_eight (p : Nat) :
    turns p 8 = [(p, 0), (p, 0), (p, 0), (p, 0), (p, 0), (p, 0), (p, 0), (p, 0)] := rfl

/-- The broadcasts of an `Open32` round. -/
theorem broadcast32_exec {α : Type} (x0 x1 x2 x3 x4 x5 x6 : X) (v0 v1 v2 v3 v4 v5 v6 : Nat)
    (k0 k1 k2 k3 k4 k5 k6 : Nat → Prog α)
    (h0 : x0.id = 0) (h1 : x1.id = 1) (h2 : x2.id = 2) (h3 : x3.id = 3) (h4 : x4.id = 4)
    (h5 : x5.id = 5) (h6 : x6.id = 6) :
    Net.exec (allTurns 0 7 1)
      { ps := [⟨x0, .open32 v0 k0, none⟩, ⟨x1, .open32 v1 k1, none⟩, ⟨x2, .open32 v2 k2, none⟩,
          ⟨x3, .open32 v3 k3, none⟩, ⟨x4, .open32 v4 k4, none⟩, ⟨x5, .open32 v5 k5, none⟩,
          ⟨x6, .open32 v6 k6, none⟩],
        waiting := quiet }
      = some
      { ps := [⟨x0, .open32 v0 k0, some 0⟩, ⟨x1, .open32 v1 k1, some 0⟩,
          ⟨x2, .open32 v2 k2, some 0⟩, ⟨x3, .open32 v3 k3, some 0⟩, ⟨x4, .open32 v4 k4, some 0⟩,
          ⟨x5, .open32 v5 k5, some 0⟩, ⟨x6, .open32 v6 k6, some 0⟩],
        waiting := [[[], [v0], [v0], [v0], [v0], [v0], [v0]],
          [[v1], [], [v1], [v1], [v1], [v1], [v1]],
          [[v2], [v2], [], [v2], [v2], [v2], [v2]],
          [[v3], [v3], [v3], [], [v3], [v3], [v3]],
          [[v4], [v4], [v4], [v4], [], [v4], [v4]],
          [[v5], [v5], [v5], [v5], [v5], [], [v5]],
          [[v6], [v6], [v6], [v6], [v6], [v6], []]] } := by
  simp [allTurns_one, Net.exec, Net.step, X.Broadcast, X.Id, quiet, range_seven, h0, h1, h2, h3,
    h4, h5, h6, List.replicate]

end GMW

namespace GMW

/-- The receive loops of an `Open32` round. -/
theorem receive32_exec {α : Type} (x0 x1 x2 x3 x4 x5 x6 : X) (v0 v1 v2 v3 v4 v5 v6 : Nat)
    (k0 k1 k2 k3 k4 k5 k6 : Nat → Prog α)
    (h0 : x0.id = 0) (h1 : x1.id = 1) (h2 : x2.id = 2) (h3 : x3.id = 3) (h4 : x4.id = 4)
    (h5 : x5.id = 5) (h6 : x6.id = 6) :
    Net.exec (allTurns 0 7 8)
      { ps := [⟨x0, .open32 v0 k0, some 0⟩, ⟨x1, .open32 v1 k1, some 0⟩,
          ⟨x2, .open32 v2 k2, some 0⟩, ⟨x3, .open32 v3 k3, some 0⟩, ⟨x4, .open32 v4 k4, some 0⟩,
          ⟨x5, .open32 v5 k5, some 0⟩, ⟨x6, .open32 v6 k6, some 0⟩],
        waiting := [[[], [v0], [v0], [v0], [v0], [v0], [v0]],
          [[v1], [], [v1], [v1], [v1], [v1], [v1]],
          [[v2], [v2], [], [v2], [v2], [v2], [v2]],
          [[v3], [v3], [v3], [], [v3], [v3], [v3]],
          [[v4], [v4], [v4], [v4], [], [v4], [v4]],
          [[v5], [v5], [v5], [v5], [v5], [], [v5]],
          [[v6], [v6], [v6], [v6], [v6], [v6], []]] }
      = some
      { ps := [⟨x0, k0 (v0 ^^^ v1 ^^^ v2 ^^^ v3 ^^^ v4 ^^^ v5 ^^^ v6), none⟩,
          ⟨x1, k1 (v1 ^^^ v0 ^^^ v2 ^^^ v3 ^^^ v4 ^^^ v5 ^^^ v6), none⟩,
          ⟨x2, k2 (v2 ^^^ v0 ^^^ v1 ^^^ v3 ^^^ v4 ^^^ v5 ^^^ v6), none⟩,
          ⟨x3, k3 (v3 ^^^ v0 ^^^ v1 ^^^ v2 ^^^ v4 ^^^ v5 ^^^ v6), none⟩,
          ⟨x4, k4 (v4 ^^^ v0 ^^^ v1 ^^^ v2 ^^^ v3 ^^^ v5 ^^^ v6), none⟩,
          ⟨x5, k5 (v5 ^^^ v0 ^^^ v1 ^^^ v2 ^^^ v3 ^^^ v4 ^^^ v6), none⟩,
          ⟨x6, k6 (v6 ^^^ v0 ^^^ v1 ^^^ v2 ^^^ v3 ^^^ v4 ^^^ v5), none⟩],
        waiting := quiet } := by
  simp [allTurns_eight, turns_eight, Net.exec, Net.step, X.Id, quiet, h0, h1, h2, h3,
    h4, h5, h6, List.replicate]

end GMW

namespace GMW

theorem recv1_bit (b : Bool) : decide ((if b then 1 else 0) > 0) = b := by
  cases b <;> rfl

/-- The broadcasts of an `Open1` round. -/
theorem broadcast1_exec {α : Type} (x0 x1 x2 x3 x4 x5 x6 : X) (v0 v1 v2 v3 v4 v5 v6 : Bool)
    (k0 k1 k2 k3 k4 k5 k6 : Bool → Prog α)
    (h0 : x0.id = 0) (h1 : x1.id = 1) (h2 : x2.id = 2) (h3 : x3.id = 3) (h4 : x4.id = 4)
    (h5 : x5.id = 5) (h6 : x6.id = 6) (w0 w1 w2 w3 w4 w5 w6 : Nat)
    (e0 : w0 = if v0 then 1 else 0) (e1 : w1 = if v1 then 1 else 0)
    (e2 : w2 = if v2 then 1 else 0) (e3 : w3 = if v3 then 1 else 0)
    (e4 : w4 = if v4 then 1 else 0) (e5 : w5 = if v5 then 1 else 0)
    (e6 : w6 = if v6 then 1 else 0) :
    Net.exec (allTurns 0 7 1)
      { ps := [⟨x0, .open1 v0 k0, none⟩, ⟨x1, .open1 v1 k1, none⟩, ⟨x2, .open1 v2 k2, none⟩,
          ⟨x3, .open1 v3 k3, none⟩, ⟨x4, .open1 v4 k4, none⟩, ⟨x5, .open1 v5 k5, none⟩,
          ⟨x6, .open1 v6 k6, none⟩],
        waiting := quiet }
      = some
      { ps := [⟨x0, .open1 v0 k0, some 0⟩, ⟨x1, .open1 v1 k1, some 0⟩,
          ⟨x2, .open1 v2 k2, some 0⟩, ⟨x3, .open1 v3 k3, some 0⟩, ⟨x4, .open1 v4 k4, some 0⟩,
          ⟨x5, .open1 v5 k5, some 0⟩, ⟨x6, .open1 v6 k6, some 0⟩],
        waiting := [[[], [w0], [w0], [w0], [w0], [w0], [w0]],
          [[w1], [], [w1], [w1], [w1], [w1], [w1]],
          [[w2], [w2], [], [w2], [w2], [w2], [w2]],
          [[w3], [w3], [w3], [], [w3], [w3], [w3]],
          [[w4], [w4], [w4], [w4], [], [w4], [w4]],
          [[w5], [w5], [w5], [w5], [w5], [], [w5]],
          [[w6], [w6], [w6], [w6], [w6], [w6], []]] } := by
  subst e0 e1 e2 e3 e4 e5 e6
  simp [allTurns_one, Net.exec, Net.step, X.Broadcast, X.Id, quiet, range_seven, h0, h1, h2, h3,
    h4, h5, h6, List.replicate]

/-- The receive loops of an `Open1` round; `b i` is what `Receive1` makes of
the value sent by party `i`. -/
theorem receive1_exec {α : Type} (x0 x1 x2 x3 x4 x5 x6 : X) (v0 v1 v2 v3 v4 v5 v6 : Bool)
    (k0 k1 k2 k3 k4 k5 k6 : Bool → Prog α)
    (h0 : x0.id = 0) (h1 : x1.id = 1) (h2 : x2.id = 2) (h3 : x3.id = 3) (h4 : x4.id = 4)
    (h5 : x5.id = 5) (h6 : x6.id = 6) (w0 w1 w2 w3 w4 w5 w6 : Nat) :
    Net.exec (allTurns 0 7 8)
      { ps := [⟨x0, .open1 v0 k0, some 0⟩, ⟨x1, .open1 v1 k1, some 0⟩,
          ⟨x2, .open1 v2 k2, some 0⟩, ⟨x3, .open1 v3 k3, some 0⟩, ⟨x4, .open1 v4 k4, some 0⟩,
          ⟨x5, .open1 v5 k5, some 0⟩, ⟨x6, .open1 v6 k6, some 0⟩],
        waiting := [[[], [w0], [w0], [w0], [w0], [w0], [w0]],
          [[w1], [], [w1], [w1], [w1], [w1], [w1]],
          [[w2], [w2], [], [w2], [w2], [w2], [w2]],
          [[w3], [w3], [w3], [], [w3], [w3], [w3]],
          [[w4], [w4], [w4], [w4], [], [w4], [w4]],
          [[w5], [w5], [w5], [w5], [w5], [], [w5]],
          [[w6], [w6], [w6], [w6], [w6], [w6], []]] }
      = some
      { ps := [⟨x0, k0 (xor (xor (xor (xor (xor (xor v0 (decide (w1 > 0))) (decide (w2 > 0)))
              (decide (w3 > 0))) (decide (w4 > 0))) (decide (w5 > 0))) (decide (w6 > 0))), none⟩,
          ⟨x1, k1 (xor (xor (xor (xor (xor (xor v1 (decide (w0 > 0))) (decide (w2 > 0)))
              (decide (w3 > 0))) (decide (w4 > 0))) (decide (w5 > 0))) (decide (w6 > 0))), none⟩,
          ⟨x2, k2 (xor (xor (xor (xor (xor (xor v2 (decide (w0 > 0))) (decide (w1 > 0)))
              (decide (w3 > 0))) (decide (w4 > 0))) (decide (w5 > 0))) (decide (w6 > 0))), none⟩,
          ⟨x3, k3 (xor (xor (xor (xor (xor (xor v3 (decide (w0 > 0))) (decide (w1 > 0)))
              (decide (w2 > 0))) (decide (w4 > 0))) (decide (w5 > 0))) (decide (w6 > 0))), none⟩,
          ⟨x4, k4 (xor (xor (xor (xor (xor (xor v4 (decide (w0 > 0))) (decide (w1 > 0)))
              (decide (w2 > 0))) (decide (w3 > 0))) (decide (w5 > 0))) (decide (w6 > 0))), none⟩,
          ⟨x5, k5 (xor (xor (xor (xor (xor (xor v5 (decide (w0 > 0))) (decide (w1 > 0)))
              (decide (w2 > 0))) (decide (w3 > 0))) (decide (w4 > 0))) (decide (w6 > 0))), none⟩,
          ⟨x6, k6 (xor (xor (xor (xor (xor (xor v6 (decide (w0 > 0))) (decide (w1 > 0)))
              (decide (w2 > 0))) (decide (w3 > 0))) (decide (w4 > 0))) (decide (w5 > 0))), none⟩],
        waiting := quiet } := by
  simp [allTurns_eight, turns_eight, Net.exec, Net.step, X.Id, quiet, h0, h1, h2, h3,
    h4, h5, h6, List.replicate]

/-- The `Triple1` calls of a round. -/
theorem triple1_exec {α : Type} (x0 x1 x2 x3 x4 x5 x6 : X)
    (k0 k1 k2 k3 k4 k5 k6 : Bool → Bool → Bool → Prog α)
    (t0 t1 t2 t3 t4 t5 t6 : (Bool × Bool × Bool) × X) (W : List (List (List Nat)))
    (h0 : X.Triple1 x0 = some t0) (h1 : X.Triple1 x1 = some t1) (h2 : X.Triple1 x2 = some t2)
    (h3 : X.Triple1 x3 = some t3) (h4 : X.Triple1 x4 = some t4) (h5 : X.Triple1 x5 = some t5)
    (h6 : X.Triple1 x6 = some t6) :
    Net.exec (allTurns 0 7 1)
      { ps := [⟨x0, .triple1 k0, none⟩, ⟨x1, .triple1 k1, none⟩, ⟨x2, .triple1 k2, none⟩,
          ⟨x3, .triple1 k3, none⟩, ⟨x4, .triple1 k4, none⟩, ⟨x5, .triple1 k5, none⟩,
          ⟨x6, .triple1 k6, none⟩],
        waiting := W }
      = some
      { ps := [⟨t0.2, k0 t0.1.1 t0.1.2.1 t0.1.2.2, none⟩, ⟨t1.2, k1 t1.1.1 t1.1.2.1 t1.1.2.2, none⟩,
          ⟨t2.2, k2 t2.1.1 t2.1.2.1 t2.1.2.2, none⟩, ⟨t3.2, k3 t3.1.1 t3.1.2.1 t3.1.2.2, none⟩,
          ⟨t4.2, k4 t4.1.1 t4.1.2.1 t4.1.2.2, none⟩, ⟨t5.2, k5 t5.1.1 t5.1.2.1 t5.1.2.2, none⟩,
          ⟨t6.2, k6 t6.1.1 t6.1.2.1 t6.1.2.2, none⟩],
        waiting := W } := by
  simp [allTurns_one, Net.exec, Net.step, h0, h1, h2, h3, h4, h5, h6]

end GMW

namespace GMW

theorem collect_seven {β γ : Type} (g : β → Option γ) (a0 a1 a2 a3 a4 a5 a6 : β) (l : List γ)
    (h : collect g [a0, a1, a2, a3, a4, a5, a6] = some l) :
    ∃ y0 y1 y2 y3 y4 y5 y6, g a0 = some y0 ∧ g a1 = some y1 ∧ g a2 = some y2 ∧ g a3 = some y3 ∧
      g a4 = some y4 ∧ g a5 = some y5 ∧ g a6 = some y6 ∧ l = [y0, y1, y2, y3, y4, y5, y6] := by
  simp only [collect] at h
  cases e0 : g a0 <;> cases e1 : g a1 <;> cases e2 : g a2 <;> cases e3 : g a3 <;>
    cases e4 : g a4 <;> cases e5 : g a5 <;> cases e6 : g a6 <;>
    simp [e0, e1, e2, e3, e4, e5, e6] at h
  exact ⟨_, _, _, _, _, _, _, rfl, rfl, rfl, rfl, rfl, rfl, rfl, h.symm⟩

theorem asOpen32_some {α : Type} (p : Prog α) (vk : Nat × (Nat → Prog α))
    (h : asOpen32 p = some vk) : p = .open32 vk.1 vk.2 := by
  cases p <;> simp [asOpen32] at h
  subst h
  rfl

theorem asOpen1_some {α : Type} (p : Prog α) (vk : Bool × (Bool → Prog α))
    (h : asOpen1 p = some vk) : p = .open1 vk.1 vk.2 := by
  cases p <;> simp [asOpen1] at h
  subst h
  rfl

theorem Runner.triple1_some {α : Type} (r r' : Runner α) (h : r.triple1 = some r') :
    ∃ k t, r = ⟨r.x, .triple1 k, none⟩ ∧ X.Triple1 r.x = some t ∧
      r' = ⟨t.2, k t.1.1 t.1.2.1 t.1.2.2, none⟩ := by
  obtain ⟨x, p, l⟩ := r
  cases l with
  | some i => simp [Runner.triple1] at h
  | none =>
    cases p with
    | triple1 k =>
      cases ht : X.Triple1 x with
      | none => simp [Runner.triple1, ht] at h
      | some t =>
        simp only [Runner.triple1, ht, Option.map_some', Option.some.injEq] at h
        exact ⟨k, t, rfl, rfl, h.symm⟩
    | _ => simp [Runner.triple1] at h

end GMW

namespace GMW

/-- A round as one step is the run along the steps of the round. -/
theorem Net.round_exec {α : Type} (st st' : Net α) (r : Round) (h : st.round r = some st') :
    st.exec r.schedule = some st' := by
  obtain ⟨ps, W⟩ := st
  cases r with
  | triple1 =>
    simp only [Net.round] at h
    split at h
    · rename_i hlen
      obtain ⟨r0, r1, r2, r3, r4, r5, r6, rfl⟩ := list_seven ps hlen
      rw [Option.map_eq_some'] at h
      obtain ⟨ps', hc, rfl⟩ := h
      obtain ⟨y0, y1, y2, y3, y4, y5, y6, g0, g1, g2, g3, g4, g5, g6, rfl⟩ :=
        collect_seven _ _ _ _ _ _ _ _ _ hc
      obtain ⟨k0, t0, e0, f0, rfl⟩ := Runner.triple1_some _ _ g0
      obtain ⟨k1, t1, e1, f1, rfl⟩ := Runner.triple1_some _ _ g1
      obtain ⟨k2, t2, e2, f2, rfl⟩ := Runner.triple1_some _ _ g2
      obtain ⟨k3, t3, e3, f3, rfl⟩ := Runner.triple1_some _ _ g3
      obtain ⟨k4, t4, e4, f4, rfl⟩ := Runner.triple1_some _ _ g4
      obtain ⟨k5, t5, e5, f5, rfl⟩ := Runner.triple1_some _ _ g5
      obtain ⟨k6, t6, e6, f6, rfl⟩ := Runner.triple1_some _ _ g6
      rw [e0, e1, e2, e3, e4, e5, e6]
      exact triple1_exec _ _ _ _ _ _ _ k0 k1 k2 k3 k4 k5 k6 t0 t1 t2 t3 t4 t5 t6 W f0 f1 f2 f3 f4
        f5 f6
    · simp at h
  | open1 =>
    simp only [Net.round] at h
    split at h
    · rename_i hC
      obtain ⟨hlen, hW, hid, hloop⟩ := hC
      obtain ⟨r0, r1, r2, r3, r4, r5, r6, rfl⟩ := list_seven ps hlen
      obtain ⟨x0, p0, l0⟩ := r0
      obtain ⟨x1, p1, l1⟩ := r1
      obtain ⟨x2, p2, l2⟩ := r2
      obtain ⟨x3, p3, l3⟩ := r3
      obtain ⟨x4, p4, l4⟩ := r4
      obtain ⟨x5, p5, l5⟩ := r5
      obtain ⟨x6, p6, l6⟩ := r6
      simp only [List.map_cons, List.map_nil, List.cons.injEq, and_true] at hid
      simp only [List.map_cons, List.map_nil, List.replicate, List.cons.injEq, and_true] at hloop
      obtain ⟨i0, i1, i2, i3, i4, i5, i6⟩ := hid
      obtain ⟨rfl, rfl, rfl, rfl, rfl, rfl, rfl⟩ := hloop
      rw [Option.map_eq_some'] at h
      obtain ⟨vks, hc, rfl⟩ := h
      obtain ⟨y0, y1, y2, y3, y4, y5, y6, g0, g1, g2, g3, g4, g5, g6, rfl⟩ :=
        collect_seven _ _ _ _ _ _ _ _ _ hc
      have q0 := asOpen1_some _ _ g0
      have q1 := asOpen1_some _ _ g1
      have q2 := asOpen1_some _ _ g2
      have q3 := asOpen1_some _ _ g3
      have q4 := asOpen1_some _ _ g4
      have q5 := asOpen1_some _ _ g5
      have q6 := asOpen1_some _ _ g6
      subst q0 q1 q2 q3 q4 q5 q6 hW
      show Net.exec (allTurns 0 7 1 ++ allTurns 0 7 8) _ = _
      rw [Net.exec_append, broadcast1_exec x0 x1 x2 x3 x4 x5 x6 _ _ _ _ _ _ _ _ _ _ _ _ _ _
        i0 i1 i2 i3 i4 i5 i6 _ _ _ _ _ _ _ rfl rfl rfl rfl rfl rfl rfl, Option.some_bind,
        receive1_exec x0 x1 x2 x3 x4 x5 x6 _ _ _ _ _ _ _ _ _ _ _ _ _ _ i0 i1 i2 i3 i4 i5 i6]
      simp [X.Open1, range_seven, X.Id, i0, i1, i2, i3, i4, i5, i6, recv1_bit]
    · simp at h
  | open32 =>
    simp only [Net.round] at h
    split at h
    · rename_i hC
      obtain ⟨hlen, hW, hid, hloop⟩ := hC
      obtain ⟨r0, r1, r2, r3, r4, r5, r6, rfl⟩ := list_seven ps hlen
      obtain ⟨x0, p0, l0⟩ := r0
      obtain ⟨x1, p1, l1⟩ := r1
      obtain ⟨x2, p2, l2⟩ := r2
      obtain ⟨x3, p3, l3⟩ := r3
      obtain ⟨x4, p4, l4⟩ := r4
      obtain ⟨x5, p5, l5⟩ := r5
      obtain ⟨x6, p6, l6⟩ := r6
      simp only [List.map_cons, List.map_nil, List.cons.injEq, and_true] at hid
      simp only [List.map_cons, List.map_nil, List.replicate, List.cons.injEq, and_true] at hloop
      obtain ⟨i0, i1, i2, i3, i4, i5, i6⟩ := hid
      obtain ⟨rfl, rfl, rfl, rfl, rfl, rfl, rfl⟩ := hloop
      rw [Option.map_eq_some'] at h
      obtain ⟨vks, hc, rfl⟩ := h
      obtain ⟨y0, y1, y2, y3, y4, y5, y6, g0, g1, g2, g3, g4, g5, g6, rfl⟩ :=
        collect_seven _ _ _ _ _ _ _ _ _ hc
      have q0 := asOpen32_some _ _ g0
      have q1 := asOpen32_some _ _ g1
      have q2 := asOpen32_some _ _ g2
      have q3 := asOpen32_some _ _ g3
      have q4 := asOpen32_some _ _ g4
      have q5 := asOpen32_some _ _ g5
      have q6 := asOpen32_some _ _ g6
      subst q0 q1 q2 q3 q4 q5 q6 hW
      show Net.exec (allTurns 0 7 1 ++ allTurns 0 7 8) _ = _
      rw [Net.exec_append, broadcast32_exec x0 x1 x2 x3 x4 x5 x6 _ _ _ _ _ _ _ _ _ _ _ _ _ _
        i0 i1 i2 i3 i4 i5 i6, Option.some_bind,
        receive32_exec x0 x1 x2 x3 x4 x5 x6 _ _ _ _ _ _ _ _ _ _ _ _ _ _ i0 i1 i2 i3 i4 i5 i6]
      simp [X.Open32, range_seven, X.Id, i0, i1, i2, i3, i4, i5, i6]
    · simp at h

/-- A list of rounds is the run along the steps of the rounds. -/
theorem Net.rounds_exec {α : Type} (rs : List Round) (st st' : Net α)
    (h : st.rounds rs = some st') : st.exec (roundsSchedule rs) = some st' := by
  induction rs generalizing st with
  | nil =>
    simp only [Net.rounds] at h
    simpa [roundsSchedule, Net.exec] using h
  | cons r rs ih =>
    simp only [Net.rounds] at h
    cases hr : st.round r with
    | none => simp [hr] at h
    | some st1 =>
      simp only [hr] at h
      have e : roundsSchedule (r :: rs) = r.schedule ++ roundsSchedule rs := by
        simp [roundsSchedule]
      rw [e, Net.exec_append, Net.round_exec st st1 r hr]
      exact ih st1 h

end GMW

namespace GMW

theorem Net.rounds_bind {α β : Type} (rs : List Round) (st : Net α) (f : Net α → Option β)
    (b : β) (h : (st.rounds rs).bind f = some b) :
    (st.exec (roundsSchedule rs)).bind f = some b := by
  cases hr : st.rounds rs with
  | none => simp [hr] at h
  | some st1 =>
    rw [Net.rounds_exec rs st st1 hr]
    simpa [hr] using h

/-- The two ends of the run of the scenario, after the rounds of
`commonRounds`. -/
theorem example_tails :
    (((RunExample.start raceParties).rounds commonRounds).bind fun st =>
        (st.exec (allTurns 0 7 1 ++ lockTail)).bind Net.results)
      = some (List.replicate 7 (0x23, 0x31)) ∧
    (((RunExample.start raceParties).rounds commonRounds).bind fun st =>
        (st.exec (allTurns 0 7 1 ++ raceTail)).bind Net.results)
      = some [(0x23, 0x31), (0x23, 0x2D), (0x23, 0x31), (0x23, 0x31), (0x23, 0x31),
          (0x23, 0x31), (0x23, 0x31)] := by
  decide!

/-- On the channels of the mock, with every receive taking the values in the
order of the broadcasts, the scenario ends with every party holding `0x23`
and `0x31`, as in the lockstep run. -/
theorem example_in_order :
    ((RunExample.start raceParties).exec lockSchedule).bind Net.results
      = some (List.replicate 7 (0x23, 0x31)) := by
  rw [lockSchedule, commonSchedule, List.append_assoc, Net.exec_append, Option.bind_assoc]
  exact Net.rounds_bind _ _ _ _ example_tails.1

/-- The run of the scenario along `raceSchedule`. -/
theorem example_race_results :
    ((RunExample.start raceParties).exec raceSchedule).bind Net.results
      = some [(0x23, 0x31), (0x23, 0x2D), (0x23, 0x31), (0x23, 0x31), (0x23, 0x31),
          (0x23, 0x31), (0x23, 0x31)] := by
  rw [raceSchedule, commonSchedule, List.append_assoc, Net.exec_append, Option.bind_assoc]
  exact Net.rounds_bind _ _ _ _ example_tails.2

theorem raceParties_triples : ∀ x ∈ raceParties, ∀ t ∈ x.triples32, t = ⟨0, 0, 0⟩ := by
  intro x hx t ht
  simp only [raceParties, List.mem_map, List.mem_range] at hx
  obtain ⟨i, _, rfl⟩ := hx
  exact List.eq_of_mem_replicate ht

/-- C11. The example run does not always give the values of the scenario.
Seven parties as `Example` builds them, identifiers `0..6`, party 3 holding the
input `0x2A`, party 6 holding `0x07`, every dealt triple valid (all shares are
0), each running the goroutine of `RunExample`.  Along `raceSchedule`, where
party 1 receives from party 0 the value of `Output32` before the value of the
preceding `Open1`, the run ends, every party obtains `0x23` from
`Output32(Sub32(io, y, z))`, party 1 obtains `0x2D` from
`Output32(Add32(io, y, z))` and the other six obtain `0x31`; the comparison at
the end of `RunExample` panics on these results. -/
theorem gmw_example_race :
    (raceParties.length = 7 ∧
      (∀ i, i < 7 → (raceParties.getD i (party 0)).Id = i) ∧
      (raceParties.getD 3 (party 0)).GetInput = some 0x2A ∧
      (raceParties.getD 6 (party 0)).GetInput = some 0x07 ∧
      (∀ x ∈ raceParties, ∀ t ∈ x.triples32, t = ⟨0, 0, 0⟩) ∧
      validTriple 7 (fun _ => ⟨0, 0, 0⟩)) ∧
    ((RunExample.start raceParties).exec raceSchedule).bind Net.results
      = some [(0x23, 0x31), (0x23, 0x2D), (0x23, 0x31), (0x23, 0x31), (0x23, 0x31),
          (0x23, 0x31), (0x23, 0x31)] ∧
    RunExample.check [0x31, 0x2D, 0x31, 0x31, 0x31, 0x31, 0x31] = none :=
  ⟨⟨rfl, by decide, rfl, rfl, raceParties_triples, by decide⟩, example_race_results, by decide⟩

end GMW

namespace GMW

/-- The same schedule with the inputs `Example(7)` gives the parties (party 3
holds 3, party 6 holds 6): party 1 obtains 5 from `Output32(Add32(io, y, z))`,
the other six obtain 9, and the comparison at the end of `RunExample`
panics. -/
theorem example_race_as_built :
    ((RunExample.start builtParties).exec raceSchedule).bind Net.results
      = some [(0xFFFFFFFD, 9), (0xFFFFFFFD, 5), (0xFFFFFFFD, 9), (0xFFFFFFFD, 9),
          (0xFFFFFFFD, 9), (0xFFFFFFFD, 9), (0xFFFFFFFD, 9)] ∧
    RunExample.check [9, 5, 9, 9, 9, 9, 9] = none := by
  have h : (((RunExample.start builtParties).rounds commonRounds).bind fun st =>
        (st.exec (allTurns 0 7 1 ++ raceTail)).bind Net.results)
      = some [(0xFFFFFFFD, 9), (0xFFFFFFFD, 5), (0xFFFFFFFD, 9), (0xFFFFFFFD, 9),
          (0xFFFFFFFD, 9), (0xFFFFFFFD, 9), (0xFFFFFFFD, 9)] := by
    decide!
  refine ⟨?_, by decide⟩
  rw [raceSchedule, commonSchedule, List.append_assoc, Net.exec_append, Option.bind_assoc]
  exact Net.rounds_bind _ _ _ _ h

end GMW
